import Mathlib

/-!
# Graph resolver of the ent code generator (`entc/gen/graph.go`)

A shallow embedding of `NewGraph` and its stages:
`addNode`, `addEdges`, `resolve`, `setupFKs`, `edgeSchemas`, `addIndexes`, `defaults`.

Pointers of the Go code are positions: a `*Type` is the position of the node in
`Graph.Nodes`, a `*Edge` is an `EdgePtr` (node position, position in that node's
`Edges`).  Both lists only grow at the end, so positions are stable, and pointer
equality is equality of positions.
-/

namespace gen

/-! ## Data model -/

/-- Relation kind of an edge (`Rel.Type`); `Unk` is the zero value. -/
inductive Rel where
  | Unk
  | O2O
  | O2M
  | M2O
  | M2M
deriving DecidableEq, Repr, Inhabited

/-- A `*Edge`: the node that holds the edge in its `Edges` list, and the position there. -/
structure EdgePtr where
  node : Nat
  idx : Nat
deriving DecidableEq, Repr, Inhabited

/-- Field type tags (`field.Type`). -/
inductive FieldType where
  | TypeInvalid
  | TypeBool
  | TypeTime
  | TypeJSON
  | TypeUUID
  | TypeBytes
  | TypeEnum
  | TypeString
  | TypeOther
  | TypeInt8
  | TypeInt16
  | TypeInt32
  | TypeInt
  | TypeInt64
  | TypeUint8
  | TypeUint16
  | TypeUint32
  | TypeUint
  | TypeUint64
  | TypeFloat32
  | TypeFloat64
deriving DecidableEq, Repr, Inhabited

/-- The `field.TypeInfo` of a field, as far as the graph reads it. -/
structure TypeInfo where
  Typ : FieldType := FieldType.TypeInt
  Ident : String := ""
deriving DecidableEq, Repr, Inhabited

/-- The `Through(name, Type)` specifier of an edge descriptor. -/
structure ThroughDef where
  N : String
  T : String
deriving DecidableEq, Repr, Inhabited

/-- The assoc descriptor embedded in an inverse descriptor (`load.Edge.Ref`): a
`load.Edge` again, whose own `Ref` the graph never reads. -/
structure LoadRef where
  Name : String := ""
  Typ : String := ""
  Unique : Bool := false
  Required : Bool := false
  Inverse : Bool := false
  RefName : String := ""
  Through : Option ThroughDef := none
  Field : String := ""
deriving DecidableEq, Repr, Inhabited

/-- An edge descriptor of a schema (`load.Edge`). -/
structure LoadEdge where
  Name : String := ""
  Typ : String := ""
  Unique : Bool := false
  Required : Bool := false
  Inverse : Bool := false
  RefName : String := ""
  Ref : Option LoadRef := none
  Through : Option ThroughDef := none
  Field : String := ""
deriving DecidableEq, Repr, Inhabited

/-- A field descriptor of a schema (`load.Field`). -/
structure LoadField where
  Name : String
  Info : TypeInfo := {}
deriving DecidableEq, Repr, Inhabited

/-- An index descriptor of a schema (`load.Index`). -/
structure LoadIndex where
  Unique : Bool := false
  Fields : List String := []
deriving DecidableEq, Repr, Inhabited

/-- A schema descriptor (`load.Schema`): `Table` is the table annotation, `ID` the
composite-id annotation (`fieldAnnotate(Annotations).ID`). -/
structure Schema where
  Name : String
  Table : Option String := none
  Fields : List LoadField := []
  Edges : List LoadEdge := []
  Indexes : List LoadIndex := []
  ID : List String := []
deriving DecidableEq, Repr, Inhabited

/-- The `Relation` of an edge.  The `fk` pointer is set by FK propagation only and
is not part of the model. -/
structure Relation where
  Typ : Rel := Rel.Unk
  Table : String := ""
  Columns : List String := []
deriving DecidableEq, Repr, Inhabited

/-- The descriptor an embedded assoc descriptor stands for. -/
def LoadRef.toEdge (r : LoadRef) : LoadEdge :=
  { Name := r.Name, Typ := r.Typ, Unique := r.Unique, Required := r.Required
    Inverse := r.Inverse, RefName := r.RefName, Through := r.Through, Field := r.Field }

/-- A resolved edge (`Edge`).  `decl` is the descriptor the edge was built from
(the member `def`); it is the empty descriptor for the edges `edgeSchemas` appends. -/
structure Edge where
  decl : LoadEdge := {}
  Name : String
  Typ : Nat
  Owner : Nat
  Inverse : String := ""
  Ref : Option EdgePtr := none
  Unique : Bool := false
  Optional : Bool := true
  Bidi : Bool := false
  Rel : Relation := {}
  Through : Option Nat := none
deriving DecidableEq, Repr, Inhabited

/-- A resolved field (`Field`). -/
structure Field where
  Name : String
  Info : TypeInfo := {}
deriving DecidableEq, Repr, Inhabited

/-- A foreign key of a type (`ForeignKey`): the field and the edge that owns it. -/
structure ForeignKey where
  Field : Field
  Edge : EdgePtr
deriving DecidableEq, Repr, Inhabited

/-- A resolved index (`Index`). -/
structure Index where
  Name : String := ""
  Unique : Bool := false
  Columns : List String := []
deriving DecidableEq, Repr, Inhabited

/-- The `EdgeSchema` record of a type.  An entry of `ID` is `none` where the Go
code stores a nil `*Field` (the annotation names a field the type does not have). -/
structure EdgeSchema where
  From : Option EdgePtr := none
  To : Option EdgePtr := none
  ID : List (Option Field) := []
deriving DecidableEq, Repr, Inhabited

/-- A node of the graph (`Type`). -/
structure Node where
  Name : String
  TableName : Option String := none
  ID : Option Field := none
  Fields : List Field := []
  Edges : List Edge := []
  ForeignKeys : List ForeignKey := []
  Indexes : List Index := []
  AnnotationID : List String := []
  EdgeSchema : EdgeSchema := {}
deriving DecidableEq, Repr, Inhabited

/-- The graph: the nodes and, of the embedded `Config`, the `IDType`. -/
structure Graph where
  IDType : Option TypeInfo := none
  Nodes : List Node := []
deriving DecidableEq, Repr, Inhabited

/-- How a stage stops: `error` is a `graphError` (or a returned `error`), which
`catch` turns into the error `NewGraph` returns; `crash` is any other run-time
panic (nil dereference, index out of range), which `catch` raises again. -/
inductive Failure where
  | error (msg : String)
  | crash (msg : String)
deriving DecidableEq, Repr, Inhabited

/-- What the stages of `NewGraph` take from outside `graph.go`: the naming functions
`snake`, `rules.Singularize` and `rules.Pluralize`, and the failures of
`Type.setupFKs`.  `fkFailure g i` is `none` when the call `t.setupFKs()` on node `i`
of the graph `g` returns a nil error; otherwise it holds the text of the error and
the graph the call leaves.  The spec lists no failure of FK propagation, hence the
default. -/
structure Env where
  snake : String → String
  singularize : String → String
  pluralize : String → String
  fkFailure : Graph → Nat → Option (String × Graph) := fun _ _ => none

/-- Runs `f` over a list, threading the state and stopping at the first failure
(a `for ... range` loop whose body may return an error). -/
def forEach {σ α ε : Type} (f : σ → α → Except ε σ) : σ → List α → Except ε σ
  | s, [] => Except.ok s
  | s, a :: as =>
    match f s a with
    | Except.ok s' => forEach f s' as
    | Except.error err => Except.error err

/-- The `%q` verb of `fmt` for a string without characters that need escaping. -/
def quote (s : String) : String := "\"" ++ s ++ "\""

/-! ## Accessors -/

/-- Modelled from the spec: `Edge.IsInverse` is defined outside `graph.go`; the
`Inverse` attribute is "empty string or the name of the paired assoc edge". -/
def Edge.IsInverse (e : Edge) : Bool := e.Inverse != ""

/-- Modelled from the spec: `Edge.M2M` is defined outside `graph.go`; it reports
that the relation kind is M2M. -/
def Edge.M2M (e : Edge) : Bool := e.Rel.Typ == Rel.M2M

/-- Modelled from the spec: `Type.Label` is defined outside `graph.go`; the label
is the "snake-cased name used as table/column prefix". -/
def Node.Label (env : Env) (t : Node) : String := env.snake t.Name

/-- Modelled from the spec: `Type.Table` is defined outside `graph.go`; the table
is the "plural of Label, overridable via a table annotation". -/
def Node.Table (env : Env) (t : Node) : String :=
  match t.TableName with
  | some s => s
  | none => env.pluralize (env.snake t.Name)

/-- Search of `HasAssoc` from position `k` on. -/
def HasAssocFrom (name : String) : List Edge → Nat → Option (Nat × Edge)
  | [], _ => none
  | e :: es, k =>
    if name == e.Name && !e.IsInverse then some (k, e) else HasAssocFrom name es (k + 1)

/-- Modelled from the spec: `Type.HasAssoc` is defined outside `graph.go`; it
locates the "matching assoc edge ... on that target by name": the first edge of the
type with that name that is not an inverse edge.  It gives the position and the edge. -/
def Node.HasAssoc (t : Node) (name : String) : Option (Nat × Edge) :=
  HasAssocFrom name t.Edges 0

/-- Modelled from the spec: `Type.hasEdge` is defined outside `graph.go`; it
reports an "existing edge name on the owner". -/
def Node.hasEdge (t : Node) (name : String) : Bool := t.Edges.any (fun e => e.Name == name)

/-- The node a `*Type` points to. -/
def Graph.node (g : Graph) (n : Nat) : Node := g.Nodes.getD n default

/-- The edge a `*Edge` points to. -/
def Graph.edge? (g : Graph) (p : EdgePtr) : Option Edge :=
  match g.Nodes[p.node]? with
  | some t => t.Edges[p.idx]?
  | none => none

/-- Applies `f` to the node at position `i`. -/
def Graph.modifyNode (g : Graph) (i : Nat) (f : Node → Node) : Graph :=
  { g with Nodes := g.Nodes.modify f i }

/-- Writes the edge object at `p`. -/
def Graph.setEdge (g : Graph) (p : EdgePtr) (e : Edge) : Graph :=
  g.modifyNode p.node (fun t => { t with Edges := t.Edges.modify (fun _ => e) p.idx })

/-- Appends an edge to the `Edges` of node `i`. -/
def Graph.appendEdge (g : Graph) (i : Nat) (e : Edge) : Graph :=
  g.modifyNode i (fun t => { t with Edges := t.Edges ++ [e] })

/-- The lookup `Graph.typ`: the map `nodes` is filled by one pass over `Nodes`,
so a later node replaces an earlier one of the same name.  The map is built at the
first call, in `addEdges`, after which neither names nor the node list change. -/
def Graph.typ (g : Graph) (name : String) : Option Nat :=
  (g.Nodes.enum.foldl (fun acc p => if p.2.Name == name then some p.1 else acc) none)

/-! ## Stages of `NewGraph` -/

/-- Reports whether a list of names has a repeated entry. -/
def hasDuplicate : List String → Bool
  | [] => false
  | a :: as => as.contains a || hasDuplicate as

/-- Modelled from the spec: `NewType` (the node builder) is defined outside
`graph.go`.  It keeps the name, table annotation and composite-id annotation,
adopts a declared field named `id` as the id and synthesizes an integer id
otherwise, and fails on a duplicate field name.  The spec does not list which id
types are disallowed, so that failure is left out. -/
def NewType (s : Schema) : Except Failure Node :=
  if hasDuplicate (s.Fields.map (fun f => f.Name)) then
    Except.error (Failure.error ("field with the same name exists in schema " ++ s.Name))
  else
    let fs : List Field := s.Fields.map (fun f => { Name := f.Name, Info := f.Info })
    Except.ok
      { Name := s.Name
        TableName := s.Table
        ID := some ((fs.find? (fun f => f.Name == "id")).getD { Name := "id" })
        Fields := fs.filter (fun f => f.Name != "id")
        AnnotationID := s.ID }

/-- The stage `addNode`: creates the type of a schema and appends it to the nodes. -/
def addNode (g : Graph) (s : Schema) : Except Failure Graph :=
  match NewType s with
  | Except.ok t => Except.ok { g with Nodes := g.Nodes ++ [t] }
  | Except.error (Failure.error err) =>
    Except.error (Failure.error ("create type " ++ s.Name ++ ": " ++ err))
  | Except.error f => Except.error f

/-- One iteration of the loop of `addEdges` for the schema whose node is `t`:
the state is the graph and the set `seen` of edge names. -/
def addEdge (schemaName : String) (t : Nat) (st : Graph × List String) (e : LoadEdge) :
    Except Failure (Graph × List String) :=
  let g := st.1
  let seen := st.2
  match g.typ e.Typ with
  | none => Except.error (Failure.error ("type " ++ quote e.Typ ++ " does not exist for edge"))
  | some typ =>
    if (g.node t).Fields.any (fun f => f.Name == e.Name) then
      Except.error (Failure.error
        (schemaName ++ " schema cannot contain field and edge with the same name " ++ quote e.Name))
    else if seen.contains e.Name then
      Except.error (Failure.error
        (schemaName ++ " schema contains multiple " ++ quote e.Name ++ " edges"))
    else
      let seen := e.Name :: seen
      if !e.Inverse then
        Except.ok (g.appendEdge t
          { decl := e, Typ := typ, Name := e.Name, Owner := t
            Unique := e.Unique, Optional := !e.Required }, seen)
      else
        match e.Ref with
        | none =>
          if e.RefName == "" then
            Except.error (Failure.error ("back-reference edge " ++ (g.node t).Name ++ "." ++ e.Name
              ++ " is missing the Ref attribute"))
          else
            Except.ok (g.appendEdge t
              { decl := e, Typ := typ, Name := e.Name
                Owner := typ, Inverse := e.RefName, Unique := e.Unique, Optional := !e.Required },
              seen)
        | some ref =>
          if e.RefName != "" then
            Except.error (Failure.error ("reference name is derived from the assoc name: "
              ++ (g.node t).Name ++ "." ++ ref.Name ++ " <-> " ++ (g.node t).Name ++ "." ++ e.Name))
          else if ref.Typ != (g.node t).Name then
            Except.error (Failure.error
              "assoc-inverse edge allowed only as o2o relation of the same type")
          else
            let n := (g.node t).Edges.length
            let fromE : Edge :=
              { decl := e, Typ := typ, Name := e.Name
                Owner := t, Inverse := ref.Name, Unique := e.Unique, Optional := !e.Required
                Ref := some ⟨t, n + 1⟩ }
            let toE : Edge :=
              { decl := ref.toEdge, Ref := some ⟨t, n⟩, Typ := typ
                Owner := t, Name := ref.Name, Unique := ref.Unique, Optional := !ref.Required }
            Except.ok ((g.appendEdge t fromE).appendEdge t toE, seen)

/-- The stage `addEdges`: adds the edges of a schema to its node.  When the lookup
of the node fails, `t` is nil and the first iteration panics at `t.fields`, after
the check of the edge's target type. -/
def addEdges (g : Graph) (s : Schema) : Except Failure Graph :=
  match g.typ s.Name with
  | none =>
    match s.Edges with
    | [] => Except.ok g
    | e :: _ =>
      if (g.typ e.Typ).isNone then
        Except.error (Failure.error ("type " ++ quote e.Typ ++ " does not exist for edge"))
      else Except.error (Failure.crash "nil pointer dereference: t.fields")
  | some t =>
    match forEach (addEdge s.Name t) (g, []) s.Edges with
    | Except.ok st => Except.ok st.1
    | Except.error f => Except.error f

/-- The linking branch of `resolve` after its three checks: the new values of the
inverse edge `e` (the edge at `p`, met in the loop over node `p.node`) and of its
assoc edge `ref` (the edge at `q`). -/
def linkPair (env : Env) (g : Graph) (p q : EdgePtr) (e ref : Edge) : Edge × Edge :=
  let t := g.node p.node
  let e := { e with Ref := some q }
  let ref := { ref with Ref := some p }
  let table := t.Table env
  let column := (g.node e.Typ).Label env ++ "_" ++ env.snake ref.Name
  let a := ref.Unique
  let b := e.Unique
  if a && b then
    ({ e with Rel := { Typ := Rel.O2O, Table := table, Columns := [column] } },
     { ref with Rel := { Typ := Rel.O2O, Table := table, Columns := [column] } })
  else if !a && b then
    ({ e with Rel := { Typ := Rel.M2O, Table := table, Columns := [column] } },
     { ref with Rel := { Typ := Rel.O2M, Table := table, Columns := [column] } })
  else if a && !b then
    let table := (g.node e.Typ).Table env
    ({ e with Rel := { Typ := Rel.O2M, Table := table, Columns := [column] } },
     { ref with Rel := { Typ := Rel.M2O, Table := table, Columns := [column] } })
  else
    let table := (g.node e.Typ).Label env ++ "_" ++ ref.Name
    let c1 := (g.node ref.Owner).Label env ++ "_id"
    let c2 := (g.node ref.Typ).Label env ++ "_id"
    let c2 := if c1 == c2 then env.singularize e.Name ++ "_id" else c2
    ({ e with Rel := { Typ := Rel.M2M, Table := table, Columns := [c1, c2] } },
     { ref with Rel := { Typ := Rel.M2M, Table := table, Columns := [c1, c2] } })

/-- The branch of `resolve` for an assoc edge `e` of node `i` whose relation is
not initialized: the new value of the edge. -/
def soloEdge (env : Env) (g : Graph) (i : Nat) (e : Edge) : Edge :=
  let t := g.node i
  let e :=
    if !e.Unique && e.Typ == i then
      { e with
        Bidi := true
        Rel := { Typ := Rel.M2M, Table := t.Label env ++ "_" ++ e.Name
                 Columns := [(g.node e.Owner).Label env ++ "_id",
                             env.singularize e.Name ++ "_id"] } }
    else if e.Unique && e.Typ == i then
      { e with Bidi := true, Rel := { e.Rel with Typ := Rel.O2O, Table := t.Table env } }
    else if e.Unique then
      { e with Rel := { e.Rel with Typ := Rel.M2O, Table := t.Table env } }
    else
      { e with Rel := { e.Rel with Typ := Rel.O2M, Table := (g.node e.Typ).Table env } }
  if !e.M2M then
    { e with Rel := { e.Rel with Columns := [t.Label env ++ "_" ++ env.snake e.Name] } }
  else e

/-- One iteration of the loop of `resolve` for node `i`: the edge at position `j`. -/
def resolveEdge (env : Env) (i : Nat) (g : Graph) (j : Nat) : Except String Graph :=
  match g.edge? ⟨i, j⟩ with
  | none => Except.ok g
  | some e =>
    let t := g.node i
    if e.IsInverse then
      match (g.node e.Typ).HasAssoc e.Inverse with
      | none =>
        Except.error ("edge " ++ quote e.Inverse ++ " is missing for inverse edge: " ++ t.Name
          ++ "." ++ e.Name ++ "(" ++ (g.node e.Typ).Name ++ ")")
      | some (k, ref) =>
        if !e.Optional && !ref.Optional then
          Except.error ("edges cannot be required in both directions: " ++ t.Name ++ "." ++ e.Name
            ++ " <-> " ++ (g.node e.Typ).Name ++ "." ++ ref.Name)
        else if ref.Typ != i then
          Except.error ("mismatch type for back-ref " ++ quote e.Inverse ++ " of " ++ t.Name ++ "."
            ++ e.Name ++ " <-> " ++ (g.node e.Typ).Name ++ "." ++ ref.Name)
        else
          let pr := linkPair env g ⟨i, j⟩ ⟨e.Typ, k⟩ e ref
          Except.ok ((g.setEdge ⟨i, j⟩ pr.1).setEdge ⟨e.Typ, k⟩ pr.2)
    else if e.Rel.Typ == Rel.Unk then
      Except.ok (g.setEdge ⟨i, j⟩ (soloEdge env g i e))
    else Except.ok g

/-- The function `resolve` for the node at position `i`: one pass over its edges. -/
def resolve (env : Env) (g : Graph) (i : Nat) : Except String Graph :=
  forEach (resolveEdge env i) g (List.range (g.node i).Edges.length)

/-- The loop of `NewGraph` over `resolve`, with the `check` that wraps its error. -/
def resolveNode (env : Env) (g : Graph) (i : Nat) : Except Failure Graph :=
  match resolve env g i with
  | Except.ok g' => Except.ok g'
  | Except.error err =>
    Except.error (Failure.error ("resolve " ++ quote (g.node i).Name ++ " relations: " ++ err))

/-- Modelled from the spec: `Relation.Column` is defined outside `graph.go`; it
is the "single column derived" by the resolver. -/
def Relation.Column (r : Relation) : String := r.Columns.headD ""

/-- Modelled from the spec: `Edge.OwnFK` is defined outside `graph.go`.  The FK
column "lives on the many side (M2O owner) or on the unique side (O2O)": for O2O
that is the inverse side, or the type itself for a self-referential assoc. -/
def Edge.OwnFK (e : Edge) : Bool :=
  e.Rel.Typ == Rel.M2O || (e.Rel.Typ == Rel.O2O && (e.IsInverse || e.Bidi))

/-- Modelled from the spec: `Type.setupFKs` (FK propagation) is defined outside
`graph.go`; this is its step for the edge at position `j` of node `i`.  The type
installs the foreign-key field of an edge that requires an FK on this type: the
declared edge-field is reused when the edge has one, otherwise a field named
`Rel.Column()` is created with the type of the referenced id. -/
def setupFK (i : Nat) (g : Graph) (j : Nat) : Graph :=
  match g.edge? ⟨i, j⟩ with
  | none => g
  | some e =>
    if e.OwnFK then
      let name := if e.decl.Field != "" then e.decl.Field else e.Rel.Column
      let created : Field :=
        { Name := name, Info := ((g.node e.Typ).ID.map (fun f => f.Info)).getD {} }
      let fld := (((g.node i).Fields.find? (fun f => f.Name == name))).getD created
      g.modifyNode i (fun t => { t with ForeignKeys := t.ForeignKeys ++ [⟨fld, ⟨i, j⟩⟩] })
    else g

/-- Modelled from the spec: `Type.setupFKs` is defined outside `graph.go`.  After
all relations are resolved, "each type is asked to install foreign-key fields for
edges it owns"; the spec lists no failure of this stage.  This is the graph a call
that returns a nil error leaves; the error `NewGraph` checks after the call is the
parameter `Env.fkFailure`. -/
def setupFKs (g : Graph) (i : Nat) : Graph :=
  (List.range (g.node i).Edges.length).foldl (setupFK i) g

/-- Modelled from the spec: `Type.AddIndex` is defined outside `graph.go`.
Indexes are recorded with their unique flag and their columns; the spec lists no
failure of it and does not say how an index is named. -/
def Node.AddIndex (t : Node) (idx : LoadIndex) : Except String Node :=
  Except.ok { t with Indexes := t.Indexes ++ [{ Unique := idx.Unique, Columns := idx.Fields }] }

/-- Modelled from the spec: `Type.HasCompositeID` is defined outside `graph.go`;
the id is "nil, a single field descriptor, or a composite list". -/
def Node.HasCompositeID (t : Node) : Bool := decide (1 < t.EdgeSchema.ID.length)

/-- Modelled from the spec: `Type.HasOneFieldID` is defined outside `graph.go`;
the id is a single field descriptor. -/
def Node.HasOneFieldID (t : Node) : Bool := !t.HasCompositeID && t.ID.isSome

/-- Modelled from the spec: `Rel.String` is defined outside `graph.go`; a relation
kind is printed by the name the spec gives it. -/
def Rel.name : Rel → String
  | Rel.Unk => "Unk"
  | Rel.O2O => "O2O"
  | Rel.O2M => "O2M"
  | Rel.M2O => "M2O"
  | Rel.M2M => "M2M"

/-- The description `Through(%q, %s.Type)` used by the error messages of `edgeSchemas`. -/
def throughText (th : ThroughDef) : String :=
  "Through(" ++ quote th.N ++ ", " ++ th.T ++ ".Type)"

/-- The part of `edgeSchemas` that binds the edge `e` at `p` to the edge schema
`ty`: it fills the `From` or the `To` slot and sets `e.Through`. -/
def bindThrough (g : Graph) (p : EdgePtr) (e : Edge) (ty : Nat) : Except Failure Graph :=
  let typ := g.node ty
  if e.IsInverse then
    match typ.EdgeSchema.From with
    | some f =>
      let fe := (g.edge? f).getD default
      Except.error (Failure.error ("type " ++ typ.Name
        ++ " is already used as an edge schema by other edge.From: " ++ fe.Name ++ "."
        ++ (g.node fe.Owner).Name))
    | none =>
      let g1 := (g.setEdge p { e with Through := some ty }).modifyNode ty
        (fun t => { t with EdgeSchema := { t.EdgeSchema with From := some p } })
      match typ.EdgeSchema.To with
      | some to_ =>
        if e.Ref != some to_ then
          Except.error (Failure.error ("mismtached edge.From(" ++ quote e.Name ++ ", "
            ++ (g.node e.Typ).Name ++ ".Type) and edge.To(" ++ quote ((g.edge? to_).getD default).Name
            ++ ", " ++ (g.node ((g.edge? to_).getD default).Typ).Name
            ++ ".Type) for edge schema " ++ typ.Name))
        else Except.ok g1
      | none => Except.ok g1
  else
    match typ.EdgeSchema.To with
    | some _ =>
      match typ.EdgeSchema.From with
      | none => Except.error (Failure.crash "nil pointer dereference: EdgeSchema.From")
      | some f =>
        let fe := (g.edge? f).getD default
        Except.error (Failure.error ("type " ++ typ.Name
          ++ " is already used as an edge schema by other edge.To: " ++ fe.Name ++ "."
          ++ (g.node fe.Owner).Name))
    | none =>
      let g1 := (g.setEdge p { e with Through := some ty }).modifyNode ty
        (fun t => { t with EdgeSchema := { t.EdgeSchema with To := some p } })
      match typ.EdgeSchema.From with
      | some f =>
        let fe := (g1.edge? f).getD default
        if fe.Ref != some p then
          Except.error (Failure.error ("mismtached edge.To(" ++ quote fe.Name ++ ", "
            ++ (g.node fe.Typ).Name ++ ".Type) and edge.From(" ++ quote e.Name ++ ", "
            ++ (g.node e.Typ).Name ++ ".Type) for edge schema " ++ typ.Name))
        else Except.ok g1
      | none => Except.ok g1

/-- One iteration of the loop of `edgeSchemas` over `e.Rel.Columns`: column `ic.2`
at position `ic.1`; the state is the reference edge found so far.  `nName` and
`eName` are the names of the node and of the edge, `thN` is the name declared by
`Through`, for the messages. -/
def edgeField (g : Graph) (nName eName thN : String) (ty : Nat) (inverse : Bool)
    (ref : Option EdgePtr) (ic : Nat × String) : Except Failure (Option EdgePtr) :=
  match (g.node ty).ForeignKeys.find? (fun fk => fk.Field.Name == ic.2) with
  | none =>
    Except.error (Failure.error ("missing edge-field " ++ (g.node ty).Name ++ "." ++ ic.2
      ++ " for edge schema used by " ++ nName ++ "." ++ eName ++ " in Through(" ++ quote thN
      ++ ", " ++ (g.node ty).Name ++ ".Type)"))
  | some fk =>
    if ((g.edge? fk.Edge).getD default).Optional then
      Except.error (Failure.error ("edge-schema " ++ (g.node ty).Name
        ++ " is missing a Required() attribute for its reference edge " ++ quote eName))
    else if (!inverse && ic.1 == 0) || (inverse && ic.1 == 1) then Except.ok (some fk.Edge)
    else Except.ok ref

/-- The closure `hasI` of `edgeSchemas`: looks for an index of the edge schema
over the first two columns of the edge (`cols` is `e.Rel.Columns`), in either
order.  Reading the first two entries of a list that has fewer is an
index-out-of-range panic. -/
def hasI (cols : List String) : List Index → Except Failure Bool
  | [] => Except.ok false
  | idx :: rest =>
    if !idx.Unique && idx.Columns.length != 2 then hasI cols rest
    else
      match idx.Columns, cols with
      | c1 :: c2 :: _, r1 :: r2 :: _ =>
        if (c1 == r1 && c2 == r2) || (c1 == r2 && c2 == r1) then Except.ok true
        else hasI cols rest
      | _, _ => Except.error (Failure.crash "index out of range")

/-- The end of an iteration of `edgeSchemas`, after the helper edge was appended:
the composite primary key of the edge schema `ty` and its unique index, for the
edge with columns `cols`. -/
def edgeSchemaKey (g : Graph) (ty : Nat) (cols : List String) : Except Failure Graph :=
  let typ := g.node ty
  let step : Except Failure Graph :=
    if typ.AnnotationID.length > 0 && typ.EdgeSchema.ID.length == 0 then
      match cols with
      | r1 :: r2 :: _ =>
        if typ.AnnotationID != [r1, r2] then
          Except.error (Failure.error ("edge schema primary key can only be defined on \"id\" or ("
            ++ quote r1 ++ ", " ++ quote r2 ++ ") in the same order"))
        else
          Except.ok (g.modifyNode ty (fun t =>
            { t with
              ID := none
              EdgeSchema := { t.EdgeSchema with
                ID := t.EdgeSchema.ID ++
                  t.AnnotationID.map (fun f => t.Fields.find? (fun x => x.Name == f)) } }))
      | _ => Except.error (Failure.crash "index out of range: e.Rel.Columns")
    else Except.ok g
  match step with
  | Except.error f => Except.error f
  | Except.ok g1 =>
    if (g1.node ty).HasCompositeID then Except.ok g1
    else
      match hasI cols (g1.node ty).Indexes with
      | Except.error f => Except.error f
      | Except.ok true => Except.ok g1
      | Except.ok false =>
        match (g1.node ty).AddIndex { Unique := true, Fields := cols } with
        | Except.ok t => Except.ok (g1.modifyNode ty (fun _ => t))
        | Except.error err => Except.error (Failure.error err)

/-- One iteration of the loops of `edgeSchemas`: the edge at position `j` of node `i`. -/
def edgeSchema (env : Env) (i : Nat) (g : Graph) (j : Nat) : Except Failure Graph :=
  match g.edge? ⟨i, j⟩ with
  | none => Except.ok g
  | some e =>
    match e.decl.Through with
    | none => Except.ok g
    | some th =>
      let n := g.node i
      if !e.M2M then
        Except.error (Failure.error ("edge " ++ n.Name ++ "." ++ e.Name ++ " " ++ throughText th
          ++ " is allowed only on M2M edges, but got: " ++ quote e.Rel.Typ.name))
      else
        match g.typ th.T with
        | none =>
          Except.error (Failure.error ("edge " ++ n.Name ++ "." ++ e.Name ++ " defined with "
            ++ throughText th ++ ", but type " ++ th.T ++ " was not found"))
        | some ty =>
          if ty == i then
            Except.error (Failure.error ("edge " ++ n.Name ++ "." ++ e.Name ++ " defined with "
              ++ throughText th ++ ", but edge cannot go through itself"))
          else if th.N == "" || n.hasEdge th.N then
            Except.error (Failure.error ("edge " ++ n.Name ++ "." ++ e.Name ++ " defined with "
              ++ throughText th ++ ", but schema " ++ n.Name ++ " already has an edge named "
              ++ th.N))
          else
            match bindThrough g ⟨i, j⟩ e ty with
            | Except.error f => Except.error f
            | Except.ok g1 =>
              let e1 : Edge :=
                { e with Through := some ty
                         Rel := { e.Rel with Table := (g.node ty).Table env } }
              let g2 := g1.setEdge ⟨i, j⟩ e1
              match forEach (edgeField g2 n.Name e.Name th.N ty e.IsInverse) none e1.Rel.Columns.enum with
              | Except.error f => Except.error f
              | Except.ok none => Except.error (Failure.crash "nil pointer dereference: ref")
              | Except.ok (some r) =>
                let ref := (g2.edge? r).getD default
                let g3 := g2.appendEdge i
                  { Name := th.N, Typ := ty, Inverse := ref.Name, Ref := some r, Owner := i
                    Optional := true
                    Rel := { Typ := Rel.O2M, Table := ref.Rel.Table, Columns := ref.Rel.Columns } }
                edgeSchemaKey g3 ty e1.Rel.Columns

/-- The loop of `edgeSchemas` over the edges of node `i`; the `range` fixes the
number of iterations when the loop starts, so the appended edges are not visited. -/
def edgeSchemasNode (env : Env) (g : Graph) (i : Nat) : Except Failure Graph :=
  forEach (edgeSchema env i) g (List.range (g.node i).Edges.length)

/-- The stage `edgeSchemas`, with the `check` that wraps its error. -/
def edgeSchemas (env : Env) (g : Graph) : Except Failure Graph :=
  match forEach (edgeSchemasNode env) g (List.range g.Nodes.length) with
  | Except.ok g' => Except.ok g'
  | Except.error (Failure.error err) => Except.error (Failure.error ("resolving edges: " ++ err))
  | Except.error f => Except.error f

/-- The stage `addIndexes`: adds the indexes of a schema to its node.  When the
lookup of the node fails, `typ` is nil and the first `AddIndex` panics. -/
def addIndexes (g : Graph) (s : Schema) : Except Failure Graph :=
  match g.typ s.Name with
  | none =>
    match s.Indexes with
    | [] => Except.ok g
    | _ :: _ => Except.error (Failure.crash "nil pointer dereference: typ")
  | some t =>
    forEach (fun g idx =>
      match (g.node t).AddIndex idx with
      | Except.ok n => Except.ok (g.modifyNode t (fun _ => n))
      | Except.error err =>
        Except.error (Failure.error ("invalid index for schema " ++ quote s.Name ++ ": " ++ err)))
      g s.Indexes

/-- The value `defaultIDType`. -/
def defaultIDType : TypeInfo := { Typ := FieldType.TypeInt }

/-- The check of `defaults` that neighbouring id types agree. -/
def sameIDTypes : List TypeInfo → Bool
  | a :: b :: rest => a.Typ == b.Typ && sameIDTypes (b :: rest)
  | _ => true

/-- The stage `defaults`: sets the `IDType` when it was not provided.  Taking the
first of an empty list of id types is an index-out-of-range panic. -/
def defaults (g : Graph) : Except Failure Graph :=
  if g.IDType.isSome then Except.ok g
  else
    let g := { g with IDType := some defaultIDType }
    if g.Nodes.length == 0 then Except.ok g
    else
      let idTypes := g.Nodes.filterMap
        (fun n => if n.HasOneFieldID then n.ID.map (fun f => f.Info) else none)
      if !sameIDTypes idTypes then Except.ok g
      else
        match idTypes with
        | [] => Except.error (Failure.crash "index out of range: idTypes")
        | t :: _ => Except.ok { g with IDType := some t }

/-- The stages of `NewGraph` up to the end of the loop over `addEdges`. -/
def edgesStage (c : Option TypeInfo) (schemas : List Schema) : Except Failure Graph :=
  match forEach addNode { IDType := c, Nodes := [] } schemas with
  | Except.error f => Except.error f
  | Except.ok g1 => forEach addEdges g1 schemas

/-- The stages of `NewGraph` up to the end of the loop over `resolve`. -/
def resolveStage (env : Env) (c : Option TypeInfo) (schemas : List Schema) : Except Failure Graph :=
  match edgesStage c schemas with
  | Except.error f => Except.error f
  | Except.ok g2 => forEach (resolveNode env) g2 (List.range g2.Nodes.length)

/-- One iteration of the loop of `NewGraph` over `setupFKs`, with the `check` that
wraps the error of `t.setupFKs()`. -/
def setupFKsNode (env : Env) (g : Graph) (i : Nat) : Except Failure Graph :=
  match env.fkFailure g i with
  | some (err, _) =>
    Except.error (Failure.error ("set " ++ quote (g.node i).Name ++ " foreign-keys: " ++ err))
  | none => Except.ok (setupFKs g i)

/-- The stages of `NewGraph` after the loop over `resolve`.  The call `aliases(g)`
only names import aliases, which the model does not hold. -/
def finishStage (env : Env) (schemas : List Schema) (g3 : Graph) : Except Failure Graph :=
  match forEach (setupFKsNode env) g3 (List.range g3.Nodes.length) with
  | Except.error f => Except.error f
  | Except.ok g4 =>
    match edgeSchemas env g4 with
    | Except.error f => Except.error f
    | Except.ok g5 =>
      match forEach addIndexes g5 schemas with
      | Except.error f => Except.error f
      | Except.ok g6 => defaults g6

/-- The function `NewGraph`: `Except.ok g` is a return with a nil error,
`Failure.error` a return with a non-nil error, `Failure.crash` a panic that
leaves `NewGraph` without a return. -/
def NewGraph (env : Env) (c : Option TypeInfo) (schemas : List Schema) : Except Failure Graph :=
  match resolveStage env c schemas with
  | Except.error f => Except.error f
  | Except.ok g3 => finishStage env schemas g3

/-! ## Invariants of the resolver -/

/-- The members of an edge that no stage writes after `addEdges`: everything but
`Ref`, `Bidi`, `Rel` and `Through`. -/
def Edge.static (e : Edge) : Edge :=
  { e with Ref := none, Bidi := false, Rel := {}, Through := none }

/-- A node with its edges reduced to their static members. -/
def Node.static (t : Node) : Node := { t with Edges := t.Edges.map Edge.static }

/-- A graph with its edges reduced to their static members. -/
def Graph.static (g : Graph) : Graph := { g with Nodes := g.Nodes.map Node.static }

/-- What a successful iteration of `resolve` on the edge at `⟨i, j⟩` does to the
graph: nothing (the relation of an assoc edge is set already), the unpaired
branch, or the linking branch. -/
inductive ResolveStep (env : Env) (i j : Nat) (g : Graph) : Graph → Prop where
  | skip (h : g.edge? ⟨i, j⟩ = none ∨
      ∃ e, g.edge? ⟨i, j⟩ = some e ∧ e.IsInverse = false ∧ e.Rel.Typ ≠ Rel.Unk) :
    ResolveStep env i j g g
  | solo (e : Edge) (he : g.edge? ⟨i, j⟩ = some e) (hinv : e.IsInverse = false)
      (hunk : e.Rel.Typ = Rel.Unk) :
    ResolveStep env i j g (g.setEdge ⟨i, j⟩ (soloEdge env g i e))
  | link (e : Edge) (k : Nat) (ref : Edge) (he : g.edge? ⟨i, j⟩ = some e)
      (hinv : e.IsInverse = true) (href : (g.node e.Typ).HasAssoc e.Inverse = some (k, ref))
      (hreq : e.Optional = true ∨ ref.Optional = true) (hty : ref.Typ = i) :
    ResolveStep env i j g
      ((g.setEdge ⟨i, j⟩ (linkPair env g ⟨i, j⟩ ⟨e.Typ, k⟩ e ref).1).setEdge ⟨e.Typ, k⟩
        (linkPair env g ⟨i, j⟩ ⟨e.Typ, k⟩ e ref).2)

/-- The edge at `q` has its relation kind set. -/
def Graph.Done (g : Graph) (q : EdgePtr) : Prop :=
  ∃ e, g.edge? q = some e ∧ e.Rel.Typ ≠ Rel.Unk

/-- The assoc edge `a` at `q` carries the relation that was written when the
inverse edge `a.Ref` points to was linked to it. -/
def Graph.PairedWith (env : Env) (g : Graph) (q : EdgePtr) (a : Edge) : Prop :=
  ∃ p e, a.Ref = some p ∧ g.edge? p = some e ∧ e.IsInverse = true ∧ e.Rel.Typ ≠ Rel.Unk ∧
    e.Ref = some q ∧ a.Rel = (linkPair env g p q e a).2.Rel

/-- The invariant of the loop over `resolve`.  An inverse edge whose relation is
set points to the assoc edge `HasAssoc` finds for it and carries the relation of
the linking branch, and that assoc edge is paired with an inverse edge; an assoc
edge whose relation is set carries the relation of the unpaired branch or is
paired with an inverse edge. -/
structure Graph.Linked (env : Env) (g : Graph) : Prop where
  inverse : ∀ p e, g.edge? p = some e → e.IsInverse = true → e.Rel.Typ ≠ Rel.Unk →
    ∃ k a, (g.node e.Typ).HasAssoc e.Inverse = some (k, a) ∧ e.Ref = some ⟨e.Typ, k⟩ ∧
      a.Typ = p.node ∧ (e.Optional = true ∨ a.Optional = true) ∧
      e.Rel = (linkPair env g p ⟨e.Typ, k⟩ e a).1.Rel ∧ g.PairedWith env ⟨e.Typ, k⟩ a
  assoc : ∀ q a, g.edge? q = some a → a.IsInverse = false → a.Rel.Typ ≠ Rel.Unk →
    a.Rel = (soloEdge env g q.node a).Rel ∨ g.PairedWith env q a

/-- What `addEdges` guarantees of every edge: an edge that is not an inverse edge
has the node that holds it as `Owner`, and an inverse edge was declared as one. -/
def Graph.WellFormed (g : Graph) : Prop :=
  ∀ p e, g.edge? p = some e →
    (e.IsInverse = false → e.Owner = p.node) ∧ (e.IsInverse = true → e.decl.Inverse = true)

/-- No edge is bound to an edge schema (the state before `edgeSchemas`). -/
def Graph.Plain (g : Graph) : Prop := ∀ p e, g.edge? p = some e → e.Through = none

/-- No edge has a relation yet (the state after `addEdges`). -/
def Graph.Fresh (g : Graph) : Prop := ∀ p e, g.edge? p = some e → e.Rel = {}

/-- The state of an edge that `addEdges` has just created, at position `p`. -/
def Edge.Initial (p : EdgePtr) (e : Edge) : Prop :=
  e.Rel = {} ∧ e.Through = none ∧ (e.IsInverse = false → e.Owner = p.node) ∧
    (e.IsInverse = true → e.decl.Inverse = true)

/-- Every edge of the graph is as `addEdges` creates it. -/
def Graph.Initial (g : Graph) : Prop := ∀ p e, g.edge? p = some e → e.Initial p

/-- The facts the loop over `resolve` keeps, relative to the graph it starts from. -/
structure Graph.Resolving (g : Graph) (env : Env) (g0 : Graph) : Prop where
  static : g.static = g0.static
  linked : g.Linked env
  plain : g.Plain

/-- The graph the loop over `resolve` leaves: the invariant holds, no edge is bound
to an edge schema, the edges are as `addEdges` shaped them, and every relation
kind is set. -/
structure Graph.Resolved (g : Graph) (env : Env) : Prop where
  linked : g.Linked env
  plain : g.Plain
  wellFormed : g.WellFormed
  done : ∀ p e, g.edge? p = some e → e.Rel.Typ ≠ Rel.Unk

/-- Two graphs with the same edges at the same positions and the same node names
and table annotations. -/
structure Graph.SameEdges (g' g : Graph) : Prop where
  edge : ∀ p, g'.edge? p = g.edge? p
  name : ∀ n, (g'.node n).Name = (g.node n).Name
  table : ∀ n, (g'.node n).TableName = (g.node n).TableName

/-- How a graph `g` of the stages after `resolve` relates to the graph `g3` the
loop over `resolve` left.  An edge of `g3` is still at its position, and only its
`Through` and its `Rel.Table` may differ: an edge bound to an edge schema has the
table of that schema.  An edge that `g3` does not have was appended by
`edgeSchemas`: its descriptor is empty, it is optional and O2M. -/
structure Graph.Extends (g : Graph) (env : Env) (g3 : Graph) : Prop where
  name : ∀ n, (g.node n).Name = (g3.node n).Name
  table : ∀ n, (g.node n).TableName = (g3.node n).TableName
  old : ∀ p e, g3.edge? p = some e → ∃ e', g.edge? p = some e' ∧ e'.static = e.static ∧
    e'.Ref = e.Ref ∧ e'.Bidi = e.Bidi ∧ e'.Rel.Typ = e.Rel.Typ ∧
    e'.Rel.Columns = e.Rel.Columns ∧
    ((e'.Through = none ∧ e'.Rel.Table = e.Rel.Table) ∨
      ∃ ty, e'.Through = some ty ∧ e'.Rel.Table = (g3.node ty).Table env)
  fresh : ∀ p e', g.edge? p = some e' → g3.edge? p = none →
    e'.decl = {} ∧ e'.Rel.Typ = Rel.O2M ∧ e'.Optional = true

/-! ## Sample inputs -/

/-- The graph of a successful stage, the empty graph otherwise. -/
def okGraph (r : Except Failure Graph) : Graph :=
  match r with
  | Except.ok g => g
  | Except.error _ => default

/-- The edge at a position of a graph, the default edge if there is none. -/
def Graph.edgeAt (g : Graph) (p : EdgePtr) : Edge := (g.edge? p).getD default

/-- Naming functions for the sample inputs: names are snake-cased and singular
already, except the two plurals that are listed. -/
def sampleEnv : Env where
  snake := fun s => s
  singularize := fun s =>
    if s = "followers" then "follower" else if s = "friends" then "friend" else s
  pluralize := fun s => s ++ "s"

/-- A graph as `addEdges` leaves it: `a` has the unique assoc edge `x` to `b`, and
`b` has the unique inverse edge `y` of it. -/
def linkGraph : Graph :=
  { Nodes :=
      [{ Name := "a", Edges := [{ Name := "x", Typ := 1, Owner := 0, Unique := true }] },
       { Name := "b"
         Edges := [{ decl := { Inverse := true }, Name := "y", Typ := 0, Owner := 0, Inverse := "x"
                     Unique := true }] }] }

/-- A user follows users (`following`, with the inverse edge `followers`) and has
`friends`, an edge to users without an inverse. -/
def followSchemas : List Schema :=
  [{ Name := "user"
     Edges := [{ Name := "following", Typ := "user" },
               { Name := "followers", Typ := "user", Inverse := true, RefName := "following" },
               { Name := "friends", Typ := "user" }] }]

/-- The graph the loop over `resolve` leaves for `followSchemas`. -/
def followResolved : Graph := okGraph (resolveStage sampleEnv none followSchemas)

/-- The final graph of `followSchemas`. -/
def followGraph : Graph := okGraph (NewGraph sampleEnv none followSchemas)

/-- A pet has one owner: the unique assoc edge `owner` of `pet`, without an inverse. -/
def ownerSchemas : List Schema :=
  [{ Name := "pet", Edges := [{ Name := "owner", Typ := "user", Unique := true }] },
   { Name := "user" }]

/-- The graph the loop over `resolve` leaves for `ownerSchemas`. -/
def ownerResolved : Graph := okGraph (resolveStage sampleEnv none ownerSchemas)

/-- The schemas `ownerSchemas` with the inverse edge `pets` added to `user`. -/
def petsSchemas : List Schema :=
  [{ Name := "pet", Edges := [{ Name := "owner", Typ := "user", Unique := true }] },
   { Name := "user"
     Edges := [{ Name := "pets", Typ := "pet", Inverse := true, RefName := "owner" }] }]

/-- The graph the loop over `resolve` leaves for `petsSchemas`. -/
def petsResolved : Graph := okGraph (resolveStage sampleEnv none petsSchemas)

/-- Users and groups: the assoc edge `groups` of `user` and its inverse `users`. -/
def groupSchemas : List Schema :=
  [{ Name := "user", Edges := [{ Name := "groups", Typ := "group" }] },
   { Name := "group"
     Edges := [{ Name := "users", Typ := "user", Inverse := true, RefName := "groups" }] }]

/-- The graph the loop over `resolve` leaves for `groupSchemas`. -/
def groupResolved : Graph := okGraph (resolveStage sampleEnv none groupSchemas)

/-- The final graph of `petsSchemas`. -/
def petsGraph : Graph := okGraph (NewGraph sampleEnv none petsSchemas)

/-- Two inverse edges of `b`, `y1` (unique) and `y2`, name the same assoc edge `x` of `a`. -/
def twoInverseSchemas : List Schema :=
  [{ Name := "a", Edges := [{ Name := "x", Typ := "b", Unique := true }] },
   { Name := "b"
     Edges := [{ Name := "y1", Typ := "a", Unique := true, Inverse := true, RefName := "x" },
               { Name := "y2", Typ := "a", Inverse := true, RefName := "x" }] }]

/-- The final graph of `twoInverseSchemas`. -/
def twoInverseGraph : Graph := okGraph (NewGraph sampleEnv none twoInverseSchemas)

/-- Users have roles through the edge schema `membership`, which holds the two
required edges `user` and `role` with the edge-fields `user_id` and `role_id`;
only the assoc edge `roles` declares `Through`, its inverse `users` does not. -/
def roleSchemas : List Schema :=
  [{ Name := "user"
     Edges := [{ Name := "roles", Typ := "role"
                 Through := some ⟨"memberships", "membership"⟩ }] },
   { Name := "role"
     Edges := [{ Name := "users", Typ := "user", Inverse := true, RefName := "roles" }] },
   { Name := "membership"
     Fields := [{ Name := "user_id" }, { Name := "role_id" }]
     Edges := [{ Name := "user", Typ := "user", Unique := true, Required := true
                 Field := "user_id" },
               { Name := "role", Typ := "role", Unique := true, Required := true
                 Field := "role_id" }] }]

/-- The final graph of `roleSchemas`. -/
def roleGraph : Graph := okGraph (NewGraph sampleEnv none roleSchemas)

/-- Both sides required: the unique assoc edge `b` of `a` and its unique inverse
edge `a` of `b` are both required. -/
def requiredSchemas : List Schema :=
  [{ Name := "a", Edges := [{ Name := "b", Typ := "b", Unique := true, Required := true }] },
   { Name := "b"
     Edges := [{ Name := "a", Typ := "a", Unique := true, Required := true, Inverse := true
                 RefName := "b" }] }]

/-- The graph `addEdges` leaves for `requiredSchemas`. -/
def requiredEdges : Graph := okGraph (edgesStage none requiredSchemas)

/-- The schemas `followSchemas` with the inverse edge `followers` declared before
its assoc edge `following`. -/
def followersFirstSchemas : List Schema :=
  [{ Name := "user"
     Edges := [{ Name := "followers", Typ := "user", Inverse := true, RefName := "following" },
               { Name := "following", Typ := "user" },
               { Name := "friends", Typ := "user" }] }]

/-- The final graph of `followersFirstSchemas`. -/
def followersFirstGraph : Graph := okGraph (NewGraph sampleEnv none followersFirstSchemas)

/-- A pet has one owner, and the edge declares `Through`: the unique assoc edge
`owner` of `pet` is M2O. -/
def ownerThroughSchemas : List Schema :=
  [{ Name := "pet"
     Edges := [{ Name := "owner", Typ := "user", Unique := true
                 Through := some ⟨"ownerships", "ownership"⟩ }] },
   { Name := "user" }]

/-- The graph the loop over `resolve` leaves for `ownerThroughSchemas`. -/
def ownerThroughResolved : Graph := okGraph (resolveStage sampleEnv none ownerThroughSchemas)

/-- The schemas `roleSchemas` with a second assoc edge of `user` that goes through
`membership`: `friends`, an M2M edge to `user` itself.  No inverse edge declares
`Through`. -/
def twoToSchemas : List Schema :=
  [{ Name := "user"
     Edges := [{ Name := "roles", Typ := "role"
                 Through := some ⟨"memberships", "membership"⟩ },
               { Name := "friends", Typ := "user"
                 Through := some ⟨"friendships", "membership"⟩ }] },
   { Name := "role"
     Edges := [{ Name := "users", Typ := "user", Inverse := true, RefName := "roles" }] },
   { Name := "membership"
     Fields := [{ Name := "user_id" }, { Name := "role_id" }]
     Edges := [{ Name := "user", Typ := "user", Unique := true, Required := true
                 Field := "user_id" },
               { Name := "role", Typ := "role", Unique := true, Required := true
                 Field := "role_id" }] }]

/-- The graph the loop over `resolve` leaves for `twoToSchemas`. -/
def twoToResolved : Graph := okGraph (resolveStage sampleEnv none twoToSchemas)

/-- The graph of `twoToSchemas` when the loops of `edgeSchemas` reach the edge
`friends`: FK propagation is done and the iteration on `roles` has succeeded. -/
def twoToBound : Graph :=
  okGraph (edgeSchema sampleEnv 0
    ((List.range twoToResolved.Nodes.length).foldl setupFKs twoToResolved) 0)

/-- A node whose edge-schema record and indexes are empty: the state of every node
until `edgeSchemas` runs. -/
def Node.Bare (t : Node) : Prop := t.EdgeSchema = {} ∧ t.Indexes = []

/-- Every node of the graph is bare. -/
def Graph.Bare (g : Graph) : Prop := ∀ n, (g.node n).Bare

/-- The graph `edgeSchemas` is called on: the resolved graph after FK propagation. -/
def fkStage (g3 : Graph) : Graph := (List.range g3.Nodes.length).foldl setupFKs g3

/-- The invariant of the loops of `edgeSchemas` on the `From` and `To` slots.  The
edge in a `From` slot is an inverse edge, the edge in a `To` slot an assoc edge;
when both slots of a type are taken, the `Ref` of the `From` edge is the `To` edge;
and an edge bound to the edge schema `ty` (its `Through` is `ty`) is the edge in
the `From` slot of `ty` when it is an inverse edge, in the `To` slot otherwise. -/
structure Graph.Slots (g : Graph) : Prop where
  fromEdge : ∀ ty f, (g.node ty).EdgeSchema.From = some f →
    ∃ e, g.edge? f = some e ∧ e.IsInverse = true
  toEdge : ∀ ty t, (g.node ty).EdgeSchema.To = some t →
    ∃ e, g.edge? t = some e ∧ e.IsInverse = false
  pair : ∀ ty f t, (g.node ty).EdgeSchema.From = some f → (g.node ty).EdgeSchema.To = some t →
    ∃ e, g.edge? f = some e ∧ e.Ref = some t
  bound : ∀ ty p e, g.edge? p = some e → e.Through = some ty →
    (e.IsInverse = true → (g.node ty).EdgeSchema.From = some p) ∧
    (e.IsInverse = false → (g.node ty).EdgeSchema.To = some p)

/-- The edge `e` as `edgeSchemas` leaves it once it is bound to the edge schema
`ty`: `Through` is set and `Rel.Table` is the table of the edge schema. -/
def boundEdge (env : Env) (g : Graph) (e : Edge) (ty : Nat) : Edge :=
  { e with Through := some ty, Rel := { e.Rel with Table := (g.node ty).Table env } }

/-- The edge `edgeSchemas` appends to node `i` for `Through(th.N, ty)`, built from
the reference edge at `r`. -/
def helperEdge (g : Graph) (th : ThroughDef) (ty i : Nat) (r : EdgePtr) : Edge :=
  let ref := (g.edge? r).getD default
  { Name := th.N, Typ := ty, Inverse := ref.Name, Ref := some r, Owner := i
    Optional := true
    Rel := { Typ := Rel.O2M, Table := ref.Rel.Table, Columns := ref.Rel.Columns } }

/-- Users and roles through the edge schema `membership`, as in `roleSchemas`, with
`Through` declared on both sides: on the assoc edge `roles` and its inverse `users`. -/
def pairSchemas : List Schema :=
  [{ Name := "user"
     Edges := [{ Name := "roles", Typ := "role"
                 Through := some ⟨"memberships", "membership"⟩ }] },
   { Name := "role"
     Edges := [{ Name := "users", Typ := "user", Inverse := true, RefName := "roles"
                 Through := some ⟨"memberships", "membership"⟩ }] },
   { Name := "membership"
     Fields := [{ Name := "user_id" }, { Name := "role_id" }]
     Edges := [{ Name := "user", Typ := "user", Unique := true, Required := true
                 Field := "user_id" },
               { Name := "role", Typ := "role", Unique := true, Required := true
                 Field := "role_id" }] }]

/-- The graph the loop over `resolve` leaves for `pairSchemas`. -/
def pairResolved : Graph := okGraph (resolveStage sampleEnv none pairSchemas)

/-- The graph `edgeSchemas` leaves for `pairSchemas`. -/
def pairBound : Graph := okGraph (edgeSchemas sampleEnv (fkStage pairResolved))

/-- The final graph of `pairSchemas`. -/
def pairGraph : Graph := okGraph (NewGraph sampleEnv none pairSchemas)

/-- Every foreign key of a node belongs to an edge of that node that owns a
foreign key: the state FK propagation leaves. -/
def Graph.ValidFKs (g : Graph) : Prop :=
  ∀ n fk, fk ∈ (g.node n).ForeignKeys →
    fk.Edge.node = n ∧ ∃ e, g.edge? fk.Edge = some e ∧ e.OwnFK = true

/-- The states of the loops of `edgeSchemas` that start from the graph `g4`: `g4`
itself, and every graph that a successful iteration leaves from such a state. -/
inductive Reach (env : Env) (g4 : Graph) : Graph → Prop where
  | start : Reach env g4 g4
  | step {s s' : Graph} (i j : Nat) (hs : Reach env g4 s)
      (hstep : edgeSchema env i s j = Except.ok s') : Reach env g4 s'

/-- The graph the loop over `resolve` leaves for `roleSchemas`. -/
def roleResolved : Graph := okGraph (resolveStage sampleEnv none roleSchemas)

/-- The graph of `roleSchemas` after the iteration of `edgeSchemas` on `roles`. -/
def roleBound : Graph := okGraph (edgeSchema sampleEnv 0 (fkStage roleResolved) 0)

/-- The invariant of the loops of `edgeSchemas` on the keys of the edge schemas.
A bound edge has its helper edge on the same node; a type whose composite id is set
has no `ID`, and its composite id is the two annotated fields, the columns of an
edge bound to it; the edge schema of a bound edge has its composite id set when it
annotates one, has a composite id or a unique index over the columns of the edge,
and owns, for each column of the edge, a foreign key of that name whose edge is
required; and every index is unique and has two columns. -/
structure Graph.Keys (g : Graph) : Prop where
  helper : ∀ p e, g.edge? p = some e → e.Through ≠ none →
    ∃ th k h, e.decl.Through = some th ∧ g.edge? ⟨p.node, k⟩ = some h ∧ h.Name = th.N
  id : ∀ n, (g.node n).EdgeSchema.ID ≠ [] → (g.node n).ID = none ∧
    ∃ r1 r2 p0 e0, (g.node n).AnnotationID = [r1, r2] ∧
      (g.node n).EdgeSchema.ID = [(g.node n).Fields.find? (fun x => x.Name == r1),
        (g.node n).Fields.find? (fun x => x.Name == r2)] ∧
      g.edge? p0 = some e0 ∧ e0.Through = some n ∧ e0.Rel.Columns = [r1, r2]
  bound : ∀ p e n, g.edge? p = some e → e.Through = some n →
    e.Rel.Typ = Rel.M2M ∧
    ((g.node n).AnnotationID ≠ [] → (g.node n).EdgeSchema.ID ≠ []) ∧
    ((g.node n).HasCompositeID = true ∨ ∃ idx ∈ (g.node n).Indexes, idx.Unique = true ∧
      (idx.Columns = e.Rel.Columns ∨ idx.Columns = e.Rel.Columns.reverse)) ∧
    (∀ c ∈ e.Rel.Columns, ∃ fk r,
      (g.node n).ForeignKeys.find? (fun fk => fk.Field.Name == c) = some fk ∧
      g.edge? fk.Edge = some r ∧ r.Optional = false)
  indexes : ∀ n idx, idx ∈ (g.node n).Indexes → idx.Unique = true ∧ idx.Columns.length = 2

/-- The schemas `pairSchemas` with the composite id `(user_id, role_id)` annotated
on the edge schema `membership`. -/
def pairKeySchemas : List Schema :=
  [{ Name := "user"
     Edges := [{ Name := "roles", Typ := "role"
                 Through := some ⟨"memberships", "membership"⟩ }] },
   { Name := "role"
     Edges := [{ Name := "users", Typ := "user", Inverse := true, RefName := "roles"
                 Through := some ⟨"memberships", "membership"⟩ }] },
   { Name := "membership"
     Fields := [{ Name := "user_id" }, { Name := "role_id" }]
     Edges := [{ Name := "user", Typ := "user", Unique := true, Required := true
                 Field := "user_id" },
               { Name := "role", Typ := "role", Unique := true, Required := true
                 Field := "role_id" }]
     ID := ["user_id", "role_id"] }]

/-- The graph the loop over `resolve` leaves for `pairKeySchemas`. -/
def pairKeyResolved : Graph := okGraph (resolveStage sampleEnv none pairKeySchemas)

/-- The graph `edgeSchemas` leaves for `pairKeySchemas`. -/
def pairKeyBound : Graph := okGraph (edgeSchemas sampleEnv (fkStage pairKeyResolved))

/-- The schemas `pairKeySchemas` with the two annotated columns in the other order. -/
def swappedKeySchemas : List Schema :=
  [{ Name := "user"
     Edges := [{ Name := "roles", Typ := "role"
                 Through := some ⟨"memberships", "membership"⟩ }] },
   { Name := "role"
     Edges := [{ Name := "users", Typ := "user", Inverse := true, RefName := "roles"
                 Through := some ⟨"memberships", "membership"⟩ }] },
   { Name := "membership"
     Fields := [{ Name := "user_id" }, { Name := "role_id" }]
     Edges := [{ Name := "user", Typ := "user", Unique := true, Required := true
                 Field := "user_id" },
               { Name := "role", Typ := "role", Unique := true, Required := true
                 Field := "role_id" }]
     ID := ["role_id", "user_id"] }]

/-! ## The table model -/

/-- A column of a table (`schema.Column`), with the members that `Tables` sets. -/
structure Column where
  Name : String
  Typ : FieldType := FieldType.TypeInt
  Size : Int := 0
  Unique : Bool := false
  Nullable : Bool := false
  SchemaType : List (String × String) := []
deriving DecidableEq, Repr, Inhabited

/-- A foreign key of a table (`schema.ForeignKey`).  `RefTable`, a `*schema.Table`,
is the position of the referenced table in the list `Tables` builds; `OnDelete` is
the `schema.ReferenceOption`, a string. -/
structure TableFK where
  Symbol : String := ""
  Columns : List Column := []
  RefTable : Nat := 0
  RefColumns : List Column := []
  OnDelete : String := ""
deriving DecidableEq, Repr, Inhabited

/-- An index of a table (`schema.Index`). -/
structure TableIndex where
  Name : String := ""
  Unique : Bool := false
  Columns : List String := []
deriving DecidableEq, Repr, Inhabited

/-- A table (`schema.Table`).  The annotation of the table is not part of the model. -/
structure Table where
  Name : String
  Columns : List Column := []
  PrimaryKey : List Column := []
  ForeignKeys : List TableFK := []
  Indexes : List TableIndex := []
deriving DecidableEq, Repr, Inhabited

/-- The referential actions `schema.NoAction`, `schema.SetNull` and `schema.Cascade`. -/
def NoAction : String := "NO ACTION"

/-- The referential action `schema.SetNull`. -/
def SetNull : String := "SET NULL"

/-- The referential action `schema.Cascade`. -/
def Cascade : String := "CASCADE"

/-- Modelled from the spec: `Table.AddColumn` is defined outside `graph.go`; it
adds a column to the table. -/
def Table.AddColumn (t : Table) (c : Column) : Table := { t with Columns := t.Columns ++ [c] }

/-- Modelled from the spec: `Table.AddPrimary` is defined outside `graph.go`; the
"PK = the id column(s)": it adds the column to the table and to its primary key. -/
def Table.AddPrimary (t : Table) (c : Column) : Table :=
  { t with Columns := t.Columns ++ [c], PrimaryKey := t.PrimaryKey ++ [c] }

/-- Modelled from the spec: `Table.HasColumn` is defined outside `graph.go`; it
reports a column "already present" under that name. -/
def Table.HasColumn (t : Table) (name : String) : Bool := t.Columns.any (fun c => c.Name == name)

/-- Modelled from the spec: `Table.Column` is defined outside `graph.go`; it looks a
column up by name. -/
def Table.Column (t : Table) (name : String) : Option Column :=
  t.Columns.find? (fun c => c.Name == name)

/-- Modelled from the spec: `Table.AddForeignKey` is defined outside `graph.go`; it
adds a foreign key to the table. -/
def Table.AddForeignKey (t : Table) (fk : TableFK) : Table :=
  { t with ForeignKeys := t.ForeignKeys ++ [fk] }

/-- Modelled from the spec: `Table.AddIndex` is defined outside `graph.go`;
"indexes are applied last": it adds an index with that name, flag and columns. -/
def Table.AddIndex (t : Table) (name : String) (unique : Bool) (columns : List String) : Table :=
  { t with Indexes := t.Indexes ++ [{ Name := name, Unique := unique, Columns := columns }] }

/-- The accessors of fields and edges that `Tables` calls and that are defined
outside `graph.go`.  A field is given with the position of its node, an edge by its
position: `PK` is `Field.PK`, `Column` is `Field.Column`, `IsEdgeField`,
`StorageKey`, `UserDefined` and `size` are the members of `Field` of these names,
`SchemaType` is `Field.def.SchemaType`, `Symbols` is the `Symbols` of
`Edge.StorageKey()` (`none` when the key is nil), and `OnDelete` is the `OnDelete`
of `Edge.EntSQL()` (empty when the annotation is nil). -/
structure TEnv where
  PK : Nat → Field → Column
  Column : Nat → Field → Column
  IsEdgeField : Nat → Field → Bool
  StorageKey : Nat → Field → String
  UserDefined : Nat → Field → Bool
  size : Nat → Field → Int
  SchemaType : Nat → Field → List (String × String)
  Symbols : EdgePtr → Option (List String)
  OnDelete : EdgePtr → String

/-- The table the first loop of `Tables` builds for node `n` at position `i`. -/
def nodeTable (env : Env) (tenv : TEnv) (i : Nat) (n : Node) : Table :=
  let table : Table := { Name := n.Table env }
  let table :=
    if n.HasOneFieldID then
      match n.ID with
      | some id => table.AddPrimary (tenv.PK i id)
      | none => table
    else table
  n.Fields.foldl
    (fun t f => if !tenv.IsEdgeField i f then t.AddColumn (tenv.Column i f) else t) table

/-- The map `tables` of `Tables`: the position of the table stored under a name.
The first loop stores the table of each node under its name, so the table of a later
node replaces that of an earlier node with the same table name; the join tables are
not stored in the map. -/
def tableOf (env : Env) (g : Graph) (name : String) : Option Nat :=
  g.Nodes.enum.foldl (fun acc p => if p.2.Table env == name then some p.1 else acc) none

/-- The function `mayAddColumn`. -/
def mayAddColumn (t : Table) (c : Column) : Table :=
  if !t.HasColumn c.Name then t.AddColumn c else t

/-- The function `fkSymbol` for the edge `e` at `p`. -/
def fkSymbol (tenv : TEnv) (p : EdgePtr) (e : Edge) (ownerT refT : Table) : String :=
  match tenv.Symbols p with
  | some [s] => s
  | _ => ownerT.Name ++ "_" ++ refT.Name ++ "_" ++ e.Name

/-- The function `fkSymbols` for the edge `e` at `p`. -/
def fkSymbols (tenv : TEnv) (p : EdgePtr) (e : Edge) (c1 c2 : Column) : String × String :=
  let s1 := e.Rel.Table ++ "_" ++ c1.Name
  let s2 := e.Rel.Table ++ "_" ++ c2.Name
  match tenv.Symbols p with
  | some (k1 :: k2 :: _) => (k1, k2)
  | some [k1] => (k1, s2)
  | _ => (s1, s2)

/-- The function `deleteAction` for the edge at `p` and its column. -/
def deleteAction (tenv : TEnv) (p : EdgePtr) (c : Column) : String :=
  let action := if c.Nullable then SetNull else NoAction
  if tenv.OnDelete p != "" then tenv.OnDelete p else action

/-- The body that the cases `O2O, O2M` and `M2O` of `Tables` share, for the edge `e`
at `p`: `owner` and `ref` are the two lookups in `tables`, `unique` the `Unique` of
the column and `required` the condition that makes it non-nullable.  Reading
`ref.PrimaryKey[0]` of a nil table or of an empty key panics, and so does adding
the column to a nil table. -/
def addEdgeFK (tenv : TEnv) (p : EdgePtr) (e : Edge) (owner ref : Option Nat)
    (unique required : Bool) (all : List Table) : Except Failure (List Table) :=
  match ref.bind (fun r => (all[r]?).map (fun t => (r, t))) with
  | none => Except.error (Failure.crash "nil pointer dereference: ref")
  | some (r, refT) =>
    match refT.PrimaryKey with
    | [] => Except.error (Failure.crash "index out of range: ref.PrimaryKey")
    | pk :: _ =>
      let column : Column :=
        { Name := e.Rel.Column, Size := pk.Size, Typ := pk.Typ, Unique := unique
          SchemaType := pk.SchemaType, Nullable := !required }
      match owner.bind (fun o => (all[o]?).map (fun t => (o, t))) with
      | none => Except.error (Failure.crash "nil pointer dereference: owner")
      | some (o, ownerT) =>
        let all1 := all.modify (fun t => mayAddColumn t column) o
        Except.ok (all1.modify (fun t => t.AddForeignKey
          { RefTable := r, OnDelete := deleteAction tenv p column, Columns := [column]
            RefColumns := [pk], Symbol := fkSymbol tenv p e ownerT refT }) o)

/-- A column of a join table: `name` is the column name, `id` the id field of the
node at position `i` that the column references. -/
def joinColumn (tenv : TEnv) (name : String) (i : Nat) (id : Field) : Column :=
  let c : Column := { Name := name, Typ := FieldType.TypeInt, SchemaType := tenv.SchemaType i id }
  if tenv.UserDefined i id then { c with Typ := id.Info.Typ, Size := tenv.size i id } else c

/-- The join table of the case `M2M` of `Tables` for the edge `e` at `p`, with the
two columns and the first primary-key columns of the two referenced tables. -/
def joinTable (tenv : TEnv) (p : EdgePtr) (e : Edge) (c1 c2 : Column) (t1 t2 : Nat)
    (pk1 pk2 : Column) : Table :=
  { Name := e.Rel.Table
    Columns := [c1, c2]
    PrimaryKey := [c1, c2]
    ForeignKeys :=
      [{ RefTable := t1, OnDelete := Cascade, Columns := [c1], RefColumns := [pk1]
         Symbol := (fkSymbols tenv p e c1 c2).1 },
       { RefTable := t2, OnDelete := Cascade, Columns := [c2], RefColumns := [pk2]
         Symbol := (fkSymbols tenv p e c1 c2).2 }] }

/-- The test of the case `M2M` of `Tables` that skips the edge: the edge or its
`Ref` has an edge schema. -/
def throughSchema (g : Graph) (e : Edge) : Bool :=
  e.Through.isSome ||
    match e.Ref with
    | some r => ((g.edge? r).getD default).Through.isSome
    | none => false

/-- The case `M2M` of `Tables` for the edge `e` at `p`.  Reading a missing column
name, the id of a type without one, or the first primary-key column of a table
without one panics. -/
def addJoinTable (env : Env) (tenv : TEnv) (g : Graph) (p : EdgePtr) (e : Edge)
    (all : List Table) : Except Failure (List Table) :=
  if throughSchema g e then Except.ok all
  else
    let t1 := tableOf env g ((g.node p.node).Table env)
    let t2 := tableOf env g ((g.node e.Typ).Table env)
    match e.Rel.Columns, (g.node p.node).ID, (g.node e.Typ).ID with
    | n1 :: n2 :: _, some id1, some id2 =>
      let c1 := joinColumn tenv n1 p.node id1
      let c2 := joinColumn tenv n2 e.Typ id2
      match t1.bind (fun r => (all[r]?).map (fun t => (r, t))),
        t2.bind (fun r => (all[r]?).map (fun t => (r, t))) with
      | some (r1, tb1), some (r2, tb2) =>
        match tb1.PrimaryKey, tb2.PrimaryKey with
        | pk1 :: _, pk2 :: _ => Except.ok (all ++ [joinTable tenv p e c1 c2 r1 r2 pk1 pk2])
        | _, _ => Except.error (Failure.crash "index out of range: PrimaryKey")
      | _, _ => Except.error (Failure.crash "nil pointer dereference: table")
    | _, _, _ => Except.error (Failure.crash "index out of range or nil pointer dereference")

/-- One iteration of the loop of `Tables` over the edges of node `i`: the edge at
position `j`; the state is the list `all`. -/
def tableEdge (env : Env) (tenv : TEnv) (g : Graph) (i : Nat) (all : List Table) (j : Nat) :
    Except Failure (List Table) :=
  match g.edge? ⟨i, j⟩ with
  | none => Except.ok all
  | some e =>
    let n := g.node i
    if e.IsInverse then Except.ok all
    else
      match e.Rel.Typ with
      | Rel.O2O | Rel.O2M =>
        addEdgeFK tenv ⟨i, j⟩ e (tableOf env g e.Rel.Table) (tableOf env g (n.Table env))
          (e.Rel.Typ == Rel.O2O)
          (i != e.Typ && (match e.Ref with
            | some r => !((g.edge? r).getD default).Optional
            | none => false))
          all
      | Rel.M2O =>
        addEdgeFK tenv ⟨i, j⟩ e (tableOf env g e.Rel.Table)
          (tableOf env g ((g.node e.Typ).Table env)) false (i != e.Typ && !e.Optional) all
      | Rel.M2M => addJoinTable env tenv g ⟨i, j⟩ e all
      | Rel.Unk => Except.ok all

/-- The function `addCompositePK` for the table `t` and the node `n` at position
`i`: the primary key becomes the columns of the edge-fields in `EdgeSchema.ID`. -/
def addCompositePK (tenv : TEnv) (i : Nat) (t : Table) (n : Node) : Except Failure Table :=
  match forEach (fun (columns : List Column) (id : Option Field) =>
      forEach (fun (columns : List Column) (f : Field) =>
        if !tenv.IsEdgeField i f || id != some f then Except.ok columns
        else
          match t.Column (tenv.StorageKey i f) with
          | some c => Except.ok (columns ++ [c])
          | none => Except.error (Failure.error ("missing column "
              ++ quote (tenv.StorageKey i f) ++ " for edge field " ++ quote n.Name ++ "."
              ++ quote f.Name)))
        columns n.Fields)
      [] n.EdgeSchema.ID with
  | Except.ok columns => Except.ok { t with PrimaryKey := columns }
  | Except.error f => Except.error f

/-- One iteration of the second loop of `Tables`: the edges of node `i`, then its
composite primary key. -/
def tablesNode (env : Env) (tenv : TEnv) (g : Graph) (all : List Table) (i : Nat) :
    Except Failure (List Table) :=
  match forEach (tableEdge env tenv g i) all (List.range (g.node i).Edges.length) with
  | Except.error f => Except.error f
  | Except.ok all1 =>
    if (g.node i).HasCompositeID then
      match (tableOf env g ((g.node i).Table env)).bind
          (fun r => (all1[r]?).map (fun t => (r, t))) with
      | none => Except.error (Failure.crash "nil pointer dereference: table")
      | some (r, t) =>
        match addCompositePK tenv i t (g.node i) with
        | Except.ok t' => Except.ok (all1.modify (fun _ => t') r)
        | Except.error f => Except.error f
    else Except.ok all1

/-- One iteration of the last loop of `Tables`: the indexes of node `i`. -/
def tableIndexes (env : Env) (g : Graph) (all : List Table) (i : Nat) : List Table :=
  match tableOf env g ((g.node i).Table env) with
  | none => all
  | some r =>
    (g.node i).Indexes.foldl
      (fun all idx => all.modify (fun t => t.AddIndex idx.Name idx.Unique idx.Columns) r) all

/-- The function `Tables`: `Except.ok all` is a return with a nil error,
`Failure.error` the return of the error of `addCompositePK`, `Failure.crash` a
panic. -/
def Tables (env : Env) (tenv : TEnv) (g : Graph) : Except Failure (List Table) :=
  let all := g.Nodes.enum.map (fun p => nodeTable env tenv p.1 p.2)
  match forEach (tablesNode env tenv g) all (List.range g.Nodes.length) with
  | Except.error f => Except.error f
  | Except.ok all1 => Except.ok ((List.range g.Nodes.length).foldl (tableIndexes env g) all1)

/-- Plain accessors for the sample inputs: the column of a field has its name and
type, no field is an edge-field or user-defined, and no edge has a storage key or
an `OnDelete` annotation. -/
def sampleTEnv : TEnv where
  PK := fun _ f => { Name := f.Name, Typ := f.Info.Typ }
  Column := fun _ f => { Name := f.Name, Typ := f.Info.Typ }
  IsEdgeField := fun _ _ => false
  StorageKey := fun _ f => f.Name
  UserDefined := fun _ _ => false
  size := fun _ _ => 0
  SchemaType := fun _ _ => []
  Symbols := fun _ => none
  OnDelete := fun _ => ""

/-- The tables of a successful `Tables`, the empty list otherwise. -/
def okTables (r : Except Failure (List Table)) : List Table :=
  match r with
  | Except.ok all => all
  | Except.error _ => []

/-- The edges that the case `M2M` of `Tables` gives a join table: the edge at `p`
is not an inverse edge, is M2M, and neither it nor its `Ref` has an edge schema. -/
def isJoinEdge (g : Graph) (p : EdgePtr) : Bool :=
  match g.edge? p with
  | some e => !e.IsInverse && e.Rel.Typ == Rel.M2M && !throughSchema g e
  | none => false

/-- The edges of node `i` that get a join table, in the order of the edges. -/
def joinEdgesNode (g : Graph) (i : Nat) : List EdgePtr :=
  (List.range (g.node i).Edges.length).flatMap
    (fun j => if isJoinEdge g ⟨i, j⟩ then [⟨i, j⟩] else [])

/-- The edges that get a join table, in the order `Tables` meets them: node by
node, and in a node edge by edge. -/
def joinEdges (g : Graph) : List EdgePtr :=
  (List.range g.Nodes.length).flatMap (joinEdgesNode g)

/-- No node whose table is stored at position `r` of the map `tables` has a
composite id, so `addCompositePK` never replaces the primary key of that table. -/
def StablePK (env : Env) (g : Graph) (r : Nat) : Prop :=
  ∀ m, m < g.Nodes.length → tableOf env g ((g.node m).Table env) = some r →
    (g.node m).HasCompositeID = false

/-- The table `t` is the join table `Tables` builds for the edge at `p`: `r1` and
`r2` are the tables of the node of the edge and of its target, `pk1` and `pk2` the
first columns of their primary keys when the edge is met. -/
def JoinOf (env : Env) (tenv : TEnv) (g : Graph) (p : EdgePtr) (t : Table) : Prop :=
  ∃ e n1 n2 rest id1 id2 r1 r2 pk1 pk2, g.edge? p = some e ∧
    e.Rel.Columns = n1 :: n2 :: rest ∧ (g.node p.node).ID = some id1 ∧
    (g.node e.Typ).ID = some id2 ∧
    tableOf env g ((g.node p.node).Table env) = some r1 ∧
    tableOf env g ((g.node e.Typ).Table env) = some r2 ∧
    (StablePK env g r1 → (nodeTable env tenv r1 (g.node r1)).PrimaryKey.head? = some pk1) ∧
    (StablePK env g r2 → (nodeTable env tenv r2 (g.node r2)).PrimaryKey.head? = some pk2) ∧
    t = joinTable tenv p e (joinColumn tenv n1 p.node id1) (joinColumn tenv n2 e.Typ id2)
      r1 r2 pk1 pk2

/-- The invariant of the loops of `Tables` on the list `all`, when the join edges
`js` have been met: the first entries are the tables of the nodes, in the order of
the nodes, each with the name of its node and, while no composite key replaces it,
the primary key of the first loop; the entries after them are the join tables of
`js`, in that order. -/
structure TablesInv (env : Env) (tenv : TEnv) (g : Graph) (js : List EdgePtr)
    (all : List Table) : Prop where
  length : g.Nodes.length ≤ all.length
  node : ∀ i, i < g.Nodes.length → ∃ t, all[i]? = some t ∧ t.Name = (g.node i).Table env ∧
    (StablePK env g i → t.PrimaryKey = (nodeTable env tenv i (g.node i)).PrimaryKey)
  join : List.Forall₂ (JoinOf env tenv g) js (all.drop g.Nodes.length)

/-- The tables of `followGraph`. -/
def followTables : List Table := okTables (Tables sampleEnv sampleTEnv followGraph)

/-- The tables of `roleGraph`. -/
def roleTables : List Table := okTables (Tables sampleEnv sampleTEnv roleGraph)


/-- Two types with an edge to themselves each: `group_friends` of `user` and
`friends` of `user_group`; both relations get the table name `user_group_friends`. -/
def clashSchemas : List Schema :=
  [{ Name := "user", Edges := [{ Name := "group_friends", Typ := "user" }] },
   { Name := "user_group", Edges := [{ Name := "friends", Typ := "user_group" }] }]

/-- The final graph of `clashSchemas`. -/
def clashGraph : Graph := okGraph (NewGraph sampleEnv none clashSchemas)

/-- The tables of `clashGraph`. -/
def clashTables : List Table := okTables (Tables sampleEnv sampleTEnv clashGraph)


/-- The condition under which the cases `O2O, O2M` and `M2O` of `Tables` make the
column of the edge `e` of node `i` non-nullable. -/
def fkRequired (g : Graph) (i : Nat) (e : Edge) : Bool :=
  match e.Rel.Typ with
  | Rel.M2O => i != e.Typ && !e.Optional
  | _ =>
    i != e.Typ && (match e.Ref with
      | some r => !((g.edge? r).getD default).Optional
      | none => false)

/-- The column that the cases `O2O, O2M` and `M2O` of `Tables` build for the edge
`e` of node `i`, from the first primary-key column `pk` of the referenced table. -/
def fkColumn (g : Graph) (i : Nat) (e : Edge) (pk : Column) : Column :=
  { Name := e.Rel.Column, Size := pk.Size, Typ := pk.Typ, Unique := e.Rel.Typ == Rel.O2O
    SchemaType := pk.SchemaType, Nullable := !fkRequired g i e }

/-- The list `all2` is a later state of the list `all1` of `Tables`: every table of
`all1` is still at its position, with its name, and its columns and foreign keys
are the first columns and foreign keys of the later table. -/
def TablesLe (all1 all2 : List Table) : Prop :=
  ∀ (o : Nat) (t : Table), all1[o]? = some t → ∃ t' : Table, all2[o]? = some t' ∧ t'.Name = t.Name ∧
    t.Columns <+: t'.Columns ∧ t.ForeignKeys <+: t'.ForeignKeys


/-- A user has one `spouse`, a unique edge to users without an inverse. -/
def spouseSchemas : List Schema :=
  [{ Name := "user", Edges := [{ Name := "spouse", Typ := "user", Unique := true }] }]

/-- The final graph of `spouseSchemas`. -/
def spouseGraph : Graph := okGraph (NewGraph sampleEnv none spouseSchemas)

/-- The tables of `spouseGraph`. -/
def spouseTables : List Table := okTables (Tables sampleEnv sampleTEnv spouseGraph)

/-- Three types: `user_a` has the edge `b` to cards, without an inverse; `user` has
the unique edge `a_b` to cards, and `card` has its unique inverse `owner`.  Both
relations are stored in the column `user_a_b` of the table `cards`. -/
def cardSchemas : List Schema :=
  [{ Name := "user_a", Edges := [{ Name := "b", Typ := "card" }] },
   { Name := "user", Edges := [{ Name := "a_b", Typ := "card", Unique := true }] },
   { Name := "card"
     Edges := [{ Name := "owner", Typ := "user", Unique := true, Inverse := true
                 RefName := "a_b" }] }]

/-- The final graph of `cardSchemas`. -/
def cardGraph : Graph := okGraph (NewGraph sampleEnv none cardSchemas)

/-- The tables of `cardGraph`. -/
def cardTables : List Table := okTables (Tables sampleEnv sampleTEnv cardGraph)


/-- A pet has one required `owner`, a user; `pets` of `user` is the inverse edge. -/
def ownedSchemas : List Schema :=
  [{ Name := "pet", Edges := [{ Name := "owner", Typ := "user", Unique := true, Required := true }] },
   { Name := "user"
     Edges := [{ Name := "pets", Typ := "pet", Inverse := true, RefName := "owner" }] }]

/-- The final graph of `ownedSchemas`. -/
def ownedGraph : Graph := okGraph (NewGraph sampleEnv none ownedSchemas)

/-- The tables of `ownedGraph`. -/
def ownedTables : List Table := okTables (Tables sampleEnv sampleTEnv ownedGraph)

/-- The same relation declared from the other side: a user has `pets`, and `owner`
of `pet` is the required unique inverse edge. -/
def keptSchemas : List Schema :=
  [{ Name := "user", Edges := [{ Name := "pets", Typ := "pet" }] },
   { Name := "pet"
     Edges := [{ Name := "owner", Typ := "user", Unique := true, Required := true
                 Inverse := true, RefName := "pets" }] }]

/-- The final graph of `keptSchemas`. -/
def keptGraph : Graph := okGraph (NewGraph sampleEnv none keptSchemas)

/-- The tables of `keptGraph`. -/
def keptTables : List Table := okTables (Tables sampleEnv sampleTEnv keptGraph)

/-- The accessors of `sampleTEnv`, with the annotation `OnDelete: CASCADE` on every
edge. -/
def cascadeTEnv : TEnv := { sampleTEnv with OnDelete := fun _ => "CASCADE" }


/-! ## The results of `NewGraph` -/

/-- A loop body whose checks all come before its writes, with the state it leaves
when it stops: the state it was called with. -/
def keepState {σ α ε : Type} (f : σ → α → Except ε σ) (s : σ) (a : α) : Except (ε × σ) σ :=
  match f s a with
  | Except.ok s' => Except.ok s'
  | Except.error err => Except.error (err, s)

/-- The stage `addEdges` with the graph it leaves when it stops: the edges of the
earlier descriptors are in the graph, those of the failing one are not. -/
def addEdgesP (g : Graph) (s : Schema) : Except (Failure × Graph) Graph :=
  match g.typ s.Name with
  | none =>
    match s.Edges with
    | [] => Except.ok g
    | e :: _ =>
      if (g.typ e.Typ).isNone then
        Except.error (Failure.error ("type " ++ quote e.Typ ++ " does not exist for edge"), g)
      else Except.error (Failure.crash "nil pointer dereference: t.fields", g)
  | some t =>
    match forEach (keepState (addEdge s.Name t)) (g, []) s.Edges with
    | Except.ok st => Except.ok st.1
    | Except.error (f, st) => Except.error (f, st.1)

/-- The loop of `NewGraph` over `resolve` with the graph it leaves when it stops:
`resolve` makes its three checks on an edge before it writes to it. -/
def resolveNodeP (env : Env) (g : Graph) (i : Nat) : Except (Failure × Graph) Graph :=
  match forEach (keepState (resolveEdge env i)) g (List.range (g.node i).Edges.length) with
  | Except.ok g' => Except.ok g'
  | Except.error (err, s) =>
    Except.error
      (Failure.error ("resolve " ++ quote (g.node i).Name ++ " relations: " ++ err), s)

/-- The function `bindThrough` with the graph it leaves when it stops: the check
that the slot is free comes before the writes, the check of the other slot after
them. -/
def bindThroughP (g : Graph) (p : EdgePtr) (e : Edge) (ty : Nat) :
    Except (Failure × Graph) Graph :=
  let typ := g.node ty
  if e.IsInverse then
    match typ.EdgeSchema.From with
    | some f =>
      let fe := (g.edge? f).getD default
      Except.error (Failure.error ("type " ++ typ.Name
        ++ " is already used as an edge schema by other edge.From: " ++ fe.Name ++ "."
        ++ (g.node fe.Owner).Name), g)
    | none =>
      let g1 := (g.setEdge p { e with Through := some ty }).modifyNode ty
        (fun t => { t with EdgeSchema := { t.EdgeSchema with From := some p } })
      match typ.EdgeSchema.To with
      | some to_ =>
        if e.Ref != some to_ then
          Except.error (Failure.error ("mismtached edge.From(" ++ quote e.Name ++ ", "
            ++ (g.node e.Typ).Name ++ ".Type) and edge.To(" ++ quote ((g.edge? to_).getD default).Name
            ++ ", " ++ (g.node ((g.edge? to_).getD default).Typ).Name
            ++ ".Type) for edge schema " ++ typ.Name), g1)
        else Except.ok g1
      | none => Except.ok g1
  else
    match typ.EdgeSchema.To with
    | some _ =>
      match typ.EdgeSchema.From with
      | none => Except.error (Failure.crash "nil pointer dereference: EdgeSchema.From", g)
      | some f =>
        let fe := (g.edge? f).getD default
        Except.error (Failure.error ("type " ++ typ.Name
          ++ " is already used as an edge schema by other edge.To: " ++ fe.Name ++ "."
          ++ (g.node fe.Owner).Name), g)
    | none =>
      let g1 := (g.setEdge p { e with Through := some ty }).modifyNode ty
        (fun t => { t with EdgeSchema := { t.EdgeSchema with To := some p } })
      match typ.EdgeSchema.From with
      | some f =>
        let fe := (g1.edge? f).getD default
        if fe.Ref != some p then
          Except.error (Failure.error ("mismtached edge.To(" ++ quote fe.Name ++ ", "
            ++ (g.node fe.Typ).Name ++ ".Type) and edge.From(" ++ quote e.Name ++ ", "
            ++ (g.node e.Typ).Name ++ ".Type) for edge schema " ++ typ.Name), g1)
        else Except.ok g1
      | none => Except.ok g1

/-- The function `edgeSchemaKey` with the graph it leaves when it stops: the check
of the annotation comes before the writes to the id, the index after them. -/
def edgeSchemaKeyP (g : Graph) (ty : Nat) (cols : List String) : Except (Failure × Graph) Graph :=
  let typ := g.node ty
  let step : Except (Failure × Graph) Graph :=
    if typ.AnnotationID.length > 0 && typ.EdgeSchema.ID.length == 0 then
      match cols with
      | r1 :: r2 :: _ =>
        if typ.AnnotationID != [r1, r2] then
          Except.error (Failure.error ("edge schema primary key can only be defined on \"id\" or ("
            ++ quote r1 ++ ", " ++ quote r2 ++ ") in the same order"), g)
        else
          Except.ok (g.modifyNode ty (fun t =>
            { t with
              ID := none
              EdgeSchema := { t.EdgeSchema with
                ID := t.EdgeSchema.ID ++
                  t.AnnotationID.map (fun f => t.Fields.find? (fun x => x.Name == f)) } }))
      | _ => Except.error (Failure.crash "index out of range: e.Rel.Columns", g)
    else Except.ok g
  match step with
  | Except.error fs => Except.error fs
  | Except.ok g1 =>
    if (g1.node ty).HasCompositeID then Except.ok g1
    else
      match hasI cols (g1.node ty).Indexes with
      | Except.error f => Except.error (f, g1)
      | Except.ok true => Except.ok g1
      | Except.ok false =>
        match (g1.node ty).AddIndex { Unique := true, Fields := cols } with
        | Except.ok t => Except.ok (g1.modifyNode ty (fun _ => t))
        | Except.error err => Except.error (Failure.error err, g1)

/-- One iteration of the loops of `edgeSchemas` with the graph it leaves when it
stops: the writes made before the failing check stay in the graph. -/
def edgeSchemaP (env : Env) (i : Nat) (g : Graph) (j : Nat) : Except (Failure × Graph) Graph :=
  match g.edge? ⟨i, j⟩ with
  | none => Except.ok g
  | some e =>
    match e.decl.Through with
    | none => Except.ok g
    | some th =>
      let n := g.node i
      if !e.M2M then
        Except.error (Failure.error ("edge " ++ n.Name ++ "." ++ e.Name ++ " " ++ throughText th
          ++ " is allowed only on M2M edges, but got: " ++ quote e.Rel.Typ.name), g)
      else
        match g.typ th.T with
        | none =>
          Except.error (Failure.error ("edge " ++ n.Name ++ "." ++ e.Name ++ " defined with "
            ++ throughText th ++ ", but type " ++ th.T ++ " was not found"), g)
        | some ty =>
          if ty == i then
            Except.error (Failure.error ("edge " ++ n.Name ++ "." ++ e.Name ++ " defined with "
              ++ throughText th ++ ", but edge cannot go through itself"), g)
          else if th.N == "" || n.hasEdge th.N then
            Except.error (Failure.error ("edge " ++ n.Name ++ "." ++ e.Name ++ " defined with "
              ++ throughText th ++ ", but schema " ++ n.Name ++ " already has an edge named "
              ++ th.N), g)
          else
            match bindThroughP g ⟨i, j⟩ e ty with
            | Except.error fs => Except.error fs
            | Except.ok g1 =>
              let e1 : Edge :=
                { e with Through := some ty
                         Rel := { e.Rel with Table := (g.node ty).Table env } }
              let g2 := g1.setEdge ⟨i, j⟩ e1
              match forEach (edgeField g2 n.Name e.Name th.N ty e.IsInverse) none e1.Rel.Columns.enum with
              | Except.error f => Except.error (f, g2)
              | Except.ok none => Except.error (Failure.crash "nil pointer dereference: ref", g2)
              | Except.ok (some r) =>
                let ref := (g2.edge? r).getD default
                let g3 := g2.appendEdge i
                  { Name := th.N, Typ := ty, Inverse := ref.Name, Ref := some r, Owner := i
                    Optional := true
                    Rel := { Typ := Rel.O2M, Table := ref.Rel.Table, Columns := ref.Rel.Columns } }
                edgeSchemaKeyP g3 ty e1.Rel.Columns

/-- The stage `edgeSchemas` with the graph it leaves when it stops. -/
def edgeSchemasP (env : Env) (g : Graph) : Except (Failure × Graph) Graph :=
  match forEach
      (fun g i => forEach (edgeSchemaP env i) g (List.range (g.node i).Edges.length))
      g (List.range g.Nodes.length) with
  | Except.ok g' => Except.ok g'
  | Except.error (Failure.error err, s) =>
    Except.error (Failure.error ("resolving edges: " ++ err), s)
  | Except.error fs => Except.error fs

/-- The stage `addIndexes` with the graph it leaves when it stops: the indexes
before the failing one are in the graph. -/
def addIndexesP (g : Graph) (s : Schema) : Except (Failure × Graph) Graph :=
  match g.typ s.Name with
  | none =>
    match s.Indexes with
    | [] => Except.ok g
    | _ :: _ => Except.error (Failure.crash "nil pointer dereference: typ", g)
  | some t =>
    forEach (keepState (fun g idx =>
      match (g.node t).AddIndex idx with
      | Except.ok n => Except.ok (g.modifyNode t (fun _ => n))
      | Except.error err =>
        Except.error (Failure.error ("invalid index for schema " ++ quote s.Name ++ ": " ++ err))))
      g s.Indexes

/-- The stage `defaults` with the graph it leaves when it stops: the panic comes
after `IDType` was set to the default. -/
def defaultsP (g : Graph) : Except (Failure × Graph) Graph :=
  match defaults g with
  | Except.ok g' => Except.ok g'
  | Except.error f => Except.error (f, { g with IDType := some defaultIDType })

/-- One iteration of the loop of `NewGraph` over `setupFKs` with the graph it leaves
when it stops: the graph the failing call of `setupFKs` leaves. -/
def setupFKsNodeP (env : Env) (g : Graph) (i : Nat) : Except (Failure × Graph) Graph :=
  match env.fkFailure g i with
  | some (err, s) =>
    Except.error
      (Failure.error ("set " ++ quote (g.node i).Name ++ " foreign-keys: " ++ err), s)
  | none => Except.ok (setupFKs g i)

/-- The body of `NewGraph` with the graph `g` points to when a stage stops it. -/
def NewGraphP (env : Env) (c : Option TypeInfo) (schemas : List Schema) :
    Except (Failure × Graph) Graph :=
  match forEach (keepState addNode) { IDType := c, Nodes := [] } schemas with
  | Except.error fs => Except.error fs
  | Except.ok g1 =>
    match forEach addEdgesP g1 schemas with
    | Except.error fs => Except.error fs
    | Except.ok g2 =>
      match forEach (resolveNodeP env) g2 (List.range g2.Nodes.length) with
      | Except.error fs => Except.error fs
      | Except.ok g3 =>
        match forEach (setupFKsNodeP env) g3 (List.range g3.Nodes.length) with
        | Except.error fs => Except.error fs
        | Except.ok g4 =>
          match edgeSchemasP env g4 with
          | Except.error fs => Except.error fs
          | Except.ok g5 =>
            match forEach addIndexesP g5 schemas with
            | Except.error fs => Except.error fs
            | Except.ok g6 => defaultsP g6

/-- The two results of `NewGraph`: the pointer `g` (`none` is nil) with the graph
it points to, and the error (`none` is nil) with its text. -/
structure Results where
  g : Option Graph
  err : Option String
deriving DecidableEq, Repr, Inhabited

/-- The results `NewGraph` returns, `none` when it does not return.  The first
statement sets `g` to a new graph and nothing sets it again; the stages write to
that graph.  A `graphError` panic is recovered by the deferred `catch`, which sets
`err` only, so `NewGraph` returns `g` as it is; any other panic is raised again.
The text of a `graphError` starts with `entc/gen: `. -/
def NewGraphResults (env : Env) (c : Option TypeInfo) (schemas : List Schema) : Option Results :=
  match NewGraphP env c schemas with
  | Except.ok g => some { g := some g, err := none }
  | Except.error (Failure.error msg, s) => some { g := some s, err := some ("entc/gen: " ++ msg) }
  | Except.error (Failure.crash _, _) => none


/-- The graph the result `g` of `NewGraph` points to, the empty graph when
`NewGraph` does not return or `g` is nil. -/
def returnedGraph (r : Option Results) : Graph := (r.bind (fun x => x.g)).getD default

/-- The graph `NewGraph` returns with its error for `requiredSchemas`. -/
def requiredPartial : Graph := returnedGraph (NewGraphResults sampleEnv none requiredSchemas)

/-- The graph `NewGraph` returns with its error for `swappedKeySchemas`. -/
def swappedKeyPartial : Graph :=
  returnedGraph (NewGraphResults sampleEnv none swappedKeySchemas)

/-- The graph `NewGraph` returns with its error for `ownerThroughSchemas`. -/
def ownerThroughPartial : Graph :=
  returnedGraph (NewGraphResults sampleEnv none ownerThroughSchemas)


/-- Two schemas with the name `user`; the first one declares the edge `friends`. -/
def twinSchemas : List Schema :=
  [{ Name := "user", Edges := [{ Name := "friends", Typ := "user" }] }, { Name := "user" }]

/-- The final graph of `twinSchemas`. -/
def twinGraph : Graph := okGraph (NewGraph sampleEnv none twinSchemas)


/-- A node declares the unique edge `next` to nodes and, after it, the unique
inverse edge `prev` with the embedded assoc descriptor `next`. -/
def ringSchemas : List Schema :=
  [{ Name := "node"
     Edges := [{ Name := "next", Typ := "node", Unique := true },
               { Name := "prev", Typ := "node", Unique := true, Inverse := true
                 Ref := some { Name := "next", Typ := "node", Unique := true } }] }]

/-- The final graph of `ringSchemas`. -/
def ringGraph : Graph := okGraph (NewGraph sampleEnv none ringSchemas)

/-- A node declares the unique inverse edge `parent` with the embedded assoc
descriptor `children`, which is not unique. -/
def treeSchemas : List Schema :=
  [{ Name := "node"
     Edges := [{ Name := "parent", Typ := "node", Unique := true, Inverse := true
                 Ref := some { Name := "children", Typ := "node" } }] }]

/-- The final graph of `treeSchemas`. -/
def treeGraph : Graph := okGraph (NewGraph sampleEnv none treeSchemas)


/-- A graph without a provided `IDType` whose only node has no id. -/
def noIDGraph : Graph := { Nodes := [{ Name := "a", ID := none }] }

/-- A graph without a provided `IDType`: the ids of its two nodes are strings. -/
def stringIDGraph : Graph :=
  { Nodes := [{ Name := "a", ID := some { Name := "id", Info := { Typ := FieldType.TypeString } } },
              { Name := "b", ID := some { Name := "id", Info := { Typ := FieldType.TypeString } } }] }

/-- A graph without a provided `IDType`: one id is a string, the other an integer. -/
def mixedIDGraph : Graph :=
  { Nodes := [{ Name := "a", ID := some { Name := "id", Info := { Typ := FieldType.TypeString } } },
              { Name := "b", ID := some { Name := "id" } }] }


/-- The edge at position `j` of node `i` is an inverse edge that does not pass the
checks of `resolve`: its target type has no assoc edge named `e.Inverse`, or the
edge and that assoc edge are both required, or the target type of that assoc edge
is not node `i`. -/
def InverseFails (g : Graph) (i j : Nat) : Prop :=
  ∃ e : Edge, g.edge? ⟨i, j⟩ = some e ∧ e.IsInverse = true ∧
    ((g.node e.Typ).HasAssoc e.Inverse = none ∨
      ∃ (k : Nat) (ref : Edge), (g.node e.Typ).HasAssoc e.Inverse = some (k, ref) ∧
        ((e.Optional = false ∧ ref.Optional = false) ∨ ref.Typ ≠ i))


/-- The order in which the loops of `NewGraph` and `resolve` visit the edges: node
by node and, in a node, edge by edge. -/
def visitOrder (g : Graph) : List EdgePtr :=
  (List.range g.Nodes.length).flatMap
    (fun i => (List.range (g.node i).Edges.length).map (fun j => (⟨i, j⟩ : EdgePtr)))

/-- The graph of a successful sequence of iterations of `resolve`, the empty graph
otherwise. -/
def okVisit (r : Except String Graph) : Graph :=
  match r with
  | Except.ok g => g
  | Except.error _ => default

/-- The graph `addEdges` leaves for `followSchemas`. -/
def followEdges : Graph := okGraph (edgesStage none followSchemas)

/-- The graph after the iterations of `resolve` on the edges of `followEdges` in
the order of `NewGraph`: `following`, `followers`, `friends`. -/
def followVisited : Graph :=
  okVisit (forEach (fun s (p : EdgePtr) => resolveEdge sampleEnv p.node s p.idx) followEdges
    [⟨0, 0⟩, ⟨0, 1⟩, ⟨0, 2⟩])

/-- The graph after the same iterations with the inverse edge first: `followers`,
`following`, `friends`. -/
def followSwapped : Graph :=
  okVisit (forEach (fun s (p : EdgePtr) => resolveEdge sampleEnv p.node s p.idx) followEdges
    [⟨0, 1⟩, ⟨0, 0⟩, ⟨0, 2⟩])

/-- The schemas `roleSchemas` with a second edge of `role` that declares `Through`:
the unique assoc edge `boss` to `user`, which is M2O.  The loops of `edgeSchemas`
visit the edge `roles` of `user`, which goes through `membership`, before it. -/
def bossSchemas : List Schema :=
  [{ Name := "user"
     Edges := [{ Name := "roles", Typ := "role"
                 Through := some ⟨"memberships", "membership"⟩ }] },
   { Name := "role"
     Edges := [{ Name := "users", Typ := "user", Inverse := true, RefName := "roles" },
               { Name := "boss", Typ := "user", Unique := true
                 Through := some ⟨"bosses", "membership"⟩ }] },
   { Name := "membership"
     Fields := [{ Name := "user_id" }, { Name := "role_id" }]
     Edges := [{ Name := "user", Typ := "user", Unique := true, Required := true
                 Field := "user_id" },
               { Name := "role", Typ := "role", Unique := true, Required := true
                 Field := "role_id" }] }]

/-- The graph the loop over `resolve` leaves for `bossSchemas`. -/
def bossResolved : Graph := okGraph (resolveStage sampleEnv none bossSchemas)

/-- A pet has friends through the type `ghost`, which no schema declares, and after
that edge one owner, through `ownership`: the edge `friends` is M2M, the unique
assoc edge `owner` is M2O. -/
def ghostSchemas : List Schema :=
  [{ Name := "pet"
     Edges := [{ Name := "friends", Typ := "pet"
                 Through := some ⟨"friendships", "ghost"⟩ },
               { Name := "owner", Typ := "user", Unique := true
                 Through := some ⟨"ownerships", "ownership"⟩ }] },
   { Name := "user" }]

/-- The graph the loop over `resolve` leaves for `ghostSchemas`. -/
def ghostResolved : Graph := okGraph (resolveStage sampleEnv none ghostSchemas)

/-- Where `NewGraph` stopped with the `graphError` text `msg`, and the graph `s` it
had built by then.  Each case names the stages that had succeeded, the iterations
of the failing loop that had succeeded, and the failing iteration.  The checks of
`addNode`, `addEdges` and `resolve` come before their writes, so `s` is the graph
the iterations before the failing one produced; a failing call of `setupFKs` leaves
the graph `fkFailure` gives; a failing iteration of `edgeSchemas` leaves the graph
of `edgeSchemaP`, with the writes made before the failing check. -/
inductive Stopped (env : Env) (c : Option TypeInfo) (schemas : List Schema) (msg : String)
    (s : Graph) : Prop where
  | addNode (k : Nat) (sch : Schema) (hk : schemas[k]? = some sch)
      (hpre : forEach addNode { IDType := c, Nodes := [] } (schemas.take k) = Except.ok s)
      (hfail : addNode s sch = Except.error (Failure.error msg)) :
      Stopped env c schemas msg s
  | addEdgesType (g1 : Graph) (k : Nat) (sch : Schema)
      (h1 : forEach addNode { IDType := c, Nodes := [] } schemas = Except.ok g1)
      (hk : schemas[k]? = some sch)
      (hpre : forEach addEdges g1 (schemas.take k) = Except.ok s)
      (hty : s.typ sch.Name = none)
      (hfail : addEdges s sch = Except.error (Failure.error msg)) :
      Stopped env c schemas msg s
  | addEdges (g1 g : Graph) (k : Nat) (sch : Schema) (t j : Nat) (e : LoadEdge)
      (seen : List String)
      (h1 : forEach addNode { IDType := c, Nodes := [] } schemas = Except.ok g1)
      (hk : schemas[k]? = some sch)
      (hpre : forEach addEdges g1 (schemas.take k) = Except.ok g)
      (hty : g.typ sch.Name = some t) (hj : sch.Edges[j]? = some e)
      (hedges : forEach (addEdge sch.Name t) (g, []) (sch.Edges.take j) = Except.ok (s, seen))
      (hfail : addEdge sch.Name t (s, seen) e = Except.error (Failure.error msg)) :
      Stopped env c schemas msg s
  | resolve (g2 g : Graph) (i j : Nat) (err : String)
      (h2 : edgesStage c schemas = Except.ok g2) (hi : i < g2.Nodes.length)
      (hpre : forEach (resolveNode env) g2 (List.range i) = Except.ok g)
      (hj : j < (g.node i).Edges.length)
      (hedges : forEach (resolveEdge env i) g (List.range j) = Except.ok s)
      (hfail : resolveEdge env i s j = Except.error err)
      (hmsg : msg = "resolve " ++ quote (g.node i).Name ++ " relations: " ++ err) :
      Stopped env c schemas msg s
  | setupFKs (g3 g : Graph) (i : Nat) (err : String)
      (h3 : resolveStage env c schemas = Except.ok g3) (hi : i < g3.Nodes.length)
      (hpre : forEach (setupFKsNode env) g3 (List.range i) = Except.ok g)
      (hfail : env.fkFailure g i = some (err, s))
      (hmsg : msg = "set " ++ quote (g.node i).Name ++ " foreign-keys: " ++ err) :
      Stopped env c schemas msg s
  | edgeSchemas (g3 g4 g t : Graph) (i j : Nat) (err : String)
      (h3 : resolveStage env c schemas = Except.ok g3)
      (h4 : forEach (setupFKsNode env) g3 (List.range g3.Nodes.length) = Except.ok g4)
      (hi : i < g4.Nodes.length)
      (hpre : forEach (edgeSchemasNode env) g4 (List.range i) = Except.ok g)
      (hj : j < (g.node i).Edges.length)
      (hedges : forEach (edgeSchema env i) g (List.range j) = Except.ok t)
      (hfail : edgeSchemaP env i t j = Except.error (Failure.error err, s))
      (hmsg : msg = "resolving edges: " ++ err) :
      Stopped env c schemas msg s

/-! ## Loops and graph updates -/

theorem forEach_inv {σ α ε : Type} {f : σ → α → Except ε σ} {P : σ → Prop}
    (hstep : ∀ s a s', P s → f s a = Except.ok s' → P s') :
    ∀ (l : List α) (s s' : σ), P s → forEach f s l = Except.ok s' → P s' := by
  intro l
  induction l with
  | nil =>
    intro s s' hs h
    simp only [forEach, Except.ok.injEq] at h
    exact h ▸ hs
  | cons a as ih =>
    intro s s' hs h
    simp only [forEach] at h
    split at h
    · next s1 h1 => exact ih s1 s' (hstep s a s1 hs h1) h
    · simp at h

theorem forEach_inv_mem {σ α ε : Type} {f : σ → α → Except ε σ} {P : σ → Prop} :
    ∀ (l : List α) (s s' : σ), (∀ s a s', a ∈ l → P s → f s a = Except.ok s' → P s') →
      P s → forEach f s l = Except.ok s' → P s' := by
  intro l
  induction l with
  | nil =>
    intro s s' _ hs h
    simp only [forEach, Except.ok.injEq] at h
    exact h ▸ hs
  | cons a as ih =>
    intro s s' hstep hs h
    simp only [forEach] at h
    split at h
    · next s1 h1 =>
      exact ih s1 s' (fun s a' s' ha => hstep s a' s' (List.mem_cons_of_mem _ ha))
        (hstep s a s1 (List.mem_cons_self _ _) hs h1) h
    · simp at h

/-- Every element of the list gets `Q` from its own step, and later steps keep it. -/
theorem forEach_establish {σ α ε : Type} {f : σ → α → Except ε σ} {P : σ → Prop}
    {Q : α → σ → Prop}
    (hP : ∀ s a s', P s → f s a = Except.ok s' → P s')
    (hQ : ∀ s a s', P s → f s a = Except.ok s' → Q a s')
    (hkeep : ∀ s a b s', P s → Q b s → f s a = Except.ok s' → Q b s') :
    ∀ (l : List α) (s s' : σ), P s → forEach f s l = Except.ok s' →
      ∀ b ∈ l, Q b s' := by
  intro l
  induction l with
  | nil => intro s s' _ _ b hb; simp at hb
  | cons a as ih =>
    intro s s' hs h b hb
    simp only [forEach] at h
    split at h
    · next s1 h1 =>
      rcases List.mem_cons.mp hb with rfl | hb
      · exact (forEach_inv (P := fun t => P t ∧ Q b t)
          (fun t a' t' hq ht => ⟨hP t a' t' hq.1 ht, hkeep t a' b t' hq.1 hq.2 ht⟩)
          as s1 s' ⟨hP s b s1 hs h1, hQ s b s1 hs h1⟩ h).2
      · exact ih s1 s' (hP s a s1 hs h1) h b hb
    · simp at h

theorem Graph.node_eq (g : Graph) (n : Nat) : g.node n = (g.Nodes[n]?).getD default := by
  unfold Graph.node
  rw [List.getD_eq_getElem?_getD]

theorem Graph.edge?_eq (g : Graph) (p : EdgePtr) :
    g.edge? p = (g.node p.node).Edges[p.idx]? := by
  rw [Graph.node_eq]
  unfold Graph.edge?
  cases h : g.Nodes[p.node]? with
  | none => rfl
  | some t => rfl

theorem Graph.edge?_lt {g : Graph} {p : EdgePtr} {e : Edge} (h : g.edge? p = some e) :
    p.node < g.Nodes.length ∧ p.idx < (g.node p.node).Edges.length := by
  constructor
  · unfold Graph.edge? at h
    cases hn : g.Nodes[p.node]? with
    | none => simp [hn] at h
    | some t => exact (List.getElem?_eq_some_iff.mp hn).1
  · rw [Graph.edge?_eq] at h
    exact (List.getElem?_eq_some_iff.mp h).1

theorem Graph.length_modifyNode (g : Graph) (i : Nat) (f : Node → Node) :
    (g.modifyNode i f).Nodes.length = g.Nodes.length := by
  simp [Graph.modifyNode]

theorem Graph.IDType_modifyNode (g : Graph) (i : Nat) (f : Node → Node) :
    (g.modifyNode i f).IDType = g.IDType := rfl

theorem Graph.node_modifyNode_of_ne (g : Graph) {i n : Nat} (f : Node → Node) (h : n ≠ i) :
    (g.modifyNode i f).node n = g.node n := by
  simp [Graph.node_eq, Graph.modifyNode, List.getElem?_modify_ne _ _ (Ne.symm h)]

theorem Graph.node_modifyNode_self (g : Graph) {i : Nat} (f : Node → Node)
    (h : i < g.Nodes.length) : (g.modifyNode i f).node i = f (g.node i) := by
  simp [Graph.node_eq, Graph.modifyNode, List.getElem?_eq_getElem h]

/-- A node update that keeps a projection of every node keeps it on the graph. -/
theorem Graph.node_modifyNode_proj {β : Type} (π : Node → β) (g : Graph) (i n : Nat)
    (f : Node → Node) (hf : ∀ t, π (f t) = π t) :
    π ((g.modifyNode i f).node n) = π (g.node n) := by
  by_cases h : n = i
  · subst h
    by_cases hl : n < g.Nodes.length
    · rw [Graph.node_modifyNode_self g f hl, hf]
    · have h1 : (g.modifyNode n f).Nodes[n]? = none := by
        apply List.getElem?_eq_none
        rw [Graph.length_modifyNode]; omega
      have h2 : g.Nodes[n]? = none := List.getElem?_eq_none (by omega)
      rw [Graph.node_eq, Graph.node_eq, h1, h2]
  · rw [Graph.node_modifyNode_of_ne g f h]

theorem Graph.edge?_modifyNode_keep (g : Graph) (i : Nat) (f : Node → Node)
    (hf : ∀ t, (f t).Edges = t.Edges) (q : EdgePtr) :
    (g.modifyNode i f).edge? q = g.edge? q := by
  rw [Graph.edge?_eq, Graph.edge?_eq, Graph.node_modifyNode_proj (fun t => t.Edges) g i q.node f hf]

theorem Graph.edge?_setEdge (g : Graph) (p q : EdgePtr) (e : Edge) :
    (g.setEdge p e).edge? q = if q = p then (g.edge? p).map (fun _ => e) else g.edge? q := by
  by_cases h : q = p
  · subst h
    simp only [if_true]
    unfold Graph.setEdge Graph.edge? Graph.modifyNode
    simp only [List.getElem?_modify_eq]
    cases hn : g.Nodes[q.node]? with
    | none => simp
    | some t => simp [List.getElem?_modify_eq]
  · simp only [if_neg h]
    by_cases hn : q.node = p.node
    · have hi : p.idx ≠ q.idx := by
        intro hi
        apply h
        cases p; cases q; simp_all
      unfold Graph.setEdge Graph.edge? Graph.modifyNode
      simp only [hn, List.getElem?_modify_eq]
      cases hn : g.Nodes[p.node]? with
      | none => simp
      | some t => simp [List.getElem?_modify_ne _ _ hi]
    · rw [Graph.edge?_eq, Graph.edge?_eq]
      unfold Graph.setEdge
      rw [Graph.node_modifyNode_of_ne g _ hn]

theorem Graph.edge?_setEdge_self {g : Graph} {p : EdgePtr} {e0 : Edge} (e : Edge)
    (h : g.edge? p = some e0) : (g.setEdge p e).edge? p = some e := by
  simp [Graph.edge?_setEdge, h]

theorem Graph.edge?_setEdge_of_ne (g : Graph) {p q : EdgePtr} (e : Edge) (h : q ≠ p) :
    (g.setEdge p e).edge? q = g.edge? q := by
  simp [Graph.edge?_setEdge, h]

theorem Graph.length_setEdge (g : Graph) (p : EdgePtr) (e : Edge) :
    (g.setEdge p e).Nodes.length = g.Nodes.length := by
  simp [Graph.setEdge, Graph.length_modifyNode]

/-- Writing an edge keeps every member of a node other than its edges. -/
theorem Graph.node_setEdge_proj {β : Type} (π : Node → β)
    (hπ : ∀ (t : Node) (es : List Edge), π { t with Edges := es } = π t)
    (g : Graph) (p : EdgePtr) (e : Edge) (n : Nat) :
    π ((g.setEdge p e).node n) = π (g.node n) :=
  Graph.node_modifyNode_proj π g p.node n _ (fun t => hπ t _)

/-- Appending an edge keeps every member of a node other than its edges. -/
theorem Graph.node_appendEdge_proj {β : Type} (π : Node → β)
    (hπ : ∀ (t : Node) (es : List Edge), π { t with Edges := es } = π t)
    (g : Graph) (i : Nat) (e : Edge) (n : Nat) :
    π ((g.appendEdge i e).node n) = π (g.node n) :=
  Graph.node_modifyNode_proj π g i n _ (fun t => hπ t _)

theorem Graph.edge?_appendEdge (g : Graph) (i : Nat) (e : Edge) (q : EdgePtr) :
    (g.appendEdge i e).edge? q =
      if q.node = i ∧ i < g.Nodes.length ∧ q.idx = (g.node i).Edges.length then some e
      else g.edge? q := by
  by_cases hn : q.node = i
  · by_cases hl : i < g.Nodes.length
    · rw [Graph.edge?_eq, Graph.edge?_eq]
      unfold Graph.appendEdge
      rw [hn, Graph.node_modifyNode_self g _ hl]
      simp only [hn, hl, true_and]
      by_cases hi : q.idx = (g.node i).Edges.length
      · simp [hi]
      · simp only [if_neg hi]
        rcases Nat.lt_or_gt_of_ne hi with h1 | h1
        · rw [List.getElem?_append_left h1]
        · rw [List.getElem?_eq_none (by simp; omega), List.getElem?_eq_none (by omega)]
    · have : ¬ (q.node = i ∧ i < g.Nodes.length ∧ q.idx = (g.node i).Edges.length) := by
        intro h; exact hl h.2.1
      rw [if_neg this]
      have h1 : (g.appendEdge i e).Nodes[q.node]? = none := by
        apply List.getElem?_eq_none
        unfold Graph.appendEdge
        rw [Graph.length_modifyNode]; omega
      have h2 : g.Nodes[q.node]? = none := List.getElem?_eq_none (by omega)
      unfold Graph.edge?
      rw [h1, h2]
  · have : ¬ (q.node = i ∧ i < g.Nodes.length ∧ q.idx = (g.node i).Edges.length) := by
      intro h; exact hn h.1
    rw [if_neg this, Graph.edge?_eq, Graph.edge?_eq]
    unfold Graph.appendEdge
    rw [Graph.node_modifyNode_of_ne g _ hn]

/-! ## Static members -/

theorem map_modify_eq {α β : Type} (f : α → β) (u : α → α) (l : List α) (k : Nat)
    (h : ∀ a, l[k]? = some a → f (u a) = f a) : (l.modify u k).map f = l.map f := by
  apply List.ext_getElem?
  intro n
  simp only [List.getElem?_map, List.getElem?_modify]
  cases hn : l[n]? with
  | none => simp
  | some a =>
    by_cases hk : k = n
    · subst hk
      simp [h a hn]
    · simp [hk]

theorem Edge.static_eq_iff (a b : Edge) : a.static = b.static ↔
    a.decl = b.decl ∧ a.Name = b.Name ∧ a.Typ = b.Typ ∧ a.Owner = b.Owner ∧
      a.Inverse = b.Inverse ∧ a.Unique = b.Unique ∧ a.Optional = b.Optional := by
  cases a; cases b; simp [Edge.static]

theorem Edge.IsInverse_static {a b : Edge} (h : a.static = b.static) :
    a.IsInverse = b.IsInverse := by
  have := (Edge.static_eq_iff a b).mp h
  simp [Edge.IsInverse, this.2.2.2.2.1]

theorem Node.static_eq_iff_node (a b : Node) : a.static = b.static ↔
    a.Name = b.Name ∧ a.TableName = b.TableName ∧ a.ID = b.ID ∧ a.Fields = b.Fields ∧
      a.Edges.map Edge.static = b.Edges.map Edge.static ∧ a.ForeignKeys = b.ForeignKeys ∧
      a.Indexes = b.Indexes ∧ a.AnnotationID = b.AnnotationID ∧ a.EdgeSchema = b.EdgeSchema := by
  cases a; cases b; simp [Node.static]

theorem Graph.static_node {g' g : Graph} (h : g'.static = g.static) (n : Nat) :
    (g'.node n).static = (g.node n).static := by
  have hn : g'.Nodes.map Node.static = g.Nodes.map Node.static := by
    have := congrArg Graph.Nodes h
    simpa [Graph.static] using this
  have h1 : ∀ (x : Graph), (x.node n).static = ((x.Nodes.map Node.static)[n]?).getD default := by
    intro x
    rw [Graph.node_eq, List.getElem?_map]
    cases x.Nodes[n]? with
    | none => rfl
    | some t => rfl
  rw [h1, h1, hn]

theorem Graph.static_length {g' g : Graph} (h : g'.static = g.static) :
    g'.Nodes.length = g.Nodes.length := by
  have := congrArg (fun x => x.Nodes.length) h
  simpa [Graph.static] using this

theorem Graph.static_name {g' g : Graph} (h : g'.static = g.static) (n : Nat) :
    (g'.node n).Name = (g.node n).Name :=
  ((Node.static_eq_iff_node _ _).mp (Graph.static_node h n)).1

theorem Graph.static_label {g' g : Graph} (h : g'.static = g.static) (env : Env) (n : Nat) :
    (g'.node n).Label env = (g.node n).Label env := by
  simp [Node.Label, Graph.static_name h n]

theorem Graph.static_table {g' g : Graph} (h : g'.static = g.static) (env : Env) (n : Nat) :
    (g'.node n).Table env = (g.node n).Table env := by
  have := (Node.static_eq_iff_node _ _).mp (Graph.static_node h n)
  simp [Node.Table, this.1, this.2.1]

theorem Graph.static_edges {g' g : Graph} (h : g'.static = g.static) (n : Nat) :
    (g'.node n).Edges.map Edge.static = (g.node n).Edges.map Edge.static :=
  ((Node.static_eq_iff_node _ _).mp (Graph.static_node h n)).2.2.2.2.1

theorem Graph.static_edges_length {g' g : Graph} (h : g'.static = g.static) (n : Nat) :
    (g'.node n).Edges.length = (g.node n).Edges.length := by
  have := congrArg List.length (Graph.static_edges h n)
  simpa using this

theorem Graph.static_edge {g' g : Graph} (h : g'.static = g.static) {p : EdgePtr} {e : Edge}
    (he : g.edge? p = some e) : ∃ e', g'.edge? p = some e' ∧ e'.static = e.static := by
  have hm := congrArg (fun l => l[p.idx]?) (Graph.static_edges h p.node)
  simp only [List.getElem?_map] at hm
  rw [Graph.edge?_eq] at he
  rw [Graph.edge?_eq]
  rw [he] at hm
  cases h' : (g'.node p.node).Edges[p.idx]? with
  | none => simp [h'] at hm
  | some e' =>
    refine ⟨e', rfl, ?_⟩
    simpa [h'] using hm

theorem Graph.static_setEdge {g : Graph} {p : EdgePtr} {e e' : Edge} (he : g.edge? p = some e)
    (hs : e'.static = e.static) : (g.setEdge p e').static = g.static := by
  unfold Graph.static Graph.setEdge Graph.modifyNode
  simp only
  congr 1
  apply map_modify_eq
  intro t ht
  unfold Node.static
  simp only
  congr 1
  apply map_modify_eq
  intro a ha
  have : g.edge? p = some a := by
    unfold Graph.edge?
    rw [ht]; exact ha
  rw [he] at this
  cases this
  exact hs

/-! ## The two branches of `resolve` -/

theorem HasAssocFrom_some {name : String} :
    ∀ (l : List Edge) (k0 k : Nat) (r : Edge), HasAssocFrom name l k0 = some (k, r) →
      k0 ≤ k ∧ l[k - k0]? = some r ∧ r.Name = name ∧ r.IsInverse = false := by
  intro l
  induction l with
  | nil => intro k0 k r h; simp [HasAssocFrom] at h
  | cons e es ih =>
    intro k0 k r h
    simp only [HasAssocFrom] at h
    split at h
    · next hc =>
      simp only [Option.some.injEq, Prod.mk.injEq] at h
      obtain ⟨rfl, rfl⟩ := h
      simp only [Bool.and_eq_true, beq_iff_eq, Bool.not_eq_true', Bool.not_eq_eq_eq_not,
        Bool.not_true] at hc
      simp [hc.1, hc.2]
    · obtain ⟨h1, h2, h3, h4⟩ := ih (k0 + 1) k r h
      refine ⟨by omega, ?_, h3, h4⟩
      have : k - k0 = (k - (k0 + 1)) + 1 := by omega
      rw [this, List.getElem?_cons_succ]
      exact h2

theorem HasAssocFrom_static (name : String) :
    ∀ (l l' : List Edge) (k0 : Nat), l'.map Edge.static = l.map Edge.static →
      (HasAssocFrom name l' k0).map (fun x => (x.1, x.2.static)) =
        (HasAssocFrom name l k0).map (fun x => (x.1, x.2.static)) := by
  intro l
  induction l with
  | nil =>
    intro l' k0 h
    cases l' with
    | nil => rfl
    | cons a as => simp at h
  | cons e es ih =>
    intro l' k0 h
    cases l' with
    | nil => simp at h
    | cons a as =>
      simp only [List.map_cons, List.cons.injEq] at h
      have hn : a.Name = e.Name := ((Edge.static_eq_iff a e).mp h.1).2.1
      have hi : a.IsInverse = e.IsInverse := Edge.IsInverse_static h.1
      simp only [HasAssocFrom, hn, hi]
      split
      · simp [h.1]
      · exact ih as (k0 + 1) h.2

theorem Node.HasAssoc_edge {g : Graph} {n k : Nat} {name : String} {r : Edge}
    (h : (g.node n).HasAssoc name = some (k, r)) :
    g.edge? ⟨n, k⟩ = some r ∧ r.Name = name ∧ r.IsInverse = false := by
  obtain ⟨_, h2, h3, h4⟩ := HasAssocFrom_some _ 0 k r h
  refine ⟨?_, h3, h4⟩
  rw [Graph.edge?_eq]
  simpa using h2

theorem Node.HasAssoc_static {g' g : Graph} (hs : g'.static = g.static) {n k : Nat}
    {name : String} {r : Edge} (h : (g.node n).HasAssoc name = some (k, r)) :
    ∃ r', (g'.node n).HasAssoc name = some (k, r') ∧ r'.static = r.static := by
  have := HasAssocFrom_static name (g.node n).Edges (g'.node n).Edges 0
    (Graph.static_edges hs n)
  unfold Node.HasAssoc at h ⊢
  rw [h] at this
  cases h' : HasAssocFrom name (g'.node n).Edges 0 with
  | none => simp [h'] at this
  | some x =>
    simp only [h', Option.map_some', Option.some.injEq, Prod.mk.injEq] at this
    exact ⟨x.2, by rw [← this.1], this.2⟩

theorem Node.HasAssoc_static_none {g' g : Graph} (hs : g'.static = g.static) {n : Nat}
    {name : String} (h : (g.node n).HasAssoc name = none) :
    (g'.node n).HasAssoc name = none := by
  have := HasAssocFrom_static name (g.node n).Edges (g'.node n).Edges 0
    (Graph.static_edges hs n)
  unfold Node.HasAssoc at h ⊢
  rw [h] at this
  cases h' : HasAssocFrom name (g'.node n).Edges 0 with
  | none => rfl
  | some x => simp [h'] at this

theorem linkPair_static (env : Env) (g : Graph) (p q : EdgePtr) (e ref : Edge) :
    (linkPair env g p q e ref).1.static = e.static ∧
      (linkPair env g p q e ref).2.static = ref.static := by
  unfold linkPair
  simp only
  split_ifs <;> simp [Edge.static]

theorem linkPair_Ref (env : Env) (g : Graph) (p q : EdgePtr) (e ref : Edge) :
    (linkPair env g p q e ref).1.Ref = some q ∧ (linkPair env g p q e ref).2.Ref = some p := by
  unfold linkPair
  simp only
  split_ifs <;> simp

theorem linkPair_keep (env : Env) (g : Graph) (p q : EdgePtr) (e ref : Edge) :
    (linkPair env g p q e ref).1.Bidi = e.Bidi ∧ (linkPair env g p q e ref).1.Through = e.Through ∧
      (linkPair env g p q e ref).2.Bidi = ref.Bidi ∧
      (linkPair env g p q e ref).2.Through = ref.Through := by
  unfold linkPair
  simp only
  split_ifs <;> simp

theorem linkPair_Typ (env : Env) (g : Graph) (p q : EdgePtr) (e ref : Edge) :
    (linkPair env g p q e ref).1.Rel.Typ ≠ Rel.Unk ∧
      (linkPair env g p q e ref).2.Rel.Typ ≠ Rel.Unk := by
  unfold linkPair
  simp only
  split_ifs <;> simp

/-- The relations written by the linking branch depend on static members only. -/
theorem linkPair_congr (env : Env) {g' g : Graph} (hs : g'.static = g.static)
    {p p' : EdgePtr} (hp : p'.node = p.node) (q q' : EdgePtr) {e e' ref ref' : Edge}
    (he : e'.static = e.static) (hr : ref'.static = ref.static) :
    (linkPair env g' p' q' e' ref').1.Rel = (linkPair env g p q e ref).1.Rel ∧
      (linkPair env g' p' q' e' ref').2.Rel = (linkPair env g p q e ref).2.Rel := by
  obtain ⟨-, he1, he2, he3, -, he5, -⟩ := (Edge.static_eq_iff _ _).mp he
  obtain ⟨-, hr1, hr2, hr3, -, hr5, -⟩ := (Edge.static_eq_iff _ _).mp hr
  unfold linkPair
  simp only [he1, he2, he3, he5, hr1, hr2, hr3, hr5, hp, Graph.static_label hs,
    Graph.static_table hs]
  split_ifs <;> simp

theorem soloEdge_static (env : Env) (g : Graph) (i : Nat) (e : Edge) :
    (soloEdge env g i e).static = e.static := by
  unfold soloEdge
  simp only
  split_ifs <;> simp [Edge.static]

theorem soloEdge_keep (env : Env) (g : Graph) (i : Nat) (e : Edge) :
    (soloEdge env g i e).Ref = e.Ref ∧ (soloEdge env g i e).Through = e.Through := by
  unfold soloEdge
  simp only
  split_ifs <;> simp

theorem soloEdge_Typ (env : Env) (g : Graph) (i : Nat) (e : Edge) :
    (soloEdge env g i e).Rel.Typ ≠ Rel.Unk := by
  unfold soloEdge
  simp only
  split_ifs <;> simp

/-- The relation written by the unpaired branch depends on static members only. -/
theorem soloEdge_congr (env : Env) {g' g : Graph} (hs : g'.static = g.static) (i : Nat)
    {e e' : Edge} (he : e'.static = e.static) :
    (soloEdge env g' i e').Rel = (soloEdge env g i e).Rel := by
  obtain ⟨-, he1, he2, he3, -, he5, -⟩ := (Edge.static_eq_iff _ _).mp he
  unfold soloEdge
  simp only [he1, he2, he3, he5, Graph.static_label hs, Graph.static_table hs]
  split_ifs <;> simp_all [Edge.M2M]

theorem resolveEdge_step {env : Env} {i j : Nat} {g g' : Graph}
    (h : resolveEdge env i g j = Except.ok g') : ResolveStep env i j g g' := by
  unfold resolveEdge at h
  split at h
  · next hn =>
    simp only [Except.ok.injEq] at h
    subst h
    exact ResolveStep.skip (Or.inl hn)
  · next e he =>
    simp only at h
    split at h
    · next hinv =>
      split at h
      · simp at h
      · next k ref href =>
        split at h
        · simp at h
        · next hreq =>
          split at h
          · simp at h
          · next hty =>
            simp only [Except.ok.injEq] at h
            subst h
            refine ResolveStep.link e k ref he hinv href ?_ ?_
            · cases h1 : e.Optional <;> cases h2 : ref.Optional <;> simp_all
            · simpa using hty
    · next hinv =>
      split at h
      · next hunk =>
        simp only [Except.ok.injEq] at h
        subst h
        exact ResolveStep.solo e he (by simpa using hinv) (by simpa using hunk)
      · next hunk =>
        simp only [Except.ok.injEq] at h
        subst h
        exact ResolveStep.skip (Or.inr ⟨e, he, by simpa using hinv, by simpa using hunk⟩)

/-- In the linking branch the inverse edge and its assoc edge are two objects. -/
theorem link_ne {g : Graph} {p : EdgePtr} {e ref : Edge} {k : Nat} (he : g.edge? p = some e)
    (hinv : e.IsInverse = true) (href : (g.node e.Typ).HasAssoc e.Inverse = some (k, ref)) :
    p ≠ ⟨e.Typ, k⟩ := by
  intro hp
  obtain ⟨h1, -, h3⟩ := Node.HasAssoc_edge href
  rw [← hp, he] at h1
  cases h1
  rw [hinv] at h3
  cases h3

theorem ResolveStep.static {env : Env} {i j : Nat} {g g' : Graph}
    (h : ResolveStep env i j g g') : g'.static = g.static := by
  cases h with
  | skip _ => rfl
  | solo e he hinv hunk => exact Graph.static_setEdge he (soloEdge_static env g i e)
  | link e k ref he hinv href hreq hty =>
    have hne := link_ne he hinv href
    have h1 := @Graph.static_setEdge g ⟨i, j⟩ e (linkPair env g ⟨i, j⟩ ⟨e.Typ, k⟩ e ref).1
      he (linkPair_static env g _ _ e ref).1
    have h2 : (g.setEdge ⟨i, j⟩ (linkPair env g ⟨i, j⟩ ⟨e.Typ, k⟩ e ref).1).edge? ⟨e.Typ, k⟩
        = some ref := by
      rw [Graph.edge?_setEdge_of_ne g _ (Ne.symm hne)]
      exact (Node.HasAssoc_edge href).1
    rw [Graph.static_setEdge h2 (linkPair_static env g _ _ e ref).2, h1]

/-- A relation kind that is set stays set. -/
theorem ResolveStep.done_keep {env : Env} {i j : Nat} {g g' : Graph}
    (h : ResolveStep env i j g g') {q : EdgePtr} (hq : g.Done q) : g'.Done q := by
  obtain ⟨x, hx, hxt⟩ := hq
  cases h with
  | skip _ => exact ⟨x, hx, hxt⟩
  | solo e he hinv hunk =>
    by_cases hqp : q = ⟨i, j⟩
    · subst hqp
      exact ⟨_, Graph.edge?_setEdge_self _ he, soloEdge_Typ env g i e⟩
    · exact ⟨x, by rw [Graph.edge?_setEdge_of_ne g _ hqp]; exact hx, hxt⟩
  | link e k ref he hinv href hreq hty =>
    have hne := link_ne he hinv href
    have hr := (Node.HasAssoc_edge href).1
    by_cases hq1 : q = ⟨e.Typ, k⟩
    · subst hq1
      refine ⟨_, @Graph.edge?_setEdge_self _ _ ref _ ?_, (linkPair_Typ env g _ _ e ref).2⟩
      rw [Graph.edge?_setEdge_of_ne g _ (Ne.symm hne)]; exact hr
    · by_cases hq2 : q = ⟨i, j⟩
      · subst hq2
        refine ⟨_, ?_, (linkPair_Typ env g ⟨i, j⟩ ⟨e.Typ, k⟩ e ref).1⟩
        rw [Graph.edge?_setEdge_of_ne _ _ hq1]
        exact Graph.edge?_setEdge_self _ he
      · refine ⟨x, ?_, hxt⟩
        rw [Graph.edge?_setEdge_of_ne _ _ hq1, Graph.edge?_setEdge_of_ne _ _ hq2]
        exact hx

/-- The iteration on an existing edge leaves its relation kind set. -/
theorem ResolveStep.done_self {env : Env} {i j : Nat} {g g' : Graph}
    (h : ResolveStep env i j g g') (hj : j < (g.node i).Edges.length) : g'.Done ⟨i, j⟩ := by
  have hex : ∃ e, g.edge? ⟨i, j⟩ = some e := by
    rw [Graph.edge?_eq]
    exact ⟨_, List.getElem?_eq_getElem hj⟩
  cases h with
  | skip h0 =>
    rcases h0 with h0 | ⟨e, he, _, ht⟩
    · obtain ⟨e, he⟩ := hex
      rw [h0] at he; cases he
    · exact ⟨e, he, ht⟩
  | solo e he hinv hunk => exact ⟨_, Graph.edge?_setEdge_self _ he, soloEdge_Typ env g i e⟩
  | link e k ref he hinv href hreq hty =>
    have hne := link_ne he hinv href
    refine ⟨_, ?_, (linkPair_Typ env g ⟨i, j⟩ ⟨e.Typ, k⟩ e ref).1⟩
    rw [Graph.edge?_setEdge_of_ne _ _ hne]
    exact Graph.edge?_setEdge_self _ he

/-! ## The invariant of the loop over `resolve` -/

theorem Graph.PairedWith.transfer {env : Env} {g g' : Graph} (hs : g'.static = g.static)
    {q : EdgePtr} {a : Edge} (hp : g.PairedWith env q a)
    (hkeep : ∀ p e, a.Ref = some p → g.edge? p = some e → g'.edge? p = some e) :
    g'.PairedWith env q a := by
  obtain ⟨p, e, h1, h2, h3, h4, h5, h6⟩ := hp
  refine ⟨p, e, h1, hkeep p e h1 h2, h3, h4, h5, ?_⟩
  rw [h6, (linkPair_congr env hs (rfl : p.node = p.node) q q rfl rfl).2]

theorem Graph.PairedWith.typ {env : Env} {g : Graph} {q : EdgePtr} {a : Edge}
    (hp : g.PairedWith env q a) : a.Rel.Typ ≠ Rel.Unk := by
  obtain ⟨p, e, _, _, _, _, _, h6⟩ := hp
  rw [h6]
  exact (linkPair_Typ env g p q e a).2

theorem Graph.Linked.solo {env : Env} {g : Graph} (hl : g.Linked env) {p0 : EdgePtr}
    {e0 : Edge} (he : g.edge? p0 = some e0) (hinv : e0.IsInverse = false)
    (hunk : e0.Rel.Typ = Rel.Unk) :
    (g.setEdge p0 (soloEdge env g p0.node e0)).Linked env := by
  have hs : (g.setEdge p0 (soloEdge env g p0.node e0)).static = g.static :=
    Graph.static_setEdge he (soloEdge_static env g p0.node e0)
  have hp0 : (g.setEdge p0 (soloEdge env g p0.node e0)).edge? p0
      = some (soloEdge env g p0.node e0) := Graph.edge?_setEdge_self _ he
  have hother : ∀ x, x ≠ p0 → (g.setEdge p0 (soloEdge env g p0.node e0)).edge? x = g.edge? x :=
    fun x hx => Graph.edge?_setEdge_of_ne g _ hx
  have hsinv : (soloEdge env g p0.node e0).IsInverse = false := by
    rw [Edge.IsInverse_static (soloEdge_static env g p0.node e0)]; exact hinv
  -- a pairing of the old graph survives: the inverse edge of a pair is not at `p0`
  have T : ∀ q a, g.PairedWith env q a →
      (g.setEdge p0 (soloEdge env g p0.node e0)).PairedWith env q a := by
    intro q a hp
    refine hp.transfer hs ?_
    intro p e hap hpe
    obtain ⟨p', e', h1, h2, h3, _⟩ := hp
    rw [hap] at h1; cases h1
    rw [hpe] at h2; cases h2
    have hpp : p ≠ p0 := by
      intro h; subst h
      rw [he] at hpe; cases hpe
      rw [hinv] at h3; cases h3
    rw [hother p hpp]; exact hpe
  constructor
  · intro p e hpe hie hte
    have hpp : p ≠ p0 := by
      intro h; subst h
      rw [hp0] at hpe; cases hpe
      rw [hsinv] at hie; cases hie
    rw [hother p hpp] at hpe
    obtain ⟨k, a, h1, h2, h3, h4, h5, h6⟩ := hl.inverse p e hpe hie hte
    obtain ⟨r', hr', hrs⟩ := Node.HasAssoc_static hs h1
    have hq : (⟨e.Typ, k⟩ : EdgePtr) ≠ p0 := by
      intro h
      have ha := (Node.HasAssoc_edge h1).1
      rw [h, he] at ha; cases ha
      exact h6.typ hunk
    have hra : r' = a := by
      have h7 := (Node.HasAssoc_edge hr').1
      rw [hother _ hq, (Node.HasAssoc_edge h1).1] at h7
      cases h7; rfl
    subst hra
    refine ⟨k, r', hr', h2, h3, h4, ?_, T _ _ h6⟩
    rw [h5, (linkPair_congr env hs (rfl : p.node = p.node) _ _ rfl rfl).1]
  · intro q a hqa hia hta
    by_cases hq : q = p0
    · subst hq
      rw [hp0] at hqa; cases hqa
      left
      exact (soloEdge_congr env hs q.node (soloEdge_static env g q.node e0)).symm
    · rw [hother q hq] at hqa
      rcases hl.assoc q a hqa hia hta with h | h
      · left
        rw [h, soloEdge_congr env hs q.node rfl]
      · right; exact T q a h

theorem Graph.Linked.link {env : Env} {g : Graph} (hl : g.Linked env) {p0 : EdgePtr}
    {e0 a0 : Edge} {k0 : Nat} (he : g.edge? p0 = some e0) (hinv : e0.IsInverse = true)
    (href : (g.node e0.Typ).HasAssoc e0.Inverse = some (k0, a0))
    (hreq : e0.Optional = true ∨ a0.Optional = true) (hty : a0.Typ = p0.node) :
    ((g.setEdge p0 (linkPair env g p0 ⟨e0.Typ, k0⟩ e0 a0).1).setEdge ⟨e0.Typ, k0⟩
      (linkPair env g p0 ⟨e0.Typ, k0⟩ e0 a0).2).Linked env := by
  obtain ⟨ha, -, hainv⟩ := Node.HasAssoc_edge href
  have hne : p0 ≠ ⟨e0.Typ, k0⟩ := link_ne he hinv href
  obtain ⟨hs1, hs2⟩ := linkPair_static env g p0 ⟨e0.Typ, k0⟩ e0 a0
  obtain ⟨hr1, hr2⟩ := linkPair_Ref env g p0 ⟨e0.Typ, k0⟩ e0 a0
  obtain ⟨ht1, ht2⟩ := linkPair_Typ env g p0 ⟨e0.Typ, k0⟩ e0 a0
  obtain ⟨e1, he1⟩ : ∃ x, x = (linkPair env g p0 ⟨e0.Typ, k0⟩ e0 a0).1 := ⟨_, rfl⟩
  obtain ⟨a1, ha1⟩ : ∃ x, x = (linkPair env g p0 ⟨e0.Typ, k0⟩ e0 a0).2 := ⟨_, rfl⟩
  simp only [← he1, ← ha1] at hs1 hs2 hr1 hr2 ht1 ht2 ⊢
  have hrel1 : e1.Rel = (linkPair env g p0 ⟨e0.Typ, k0⟩ e0 a0).1.Rel := by rw [he1]
  have hrel2 : a1.Rel = (linkPair env g p0 ⟨e0.Typ, k0⟩ e0 a0).2.Rel := by rw [ha1]
  clear he1 ha1
  obtain ⟨q0, hq0⟩ : ∃ x : EdgePtr, x = ⟨e0.Typ, k0⟩ := ⟨_, rfl⟩
  simp only [← hq0] at ha hne hr1 hrel1 hrel2 ⊢
  have hmid : (g.setEdge p0 e1).edge? q0 = some a0 := by
    rw [Graph.edge?_setEdge_of_ne g _ (Ne.symm hne)]; exact ha
  have hs : ((g.setEdge p0 e1).setEdge q0 a1).static = g.static := by
    rw [Graph.static_setEdge hmid hs2, Graph.static_setEdge he hs1]
  have hq0e : ((g.setEdge p0 e1).setEdge q0 a1).edge? q0 = some a1 :=
    Graph.edge?_setEdge_self _ hmid
  have hp0e : ((g.setEdge p0 e1).setEdge q0 a1).edge? p0 = some e1 := by
    rw [Graph.edge?_setEdge_of_ne _ _ hne]; exact Graph.edge?_setEdge_self _ he
  have hother : ∀ x, x ≠ q0 → x ≠ p0 → ((g.setEdge p0 e1).setEdge q0 a1).edge? x = g.edge? x := by
    intro x h1 h2
    rw [Graph.edge?_setEdge_of_ne _ _ h1, Graph.edge?_setEdge_of_ne _ _ h2]
  have hi1 : e1.IsInverse = true := by rw [Edge.IsInverse_static hs1]; exact hinv
  have hi2 : a1.IsInverse = false := by rw [Edge.IsInverse_static hs2]; exact hainv
  obtain ⟨-, -, he1t, -, he1i, -, he1o⟩ := (Edge.static_eq_iff _ _).mp hs1
  obtain ⟨-, -, ha1t, -, -, -, ha1o⟩ := (Edge.static_eq_iff _ _).mp hs2
  -- the new pair
  have hpaired0 : ((g.setEdge p0 e1).setEdge q0 a1).PairedWith env q0 a1 := by
    refine ⟨p0, e1, hr2, hp0e, hi1, ht1, hr1, ?_⟩
    rw [hrel2, (linkPair_congr env hs (rfl : p0.node = p0.node) q0 q0 hs1 hs2).2]
  -- an inverse edge that was linked before points to the edge `HasAssoc` finds
  have hK : e0.Rel.Typ ≠ Rel.Unk → e0.Ref = some q0 := by
    intro h
    obtain ⟨k, a, h1, h2, -⟩ := hl.inverse p0 e0 he hinv h
    rw [href] at h1
    cases h1
    rw [h2, hq0]
  have T : ∀ q a, q ≠ q0 → g.PairedWith env q a →
      ((g.setEdge p0 e1).setEdge q0 a1).PairedWith env q a := by
    intro q a hq hp
    refine hp.transfer hs ?_
    intro p e hap hpe
    obtain ⟨p', e', h1, h2, h3, h4, h5, -⟩ := hp
    rw [hap] at h1; cases h1
    rw [hpe] at h2; cases h2
    have hpq : p ≠ q0 := by
      intro h; subst h
      rw [ha] at hpe; cases hpe
      rw [hainv] at h3; cases h3
    have hpp : p ≠ p0 := by
      intro h; subst h
      rw [he] at hpe; cases hpe
      have := hK h4
      rw [h5] at this
      cases this
      exact hq rfl
    rw [hother p hpq hpp]; exact hpe
  constructor
  · intro p e hpe hie hte
    have hpq : p ≠ q0 := by
      intro h; subst h
      rw [hq0e] at hpe; cases hpe
      rw [hi2] at hie; cases hie
    by_cases hpp : p = p0
    · subst hpp
      rw [hp0e] at hpe; cases hpe
      obtain ⟨r', hr', -⟩ := Node.HasAssoc_static hs href
      have hra : r' = a1 := by
        have h7 := (Node.HasAssoc_edge hr').1
        rw [← hq0, hq0e] at h7
        cases h7; rfl
      subst hra
      rw [he1t, he1i]
      refine ⟨k0, r', hr', by rw [hr1, hq0], by rw [ha1t, hty], ?_, ?_, ?_⟩
      · rw [he1o, ha1o]; exact hreq
      · rw [← hq0, hrel1, (linkPair_congr env hs (rfl : p.node = p.node) q0 q0 hs1 hs2).1]
      · rw [← hq0]; exact hpaired0
    · rw [hother p hpq hpp] at hpe
      obtain ⟨k, a, h1, h2, h3, h4, h5, h6⟩ := hl.inverse p e hpe hie hte
      obtain ⟨r', hr', -⟩ := Node.HasAssoc_static hs h1
      obtain ⟨hae, -, hai⟩ := Node.HasAssoc_edge h1
      by_cases hq : (⟨e.Typ, k⟩ : EdgePtr) = q0
      · have hra : r' = a1 := by
          have h7 := (Node.HasAssoc_edge hr').1
          rw [hq, hq0e] at h7
          cases h7; rfl
        subst hra
        have haa : a = a0 := by
          rw [hq, ha] at hae
          cases hae; rfl
        subst haa
        refine ⟨k, r', hr', h2, by rw [ha1t, h3], ?_, ?_, ?_⟩
        · rw [ha1o]; exact h4
        · rw [h5, (linkPair_congr env hs (rfl : p.node = p.node) _ _ rfl hs2).1]
        · rw [hq]; exact hpaired0
      · have hqp : (⟨e.Typ, k⟩ : EdgePtr) ≠ p0 := by
          intro h
          rw [h, he] at hae; cases hae
          rw [hinv] at hai; cases hai
        have hra : r' = a := by
          have h7 := (Node.HasAssoc_edge hr').1
          rw [hother _ hq hqp, hae] at h7
          cases h7; rfl
        subst hra
        refine ⟨k, r', hr', h2, h3, h4, ?_, T _ _ hq h6⟩
        rw [h5, (linkPair_congr env hs (rfl : p.node = p.node) _ _ rfl rfl).1]
  · intro q a hqa hia hta
    by_cases hq : q = q0
    · subst hq
      rw [hq0e] at hqa; cases hqa
      right; exact hpaired0
    · have hqp : q ≠ p0 := by
        intro h; subst h
        rw [hp0e] at hqa; cases hqa
        rw [hi1] at hia; cases hia
      rw [hother q hq hqp] at hqa
      rcases hl.assoc q a hqa hia hta with h | h
      · left
        rw [h, soloEdge_congr env hs q.node rfl]
      · right; exact T q a hq h

theorem ResolveStep.linked {env : Env} {i j : Nat} {g g' : Graph}
    (h : ResolveStep env i j g g') (hl : g.Linked env) : g'.Linked env := by
  cases h with
  | skip _ => exact hl
  | solo e he hinv hunk => exact @Graph.Linked.solo env g hl ⟨i, j⟩ e he hinv hunk
  | link e k ref he hinv href hreq hty => exact @Graph.Linked.link env g hl ⟨i, j⟩ e ref k he hinv href hreq hty

theorem Graph.WellFormed.of_static {g g' : Graph} (hs : g'.static = g.static)
    (h : g.WellFormed) : g'.WellFormed := by
  intro p e' he'
  obtain ⟨e, he, hes⟩ := Graph.static_edge hs.symm he'
  obtain ⟨-, -, -, ho, -, -, -⟩ := (Edge.static_eq_iff _ _).mp hes
  have hd : e.decl = e'.decl := ((Edge.static_eq_iff _ _).mp hes).1
  have hi := Edge.IsInverse_static hes
  have := h p e he
  rw [hi, ho, hd] at this
  exact this

theorem ResolveStep.plain {env : Env} {i j : Nat} {g g' : Graph}
    (h : ResolveStep env i j g g') (hp : g.Plain) : g'.Plain := by
  intro q x hx
  cases h with
  | skip _ => exact hp q x hx
  | solo e he hinv hunk =>
    by_cases hq : q = ⟨i, j⟩
    · subst hq
      rw [Graph.edge?_setEdge_self _ he] at hx
      cases hx
      rw [(soloEdge_keep env g i e).2]
      exact hp _ e he
    · rw [Graph.edge?_setEdge_of_ne g _ hq] at hx
      exact hp q x hx
  | link e k ref he hinv href hreq hty =>
    have hne := link_ne he hinv href
    have hr := (Node.HasAssoc_edge href).1
    by_cases hq1 : q = ⟨e.Typ, k⟩
    · subst hq1
      rw [@Graph.edge?_setEdge_self _ _ ref _
        (by rw [Graph.edge?_setEdge_of_ne g _ (Ne.symm hne)]; exact hr)] at hx
      cases hx
      rw [(linkPair_keep env g ⟨i, j⟩ ⟨e.Typ, k⟩ e ref).2.2.2]
      exact hp _ ref hr
    · rw [Graph.edge?_setEdge_of_ne _ _ hq1] at hx
      by_cases hq2 : q = ⟨i, j⟩
      · subst hq2
        rw [Graph.edge?_setEdge_self _ he] at hx
        cases hx
        rw [(linkPair_keep env g ⟨i, j⟩ ⟨e.Typ, k⟩ e ref).2.1]
        exact hp _ e he
      · rw [Graph.edge?_setEdge_of_ne _ _ hq2] at hx
        exact hp q x hx

theorem Graph.Fresh.toLinked {env : Env} {g : Graph} (h : g.Fresh) : g.Linked env := by
  constructor
  · intro p e he _ ht
    exact absurd (by rw [h p e he]) ht
  · intro p e he _ ht
    exact absurd (by rw [h p e he]) ht

theorem ResolveStep.resolving {env : Env} {i j : Nat} {g0 g g' : Graph}
    (h : ResolveStep env i j g g') (hr : g.Resolving env g0) : g'.Resolving env g0 :=
  ⟨h.static.trans hr.static, h.linked hr.linked, h.plain hr.plain⟩

theorem resolve_resolving {env : Env} {i : Nat} {g0 g g' : Graph}
    (h : resolve env g i = Except.ok g') (hr : g.Resolving env g0) : g'.Resolving env g0 :=
  forEach_inv (P := fun s => s.Resolving env g0)
    (fun _ _ _ hs hstep => (resolveEdge_step hstep).resolving hs) _ g g' hr h

theorem resolve_static {env : Env} {i : Nat} {g g' : Graph}
    (h : resolve env g i = Except.ok g') : g'.static = g.static :=
  forEach_inv (P := fun s => s.static = g.static)
    (fun _ _ _ hs hstep => (resolveEdge_step hstep).static.trans hs) _ g g' rfl h

theorem resolve_done_keep {env : Env} {i : Nat} {g g' : Graph}
    (h : resolve env g i = Except.ok g') {q : EdgePtr} (hq : g.Done q) : g'.Done q :=
  forEach_inv (P := fun s => s.Done q)
    (fun _ _ _ hs hstep => (resolveEdge_step hstep).done_keep hs) _ g g' hq h

theorem resolve_done_self {env : Env} {i : Nat} {g g' : Graph}
    (h : resolve env g i = Except.ok g') {j : Nat} (hj : j < (g.node i).Edges.length) :
    g'.Done ⟨i, j⟩ := by
  have := forEach_establish (f := resolveEdge env i) (P := fun s => s.static = g.static)
    (Q := fun j s => j < (g.node i).Edges.length → s.Done ⟨i, j⟩)
    (fun s a s' hs hstep => (resolveEdge_step hstep).static.trans hs)
    (fun s a s' hs hstep ha =>
      (resolveEdge_step hstep).done_self (by rw [Graph.static_edges_length hs]; exact ha))
    (fun s a b s' _ hq hstep hb => (resolveEdge_step hstep).done_keep (hq hb))
    _ g g' rfl h j (List.mem_range.mpr hj)
  exact this hj

theorem resolveNode_ok {env : Env} {i : Nat} {g g' : Graph}
    (h : resolveNode env g i = Except.ok g') : resolve env g i = Except.ok g' := by
  unfold resolveNode at h
  split at h
  · next g1 h1 =>
    simp only [Except.ok.injEq] at h
    rw [h1, h]
  · simp at h

/-- The loop over `resolve`: it keeps the static members and the invariant, and
leaves every edge with its relation kind set. -/
theorem resolveAll {env : Env} {g g' : Graph}
    (h : forEach (resolveNode env) g (List.range g.Nodes.length) = Except.ok g')
    (hl : g.Linked env) (hp : g.Plain) :
    g'.Resolving env g ∧ ∀ p e, g'.edge? p = some e → e.Rel.Typ ≠ Rel.Unk := by
  have h1 : g'.Resolving env g :=
    forEach_inv (P := fun s => s.Resolving env g)
      (fun _ _ _ hs hstep => resolve_resolving (resolveNode_ok hstep) hs) _ g g' ⟨rfl, hl, hp⟩ h
  refine ⟨h1, ?_⟩
  have h2 := forEach_establish (f := resolveNode env) (P := fun s => s.static = g.static)
    (Q := fun i s => ∀ j, j < (g.node i).Edges.length → s.Done ⟨i, j⟩)
    (fun s a s' hs hstep => (resolve_static (resolveNode_ok hstep)).trans hs)
    (fun s a s' hs hstep j hj =>
      resolve_done_self (resolveNode_ok hstep) (by rw [Graph.static_edges_length hs]; exact hj))
    (fun s a b s' _ hq hstep j hj => resolve_done_keep (resolveNode_ok hstep) (hq j hj))
    _ g g' rfl h
  intro p e he
  obtain ⟨e0, he0, -⟩ := Graph.static_edge h1.static.symm he
  obtain ⟨hn, hi⟩ := Graph.edge?_lt he0
  obtain ⟨x, hx, hxt⟩ := h2 p.node (List.mem_range.mpr hn) p.idx hi
  rw [he] at hx
  cases hx
  exact hxt

/-! ## The stages before `resolve` -/

theorem NewType_edges {s : Schema} {t : Node} (h : NewType s = Except.ok t) : t.Edges = [] := by
  unfold NewType at h
  split at h
  · simp at h
  · simp only [Except.ok.injEq] at h
    rw [← h]

theorem addNode_edge {g g' : Graph} {s : Schema} (h : addNode g s = Except.ok g')
    (p : EdgePtr) : g'.edge? p = g.edge? p := by
  unfold addNode at h
  split at h
  · next t ht =>
    simp only [Except.ok.injEq] at h
    subst h
    unfold Graph.edge?
    simp only
    by_cases hp : p.node < g.Nodes.length
    · rw [List.getElem?_append_left hp]
    · rw [List.getElem?_eq_none (l := g.Nodes) (by omega)]
      by_cases hp2 : p.node = g.Nodes.length
      · rw [hp2, List.getElem?_append_right (Nat.le_refl _)]
        simp [NewType_edges ht]
      · rw [List.getElem?_eq_none (by simp; omega)]
  · simp at h
  · simp at h

theorem addNodes_initial {c : Option TypeInfo} {schemas : List Schema} {g : Graph}
    (h : forEach addNode { IDType := c, Nodes := [] } schemas = Except.ok g) : g.Initial := by
  have : ∀ p, g.edge? p = none :=
    forEach_inv (P := fun s => ∀ p, s.edge? p = none)
      (fun s a s' hs hstep p => by rw [addNode_edge hstep p]; exact hs p) _ _ g
      (fun p => by simp [Graph.edge?]) h
  intro p e he
  rw [this p] at he
  cases he

theorem Graph.Initial.push {g : Graph} (h : g.Initial) (t : Nat) {e : Edge}
    (he : ∀ j, e.Initial ⟨t, j⟩) : (g.appendEdge t e).Initial := by
  intro p x hx
  rw [Graph.edge?_appendEdge] at hx
  split at hx
  · next hc =>
    cases hx
    have : p = ⟨t, p.idx⟩ := by cases p; simp_all
    rw [this]
    exact he _
  · exact h p x hx

theorem addEdge_initial {name : String} {t : Nat} {st st' : Graph × List String} {e : LoadEdge}
    (h : addEdge name t st e = Except.ok st') (hi : st.1.Initial) : st'.1.Initial := by
  unfold addEdge at h
  simp only at h
  split at h
  · simp at h
  · next typ _ =>
    split at h
    · simp at h
    · split at h
      · simp at h
      · split at h
        · next hinv =>
          simp only [Except.ok.injEq] at h
          rw [← h]
          apply hi.push
          intro j
          simp [Edge.Initial, Edge.IsInverse]
        · next hinv =>
          split at h
          · split at h
            · simp at h
            · next hrn =>
              simp only [Except.ok.injEq] at h
              rw [← h]
              apply hi.push
              intro j
              simp only [Bool.not_eq_true', Bool.not_eq_false] at hinv
              simp only [beq_iff_eq] at hrn
              simp [Edge.Initial, Edge.IsInverse, hrn, hinv]
          · next ref _ =>
            split at h
            · simp at h
            · split at h
              · simp at h
              · simp only [Except.ok.injEq] at h
                rw [← h]
                apply Graph.Initial.push
                · apply hi.push
                  intro j
                  simp only [Bool.not_eq_true', Bool.not_eq_false] at hinv
                  simp [Edge.Initial, Edge.IsInverse, hinv]
                · intro j
                  simp [Edge.Initial, Edge.IsInverse]

theorem addEdges_initial {g g' : Graph} {s : Schema} (h : addEdges g s = Except.ok g')
    (hi : g.Initial) : g'.Initial := by
  unfold addEdges at h
  split at h
  · split at h
    · simp only [Except.ok.injEq] at h
      rw [← h]; exact hi
    · split at h <;> simp at h
  · next t _ =>
    split at h
    · next st hst =>
      simp only [Except.ok.injEq] at h
      rw [← h]
      exact forEach_inv (P := fun x => x.1.Initial)
        (fun _ _ _ hs hstep => addEdge_initial hstep hs) _ _ st hi hst
    · simp at h

theorem Graph.Initial.fresh {g : Graph} (h : g.Initial) : g.Fresh := fun p e he => (h p e he).1

theorem Graph.Initial.toPlain {g : Graph} (h : g.Initial) : g.Plain :=
  fun p e he => (h p e he).2.1

theorem Graph.Initial.wellFormed {g : Graph} (h : g.Initial) : g.WellFormed :=
  fun p e he => (h p e he).2.2

theorem edgesStage_initial {c : Option TypeInfo} {schemas : List Schema} {g : Graph}
    (h : edgesStage c schemas = Except.ok g) : g.Initial := by
  unfold edgesStage at h
  split at h
  · simp at h
  · next g1 h1 =>
    exact forEach_inv (P := fun x => x.Initial)
      (fun _ _ _ hs hstep => addEdges_initial hstep hs) _ _ g (addNodes_initial h1) h

/-- A successful loop over `resolve` starts from the graph of `addEdges`, keeps
its static members and leaves a resolved graph. -/
theorem resolveStage_ok {env : Env} {c : Option TypeInfo} {schemas : List Schema}
    {g : Graph} (h : resolveStage env c schemas = Except.ok g) :
    ∃ g2, edgesStage c schemas = Except.ok g2 ∧ g.static = g2.static ∧ g.Resolved env := by
  unfold resolveStage at h
  split at h
  · simp at h
  · next g2 h2 =>
    have hi : g2.Initial := edgesStage_initial h2
    obtain ⟨hr, hd⟩ := resolveAll h hi.fresh.toLinked hi.toPlain
    exact ⟨g2, h2, hr.static, hr.linked, hr.plain, hi.wellFormed.of_static hr.static, hd⟩

theorem resolveStage_resolved {env : Env} {c : Option TypeInfo} {schemas : List Schema}
    {g : Graph} (h : resolveStage env c schemas = Except.ok g) : g.Resolved env := by
  obtain ⟨_, _, _, hr⟩ := resolveStage_ok h
  exact hr

/-! ## Closed forms of the two branches -/

theorem append_right_cancel {s t u : String} (h : s ++ u = t ++ u) : s = t := by
  have := congrArg String.data h
  simp only [String.data_append] at this
  exact String.ext (List.append_cancel_right this)

/-- The relation of the linking branch, by the two `Unique` flags. -/
theorem linkPair_rel (env : Env) (g : Graph) (p q : EdgePtr) (e ref : Edge) :
    (e.Unique = true → ref.Unique = true →
      (linkPair env g p q e ref).1.Rel = ⟨Rel.O2O, (g.node p.node).Table env,
        [(g.node e.Typ).Label env ++ "_" ++ env.snake ref.Name]⟩ ∧
      (linkPair env g p q e ref).2.Rel = ⟨Rel.O2O, (g.node p.node).Table env,
        [(g.node e.Typ).Label env ++ "_" ++ env.snake ref.Name]⟩) ∧
    (e.Unique = true → ref.Unique = false →
      (linkPair env g p q e ref).1.Rel = ⟨Rel.M2O, (g.node p.node).Table env,
        [(g.node e.Typ).Label env ++ "_" ++ env.snake ref.Name]⟩ ∧
      (linkPair env g p q e ref).2.Rel = ⟨Rel.O2M, (g.node p.node).Table env,
        [(g.node e.Typ).Label env ++ "_" ++ env.snake ref.Name]⟩) ∧
    (e.Unique = false → ref.Unique = true →
      (linkPair env g p q e ref).1.Rel = ⟨Rel.O2M, (g.node e.Typ).Table env,
        [(g.node e.Typ).Label env ++ "_" ++ env.snake ref.Name]⟩ ∧
      (linkPair env g p q e ref).2.Rel = ⟨Rel.M2O, (g.node e.Typ).Table env,
        [(g.node e.Typ).Label env ++ "_" ++ env.snake ref.Name]⟩) ∧
    (e.Unique = false → ref.Unique = false →
      (linkPair env g p q e ref).1.Rel =
        ⟨Rel.M2M, (g.node e.Typ).Label env ++ "_" ++ ref.Name,
          [(g.node ref.Owner).Label env ++ "_id",
            if (g.node ref.Owner).Label env ++ "_id" = (g.node ref.Typ).Label env ++ "_id"
            then env.singularize e.Name ++ "_id" else (g.node ref.Typ).Label env ++ "_id"]⟩ ∧
      (linkPair env g p q e ref).2.Rel = (linkPair env g p q e ref).1.Rel) := by
  unfold linkPair
  refine ⟨?_, ?_, ?_, ?_⟩ <;> intro h1 h2 <;> simp [h1, h2]

/-- The relation of the unpaired branch, by the `Unique` flag and the target. -/
theorem soloEdge_rel (env : Env) (g : Graph) (i : Nat) (e : Edge) :
    (e.Unique = false → e.Typ = i →
      (soloEdge env g i e).Rel = ⟨Rel.M2M, (g.node i).Label env ++ "_" ++ e.Name,
        [(g.node e.Owner).Label env ++ "_id", env.singularize e.Name ++ "_id"]⟩) ∧
    (e.Unique = true → e.Typ = i →
      (soloEdge env g i e).Rel = ⟨Rel.O2O, (g.node i).Table env,
        [(g.node i).Label env ++ "_" ++ env.snake e.Name]⟩) ∧
    (e.Unique = true → e.Typ ≠ i →
      (soloEdge env g i e).Rel = ⟨Rel.M2O, (g.node i).Table env,
        [(g.node i).Label env ++ "_" ++ env.snake e.Name]⟩) ∧
    (e.Unique = false → e.Typ ≠ i →
      (soloEdge env g i e).Rel = ⟨Rel.O2M, (g.node e.Typ).Table env,
        [(g.node i).Label env ++ "_" ++ env.snake e.Name]⟩) := by
  unfold soloEdge
  refine ⟨?_, ?_, ?_, ?_⟩ <;> intro h1 h2 <;> simp [h1, h2, Edge.M2M]

/-! ## Relation kinds -/

/-- C1: when `resolve` links an inverse edge `e` to the assoc edge `ref` that
`HasAssoc` finds for it (the three checks pass), the iteration succeeds, the two
edges point to each other, and their relation kinds are given by the two `Unique`
flags alone: (e.Unique, ref.Unique) = (T,T) gives O2O/O2O, (T,F) gives M2O for `e`
and O2M for `ref`, (F,T) gives O2M for `e` and M2O for `ref`, (F,F) gives M2M/M2M. -/
theorem resolve_link_kinds (env : Env) (g : Graph) (i j k : Nat) (e ref : Edge)
    (he : g.edge? ⟨i, j⟩ = some e) (hinv : e.IsInverse = true)
    (href : (g.node e.Typ).HasAssoc e.Inverse = some (k, ref))
    (hreq : e.Optional = true ∨ ref.Optional = true) (hty : ref.Typ = i) :
    ∃ g' e' ref', resolveEdge env i g j = Except.ok g' ∧
      g'.edge? ⟨i, j⟩ = some e' ∧ g'.edge? ⟨e.Typ, k⟩ = some ref' ∧
      e'.Ref = some ⟨e.Typ, k⟩ ∧ ref'.Ref = some ⟨i, j⟩ ∧
      (e.Unique = true → ref.Unique = true → e'.Rel.Typ = Rel.O2O ∧ ref'.Rel.Typ = Rel.O2O) ∧
      (e.Unique = true → ref.Unique = false → e'.Rel.Typ = Rel.M2O ∧ ref'.Rel.Typ = Rel.O2M) ∧
      (e.Unique = false → ref.Unique = true → e'.Rel.Typ = Rel.O2M ∧ ref'.Rel.Typ = Rel.M2O) ∧
      (e.Unique = false → ref.Unique = false → e'.Rel.Typ = Rel.M2M ∧ ref'.Rel.Typ = Rel.M2M) := by
  have hne := link_ne he hinv href
  have hr := (Node.HasAssoc_edge href).1
  have hstep : resolveEdge env i g j = Except.ok
      ((g.setEdge ⟨i, j⟩ (linkPair env g ⟨i, j⟩ ⟨e.Typ, k⟩ e ref).1).setEdge ⟨e.Typ, k⟩
        (linkPair env g ⟨i, j⟩ ⟨e.Typ, k⟩ e ref).2) := by
    unfold resolveEdge
    have hb : (!e.Optional && !ref.Optional) = false := by
      rcases hreq with h | h <;> simp [h]
    simp [he, hinv, href, hb, hty]
  obtain ⟨h1, h2, h3, h4⟩ := linkPair_rel env g ⟨i, j⟩ ⟨e.Typ, k⟩ e ref
  refine ⟨_, (linkPair env g ⟨i, j⟩ ⟨e.Typ, k⟩ e ref).1,
    (linkPair env g ⟨i, j⟩ ⟨e.Typ, k⟩ e ref).2, hstep, ?_, ?_,
    (linkPair_Ref env g _ _ e ref).1, (linkPair_Ref env g _ _ e ref).2, ?_, ?_, ?_, ?_⟩
  · rw [Graph.edge?_setEdge_of_ne _ _ hne]
    exact Graph.edge?_setEdge_self _ he
  · apply @Graph.edge?_setEdge_self _ _ ref
    rw [Graph.edge?_setEdge_of_ne _ _ (Ne.symm hne)]
    exact hr
  · intro a b
    rw [(h1 a b).1, (h1 a b).2]
    exact ⟨rfl, rfl⟩
  · intro a b
    rw [(h2 a b).1, (h2 a b).2]
    exact ⟨rfl, rfl⟩
  · intro a b
    rw [(h3 a b).1, (h3 a b).2]
    exact ⟨rfl, rfl⟩
  · intro a b
    rw [(h4 a b).2, (h4 a b).1]
    exact ⟨rfl, rfl⟩

/-- Witness of C1 on `linkGraph`: the inverse edge `b.y` is linked to `a.x`. -/
theorem resolve_link_kinds_witness :
    linkGraph.edge? ⟨1, 0⟩ = some (linkGraph.edgeAt ⟨1, 0⟩) ∧
    (linkGraph.edgeAt ⟨1, 0⟩).IsInverse = true ∧
    (linkGraph.node (linkGraph.edgeAt ⟨1, 0⟩).Typ).HasAssoc (linkGraph.edgeAt ⟨1, 0⟩).Inverse
      = some (0, linkGraph.edgeAt ⟨0, 0⟩) ∧
    ∃ g' e' ref', resolveEdge sampleEnv 1 linkGraph 0 = Except.ok g' ∧
      g'.edge? ⟨1, 0⟩ = some e' ∧ g'.edge? ⟨0, 0⟩ = some ref' ∧
      e'.Ref = some ⟨0, 0⟩ ∧ ref'.Ref = some ⟨1, 0⟩ ∧
      e'.Rel.Typ = Rel.O2O ∧ ref'.Rel.Typ = Rel.O2O := by
  refine ⟨rfl, rfl, rfl, ?_⟩
  obtain ⟨g', e', ref', h1, h2, h3, h4, h5, h6, -⟩ :=
    resolve_link_kinds sampleEnv linkGraph 1 0 0 (linkGraph.edgeAt ⟨1, 0⟩)
      (linkGraph.edgeAt ⟨0, 0⟩) rfl rfl rfl (Or.inl rfl) rfl
  exact ⟨g', e', ref', h1, h2, h3, h4, h5, h6 rfl rfl⟩

/-- C2: in the graph the loop over `resolve` leaves, an assoc edge `e` of the
type at `p.node` that has no back-reference (`Ref` is nil) is M2M when it is not
unique and targets its own type, O2O when it is unique and targets its own type,
M2O when it is unique and targets another type, and O2M when it is not unique and
targets another type. -/
theorem resolve_unpaired_kinds (env : Env) (c : Option TypeInfo) (schemas : List Schema)
    (g : Graph) (h : resolveStage env c schemas = Except.ok g) (p : EdgePtr) (e : Edge)
    (he : g.edge? p = some e) (hinv : e.IsInverse = false) (href : e.Ref = none) :
    e.Owner = p.node ∧
    (e.Unique = false → e.Typ = p.node → e.Rel.Typ = Rel.M2M) ∧
    (e.Unique = true → e.Typ = p.node → e.Rel.Typ = Rel.O2O) ∧
    (e.Unique = true → e.Typ ≠ p.node → e.Rel.Typ = Rel.M2O) ∧
    (e.Unique = false → e.Typ ≠ p.node → e.Rel.Typ = Rel.O2M) := by
  have hr := resolveStage_resolved h
  have hsolo : e.Rel = (soloEdge env g p.node e).Rel := by
    rcases hr.linked.assoc p e he hinv (hr.done p e he) with h1 | ⟨p', _, h1, _⟩
    · exact h1
    · rw [href] at h1; cases h1
  obtain ⟨h1, h2, h3, h4⟩ := soloEdge_rel env g p.node e
  refine ⟨(hr.wellFormed p e he).1 hinv, ?_, ?_, ?_, ?_⟩
  · intro a b; rw [hsolo, h1 a b]
  · intro a b; rw [hsolo, h2 a b]
  · intro a b; rw [hsolo, h3 a b]
  · intro a b; rw [hsolo, h4 a b]

/-- Witness of C2 on `followSchemas`: the edge `friends` of `user`, an edge to
`user` itself that is not unique and has no inverse, is M2M. -/
theorem resolve_unpaired_kinds_witness :
    resolveStage sampleEnv none followSchemas = Except.ok followResolved ∧
    followResolved.edge? ⟨0, 2⟩ = some (followResolved.edgeAt ⟨0, 2⟩) ∧
    (followResolved.edgeAt ⟨0, 2⟩).Name = "friends" ∧
    (followResolved.edgeAt ⟨0, 2⟩).IsInverse = false ∧
    (followResolved.edgeAt ⟨0, 2⟩).Ref = none ∧
    (followResolved.edgeAt ⟨0, 2⟩).Rel.Typ = Rel.M2M :=
  ⟨rfl, rfl, rfl, rfl, rfl,
    (resolve_unpaired_kinds sampleEnv none followSchemas followResolved rfl ⟨0, 2⟩
      (followResolved.edgeAt ⟨0, 2⟩) rfl rfl rfl).2.1 rfl rfl⟩

/-! ## Column and table names -/

theorem linkPair_columns (env : Env) (g : Graph) (p q : EdgePtr) (e ref : Edge) :
    ((linkPair env g p q e ref).1.Rel.Typ ≠ Rel.M2M →
      (linkPair env g p q e ref).1.Rel.Columns =
        [(g.node e.Typ).Label env ++ "_" ++ env.snake ref.Name]) ∧
    ((linkPair env g p q e ref).2.Rel.Typ ≠ Rel.M2M →
      (linkPair env g p q e ref).2.Rel.Columns =
        [(g.node e.Typ).Label env ++ "_" ++ env.snake ref.Name]) := by
  obtain ⟨h1, h2, h3, h4⟩ := linkPair_rel env g p q e ref
  cases hu : e.Unique <;> cases hv : ref.Unique
  · rw [(h4 hu hv).2, (h4 hu hv).1]; simp
  · rw [(h3 hu hv).2, (h3 hu hv).1]; simp
  · rw [(h2 hu hv).2, (h2 hu hv).1]; simp
  · rw [(h1 hu hv).2, (h1 hu hv).1]; simp

theorem linkPair_m2m (env : Env) (g : Graph) (p q : EdgePtr) (e ref : Edge) :
    ((linkPair env g p q e ref).1.Rel.Typ = Rel.M2M → e.Unique = false ∧ ref.Unique = false) ∧
    ((linkPair env g p q e ref).2.Rel.Typ = Rel.M2M → e.Unique = false ∧ ref.Unique = false) := by
  obtain ⟨h1, h2, h3, h4⟩ := linkPair_rel env g p q e ref
  cases hu : e.Unique <;> cases hv : ref.Unique
  · simp
  · rw [(h3 hu hv).2, (h3 hu hv).1]; simp
  · rw [(h2 hu hv).2, (h2 hu hv).1]; simp
  · rw [(h1 hu hv).2, (h1 hu hv).1]; simp

theorem soloEdge_columns (env : Env) (g : Graph) (i : Nat) (e : Edge)
    (h : (soloEdge env g i e).Rel.Typ ≠ Rel.M2M) :
    (soloEdge env g i e).Rel.Columns = [(g.node i).Label env ++ "_" ++ env.snake e.Name] := by
  obtain ⟨h1, h2, h3, h4⟩ := soloEdge_rel env g i e
  cases hu : e.Unique <;> by_cases hv : e.Typ = i
  · rw [h1 hu hv] at h; simp at h
  · rw [h4 hu hv]
  · rw [h2 hu hv]
  · rw [h3 hu hv]

theorem soloEdge_m2m (env : Env) (g : Graph) (i : Nat) (e : Edge)
    (h : (soloEdge env g i e).Rel.Typ = Rel.M2M) : e.Unique = false ∧ e.Typ = i := by
  obtain ⟨h1, h2, h3, h4⟩ := soloEdge_rel env g i e
  cases hu : e.Unique <;> by_cases hv : e.Typ = i
  · exact ⟨rfl, hv⟩
  · rw [h4 hu hv] at h; simp at h
  · rw [h2 hu hv] at h; simp at h
  · rw [h3 hu hv] at h; simp at h

/-- In a resolved graph, the inverse edge an assoc edge is paired with has the
node of the assoc edge as target. -/
theorem Graph.Resolved.paired_node {env : Env} {g : Graph} (hr : g.Resolved env) {p q : EdgePtr}
    {e : Edge} (he : g.edge? p = some e) (hinv : e.IsInverse = true) (href : e.Ref = some q) :
    e.Typ = q.node := by
  obtain ⟨k, a, -, h2, -⟩ := hr.linked.inverse p e he hinv (hr.done p e he)
  rw [h2] at href
  cases href
  rfl

/-- In a resolved graph, what `Linked` says of an inverse edge, with the assoc
edge it points to. -/
theorem Graph.Resolved.inverse_ref {env : Env} {g : Graph} (hr : g.Resolved env) {p : EdgePtr}
    {e : Edge} (he : g.edge? p = some e) (hinv : e.IsInverse = true) :
    ∃ q a, e.Ref = some q ∧ g.edge? q = some a ∧ a.IsInverse = false ∧ a.Name = e.Inverse ∧
      q.node = e.Typ ∧ a.Owner = e.Typ ∧ a.Typ = p.node ∧
      (e.Optional = true ∨ a.Optional = true) ∧
      e.Rel = (linkPair env g p q e a).1.Rel ∧ g.PairedWith env q a := by
  obtain ⟨k, a, h1, h2, h3, h4, h5, h6⟩ := hr.linked.inverse p e he hinv (hr.done p e he)
  obtain ⟨h7, h8, h9⟩ := Node.HasAssoc_edge h1
  exact ⟨⟨e.Typ, k⟩, a, h2, h7, h9, h8, rfl, (hr.wellFormed _ a h7).1 h9, h3, h4, h5, h6⟩

/-- C8: in the graph the loop over `resolve` leaves, the foreign-key column of a
relation that is not M2M is `<label of the assoc's owner>_<snake(assoc edge name)>`:
an assoc edge has it whether or not an inverse edge is linked to it, and an
inverse edge has the column of the assoc edge it points to.  So adding or dropping
the inverse edge does not change `Rel.Columns` while the relation is not M2M. -/
theorem fk_column_stable (env : Env) (c : Option TypeInfo) (schemas : List Schema) (g : Graph)
    (h : resolveStage env c schemas = Except.ok g) :
    (∀ q a, g.edge? q = some a → a.IsInverse = false → a.Rel.Typ ≠ Rel.M2M →
      a.Rel.Columns = [(g.node a.Owner).Label env ++ "_" ++ env.snake a.Name]) ∧
    (∀ p e, g.edge? p = some e → e.IsInverse = true → e.Rel.Typ ≠ Rel.M2M →
      ∃ q a, e.Ref = some q ∧ g.edge? q = some a ∧ a.IsInverse = false ∧ a.Name = e.Inverse ∧
        e.Rel.Columns = [(g.node a.Owner).Label env ++ "_" ++ env.snake a.Name]) := by
  have hr := resolveStage_resolved h
  constructor
  · intro q a ha hinv hm
    have ho : a.Owner = q.node := (hr.wellFormed q a ha).1 hinv
    rcases hr.linked.assoc q a ha hinv (hr.done q a ha) with hs | ⟨p', e', h1, h2, h3, h4, h5, h6⟩
    · rw [hs] at hm ⊢
      rw [soloEdge_columns env g q.node a hm, ho]
    · rw [h6] at hm ⊢
      rw [(linkPair_columns env g p' q e' a).2 hm, hr.paired_node h2 h3 h5, ho]
  · intro p e he hinv hm
    obtain ⟨q, a, h1, h2, h3, h4, -, h6, -, -, h9, -⟩ := hr.inverse_ref he hinv
    refine ⟨q, a, h1, h2, h3, h4, ?_⟩
    rw [h9] at hm ⊢
    rw [(linkPair_columns env g p q e a).1 hm, h6]

/-- Witness of C8: the assoc edge `owner` of `pet` has the column `pet_owner`
without an inverse edge (`ownerSchemas`) and with one (`petsSchemas`). -/
theorem fk_column_stable_witness :
    resolveStage sampleEnv none ownerSchemas = Except.ok ownerResolved ∧
    resolveStage sampleEnv none petsSchemas = Except.ok petsResolved ∧
    (ownerResolved.edgeAt ⟨0, 0⟩).Ref = none ∧
    (petsResolved.edgeAt ⟨0, 0⟩).Ref = some ⟨1, 0⟩ ∧
    (ownerResolved.edgeAt ⟨0, 0⟩).Rel.Columns = ["pet_owner"] ∧
    (petsResolved.edgeAt ⟨0, 0⟩).Rel.Columns = ["pet_owner"] :=
  ⟨rfl, rfl, rfl, rfl,
    (fk_column_stable sampleEnv none ownerSchemas ownerResolved rfl).1 ⟨0, 0⟩
      (ownerResolved.edgeAt ⟨0, 0⟩) rfl rfl (by decide),
    (fk_column_stable sampleEnv none petsSchemas petsResolved rfl).1 ⟨0, 0⟩
      (petsResolved.edgeAt ⟨0, 0⟩) rfl rfl (by decide)⟩

/-- C9: in the graph the loop over `resolve` leaves, an M2M edge of a relation
between two types with different labels has the join table
`<label of the assoc's owner>_<assoc edge name>` and the columns
`<assoc owner label>_id`, `<assoc target label>_id`, in that order; this holds for
the assoc edge and for the inverse edge that points to it. -/
theorem m2m_join_names (env : Env) (c : Option TypeInfo) (schemas : List Schema) (g : Graph)
    (h : resolveStage env c schemas = Except.ok g) :
    (∀ q a, g.edge? q = some a → a.IsInverse = false → a.Rel.Typ = Rel.M2M →
      (g.node a.Owner).Label env ≠ (g.node a.Typ).Label env →
      a.Rel.Table = (g.node a.Owner).Label env ++ "_" ++ a.Name ∧
      a.Rel.Columns = [(g.node a.Owner).Label env ++ "_id", (g.node a.Typ).Label env ++ "_id"]) ∧
    (∀ p e, g.edge? p = some e → e.IsInverse = true → e.Rel.Typ = Rel.M2M →
      ∃ q a, e.Ref = some q ∧ g.edge? q = some a ∧ a.IsInverse = false ∧ a.Name = e.Inverse ∧
        ((g.node a.Owner).Label env ≠ (g.node a.Typ).Label env →
          e.Rel.Table = (g.node a.Owner).Label env ++ "_" ++ a.Name ∧
          e.Rel.Columns =
            [(g.node a.Owner).Label env ++ "_id", (g.node a.Typ).Label env ++ "_id"])) := by
  have hr := resolveStage_resolved h
  constructor
  · intro q a ha hinv hm hl
    have ho : a.Owner = q.node := (hr.wellFormed q a ha).1 hinv
    rcases hr.linked.assoc q a ha hinv (hr.done q a ha) with hs | ⟨p', e', h1, h2, h3, h4, h5, h6⟩
    · exfalso
      rw [hs] at hm
      have := (soloEdge_m2m env g q.node a hm).2
      rw [this, ho] at hl
      exact hl rfl
    · rw [h6] at hm ⊢
      obtain ⟨hu, hv⟩ := (linkPair_m2m env g p' q e' a).2 hm
      have h7 := (linkPair_rel env g p' q e' a).2.2.2 hu hv
      rw [h7.2, h7.1, hr.paired_node h2 h3 h5, ho]
      have hne : ¬ ((g.node q.node).Label env ++ "_id" = (g.node a.Typ).Label env ++ "_id") := by
        intro h8
        apply hl
        rw [ho]
        exact append_right_cancel h8
      simp only [ho, if_neg hne, and_self]
  · intro p e he hinv hm
    obtain ⟨q, a, h1, h2, h3, h4, -, h6, -, -, h9, -⟩ := hr.inverse_ref he hinv
    refine ⟨q, a, h1, h2, h3, h4, ?_⟩
    intro hl
    rw [h9] at hm ⊢
    obtain ⟨hu, hv⟩ := (linkPair_m2m env g p q e a).1 hm
    have h7 := (linkPair_rel env g p q e a).2.2.2 hu hv
    rw [h7.1]
    have hne : ¬ ((g.node a.Owner).Label env ++ "_id" = (g.node a.Typ).Label env ++ "_id") :=
      fun h8 => hl (append_right_cancel h8)
    simp only [h6, if_neg hne, and_self]
    rw [h6] at hne
    simp only [if_neg hne, and_self]

/-- Witness of C9 on `groupSchemas`: both edges of the M2M relation between `user`
and `group` have the join table `user_groups` with columns `user_id`, `group_id`. -/
theorem m2m_join_names_witness :
    resolveStage sampleEnv none groupSchemas = Except.ok groupResolved ∧
    (groupResolved.edgeAt ⟨0, 0⟩).Rel.Typ = Rel.M2M ∧
    (groupResolved.edgeAt ⟨0, 0⟩).Rel.Table = "user_groups" ∧
    (groupResolved.edgeAt ⟨0, 0⟩).Rel.Columns = ["user_id", "group_id"] ∧
    (groupResolved.edgeAt ⟨1, 0⟩).Rel = (groupResolved.edgeAt ⟨0, 0⟩).Rel :=
  have h := (m2m_join_names sampleEnv none groupSchemas groupResolved rfl).1 ⟨0, 0⟩
    (groupResolved.edgeAt ⟨0, 0⟩) rfl rfl rfl (by decide)
  ⟨rfl, rfl, h.1, h.2, rfl⟩

/-- C10, as stated, fails: for `followSchemas` the assoc edge `following` of
`user` names the join table `user_following`, and the second join column is
`follower_id`, from the name of the inverse edge `followers`, not
`<singularize("following")>_id`. -/
theorem m2m_self_column_counterexample :
    NewGraph sampleEnv none followSchemas = Except.ok followGraph ∧
    (followGraph.edgeAt ⟨0, 0⟩).Name = "following" ∧
    (followGraph.edgeAt ⟨0, 0⟩).IsInverse = false ∧
    (followGraph.edgeAt ⟨0, 0⟩).Typ = (followGraph.edgeAt ⟨0, 0⟩).Owner ∧
    (followGraph.edgeAt ⟨0, 0⟩).Rel.Typ = Rel.M2M ∧
    (followGraph.edgeAt ⟨0, 0⟩).Rel.Table = "user_following" ∧
    (followGraph.edgeAt ⟨0, 0⟩).Rel.Columns = ["user_id", "follower_id"] ∧
    (followGraph.edgeAt ⟨0, 0⟩).Rel.Columns ≠
      [(followGraph.node 0).Label sampleEnv ++ "_id",
        sampleEnv.singularize (followGraph.edgeAt ⟨0, 0⟩).Name ++ "_id"] := by
  refine ⟨rfl, rfl, rfl, rfl, rfl, rfl, rfl, ?_⟩
  decide

/-- C10, amended: in the graph the loop over `resolve` leaves, an M2M edge of a
self-referential relation has the join table `<owner-label>_<assoc edge name>` and
the first column `<owner-label>_id`; the second column is
`<singularize(assoc edge name)>_id` when the assoc edge has no inverse edge, and
`<singularize(inverse edge name)>_id`, on both edges, when an inverse edge is
linked to it. -/
theorem m2m_self_columns (env : Env) (c : Option TypeInfo) (schemas : List Schema) (g : Graph)
    (h : resolveStage env c schemas = Except.ok g) :
    (∀ q a, g.edge? q = some a → a.IsInverse = false → a.Rel.Typ = Rel.M2M →
      a.Typ = a.Owner →
      a.Rel.Table = (g.node a.Owner).Label env ++ "_" ++ a.Name ∧
      (a.Ref = none → a.Rel.Columns =
        [(g.node a.Owner).Label env ++ "_id", env.singularize a.Name ++ "_id"]) ∧
      (∀ p e, a.Ref = some p → g.edge? p = some e → e.IsInverse = true → e.Ref = some q →
        a.Rel.Columns = [(g.node a.Owner).Label env ++ "_id", env.singularize e.Name ++ "_id"])) ∧
    (∀ p e, g.edge? p = some e → e.IsInverse = true → e.Rel.Typ = Rel.M2M →
      ∃ q a, e.Ref = some q ∧ g.edge? q = some a ∧ a.IsInverse = false ∧ a.Name = e.Inverse ∧
        (a.Typ = a.Owner →
          e.Rel.Table = (g.node a.Owner).Label env ++ "_" ++ a.Name ∧
          e.Rel.Columns =
            [(g.node a.Owner).Label env ++ "_id", env.singularize e.Name ++ "_id"])) := by
  have hr := resolveStage_resolved h
  constructor
  · intro q a ha hinv hm hself
    have ho : a.Owner = q.node := (hr.wellFormed q a ha).1 hinv
    refine ⟨?_, ?_, ?_⟩
    · rcases hr.linked.assoc q a ha hinv (hr.done q a ha) with
        hs | ⟨p', e', h1, h2, h3, h4, h5, h6⟩
      · rw [hs] at hm ⊢
        obtain ⟨hu, hv⟩ := soloEdge_m2m env g q.node a hm
        rw [(soloEdge_rel env g q.node a).1 hu hv, ho]
      · rw [h6] at hm ⊢
        obtain ⟨hu, hv⟩ := (linkPair_m2m env g p' q e' a).2 hm
        have h7 := (linkPair_rel env g p' q e' a).2.2.2 hu hv
        rw [h7.2, h7.1, hr.paired_node h2 h3 h5, ho]
    · intro hn
      rcases hr.linked.assoc q a ha hinv (hr.done q a ha) with hs | ⟨p', e', h1, -⟩
      · rw [hs] at hm ⊢
        obtain ⟨hu, hv⟩ := soloEdge_m2m env g q.node a hm
        rw [(soloEdge_rel env g q.node a).1 hu hv]
      · rw [hn] at h1; cases h1
    · intro p e hap hpe hie her
      obtain ⟨q', a', h1, h2, -, -, -, -, -, -, -, h10⟩ := hr.inverse_ref hpe hie
      rw [her] at h1
      cases h1
      rw [ha] at h2
      cases h2
      obtain ⟨p', e', h3, h4, -, -, -, h8⟩ := h10
      rw [hap] at h3
      cases h3
      rw [hpe] at h4
      cases h4
      rw [h8] at hm ⊢
      obtain ⟨hu, hv⟩ := (linkPair_m2m env g p q e a).2 hm
      have h7 := (linkPair_rel env g p q e a).2.2.2 hu hv
      rw [h7.2, h7.1, hself]
      simp
  · intro p e he hinv hm
    obtain ⟨q, a, h1, h2, h3, h4, -, h6, -, -, h9, -⟩ := hr.inverse_ref he hinv
    refine ⟨q, a, h1, h2, h3, h4, ?_⟩
    intro hself
    rw [h9] at hm ⊢
    obtain ⟨hu, hv⟩ := (linkPair_m2m env g p q e a).1 hm
    have h7 := (linkPair_rel env g p q e a).2.2.2 hu hv
    rw [h7.1, hself, h6]
    simp

/-- Witness of the amended C10 on `followSchemas`: `friends`, without an inverse,
has the columns `user_id`, `friend_id`; `following`, linked to `followers`, has
the columns `user_id`, `follower_id`. -/
theorem m2m_self_columns_witness :
    resolveStage sampleEnv none followSchemas = Except.ok followResolved ∧
    (followResolved.edgeAt ⟨0, 2⟩).Rel.Table = "user_friends" ∧
    (followResolved.edgeAt ⟨0, 2⟩).Rel.Columns = ["user_id", "friend_id"] ∧
    (followResolved.edgeAt ⟨0, 0⟩).Rel.Table = "user_following" ∧
    (followResolved.edgeAt ⟨0, 0⟩).Rel.Columns = ["user_id", "follower_id"] :=
  have h := m2m_self_columns sampleEnv none followSchemas followResolved rfl
  have h2 := h.1 ⟨0, 2⟩ (followResolved.edgeAt ⟨0, 2⟩) rfl rfl rfl rfl
  have h0 := h.1 ⟨0, 0⟩ (followResolved.edgeAt ⟨0, 0⟩) rfl rfl rfl rfl
  ⟨rfl, h2.1, h2.2.1 rfl, h0.1,
    h0.2.2 ⟨0, 1⟩ (followResolved.edgeAt ⟨0, 1⟩) rfl rfl rfl rfl⟩

/-! ## The stages after `resolve` -/

theorem Graph.SameEdges.rfl' (g : Graph) : g.SameEdges g :=
  ⟨fun _ => rfl, fun _ => rfl, fun _ => rfl⟩

theorem Graph.SameEdges.trans' {g1 g2 g3 : Graph} (h1 : g1.SameEdges g2) (h2 : g2.SameEdges g3) :
    g1.SameEdges g3 :=
  ⟨fun p => (h1.edge p).trans (h2.edge p), fun n => (h1.name n).trans (h2.name n),
    fun n => (h1.table n).trans (h2.table n)⟩

/-- An update of a node that keeps its edges, name and table annotation. -/
theorem Graph.modifyNode_sameEdges (g : Graph) (i : Nat) (f : Node → Node)
    (hf : ∀ t, (f t).Edges = t.Edges ∧ (f t).Name = t.Name ∧ (f t).TableName = t.TableName) :
    (g.modifyNode i f).SameEdges g :=
  ⟨fun p => Graph.edge?_modifyNode_keep g i f (fun t => (hf t).1) p,
    fun n => Graph.node_modifyNode_proj (fun t => t.Name) g i n f (fun t => (hf t).2.1),
    fun n => Graph.node_modifyNode_proj (fun t => t.TableName) g i n f (fun t => (hf t).2.2)⟩

theorem Graph.modifyNode_const (g : Graph) (i : Nat) (f : Node → Node) :
    g.modifyNode i (fun _ => f (g.node i)) = g.modifyNode i f := by
  unfold Graph.modifyNode
  congr 1
  apply List.ext_getElem?
  intro n
  simp only [List.getElem?_modify]
  by_cases h : i = n
  · subst h
    rw [Graph.node_eq]
    cases g.Nodes[i]? <;> simp
  · cases g.Nodes[n]? <;> simp [h]

theorem Graph.SameEdges.table_same {g' g : Graph} (h : g'.SameEdges g) (env : Env) (n : Nat) :
    (g'.node n).Table env = (g.node n).Table env := by
  simp [Node.Table, h.name n, h.table n]

theorem Graph.Extends.table_eq {g g3 : Graph} {env : Env} (h : g.Extends env g3) (n : Nat) :
    (g.node n).Table env = (g3.node n).Table env := by
  simp [Node.Table, h.name n, h.table n]

theorem Graph.Extends.start (env : Env) {g3 : Graph} (hp : g3.Plain) : g3.Extends env g3 :=
  ⟨fun _ => rfl, fun _ => rfl,
    fun p e he => ⟨e, he, rfl, rfl, rfl, rfl, rfl, Or.inl ⟨hp p e he, rfl⟩⟩,
    fun p e' he' hn => by rw [hn] at he'; cases he'⟩

theorem Graph.Extends.of_sameEdges {g' g g3 : Graph} {env : Env} (hs : g'.SameEdges g)
    (h : g.Extends env g3) : g'.Extends env g3 :=
  ⟨fun n => (hs.name n).trans (h.name n), fun n => (hs.table n).trans (h.table n),
    fun p e he => by rw [hs.edge p]; exact h.old p e he,
    fun p e' he' hn => h.fresh p e' (by rw [← hs.edge p]; exact he') hn⟩

/-- Binding an edge that declares `Through` to the edge schema `ty`. -/
theorem Graph.Extends.setThrough {g g3 : Graph} {env : Env} (h : g.Extends env g3)
    {p : EdgePtr} {e : Edge} (he : g.edge? p = some e) (hd : e.decl.Through ≠ none) (ty : Nat) :
    (g.setEdge p { e with Through := some ty
                          Rel := { e.Rel with Table := (g.node ty).Table env } }).Extends
      env g3 := by
  refine ⟨?_, ?_, ?_, ?_⟩
  · intro n
    rw [Graph.node_setEdge_proj (fun t => t.Name) (fun _ _ => rfl)]
    exact h.name n
  · intro n
    rw [Graph.node_setEdge_proj (fun t => t.TableName) (fun _ _ => rfl)]
    exact h.table n
  · intro x e0 hx
    obtain ⟨e', h1, h2, h3, h4, h5, h6, h7⟩ := h.old x e0 hx
    by_cases hxp : x = p
    · subst hxp
      rw [he] at h1
      cases h1
      refine ⟨_, Graph.edge?_setEdge_self _ he, ?_, h3, h4, h5, h6, Or.inr ⟨ty, rfl, ?_⟩⟩
      · rw [← h2]; rfl
      · exact h.table_eq ty
    · exact ⟨e', by rw [Graph.edge?_setEdge_of_ne g _ hxp]; exact h1, h2, h3, h4, h5, h6, h7⟩
  · intro x e' hx hn
    by_cases hxp : x = p
    · subst hxp
      exfalso
      apply hd
      rw [(h.fresh x e he hn).1]
    · rw [Graph.edge?_setEdge_of_ne g _ hxp] at hx
      exact h.fresh x e' hx hn

/-- Appending the helper edge of an edge schema. -/
theorem Graph.Extends.appendHelper {g g3 : Graph} {env : Env} (h : g.Extends env g3) (i : Nat)
    {e : Edge} (hd : e.decl = {}) (ht : e.Rel.Typ = Rel.O2M) (ho : e.Optional = true) :
    (g.appendEdge i e).Extends env g3 := by
  refine ⟨?_, ?_, ?_, ?_⟩
  · intro n
    rw [Graph.node_appendEdge_proj (fun t => t.Name) (fun _ _ => rfl)]
    exact h.name n
  · intro n
    rw [Graph.node_appendEdge_proj (fun t => t.TableName) (fun _ _ => rfl)]
    exact h.table n
  · intro x e0 hx
    obtain ⟨e', h1, h2⟩ := h.old x e0 hx
    refine ⟨e', ?_, h2⟩
    rw [Graph.edge?_appendEdge, if_neg]
    · exact h1
    · intro hc
      have := (Graph.edge?_lt h1).2
      rw [hc.1] at this
      omega
  · intro x e' hx hn
    rw [Graph.edge?_appendEdge] at hx
    split at hx
    · cases hx
      exact ⟨hd, ht, ho⟩
    · exact h.fresh x e' hx hn

theorem setupFK_sameEdges (i : Nat) (g : Graph) (j : Nat) : (setupFK i g j).SameEdges g := by
  unfold setupFK
  split
  · exact Graph.SameEdges.rfl' g
  · split
    · exact Graph.modifyNode_sameEdges g i _ (fun _ => ⟨rfl, rfl, rfl⟩)
    · exact Graph.SameEdges.rfl' g

theorem foldl_sameEdges {α : Type} (f : Graph → α → Graph)
    (hf : ∀ g a, (f g a).SameEdges g) : ∀ (l : List α) (g : Graph), (l.foldl f g).SameEdges g := by
  intro l
  induction l with
  | nil => intro g; exact Graph.SameEdges.rfl' g
  | cons a as ih =>
    intro g
    simp only [List.foldl_cons]
    exact (ih (f g a)).trans' (hf g a)

theorem setupFKs_sameEdges (g : Graph) (i : Nat) : (setupFKs g i).SameEdges g :=
  foldl_sameEdges (setupFK i) (setupFK_sameEdges i) _ g

theorem bindThrough_ok {g g1 : Graph} {p : EdgePtr} {e : Edge} {ty : Nat}
    (h : bindThrough g p e ty = Except.ok g1) :
    g1.SameEdges (g.setEdge p { e with Through := some ty }) := by
  unfold bindThrough at h
  simp only at h
  split at h
  · split at h
    · simp at h
    · split at h
      · split at h
        · simp at h
        · simp only [Except.ok.injEq] at h
          rw [← h]
          exact Graph.modifyNode_sameEdges _ ty _ (fun _ => ⟨rfl, rfl, rfl⟩)
      · simp only [Except.ok.injEq] at h
        rw [← h]
        exact Graph.modifyNode_sameEdges _ ty _ (fun _ => ⟨rfl, rfl, rfl⟩)
  · split at h
    · split at h <;> simp at h
    · split at h
      · split at h
        · simp at h
        · simp only [Except.ok.injEq] at h
          rw [← h]
          exact Graph.modifyNode_sameEdges _ ty _ (fun _ => ⟨rfl, rfl, rfl⟩)
      · simp only [Except.ok.injEq] at h
        rw [← h]
        exact Graph.modifyNode_sameEdges _ ty _ (fun _ => ⟨rfl, rfl, rfl⟩)

theorem Graph.SameEdges.setEdge_of {g g1 : Graph} {p : EdgePtr} {a : Edge}
    (h : g1.SameEdges (g.setEdge p a)) (b : Edge) :
    (g1.setEdge p b).SameEdges (g.setEdge p b) := by
  refine ⟨?_, ?_, ?_⟩
  · intro x
    rw [Graph.edge?_setEdge, Graph.edge?_setEdge]
    by_cases hx : x = p
    · simp only [hx, if_true]
      rw [h.edge p, Graph.edge?_setEdge]
      cases g.edge? p <;> simp
    · simp only [if_neg hx]
      rw [h.edge x, Graph.edge?_setEdge_of_ne g _ hx]
  · intro n
    rw [Graph.node_setEdge_proj (fun t => t.Name) (fun _ _ => rfl),
      Graph.node_setEdge_proj (fun t => t.Name) (fun _ _ => rfl), h.name n,
      Graph.node_setEdge_proj (fun t => t.Name) (fun _ _ => rfl)]
  · intro n
    rw [Graph.node_setEdge_proj (fun t => t.TableName) (fun _ _ => rfl),
      Graph.node_setEdge_proj (fun t => t.TableName) (fun _ _ => rfl), h.table n,
      Graph.node_setEdge_proj (fun t => t.TableName) (fun _ _ => rfl)]

theorem AddIndex_ok {t t' : Node} {idx : LoadIndex} (h : t.AddIndex idx = Except.ok t') :
    t' = { t with Indexes := t.Indexes ++
      [{ Unique := idx.Unique, Columns := idx.Fields }] } := by
  unfold Node.AddIndex at h
  simp only [Except.ok.injEq] at h
  exact h.symm

theorem addIndex_sameEdges {g : Graph} {ty : Nat} {t : Node} {idx : LoadIndex}
    (h : (g.node ty).AddIndex idx = Except.ok t) : (g.modifyNode ty (fun _ => t)).SameEdges g := by
  rw [AddIndex_ok h]
  rw [Graph.modifyNode_const g ty (fun t => { t with Indexes := t.Indexes ++
      [{ Unique := idx.Unique, Columns := idx.Fields }] })]
  exact Graph.modifyNode_sameEdges g ty _ (fun _ => ⟨rfl, rfl, rfl⟩)

theorem edgeSchemaKey_ok {g g' : Graph} {ty : Nat} {cols : List String}
    (h : edgeSchemaKey g ty cols = Except.ok g') : g'.SameEdges g := by
  unfold edgeSchemaKey at h
  simp only at h
  split at h
  · simp at h
  · next g1 h1 =>
    have hs1 : g1.SameEdges g := by
      split at h1
      · split at h1
        · split at h1
          · simp at h1
          · simp only [Except.ok.injEq] at h1
            rw [← h1]
            exact Graph.modifyNode_sameEdges g ty _ (fun _ => ⟨rfl, rfl, rfl⟩)
        · simp at h1
      · simp only [Except.ok.injEq] at h1
        rw [← h1]
        exact Graph.SameEdges.rfl' g
    split at h
    · simp only [Except.ok.injEq] at h
      rw [← h]; exact hs1
    · split at h
      · simp at h
      · simp only [Except.ok.injEq] at h
        rw [← h]; exact hs1
      · split at h
        · next t ht =>
          simp only [Except.ok.injEq] at h
          rw [← h]
          exact (addIndex_sameEdges ht).trans' hs1
        · simp at h

theorem edgeSchema_extends {env : Env} {i j : Nat} {g g' g3 : Graph}
    (h : edgeSchema env i g j = Except.ok g') (hx : g.Extends env g3) : g'.Extends env g3 := by
  unfold edgeSchema at h
  split at h
  · simp only [Except.ok.injEq] at h
    rw [← h]; exact hx
  · next e he =>
    split at h
    · simp only [Except.ok.injEq] at h
      rw [← h]; exact hx
    · next th hth =>
      simp only at h
      split at h
      · simp at h
      · split at h
        · simp at h
        · next ty _ =>
          split at h
          · simp at h
          · split at h
            · simp at h
            · split at h
              · simp at h
              · next g1 hg1 =>
                split at h
                · simp at h
                · simp at h
                · next r _ =>
                  have hd : e.decl.Through ≠ none := by rw [hth]; simp
                  have h2 := (hx.setThrough he hd ty).of_sameEdges
                    ((bindThrough_ok hg1).setEdge_of _)
                  exact (h2.appendHelper i rfl rfl rfl).of_sameEdges (edgeSchemaKey_ok h)

theorem edgeSchemas_extends {env : Env} {g g' g3 : Graph}
    (h : edgeSchemas env g = Except.ok g') (hx : g.Extends env g3) : g'.Extends env g3 := by
  unfold edgeSchemas at h
  split at h
  · next g1 h1 =>
    simp only [Except.ok.injEq] at h
    rw [← h]
    exact forEach_inv (P := fun s => s.Extends env g3)
      (fun s i s' hs hstep =>
        forEach_inv (P := fun s => s.Extends env g3)
          (fun _ _ _ hs' hstep' => edgeSchema_extends hstep' hs') _ s s' hs hstep)
      _ g g1 hx h1
  · simp at h
  · simp at h

theorem addIndexes_sameEdges {g g' : Graph} {s : Schema} (h : addIndexes g s = Except.ok g') :
    g'.SameEdges g := by
  unfold addIndexes at h
  split at h
  · split at h
    · simp only [Except.ok.injEq] at h
      rw [← h]; exact Graph.SameEdges.rfl' g
    · simp at h
  · next t _ =>
    exact forEach_inv (P := fun x => x.SameEdges g)
      (fun x idx x' hs hstep => by
        split at hstep
        · next n hn =>
          simp only [Except.ok.injEq] at hstep
          rw [← hstep]
          exact (addIndex_sameEdges hn).trans' hs
        · simp at hstep) _ g g' (Graph.SameEdges.rfl' g) h

theorem defaults_sameEdges {g g' : Graph} (h : defaults g = Except.ok g') : g'.SameEdges g := by
  unfold defaults at h
  split at h
  · simp only [Except.ok.injEq] at h
    rw [← h]; exact Graph.SameEdges.rfl' g
  · simp only at h
    split at h
    · simp only [Except.ok.injEq] at h
      rw [← h]; exact ⟨fun _ => rfl, fun _ => rfl, fun _ => rfl⟩
    · split at h
      · simp only [Except.ok.injEq] at h
        rw [← h]; exact ⟨fun _ => rfl, fun _ => rfl, fun _ => rfl⟩
      · split at h
        · simp at h
        · simp only [Except.ok.injEq] at h
          rw [← h]; exact ⟨fun _ => rfl, fun _ => rfl, fun _ => rfl⟩

/-- The loop of `NewGraph` over `setupFKs`, when it succeeds, is FK propagation over
the nodes in order. -/
theorem setupFKsLoop_ok {env : Env} : ∀ (l : List Nat) (g g4 : Graph),
    forEach (setupFKsNode env) g l = Except.ok g4 → g4 = l.foldl setupFKs g := by
  intro l
  induction l with
  | nil =>
    intro g g4 h
    simp only [forEach, Except.ok.injEq] at h
    exact h.symm
  | cons a as ih =>
    intro g g4 h
    simp only [forEach] at h
    unfold setupFKsNode at h
    cases hf : env.fkFailure g a with
    | some x =>
      rw [hf] at h
      simp at h
    | none =>
      rw [hf] at h
      exact ih _ _ h

/-- The loop of `NewGraph` over `setupFKs` succeeds when no call of `setupFKs`
returns an error. -/
theorem setupFKsLoop_of_none {env : Env} (hnone : ∀ g i, env.fkFailure g i = none) :
    ∀ (l : List Nat) (g : Graph),
      forEach (setupFKsNode env) g l = Except.ok (l.foldl setupFKs g) := by
  intro l
  induction l with
  | nil => intro g; rfl
  | cons a as ih =>
    intro g
    simp only [forEach, List.foldl_cons]
    unfold setupFKsNode
    rw [hnone g a]
    exact ih _

/-- A successful end of `NewGraph` ran `edgeSchemas` on the graph FK propagation
leaves. -/
theorem finishStage_ok {env : Env} {schemas : List Schema} {g3 g : Graph}
    (h : finishStage env schemas g3 = Except.ok g) :
    (match edgeSchemas env ((List.range g3.Nodes.length).foldl setupFKs g3) with
      | Except.error f => Except.error f
      | Except.ok g5 =>
        match forEach addIndexes g5 schemas with
        | Except.error f => Except.error f
        | Except.ok g6 => defaults g6) = Except.ok g := by
  unfold finishStage at h
  split at h
  · simp at h
  · next g4 h4 =>
    rw [← setupFKsLoop_ok _ _ _ h4]
    exact h

theorem finishStage_extends {env : Env} {schemas : List Schema} {g3 g : Graph}
    (h : finishStage env schemas g3 = Except.ok g) (hp : g3.Plain) : g.Extends env g3 := by
  replace h := finishStage_ok h
  split at h
  · simp at h
  · next g5 h5 =>
    split at h
    · simp at h
    · next g6 h6 =>
      have h4 : ((List.range g3.Nodes.length).foldl setupFKs g3).Extends env g3 :=
        (Graph.Extends.start env hp).of_sameEdges
          (foldl_sameEdges setupFKs setupFKs_sameEdges _ g3)
      have hx5 := edgeSchemas_extends h5 h4
      have hs6 : g6.SameEdges g5 :=
        forEach_inv (P := fun x => x.SameEdges g5)
          (fun _ _ _ hs hstep => (addIndexes_sameEdges hstep).trans' hs) _ g5 g6
          (Graph.SameEdges.rfl' g5) h6
      exact (hx5.of_sameEdges hs6).of_sameEdges (defaults_sameEdges h)

/-- A successful `NewGraph` went through a resolved graph `g3`, which its result extends. -/
theorem NewGraph_ok {env : Env} {c : Option TypeInfo} {schemas : List Schema} {g : Graph}
    (h : NewGraph env c schemas = Except.ok g) :
    ∃ g3, resolveStage env c schemas = Except.ok g3 ∧ g3.Resolved env ∧ g.Extends env g3 := by
  unfold NewGraph at h
  split at h
  · simp at h
  · next g3 h3 =>
    have hr := resolveStage_resolved h3
    exact ⟨g3, h3, hr, finishStage_extends h hr.plain⟩

/-- An edge of the final graph is an edge of the resolved graph, up to `Through`
and `Rel.Table`, or a helper edge of `edgeSchemas`. -/
theorem Graph.Extends.edge_cases {g g3 : Graph} {env : Env} (h : g.Extends env g3)
    {p : EdgePtr} {e : Edge} (he : g.edge? p = some e) :
    (∃ e0, g3.edge? p = some e0 ∧ e.static = e0.static ∧ e.Ref = e0.Ref ∧
      e.Rel.Typ = e0.Rel.Typ ∧ e.Rel.Columns = e0.Rel.Columns ∧
      ((e.Through = none ∧ e.Rel.Table = e0.Rel.Table) ∨
        ∃ ty, e.Through = some ty ∧ e.Rel.Table = (g3.node ty).Table env)) ∨
    (g3.edge? p = none ∧ e.decl = {} ∧ e.Rel.Typ = Rel.O2M ∧ e.Optional = true) := by
  cases h3 : g3.edge? p with
  | none => exact Or.inr ⟨rfl, h.fresh p e he h3⟩
  | some e0 =>
    obtain ⟨e', h1, h2, h4, -, h5, h6, h7⟩ := h.old p e0 h3
    rw [he] at h1
    cases h1
    exact Or.inl ⟨e0, rfl, h2, h4, h5, h6, h7⟩

/-- An edge of the resolved graph, as the final graph has it. -/
theorem Graph.Extends.old_edge {g g3 : Graph} {env : Env} (h : g.Extends env g3)
    {p : EdgePtr} {e0 : Edge} (h3 : g3.edge? p = some e0) :
    ∃ e, g.edge? p = some e ∧ e.static = e0.static ∧ e.Ref = e0.Ref ∧
      e.Rel.Typ = e0.Rel.Typ ∧ e.Rel.Columns = e0.Rel.Columns ∧
      ((e.Through = none ∧ e.Rel.Table = e0.Rel.Table) ∨
        ∃ ty, e.Through = some ty ∧ e.Rel.Table = (g3.node ty).Table env) := by
  obtain ⟨e', h1, h2, h4, -, h5, h6, h7⟩ := h.old p e0 h3
  exact ⟨e', h1, h2, h4, h5, h6, h7⟩

/-- An inverse edge that a schema declares is an edge of the resolved graph. -/
theorem Graph.Extends.declared {g g3 : Graph} {env : Env} (h : g.Extends env g3)
    {p : EdgePtr} {e : Edge} (he : g.edge? p = some e) (hd : e.decl.Inverse = true) :
    ∃ e0, g3.edge? p = some e0 ∧ e.static = e0.static ∧ e.Ref = e0.Ref ∧
      e.Rel.Typ = e0.Rel.Typ ∧ e.Rel.Columns = e0.Rel.Columns ∧
      ((e.Through = none ∧ e.Rel.Table = e0.Rel.Table) ∨
        ∃ ty, e.Through = some ty ∧ e.Rel.Table = (g3.node ty).Table env) := by
  rcases h.edge_cases he with h1 | ⟨-, h2, -⟩
  · exact h1
  · rw [h2] at hd
    cases hd

theorem forEach_error_of {σ α ε : Type} {f : σ → α → Except ε σ} {P : ε → Prop}
    (hstep : ∀ s a err, f s a = Except.error err → P err) :
    ∀ (l : List α) (s : σ) (err : ε), forEach f s l = Except.error err → P err := by
  intro l
  induction l with
  | nil => intro s err h; simp [forEach] at h
  | cons a as ih =>
    intro s err h
    simp only [forEach] at h
    split at h
    · next s1 _ => exact ih s1 err h
    · next err1 h1 =>
      simp only [Except.error.injEq] at h
      rw [← h]
      exact hstep s a err1 h1

/-! ## Invariants of a successful `NewGraph` -/

/-- C3: whenever `NewGraph` succeeds, every edge of every node, the edges declared
in the schemas and the edges generated for `Through`, has a relation kind in
{O2O, O2M, M2O, M2M}; none is left `Unk`. -/
theorem rel_type_never_unk (env : Env) (c : Option TypeInfo) (schemas : List Schema) (g : Graph)
    (h : NewGraph env c schemas = Except.ok g) (p : EdgePtr) (e : Edge)
    (he : g.edge? p = some e) :
    e.Rel.Typ = Rel.O2O ∨ e.Rel.Typ = Rel.O2M ∨ e.Rel.Typ = Rel.M2O ∨ e.Rel.Typ = Rel.M2M := by
  obtain ⟨g3, -, hr, hx⟩ := NewGraph_ok h
  have hne : e.Rel.Typ ≠ Rel.Unk := by
    rcases hx.edge_cases he with ⟨e0, h0, -, -, h1, -⟩ | ⟨-, -, h2, -⟩
    · rw [h1]
      exact hr.done p e0 h0
    · rw [h2]
      decide
  cases ht : e.Rel.Typ <;> simp_all

/-- Witness of C3 on `roleSchemas`: the edge `memberships` that `edgeSchemas`
appends to `user` is O2M, the declared edge `roles` is M2M. -/
theorem rel_type_never_unk_witness :
    NewGraph sampleEnv none roleSchemas = Except.ok roleGraph ∧
    (roleGraph.edgeAt ⟨0, 1⟩).Name = "memberships" ∧
    (roleGraph.edgeAt ⟨0, 1⟩).Rel.Typ = Rel.O2M ∧
    (roleGraph.edgeAt ⟨0, 0⟩).Rel.Typ = Rel.M2M ∧
    ((roleGraph.edgeAt ⟨0, 1⟩).Rel.Typ = Rel.O2O ∨ (roleGraph.edgeAt ⟨0, 1⟩).Rel.Typ = Rel.O2M ∨
      (roleGraph.edgeAt ⟨0, 1⟩).Rel.Typ = Rel.M2O ∨ (roleGraph.edgeAt ⟨0, 1⟩).Rel.Typ = Rel.M2M) :=
  ⟨rfl, rfl, rfl, rfl,
    rel_type_never_unk sampleEnv none roleSchemas roleGraph rfl ⟨0, 1⟩ (roleGraph.edgeAt ⟨0, 1⟩)
      rfl⟩

theorem linkPair_same (env : Env) (g : Graph) (p q : EdgePtr) (e ref : Edge) :
    (linkPair env g p q e ref).1.Rel.Table = (linkPair env g p q e ref).2.Rel.Table ∧
    (linkPair env g p q e ref).1.Rel.Columns = (linkPair env g p q e ref).2.Rel.Columns := by
  obtain ⟨h1, h2, h3, h4⟩ := linkPair_rel env g p q e ref
  cases hu : e.Unique <;> cases hv : ref.Unique
  · rw [(h4 hu hv).2]; exact ⟨rfl, rfl⟩
  · rw [(h3 hu hv).2, (h3 hu hv).1]; exact ⟨rfl, rfl⟩
  · rw [(h2 hu hv).2, (h2 hu hv).1]; exact ⟨rfl, rfl⟩
  · rw [(h1 hu hv).2, (h1 hu hv).1]; exact ⟨rfl, rfl⟩

/-- C4, as stated, fails.  In `twoInverseSchemas` the inverse edge `y1` has
`Ref = x`, and `x.Ref` is `y2`, the inverse edge that was linked last.  In
`roleSchemas` the edge `memberships` that `edgeSchemas` appends to `user` has
`Ref` set to the edge `user` of the edge schema, whose `Ref` is nil. -/
theorem ref_symmetric_counterexample :
    (NewGraph sampleEnv none twoInverseSchemas = Except.ok twoInverseGraph ∧
      (twoInverseGraph.edgeAt ⟨1, 0⟩).Name = "y1" ∧
      (twoInverseGraph.edgeAt ⟨1, 0⟩).Ref = some ⟨0, 0⟩ ∧
      (twoInverseGraph.edgeAt ⟨0, 0⟩).Ref = some ⟨1, 1⟩ ∧
      (twoInverseGraph.edgeAt ⟨0, 0⟩).Ref ≠ some ⟨1, 0⟩) ∧
    (NewGraph sampleEnv none roleSchemas = Except.ok roleGraph ∧
      roleGraph.edge? ⟨0, 1⟩ = some (roleGraph.edgeAt ⟨0, 1⟩) ∧
      (roleGraph.edgeAt ⟨0, 1⟩).Name = "memberships" ∧
      (roleGraph.edgeAt ⟨0, 1⟩).Ref = some ⟨2, 0⟩ ∧
      roleGraph.edge? ⟨2, 0⟩ = some (roleGraph.edgeAt ⟨2, 0⟩) ∧
      (roleGraph.edgeAt ⟨2, 0⟩).Ref = none) := by
  refine ⟨⟨rfl, rfl, rfl, rfl, ?_⟩, rfl, rfl, rfl, rfl, rfl, rfl⟩
  decide

/-- What a successful `NewGraph` leaves of an inverse edge that a schema declares:
the edge and the assoc edge it points to, in the resolved graph `g3` and in the
final graph. -/
theorem Graph.Extends.inverse_pair {g g3 : Graph} {env : Env} (hx : g.Extends env g3)
    (hr : g3.Resolved env) {p : EdgePtr} {e : Edge} (he : g.edge? p = some e)
    (hinv : e.IsInverse = true) (hd : e.decl.Inverse = true) :
    ∃ e0 q a0 a, g3.edge? p = some e0 ∧ e.static = e0.static ∧
      e.Rel.Columns = e0.Rel.Columns ∧
      ((e.Through = none ∧ e.Rel.Table = e0.Rel.Table) ∨
        ∃ ty, e.Through = some ty ∧ e.Rel.Table = (g3.node ty).Table env) ∧
      e.Ref = some q ∧ g3.edge? q = some a0 ∧ g.edge? q = some a ∧ a.static = a0.static ∧
      a.Ref = a0.Ref ∧ a.Rel.Columns = a0.Rel.Columns ∧
      ((a.Through = none ∧ a.Rel.Table = a0.Rel.Table) ∨
        ∃ ty, a.Through = some ty ∧ a.Rel.Table = (g3.node ty).Table env) ∧
      a0.IsInverse = false ∧ q.node = e0.Typ ∧ a0.Owner = e0.Typ ∧ a0.Typ = p.node ∧
      (e0.Optional = true ∨ a0.Optional = true) ∧
      e0.Rel = (linkPair env g3 p q e0 a0).1.Rel ∧ g3.PairedWith env q a0 := by
  obtain ⟨e0, h0, h1, h2, -, h3, h4⟩ := hx.declared he hd
  have hinv0 : e0.IsInverse = true := by rw [← Edge.IsInverse_static h1]; exact hinv
  obtain ⟨q, a0, k1, k2, k3, -, k5, k6, k7, k8, k9, k10⟩ := hr.inverse_ref h0 hinv0
  obtain ⟨a, m1, m2, m3, -, m5, m6⟩ := hx.old_edge k2
  exact ⟨e0, q, a0, a, h0, h1, h3, h4, by rw [h2, k1], k2, m1, m2, m3, m5, m6, k3, k5, k6, k7,
    k8, k9, k10⟩

/-- C4, amended: whenever `NewGraph` succeeds, every inverse edge `e` that a schema
declares has `Ref` set to an assoc edge `a` with `a.Ref.Ref == a` (`a.Ref` is a
declared inverse edge whose `Ref` is `a`), and `e.Ref.Ref == e` when `e` is the only
declared inverse edge whose `Ref` is `a`. -/
theorem ref_symmetric (env : Env) (c : Option TypeInfo) (schemas : List Schema) (g : Graph)
    (h : NewGraph env c schemas = Except.ok g) (p : EdgePtr) (e : Edge)
    (he : g.edge? p = some e) (hinv : e.IsInverse = true) (hd : e.decl.Inverse = true) :
    ∃ q a, e.Ref = some q ∧ g.edge? q = some a ∧ a.IsInverse = false ∧
      (∃ p' e', a.Ref = some p' ∧ g.edge? p' = some e' ∧ e'.IsInverse = true ∧
        e'.decl.Inverse = true ∧ e'.Ref = some q) ∧
      ((∀ p' e', g.edge? p' = some e' → e'.IsInverse = true → e'.decl.Inverse = true →
        e'.Ref = some q → p' = p) → a.Ref = some p) := by
  obtain ⟨g3, -, hr, hx⟩ := NewGraph_ok h
  obtain ⟨e0, q, a0, a, -, -, -, -, h5, -, h7, h8, h9, -, -, h12, -, -, -, -, -, h18⟩ :=
    hx.inverse_pair hr he hinv hd
  obtain ⟨p', e0', k1, k2, k3, -, k5, -⟩ := h18
  obtain ⟨e', m1, m2, m3, -⟩ := hx.old_edge k2
  have hi' : e'.IsInverse = true := by rw [Edge.IsInverse_static m2]; exact k3
  have hd' : e'.decl.Inverse = true := by
    rw [((Edge.static_eq_iff _ _).mp m2).1]
    exact (hr.wellFormed p' e0' k2).2 k3
  have hpair : ∃ p' e', a.Ref = some p' ∧ g.edge? p' = some e' ∧ e'.IsInverse = true ∧
      e'.decl.Inverse = true ∧ e'.Ref = some q :=
    ⟨p', e', by rw [h9, k1], m1, hi', hd', by rw [m3, k5]⟩
  refine ⟨q, a, h5, h7, by rw [Edge.IsInverse_static h8]; exact h12, hpair, ?_⟩
  intro huniq
  have := huniq p' e' m1 hi' hd' (by rw [m3, k5])
  rw [h9, k1, this]

/-- The inverse edge `pets` of `user` is the only inverse edge of `petsGraph`. -/
theorem petsGraph_inverse (p' : EdgePtr) (e' : Edge) (h1 : petsGraph.edge? p' = some e')
    (h2 : e'.IsInverse = true) : p' = ⟨1, 0⟩ := by
  obtain ⟨n, i⟩ := p'
  match n, i, h1 with
  | 0, 0, h1 =>
    have h3 : petsGraph.edge? ⟨0, 0⟩ = some (petsGraph.edgeAt ⟨0, 0⟩) := rfl
    rw [h3] at h1
    have h4 : e' = petsGraph.edgeAt ⟨0, 0⟩ := (Option.some.inj h1).symm
    subst h4
    exact absurd h2 (by decide)
  | 0, i + 1, h1 =>
    have h3 : petsGraph.edge? ⟨0, i + 1⟩ = none := rfl
    rw [h3] at h1
    cases h1
  | 1, 0, _ => rfl
  | 1, i + 1, h1 =>
    have h3 : petsGraph.edge? ⟨1, i + 1⟩ = none := rfl
    rw [h3] at h1
    cases h1
  | n + 2, i, h1 =>
    have h3 : petsGraph.edge? ⟨n + 2, i⟩ = none := rfl
    rw [h3] at h1
    cases h1

/-- Witness of the amended C4 on `petsSchemas`: the inverse edge `pets` of `user`
points to `owner` of `pet`; it is the only inverse edge, and `owner` points back
to it. -/
theorem ref_symmetric_witness :
    NewGraph sampleEnv none petsSchemas = Except.ok petsGraph ∧
    petsGraph.edge? ⟨1, 0⟩ = some (petsGraph.edgeAt ⟨1, 0⟩) ∧
    (petsGraph.edgeAt ⟨1, 0⟩).IsInverse = true ∧
    (petsGraph.edgeAt ⟨1, 0⟩).decl.Inverse = true ∧
    ∃ q a, (petsGraph.edgeAt ⟨1, 0⟩).Ref = some q ∧ petsGraph.edge? q = some a ∧
      a.IsInverse = false ∧ a.Ref = some ⟨1, 0⟩ ∧
      ∃ p' e', a.Ref = some p' ∧ petsGraph.edge? p' = some e' ∧ e'.Ref = some q := by
  refine ⟨rfl, rfl, rfl, rfl, ?_⟩
  obtain ⟨q, a, h1, h2, h3, ⟨p', e', h4, h5, -, -, h6⟩, h7⟩ :=
    ref_symmetric sampleEnv none petsSchemas petsGraph rfl ⟨1, 0⟩ (petsGraph.edgeAt ⟨1, 0⟩)
      rfl rfl rfl
  exact ⟨q, a, h1, h2, h3, h7 (fun p' e' k1 k2 _ _ => petsGraph_inverse p' e' k1 k2),
    p', e', h4, h5, h6⟩

/-- C5, as stated, fails.  In `twoInverseSchemas` the inverse edge `y1` keeps the
table `bs` while its `Ref`, the edge `x` that `y2` linked again, has the table
`as`.  In `roleSchemas` the assoc edge `roles` is bound to the edge schema and has
its table `memberships`, while its inverse `users`, which declares no `Through`,
keeps the join table `user_roles`; the two edges point to each other. -/
theorem pair_storage_counterexample :
    (NewGraph sampleEnv none twoInverseSchemas = Except.ok twoInverseGraph ∧
      (twoInverseGraph.edgeAt ⟨1, 0⟩).Ref = some ⟨0, 0⟩ ∧
      (twoInverseGraph.edgeAt ⟨1, 0⟩).Rel.Table = "bs" ∧
      (twoInverseGraph.edgeAt ⟨0, 0⟩).Rel.Table = "as") ∧
    (NewGraph sampleEnv none roleSchemas = Except.ok roleGraph ∧
      (roleGraph.edgeAt ⟨0, 0⟩).Ref = some ⟨1, 0⟩ ∧
      (roleGraph.edgeAt ⟨1, 0⟩).Ref = some ⟨0, 0⟩ ∧
      (roleGraph.edgeAt ⟨0, 0⟩).Through = some 2 ∧
      (roleGraph.edgeAt ⟨0, 0⟩).Rel.Table = "memberships" ∧
      (roleGraph.edgeAt ⟨1, 0⟩).Rel.Table = "user_roles") :=
  ⟨⟨rfl, rfl, rfl, rfl⟩, rfl, rfl, rfl, rfl, rfl, rfl⟩

/-- C5, amended: whenever `NewGraph` succeeds, every inverse edge `e` that a schema
declares and whose assoc edge points back to it (`e.Ref.Ref == e`) has the same
`Rel.Columns` as `e.Ref`, and the same `Rel.Table` when both edges are bound to the
same edge schema or to none (`e.Through == e.Ref.Through`). -/
theorem pair_storage (env : Env) (c : Option TypeInfo) (schemas : List Schema) (g : Graph)
    (h : NewGraph env c schemas = Except.ok g) (p q : EdgePtr) (e a : Edge)
    (he : g.edge? p = some e) (hinv : e.IsInverse = true) (hd : e.decl.Inverse = true)
    (href : e.Ref = some q) (ha : g.edge? q = some a) (hback : a.Ref = some p) :
    e.Rel.Columns = a.Rel.Columns ∧ (e.Through = a.Through → e.Rel.Table = a.Rel.Table) := by
  obtain ⟨g3, -, hr, hx⟩ := NewGraph_ok h
  obtain ⟨e0, q', a0, a', h1, -, h3, h4, h5, -, h7, -, h9, h10, h11, -, -, -, -, -, h17, h18⟩ :=
    hx.inverse_pair hr he hinv hd
  rw [href] at h5
  cases h5
  rw [ha] at h7
  cases h7
  obtain ⟨p', e0', k1, k2, -, -, -, k6⟩ := h18
  rw [hback] at h9
  rw [← h9] at k1
  cases k1
  rw [h1] at k2
  cases k2
  obtain ⟨hsame1, hsame2⟩ := linkPair_same env g3 p q e0 a0
  have htab : e0.Rel.Table = a0.Rel.Table := by rw [h17, k6]; exact hsame1
  have hcol : e0.Rel.Columns = a0.Rel.Columns := by rw [h17, k6]; exact hsame2
  refine ⟨by rw [h3, h10, hcol], ?_⟩
  intro hth
  rcases h4 with ⟨t1, t2⟩ | ⟨ty, t1, t2⟩ <;> rcases h11 with ⟨u1, u2⟩ | ⟨ty', u1, u2⟩
  · rw [t2, u2, htab]
  · rw [t1, u1] at hth; cases hth
  · rw [t1, u1] at hth; cases hth
  · rw [t1, u1] at hth
    cases hth
    rw [t2, u2]

/-- Witness of the amended C5 on `petsSchemas`: the inverse edge `pets` and its
assoc edge `owner` have the same column and the same table. -/
theorem pair_storage_witness :
    NewGraph sampleEnv none petsSchemas = Except.ok petsGraph ∧
    (petsGraph.edgeAt ⟨1, 0⟩).Ref = some ⟨0, 0⟩ ∧
    (petsGraph.edgeAt ⟨0, 0⟩).Ref = some ⟨1, 0⟩ ∧
    (petsGraph.edgeAt ⟨1, 0⟩).Rel.Columns = (petsGraph.edgeAt ⟨0, 0⟩).Rel.Columns ∧
    (petsGraph.edgeAt ⟨1, 0⟩).Rel.Table = (petsGraph.edgeAt ⟨0, 0⟩).Rel.Table :=
  have h := pair_storage sampleEnv none petsSchemas petsGraph rfl ⟨1, 0⟩ ⟨0, 0⟩
    (petsGraph.edgeAt ⟨1, 0⟩) (petsGraph.edgeAt ⟨0, 0⟩) rfl rfl rfl rfl rfl rfl
  ⟨rfl, rfl, rfl, h.1, h.2 rfl⟩

/-- C6, as stated, fails for the assoc edge of a pair.  In `petsSchemas` the assoc
edge `owner` of `pet` has the target `user` (node 1), and its `Ref`, the inverse
edge `pets`, has the `Owner` `pet` (node 0). -/
theorem ref_owner_counterexample :
    NewGraph sampleEnv none petsSchemas = Except.ok petsGraph ∧
    petsGraph.edge? ⟨0, 0⟩ = some (petsGraph.edgeAt ⟨0, 0⟩) ∧
    (petsGraph.edgeAt ⟨0, 0⟩).Name = "owner" ∧
    (petsGraph.edgeAt ⟨0, 0⟩).Ref = some ⟨1, 0⟩ ∧
    petsGraph.edge? ⟨1, 0⟩ = some (petsGraph.edgeAt ⟨1, 0⟩) ∧
    (petsGraph.edgeAt ⟨0, 0⟩).Typ = 1 ∧
    (petsGraph.edgeAt ⟨1, 0⟩).Owner = 0 ∧
    (petsGraph.edgeAt ⟨0, 0⟩).Typ ≠ (petsGraph.edgeAt ⟨1, 0⟩).Owner := by
  refine ⟨rfl, rfl, rfl, rfl, rfl, rfl, rfl, ?_⟩
  decide

/-- C6, amended: whenever `NewGraph` succeeds, every inverse edge `e` that a schema
declares has `Ref` set and satisfies `e.Type == e.Ref.Owner`; the assoc edge
`e.Ref` is an edge of the node `e.Type`, and its target is the node that holds `e`. -/
theorem ref_owner (env : Env) (c : Option TypeInfo) (schemas : List Schema) (g : Graph)
    (h : NewGraph env c schemas = Except.ok g) (p : EdgePtr) (e : Edge)
    (he : g.edge? p = some e) (hinv : e.IsInverse = true) (hd : e.decl.Inverse = true) :
    ∃ q a, e.Ref = some q ∧ g.edge? q = some a ∧ e.Typ = a.Owner ∧ q.node = e.Typ ∧
      a.Typ = p.node := by
  obtain ⟨g3, -, hr, hx⟩ := NewGraph_ok h
  obtain ⟨e0, q, a0, a, -, h2, -, -, h5, -, h7, h8, -, -, -, -, h13, h14, h15, -⟩ :=
    hx.inverse_pair hr he hinv hd
  obtain ⟨-, -, s3, -⟩ := (Edge.static_eq_iff _ _).mp h2
  obtain ⟨-, -, t3, t4, -⟩ := (Edge.static_eq_iff _ _).mp h8
  exact ⟨q, a, h5, h7, by rw [s3, t4, h14], by rw [s3, h13], by rw [t3, h15]⟩

/-- Witness of the amended C6 on `petsSchemas`: the inverse edge `pets` of `user`
has the target `pet`, the `Owner` of its assoc edge `owner`. -/
theorem ref_owner_witness :
    NewGraph sampleEnv none petsSchemas = Except.ok petsGraph ∧
    petsGraph.edge? ⟨1, 0⟩ = some (petsGraph.edgeAt ⟨1, 0⟩) ∧
    (petsGraph.edgeAt ⟨1, 0⟩).IsInverse = true ∧
    (petsGraph.edgeAt ⟨1, 0⟩).decl.Inverse = true ∧
    ∃ q a, (petsGraph.edgeAt ⟨1, 0⟩).Ref = some q ∧ petsGraph.edge? q = some a ∧
      (petsGraph.edgeAt ⟨1, 0⟩).Typ = a.Owner :=
  have h := ref_owner sampleEnv none petsSchemas petsGraph rfl ⟨1, 0⟩ (petsGraph.edgeAt ⟨1, 0⟩)
    rfl rfl rfl
  ⟨rfl, rfl, rfl, rfl, h.elim fun q hq => hq.elim fun a ha => ⟨q, a, ha.1, ha.2.1, ha.2.2.1⟩⟩

/-! ## Edges required in both directions -/

/-- In a successful loop every element had a successful step, from a state that
satisfies the invariant of the loop. -/
theorem forEach_ok_step {σ α ε : Type} {f : σ → α → Except ε σ} {P : σ → Prop}
    (hP : ∀ s a s', P s → f s a = Except.ok s' → P s') :
    ∀ (l : List α) (s s' : σ), P s → forEach f s l = Except.ok s' →
      ∀ a ∈ l, ∃ s1 s2, P s1 ∧ f s1 a = Except.ok s2 := by
  intro l
  induction l with
  | nil => intro s s' _ _ a ha; simp at ha
  | cons b bs ih =>
    intro s s' hs h a ha
    simp only [forEach] at h
    split at h
    · next s1 h1 =>
      rcases List.mem_cons.mp ha with rfl | ha
      · exact ⟨s, s1, hs, h1⟩
      · exact ih s1 s' (hP s b s1 hs h1) h a ha
    · simp at h

/-- The iteration of `resolve` on an inverse edge that is required, as is the
assoc edge it names, returns the error of the second check. -/
theorem resolveEdge_both_required (env : Env) (g : Graph) (i j k : Nat) (e ref : Edge)
    (he : g.edge? ⟨i, j⟩ = some e) (hinv : e.IsInverse = true)
    (href : (g.node e.Typ).HasAssoc e.Inverse = some (k, ref))
    (h1 : e.Optional = false) (h2 : ref.Optional = false) :
    resolveEdge env i g j = Except.error ("edges cannot be required in both directions: "
      ++ (g.node i).Name ++ "." ++ e.Name ++ " <-> " ++ (g.node e.Typ).Name ++ "." ++ ref.Name) := by
  unfold resolveEdge
  simp [he, hinv, href, h1, h2]

/-- The function `resolve` fails on a node with an inverse edge that is required,
as is the assoc edge it names. -/
theorem resolve_both_required (env : Env) (g0 g : Graph) (hs : g.static = g0.static)
    (i j k : Nat) (e ref : Edge) (he : g0.edge? ⟨i, j⟩ = some e) (hinv : e.IsInverse = true)
    (href : (g0.node e.Typ).HasAssoc e.Inverse = some (k, ref))
    (h1 : e.Optional = false) (h2 : ref.Optional = false) (g' : Graph) :
    resolve env g i ≠ Except.ok g' := by
  intro hok
  have hj : j ∈ List.range (g.node i).Edges.length := by
    rw [List.mem_range, Graph.static_edges_length hs]
    exact (Graph.edge?_lt he).2
  obtain ⟨s1, s2, hs1, hstep⟩ := forEach_ok_step (f := resolveEdge env i)
    (P := fun s => s.static = g0.static)
    (fun s a s' hp hst => (resolveEdge_step hst).static.trans hp) _ g g' hs hok j hj
  obtain ⟨e1, he1, hes⟩ := Graph.static_edge hs1 he
  obtain ⟨-, -, t3, -, t5, -, t7⟩ := (Edge.static_eq_iff _ _).mp hes
  obtain ⟨r1, hr1, hrs⟩ := Node.HasAssoc_static hs1 href
  obtain ⟨-, -, -, -, -, -, u7⟩ := (Edge.static_eq_iff _ _).mp hrs
  rw [resolveEdge_both_required env s1 i j k e1 r1 he1
    (by rw [Edge.IsInverse_static hes]; exact hinv) (by rw [t3, t5]; exact hr1)
    (by rw [t7]; exact h1) (by rw [u7]; exact h2)] at hstep
  cases hstep

/-- C7: if an inverse edge and the assoc edge it names are both required, the
iteration of `resolve` on the inverse edge returns the error "edges cannot be
required in both directions", `resolve` fails on that node, and `NewGraph` returns
an error whenever the graph that `addEdges` builds has such a pair; so in every
graph that `NewGraph` returns without an error, no inverse edge and the edge its
`Ref` points to are both required. -/
theorem both_required_rejected (env : Env) (c : Option TypeInfo) (schemas : List Schema) :
    (∀ (g : Graph) (i j k : Nat) (e ref : Edge), g.edge? ⟨i, j⟩ = some e →
      e.IsInverse = true → (g.node e.Typ).HasAssoc e.Inverse = some (k, ref) →
      e.Optional = false → ref.Optional = false →
      resolveEdge env i g j = Except.error ("edges cannot be required in both directions: "
        ++ (g.node i).Name ++ "." ++ e.Name ++ " <-> " ++ (g.node e.Typ).Name ++ "." ++ ref.Name) ∧
      ∃ err, resolve env g i = Except.error err) ∧
    (∀ (g2 : Graph) (i j k : Nat) (e ref : Edge), edgesStage c schemas = Except.ok g2 →
      g2.edge? ⟨i, j⟩ = some e → e.IsInverse = true →
      (g2.node e.Typ).HasAssoc e.Inverse = some (k, ref) →
      e.Optional = false → ref.Optional = false →
      ∃ msg, NewGraph env c schemas = Except.error (Failure.error msg)) ∧
    (∀ (g : Graph), NewGraph env c schemas = Except.ok g →
      ∀ (p q : EdgePtr) (e a : Edge), g.edge? p = some e → e.IsInverse = true →
        e.Ref = some q → g.edge? q = some a → e.Optional = true ∨ a.Optional = true) := by
  refine ⟨?_, ?_, ?_⟩
  · intro g i j k e ref he hinv href h1 h2
    refine ⟨resolveEdge_both_required env g i j k e ref he hinv href h1 h2, ?_⟩
    cases hres : resolve env g i with
    | error err => exact ⟨err, rfl⟩
    | ok g' => exact absurd hres (resolve_both_required env g g rfl i j k e ref he hinv href h1 h2 g')
  · intro g2 i j k e ref hg2 he hinv href h1 h2
    have hstage : resolveStage env c schemas =
        forEach (resolveNode env) g2 (List.range g2.Nodes.length) := by
      unfold resolveStage
      rw [hg2]
    cases hres : forEach (resolveNode env) g2 (List.range g2.Nodes.length) with
    | ok g3 =>
      exfalso
      have hi : i ∈ List.range g2.Nodes.length := List.mem_range.mpr (Graph.edge?_lt he).1
      obtain ⟨s1, s2, hs1, hstep⟩ := forEach_ok_step (f := resolveNode env)
        (P := fun s => s.static = g2.static)
        (fun s a s' hp hst => (resolve_static (resolveNode_ok hst)).trans hp) _ g2 g3 rfl hres i hi
      exact resolve_both_required env g2 s1 hs1 i j k e ref he hinv href h1 h2 s2
        (resolveNode_ok hstep)
    | error f =>
      have hf : ∃ msg, f = Failure.error msg :=
        forEach_error_of (f := resolveNode env) (P := fun f => ∃ msg, f = Failure.error msg)
          (fun s a err hst => by
            unfold resolveNode at hst
            split at hst
            · simp at hst
            · simp only [Except.error.injEq] at hst
              exact ⟨_, hst.symm⟩) _ g2 f hres
      obtain ⟨msg, rfl⟩ := hf
      refine ⟨msg, ?_⟩
      unfold NewGraph
      rw [hstage, hres]
  · intro g h p q e a he hinv href ha
    obtain ⟨g3, -, hr, hx⟩ := NewGraph_ok h
    rcases hx.edge_cases he with ⟨e0, h0, h1, h2, -⟩ | ⟨-, -, -, h3⟩
    · have hinv0 : e0.IsInverse = true := by rw [← Edge.IsInverse_static h1]; exact hinv
      obtain ⟨q0, a0, k1, k2, -, -, -, -, -, k8, -⟩ := hr.inverse_ref h0 hinv0
      rw [h2, k1] at href
      cases href
      obtain ⟨a', m1, m2, -⟩ := hx.old_edge k2
      rw [ha] at m1
      cases m1
      rw [((Edge.static_eq_iff _ _).mp h1).2.2.2.2.2.2, ((Edge.static_eq_iff _ _).mp m2).2.2.2.2.2.2]
      exact k8
    · exact Or.inl h3

/-- Witness of C7 on `requiredSchemas`: the iteration of `resolve` on the inverse
edge `a` of `b` returns the error, and so does `NewGraph`; and on `petsSchemas`,
where `NewGraph` succeeds: the inverse edge `pets` and its assoc are optional. -/
theorem both_required_rejected_witness :
    edgesStage none requiredSchemas = Except.ok requiredEdges ∧
    resolveEdge sampleEnv 1 requiredEdges 0 =
      Except.error "edges cannot be required in both directions: b.a <-> a.b" ∧
    NewGraph sampleEnv none requiredSchemas = Except.error (Failure.error
      "resolve \"b\" relations: edges cannot be required in both directions: b.a <-> a.b") ∧
    (∃ msg, NewGraph sampleEnv none requiredSchemas = Except.error (Failure.error msg)) ∧
    NewGraph sampleEnv none petsSchemas = Except.ok petsGraph ∧
    ((petsGraph.edgeAt ⟨1, 0⟩).Optional = true ∨ (petsGraph.edgeAt ⟨0, 0⟩).Optional = true) :=
  ⟨rfl, rfl, rfl,
    (both_required_rejected sampleEnv none requiredSchemas).2.1 requiredEdges 1 0 0
      (requiredEdges.edgeAt ⟨1, 0⟩) (requiredEdges.edgeAt ⟨0, 0⟩) rfl rfl rfl rfl rfl rfl,
    rfl,
    (both_required_rejected sampleEnv none petsSchemas).2.2 petsGraph rfl ⟨1, 0⟩ ⟨0, 0⟩
      (petsGraph.edgeAt ⟨1, 0⟩) (petsGraph.edgeAt ⟨0, 0⟩) rfl rfl rfl rfl⟩

/-! ## The table of a relation -/

/-- The table the linking branch writes, by the relation kind each edge gets. -/
theorem linkPair_table (env : Env) (g : Graph) (p q : EdgePtr) (e ref : Edge) :
    ((linkPair env g p q e ref).1.Rel.Typ = Rel.M2O →
      (linkPair env g p q e ref).1.Rel.Table = (g.node p.node).Table env) ∧
    ((linkPair env g p q e ref).1.Rel.Typ = Rel.O2M →
      (linkPair env g p q e ref).1.Rel.Table = (g.node e.Typ).Table env) ∧
    ((linkPair env g p q e ref).1.Rel.Typ = Rel.O2O →
      (linkPair env g p q e ref).1.Rel.Table = (g.node p.node).Table env) ∧
    ((linkPair env g p q e ref).2.Rel.Typ = Rel.M2O →
      (linkPair env g p q e ref).2.Rel.Table = (g.node e.Typ).Table env) ∧
    ((linkPair env g p q e ref).2.Rel.Typ = Rel.O2M →
      (linkPair env g p q e ref).2.Rel.Table = (g.node p.node).Table env) ∧
    ((linkPair env g p q e ref).2.Rel.Typ = Rel.O2O →
      (linkPair env g p q e ref).2.Rel.Table = (g.node p.node).Table env) := by
  obtain ⟨h1, h2, h3, h4⟩ := linkPair_rel env g p q e ref
  cases hu : e.Unique <;> cases hv : ref.Unique
  · rw [(h4 hu hv).2, (h4 hu hv).1]; simp
  · rw [(h3 hu hv).2, (h3 hu hv).1]; simp
  · rw [(h2 hu hv).2, (h2 hu hv).1]; simp
  · rw [(h1 hu hv).2, (h1 hu hv).1]; simp

/-- The table the unpaired branch writes, by the relation kind the edge gets. -/
theorem soloEdge_table (env : Env) (g : Graph) (i : Nat) (e : Edge) :
    ((soloEdge env g i e).Rel.Typ = Rel.M2O →
      (soloEdge env g i e).Rel.Table = (g.node i).Table env) ∧
    ((soloEdge env g i e).Rel.Typ = Rel.O2M →
      (soloEdge env g i e).Rel.Table = (g.node e.Typ).Table env) ∧
    ((soloEdge env g i e).Rel.Typ = Rel.O2O →
      e.Typ = i ∧ (soloEdge env g i e).Rel.Table = (g.node i).Table env) := by
  obtain ⟨h1, h2, h3, h4⟩ := soloEdge_rel env g i e
  cases hu : e.Unique <;> by_cases hv : e.Typ = i
  · rw [h1 hu hv]; simp
  · rw [h4 hu hv]; simp
  · rw [h2 hu hv]; simp [hv]
  · rw [h3 hu hv]; simp

/-- In a resolved graph, an assoc edge whose inverse edge points back to it carries
the relation the linking branch wrote for that pair. -/
theorem Graph.Resolved.assoc_paired {env : Env} {g : Graph} (hr : g.Resolved env)
    {p q : EdgePtr} {e a : Edge} (ha : g.edge? q = some a) (href : a.Ref = some p)
    (he : g.edge? p = some e) (hinv : e.IsInverse = true) (hback : e.Ref = some q) :
    a.IsInverse = false ∧ a.Typ = p.node ∧ e.Typ = q.node ∧
      a.Rel = (linkPair env g p q e a).2.Rel := by
  obtain ⟨q', a', h1, h2, h3, -, h5, -, h7, -, -, h10⟩ := hr.inverse_ref he hinv
  rw [hback] at h1
  cases h1
  rw [ha] at h2
  cases h2
  obtain ⟨p', e', k1, k2, -, -, -, k6⟩ := h10
  rw [href] at k1
  cases k1
  rw [he] at k2
  cases k2
  exact ⟨h3, h7, h5.symm, k6⟩

/-- C11: in the graph the loop over `resolve` leaves, `Rel.Table` of an edge that
is not M2M is the table that holds the foreign key.  For an M2O edge it is the
table of the node that declares the edge; for an O2M edge it is the table of the
edge's target; for an O2O inverse edge it is the table of the node that declares
it, and the assoc edge it is paired with has that same table; for an O2O assoc edge
without a back-reference the target is the declaring node and the table is its own. -/
theorem rel_table_holds_fk (env : Env) (c : Option TypeInfo) (schemas : List Schema) (g : Graph)
    (h : resolveStage env c schemas = Except.ok g) (p : EdgePtr) (e : Edge)
    (he : g.edge? p = some e) :
    (e.Rel.Typ = Rel.M2O → e.Rel.Table = (g.node p.node).Table env) ∧
    (e.Rel.Typ = Rel.O2M → e.Rel.Table = (g.node e.Typ).Table env) ∧
    (e.Rel.Typ = Rel.O2O → e.IsInverse = true → e.Rel.Table = (g.node p.node).Table env) ∧
    (e.Rel.Typ = Rel.O2O → e.IsInverse = false →
      ∀ p' e', e.Ref = some p' → g.edge? p' = some e' → e'.IsInverse = true →
        e'.Ref = some p → e.Rel.Table = (g.node p'.node).Table env) ∧
    (e.Rel.Typ = Rel.O2O → e.IsInverse = false → e.Ref = none →
      e.Typ = p.node ∧ e.Rel.Table = (g.node p.node).Table env) ∧
    (e.Rel.Typ = Rel.O2O → e.IsInverse = false → e.Rel.Table = (g.node e.Typ).Table env) := by
  have hr := resolveStage_resolved h
  -- the two shapes of the relation of `e`
  have hcases : (e.IsInverse = true ∧ ∃ q a, e.Rel = (linkPair env g p q e a).1.Rel) ∨
      (e.IsInverse = false ∧ e.Rel = (soloEdge env g p.node e).Rel) ∨
      (e.IsInverse = false ∧ ∃ p' e', e.Ref = some p' ∧ e'.Typ = p.node ∧ e.Typ = p'.node ∧
        e.Rel = (linkPair env g p' p e' e).2.Rel) := by
    cases hinv : e.IsInverse
    · right
      rcases hr.linked.assoc p e he hinv (hr.done p e he) with hs | hp
      · exact Or.inl ⟨rfl, hs⟩
      · obtain ⟨p', e', k1, k2, k3, k4, k5, k6⟩ := hp
        obtain ⟨-, m2, m3, m4⟩ := hr.assoc_paired he k1 k2 k3 k5
        exact Or.inr ⟨rfl, p', e', k1, m3, m2, m4⟩
    · left
      obtain ⟨q, a, -, -, -, -, -, -, -, -, h9, -⟩ := hr.inverse_ref he hinv
      exact ⟨rfl, q, a, h9⟩
  rcases hcases with ⟨hinv, q, a, hrel⟩ | ⟨hinv, hrel⟩ | ⟨hinv, p', e', hp', ht', ht, hrel⟩
  · obtain ⟨t1, t2, t3, -⟩ := linkPair_table env g p q e a
    rw [hrel]
    refine ⟨t1, t2, fun k _ => t3 k, ?_, ?_, ?_⟩
    · intro _ k; rw [hinv] at k; cases k
    · intro _ k; rw [hinv] at k; cases k
    · intro _ k; rw [hinv] at k; cases k
  · obtain ⟨t1, t2, t3⟩ := soloEdge_table env g p.node e
    rw [hrel]
    refine ⟨t1, t2, ?_, ?_, fun k _ _ => t3 k, ?_⟩
    · intro _ k; rw [hinv] at k; cases k
    · intro k _ p' e' k1 k2 k3 k4
      obtain ⟨-, m2, -, -⟩ := hr.assoc_paired he k1 k2 k3 k4
      rw [(t3 k).2, ← m2, (t3 k).1]
    · intro k _
      rw [(t3 k).2, (t3 k).1]
  · obtain ⟨-, -, -, t4, t5, t6⟩ := linkPair_table env g p' p e' e
    rw [hrel]
    refine ⟨?_, ?_, ?_, ?_, ?_, ?_⟩
    · intro k; rw [t4 k, ht']
    · intro k; rw [t5 k, ht]
    · intro _ k; rw [hinv] at k; cases k
    · intro k _ p'' e'' k1 _ _ _
      rw [hp'] at k1
      cases k1
      exact t6 k
    · intro _ _ k; rw [hp'] at k; cases k
    · intro k _; rw [t6 k, ht]

/-- Witness of C11 on `petsSchemas`: the M2O edge `owner` of `pet` and the O2M edge
`pets` of `user` both name the table `pets`, the table of `pet`. -/
theorem rel_table_holds_fk_witness :
    resolveStage sampleEnv none petsSchemas = Except.ok petsResolved ∧
    (petsResolved.edgeAt ⟨0, 0⟩).Rel.Typ = Rel.M2O ∧
    (petsResolved.edgeAt ⟨1, 0⟩).Rel.Typ = Rel.O2M ∧
    (petsResolved.edgeAt ⟨0, 0⟩).Rel.Table = (petsResolved.node 0).Table sampleEnv ∧
    (petsResolved.edgeAt ⟨1, 0⟩).Rel.Table = (petsResolved.node 0).Table sampleEnv ∧
    (petsResolved.node 0).Table sampleEnv = "pets" :=
  ⟨rfl, rfl, rfl,
    (rel_table_holds_fk sampleEnv none petsSchemas petsResolved rfl ⟨0, 0⟩
      (petsResolved.edgeAt ⟨0, 0⟩) rfl).1 rfl,
    (rel_table_holds_fk sampleEnv none petsSchemas petsResolved rfl ⟨1, 0⟩
      (petsResolved.edgeAt ⟨1, 0⟩) rfl).2.1 rfl, rfl⟩

/-! ## The `Bidi` flag -/

/-- C12 fails, and the outcome depends on the declaration order.  In `followSchemas`
the assoc edge `following` of `user` is declared before its inverse `followers`:
the unpaired branch of `resolve` sets `Bidi` on it, the linking branch then pairs
it with `followers` and leaves `Bidi` set, so the final graph has an edge with
`Bidi = true` whose `Ref` is a distinct inverse edge that points back to it.  In
`followersFirstSchemas`, the same two edges with the inverse declared first, the
edge `following` ends with `Bidi = false`. -/
theorem bidi_depends_on_order :
    (NewGraph sampleEnv none followSchemas = Except.ok followGraph ∧
      (followGraph.edgeAt ⟨0, 0⟩).Name = "following" ∧
      (followGraph.edgeAt ⟨0, 0⟩).IsInverse = false ∧
      (followGraph.edgeAt ⟨0, 0⟩).Typ = 0 ∧
      (followGraph.edgeAt ⟨0, 0⟩).Ref = some ⟨0, 1⟩ ∧
      (followGraph.edgeAt ⟨0, 1⟩).Name = "followers" ∧
      (followGraph.edgeAt ⟨0, 1⟩).IsInverse = true ∧
      (followGraph.edgeAt ⟨0, 1⟩).Ref = some ⟨0, 0⟩ ∧
      (followGraph.edgeAt ⟨0, 0⟩).Bidi = true) ∧
    (NewGraph sampleEnv none followersFirstSchemas = Except.ok followersFirstGraph ∧
      (followersFirstGraph.edgeAt ⟨0, 1⟩).Name = "following" ∧
      (followersFirstGraph.edgeAt ⟨0, 1⟩).IsInverse = false ∧
      (followersFirstGraph.edgeAt ⟨0, 1⟩).Ref = some ⟨0, 0⟩ ∧
      (followersFirstGraph.edgeAt ⟨0, 0⟩).Name = "followers" ∧
      (followersFirstGraph.edgeAt ⟨0, 0⟩).Ref = some ⟨0, 1⟩ ∧
      (followersFirstGraph.edgeAt ⟨0, 1⟩).Bidi = false) :=
  ⟨⟨rfl, rfl, rfl, rfl, rfl, rfl, rfl, rfl, rfl⟩, rfl, rfl, rfl, rfl, rfl, rfl, rfl⟩

/-! ## Edge schemas: the checks of `edgeSchemas` -/

/-- A loop over a range whose steps before `j` leave the state as it is and whose
step `j` fails returns the failure of step `j`. -/
theorem forEach_range_first_error {σ ε : Type} {f : σ → Nat → Except ε σ} {s : σ} {j : Nat}
    {err : ε} (hj : f s j = Except.error err) :
    ∀ (n a : Nat), a ≤ j → j < a + n → (∀ b, a ≤ b → b < j → f s b = Except.ok s) →
      forEach f s (List.range' a n) = Except.error err := by
  intro n
  induction n with
  | zero => intro a h1 h2; omega
  | succ n ih =>
    intro a h1 h2 hb
    rw [List.range'_succ]
    simp only [forEach]
    by_cases haj : a = j
    · subst haj
      rw [hj]
    · rw [hb a (Nat.le_refl a) (by omega)]
      exact ih (a + 1) (by omega) (by omega) (fun b k1 k2 => hb b (by omega) k2)

/-- A loop over a range all of whose steps leave the state as it is. -/
theorem forEach_range_skip {σ ε : Type} {f : σ → Nat → Except ε σ} {s : σ} :
    ∀ (n a : Nat), (∀ b, a ≤ b → b < a + n → f s b = Except.ok s) →
      forEach f s (List.range' a n) = Except.ok s := by
  intro n
  induction n with
  | zero => intro a _; rfl
  | succ n ih =>
    intro a hb
    rw [List.range'_succ]
    simp only [forEach]
    rw [hb a (Nat.le_refl a) (by omega)]
    exact ih (a + 1) (fun b k1 k2 => hb b (by omega) (by omega))

/-- The iteration of `edgeSchemas` on an edge that declares no `Through`, or at a
position without an edge, leaves the graph as it is. -/
theorem edgeSchema_skip (env : Env) (g : Graph) (i j : Nat)
    (h : ∀ e, g.edge? ⟨i, j⟩ = some e → e.decl.Through = none) :
    edgeSchema env i g j = Except.ok g := by
  unfold edgeSchema
  cases he : g.edge? ⟨i, j⟩ with
  | none => rfl
  | some e => simp [h e he]

/-- The iteration of `edgeSchemas` on an edge that declares `Through` and is not
M2M returns the error of the first check. -/
theorem edgeSchema_not_m2m (env : Env) (g : Graph) (i j : Nat) (e : Edge) (th : ThroughDef)
    (he : g.edge? ⟨i, j⟩ = some e) (hth : e.decl.Through = some th) (hm : e.Rel.Typ ≠ Rel.M2M) :
    edgeSchema env i g j = Except.error (Failure.error ("edge " ++ (g.node i).Name ++ "." ++ e.Name
      ++ " " ++ throughText th ++ " is allowed only on M2M edges, but got: "
      ++ quote e.Rel.Typ.name)) := by
  unfold edgeSchema
  simp [he, hth, Edge.M2M, hm]

/-- The stage `edgeSchemas` fails on a graph with an edge whose iteration fails in
every state the loop can reach. -/
theorem edgeSchemas_stuck {env : Env} {g4 g3 : Graph} (hx : g4.Extends env g3) {i j : Nat}
    {e : Edge} (he : g3.edge? ⟨i, j⟩ = some e)
    (hfail : ∀ s s', s.Extends env g3 → edgeSchema env i s j ≠ Except.ok s') (g5 : Graph) :
    edgeSchemas env g4 ≠ Except.ok g5 := by
  intro hok
  unfold edgeSchemas at hok
  split at hok
  · next g1 h1 =>
    obtain ⟨e4, he4, -⟩ := hx.old _ e he
    have hi : i ∈ List.range g4.Nodes.length := List.mem_range.mpr (Graph.edge?_lt he4).1
    obtain ⟨s1, s2, hs1, hstep⟩ := forEach_ok_step (f := edgeSchemasNode env)
      (P := fun s => s.Extends env g3)
      (fun s a s' hp hst =>
        forEach_inv (P := fun s => s.Extends env g3)
          (fun _ _ _ hs' hstep' => edgeSchema_extends hstep' hs') _ s s' hp hst)
      _ g4 g1 hx h1 i hi
    obtain ⟨e1, he1, -⟩ := hs1.old _ e he
    have hj : j ∈ List.range (s1.node i).Edges.length :=
      List.mem_range.mpr (Graph.edge?_lt he1).2
    obtain ⟨t1, t2, ht1, hstep2⟩ := forEach_ok_step (f := edgeSchema env i)
      (P := fun s => s.Extends env g3)
      (fun _ _ _ hs' hstep' => edgeSchema_extends hstep' hs') _ s1 s2 hs1 hstep j hj
    exact hfail t1 t2 ht1 hstep2
  · simp at hok
  · simp at hok

/-- The graph `edgeSchemas` starts from has the edges of the resolved graph. -/
theorem setupFKs_all_sameEdges (g3 : Graph) :
    ((List.range g3.Nodes.length).foldl setupFKs g3).SameEdges g3 :=
  foldl_sameEdges setupFKs setupFKs_sameEdges _ g3

/-- The stage `edgeSchemas` returns the failure of the first edge in the order of
its loops that declares `Through`, when the iteration on that edge fails. -/
theorem edgeSchemas_first (env : Env) (g : Graph) (i j : Nat) (e : Edge) (f : Failure)
    (he : g.edge? ⟨i, j⟩ = some e) (hf : edgeSchema env i g j = Except.error f)
    (hfirst : ∀ p' e', g.edge? p' = some e' → p'.node < i ∨ (p'.node = i ∧ p'.idx < j) →
      e'.decl.Through = none) :
    forEach (edgeSchemasNode env) g (List.range g.Nodes.length) = Except.error f := by
  have hnode : edgeSchemasNode env g i = Except.error f := by
    unfold edgeSchemasNode
    rw [List.range_eq_range']
    exact forEach_range_first_error hf _ 0 (Nat.zero_le _)
      (by have := (Graph.edge?_lt he).2; simpa using this)
      (fun b _ hb => edgeSchema_skip env g i b
        (fun e' he' => hfirst ⟨i, b⟩ e' he' (Or.inr ⟨rfl, hb⟩)))
  rw [List.range_eq_range']
  refine forEach_range_first_error hnode _ 0 (Nat.zero_le _)
    (by have := (Graph.edge?_lt he).1; simpa using this) ?_
  intro b _ hb
  unfold edgeSchemasNode
  rw [List.range_eq_range']
  exact forEach_range_skip _ 0 (fun k _ _ => edgeSchema_skip env g b k
    (fun e' he' => hfirst ⟨b, k⟩ e' he' (Or.inl hb)))

/-- C14 fails when no inverse edge goes through the edge schema.  The iteration of
`edgeSchemas` on an assoc M2M edge `e` that passes the checks before the binding,
and whose edge schema `ty` has its `To` slot taken by another assoc edge: when the
`From` slot is taken too the iteration returns the error "... is already used as an
edge schema by other edge.To", printed with the name and owner of the `From` edge;
when the `From` slot is empty, building that message dereferences the nil
`EdgeSchema.From` and the iteration panics instead of returning the error. -/
theorem edge_to_reused (env : Env) (g : Graph) (i j : Nat) (e : Edge) (th : ThroughDef)
    (ty : Nat) (t : EdgePtr) (he : g.edge? ⟨i, j⟩ = some e) (hth : e.decl.Through = some th)
    (hm : e.Rel.Typ = Rel.M2M) (hty : g.typ th.T = some ty) (hne : ty ≠ i)
    (hname : th.N ≠ "") (hfree : (g.node i).hasEdge th.N = false) (hinv : e.IsInverse = false)
    (hto : (g.node ty).EdgeSchema.To = some t) :
    (∀ f, (g.node ty).EdgeSchema.From = some f →
      edgeSchema env i g j = Except.error (Failure.error ("type " ++ (g.node ty).Name
        ++ " is already used as an edge schema by other edge.To: "
        ++ ((g.edge? f).getD default).Name ++ "."
        ++ (g.node ((g.edge? f).getD default).Owner).Name))) ∧
    ((g.node ty).EdgeSchema.From = none →
      edgeSchema env i g j =
        Except.error (Failure.crash "nil pointer dereference: EdgeSchema.From")) := by
  constructor
  · intro f hf
    unfold edgeSchema bindThrough
    simp [he, hth, Edge.M2M, hm, hty, hne, hname, hfree, hinv, hto, hf]
  · intro hf
    unfold edgeSchema bindThrough
    simp [he, hth, Edge.M2M, hm, hty, hne, hname, hfree, hinv, hto, hf]

/-- Witness of C14 on `twoToSchemas`: the assoc edges `roles` and `friends` of
`user` both go through `membership` and no inverse edge does.  The iteration on
`roles` succeeds and takes the `To` slot; the iteration on `friends` panics, and so
does `NewGraph`: no error is returned. -/
theorem edge_to_reused_witness :
    twoToBound.edge? ⟨0, 1⟩ = some (twoToBound.edgeAt ⟨0, 1⟩) ∧
    (twoToBound.edgeAt ⟨0, 1⟩).Name = "friends" ∧
    (twoToBound.edgeAt ⟨0, 0⟩).Name = "roles" ∧
    (twoToBound.edgeAt ⟨0, 0⟩).IsInverse = false ∧
    (twoToBound.edgeAt ⟨0, 0⟩).Rel.Typ = Rel.M2M ∧
    (twoToBound.edgeAt ⟨0, 0⟩).Through = some 2 ∧
    (twoToBound.node 2).EdgeSchema.To = some ⟨0, 0⟩ ∧
    (twoToBound.node 2).EdgeSchema.From = none ∧
    edgeSchema sampleEnv 0 twoToBound 1 =
      Except.error (Failure.crash "nil pointer dereference: EdgeSchema.From") ∧
    NewGraph sampleEnv none twoToSchemas =
      Except.error (Failure.crash "nil pointer dereference: EdgeSchema.From") :=
  ⟨rfl, rfl, rfl, rfl, rfl, rfl, rfl, rfl,
    (edge_to_reused sampleEnv twoToBound 0 1 (twoToBound.edgeAt ⟨0, 1⟩)
      ⟨"friendships", "membership"⟩ 2 ⟨0, 0⟩ rfl rfl rfl rfl (by decide) (by decide) rfl rfl
      rfl).2 rfl, rfl⟩

/-! ## Nodes before `edgeSchemas` -/

theorem Graph.node_default (n : Nat) : (default : Graph).node n = default := by
  simp [Graph.node_eq]
  rfl

theorem NewType_bare {s : Schema} {t : Node} (h : NewType s = Except.ok t) : t.Bare := by
  unfold NewType at h
  split at h
  · simp at h
  · simp only [Except.ok.injEq] at h
    rw [← h]
    exact ⟨rfl, rfl⟩

theorem addNode_bare {g g' : Graph} {s : Schema} (h : addNode g s = Except.ok g')
    (hb : g.Bare) : g'.Bare := by
  unfold addNode at h
  split at h
  · next t ht =>
    simp only [Except.ok.injEq] at h
    subst h
    intro n
    rw [Graph.node_eq]
    simp only
    by_cases hn : n < g.Nodes.length
    · rw [List.getElem?_append_left hn, ← Graph.node_eq]
      exact hb n
    · by_cases hn2 : n = g.Nodes.length
      · rw [hn2, List.getElem?_append_right (Nat.le_refl _)]
        simp only [Nat.sub_self, List.getElem?_cons_zero, Option.getD_some]
        exact NewType_bare ht
      · rw [List.getElem?_eq_none (by simp; omega)]
        exact ⟨rfl, rfl⟩
  · simp at h
  · simp at h

theorem Graph.Bare.append_bare {g : Graph} (hb : g.Bare) (i : Nat) (e : Edge) :
    (g.appendEdge i e).Bare := by
  intro n
  unfold Node.Bare
  rw [Graph.node_appendEdge_proj (fun t => t.EdgeSchema) (fun _ _ => rfl),
    Graph.node_appendEdge_proj (fun t => t.Indexes) (fun _ _ => rfl)]
  exact hb n

theorem addEdge_bare {name : String} {t : Nat} {st st' : Graph × List String} {e : LoadEdge}
    (h : addEdge name t st e = Except.ok st') (hb : st.1.Bare) : st'.1.Bare := by
  unfold addEdge at h
  simp only at h
  split at h
  · simp at h
  · split at h
    · simp at h
    · split at h
      · simp at h
      · split at h
        · simp only [Except.ok.injEq] at h
          rw [← h]
          exact hb.append_bare _ _
        · split at h
          · split at h
            · simp at h
            · simp only [Except.ok.injEq] at h
              rw [← h]
              exact hb.append_bare _ _
          · split at h
            · simp at h
            · split at h
              · simp at h
              · simp only [Except.ok.injEq] at h
                rw [← h]
                exact (hb.append_bare _ _).append_bare _ _

theorem addEdges_bare {g g' : Graph} {s : Schema} (h : addEdges g s = Except.ok g')
    (hb : g.Bare) : g'.Bare := by
  unfold addEdges at h
  split at h
  · split at h
    · simp only [Except.ok.injEq] at h
      rw [← h]; exact hb
    · split at h <;> simp at h
  · split at h
    · next st hst =>
      simp only [Except.ok.injEq] at h
      rw [← h]
      exact forEach_inv (P := fun x => x.1.Bare)
        (fun _ _ _ hs hstep => addEdge_bare hstep hs) _ _ st hb hst
    · simp at h

theorem edgesStage_bare {c : Option TypeInfo} {schemas : List Schema} {g : Graph}
    (h : edgesStage c schemas = Except.ok g) : g.Bare := by
  unfold edgesStage at h
  split at h
  · simp at h
  · next g1 h1 =>
    have hb1 : g1.Bare :=
      forEach_inv (P := fun s => s.Bare) (fun _ _ _ hs hstep => addNode_bare hstep hs) _ _ g1
        (fun n => by
          have : (Graph.node { IDType := c, Nodes := [] } n) = default := by
            simp [Graph.node_eq]
          rw [this]
          exact ⟨rfl, rfl⟩) h1
    exact forEach_inv (P := fun s => s.Bare) (fun _ _ _ hs hstep => addEdges_bare hstep hs)
      _ g1 g hb1 h

theorem Graph.Bare.static_bare {g g' : Graph} (hb : g.Bare) (hs : g'.static = g.static) :
    g'.Bare := by
  intro n
  obtain ⟨-, -, -, -, -, -, h7, -, h9⟩ := (Node.static_eq_iff_node _ _).mp (Graph.static_node hs n)
  unfold Node.Bare
  rw [h7, h9]
  exact hb n

theorem resolveStage_bare {env : Env} {c : Option TypeInfo} {schemas : List Schema}
    {g : Graph} (h : resolveStage env c schemas = Except.ok g) : g.Bare := by
  obtain ⟨g2, h2, hs, -⟩ := resolveStage_ok h
  exact (edgesStage_bare h2).static_bare hs

theorem Graph.Bare.modify_bare {g : Graph} (hb : g.Bare) (i : Nat) (f : Node → Node)
    (hf : ∀ t, (f t).EdgeSchema = t.EdgeSchema ∧ (f t).Indexes = t.Indexes) :
    (g.modifyNode i f).Bare := by
  intro n
  unfold Node.Bare
  rw [Graph.node_modifyNode_proj (fun t => t.EdgeSchema) g i n f (fun t => (hf t).1),
    Graph.node_modifyNode_proj (fun t => t.Indexes) g i n f (fun t => (hf t).2)]
  exact hb n

theorem setupFK_bare (i : Nat) (g : Graph) (j : Nat) (hb : g.Bare) : (setupFK i g j).Bare := by
  unfold setupFK
  split
  · exact hb
  · split
    · exact hb.modify_bare i _ (fun _ => ⟨rfl, rfl⟩)
    · exact hb

theorem foldl_inv {α σ : Type} (f : σ → α → σ) (P : σ → Prop) (hf : ∀ s a, P s → P (f s a)) :
    ∀ (l : List α) (s : σ), P s → P (l.foldl f s) := by
  intro l
  induction l with
  | nil => intro s hs; exact hs
  | cons a as ih => intro s hs; exact ih (f s a) (hf s a hs)

theorem fkStage_bare {g3 : Graph} (hb : g3.Bare) : (fkStage g3).Bare :=
  foldl_inv setupFKs Graph.Bare
    (fun s i hs => foldl_inv (setupFK i) Graph.Bare (fun s j hs => setupFK_bare i s j hs) _ s hs)
    _ g3 hb

theorem fkStage_sameEdges (g3 : Graph) : (fkStage g3).SameEdges g3 :=
  setupFKs_all_sameEdges g3

/-! ## A successful iteration of `edgeSchemas` -/

/-- A successful iteration of `edgeSchemas` either skips the position (no edge, or
an edge without `Through`), or passes every check, binds the edge, finds the
reference edge `r`, appends the helper edge and settles the key of the edge schema. -/
theorem edgeSchema_ok_cases {env : Env} {i j : Nat} {g g' : Graph}
    (h : edgeSchema env i g j = Except.ok g') :
    (g' = g ∧ ∀ e, g.edge? ⟨i, j⟩ = some e → e.decl.Through = none) ∨
    ∃ e th ty g1 r, g.edge? ⟨i, j⟩ = some e ∧ e.decl.Through = some th ∧
      e.Rel.Typ = Rel.M2M ∧ g.typ th.T = some ty ∧ ty ≠ i ∧ th.N ≠ "" ∧
      (g.node i).hasEdge th.N = false ∧ bindThrough g ⟨i, j⟩ e ty = Except.ok g1 ∧
      forEach (edgeField (g1.setEdge ⟨i, j⟩ (boundEdge env g e ty)) (g.node i).Name e.Name th.N
        ty e.IsInverse) none e.Rel.Columns.enum = Except.ok (some r) ∧
      edgeSchemaKey ((g1.setEdge ⟨i, j⟩ (boundEdge env g e ty)).appendEdge i
        (helperEdge (g1.setEdge ⟨i, j⟩ (boundEdge env g e ty)) th ty i r)) ty e.Rel.Columns
        = Except.ok g' := by
  unfold edgeSchema at h
  split at h
  · next hn =>
    simp only [Except.ok.injEq] at h
    exact Or.inl ⟨h.symm, fun e he => by rw [hn] at he; cases he⟩
  · next e he =>
    split at h
    · next hth =>
      simp only [Except.ok.injEq] at h
      exact Or.inl ⟨h.symm, fun e' he' => by rw [he] at he'; cases he'; exact hth⟩
    · next th hth =>
      simp only at h
      split at h
      · simp at h
      · next hm =>
        split at h
        · simp at h
        · next ty hty =>
          split at h
          · simp at h
          · next hne =>
            split at h
            · simp at h
            · next hname =>
              split at h
              · simp at h
              · next g1 hg1 =>
                split at h
                · simp at h
                · simp at h
                · next r hr =>
                  right
                  refine ⟨e, th, ty, g1, r, he, hth, ?_, hty, ?_, ?_, ?_, hg1, hr, h⟩
                  · simpa [Edge.M2M] using hm
                  · simpa using hne
                  · intro h0; simp [h0] at hname
                  · have : ¬th.N = "" ∧ (g.node i).hasEdge th.N = false := by simpa using hname
                    exact this.2

/-- The index `Graph.typ` finds is the position of a node with that name. -/
theorem typ_fold_lt (name : String) : ∀ (l : List Node) (k : Nat) (acc : Option Nat) (ty : Nat),
    (l.enumFrom k).foldl (fun acc p => if p.2.Name == name then some p.1 else acc) acc = some ty →
      acc = some ty ∨ (k ≤ ty ∧ ty < k + l.length) := by
  intro l
  induction l with
  | nil => intro k acc ty h; exact Or.inl h
  | cons a as ih =>
    intro k acc ty h
    simp only [List.enumFrom_cons, List.foldl_cons] at h
    rcases ih (k + 1) _ ty h with h1 | h1
    · split at h1
      · simp only [Option.some.injEq] at h1
        right; simp; omega
      · exact Or.inl h1
    · right; simp; omega

theorem Graph.typ_lt {g : Graph} {name : String} {ty : Nat} (h : g.typ name = some ty) :
    ty < g.Nodes.length := by
  unfold Graph.typ at h
  rcases typ_fold_lt name g.Nodes 0 none ty h with h1 | h1
  · cases h1
  · omega

/-- The two ways `bindThrough` succeeds: an inverse edge takes the empty `From`
slot, an assoc edge the empty `To` slot; the check on the other slot has passed. -/
theorem bindThrough_cases {g g1 : Graph} {p : EdgePtr} {e : Edge} {ty : Nat}
    (h : bindThrough g p e ty = Except.ok g1) :
    (e.IsInverse = true ∧ (g.node ty).EdgeSchema.From = none ∧
      (∀ t, (g.node ty).EdgeSchema.To = some t → e.Ref = some t) ∧
      g1 = (g.setEdge p { e with Through := some ty }).modifyNode ty
        (fun t => { t with EdgeSchema := { t.EdgeSchema with From := some p } })) ∨
    (e.IsInverse = false ∧ (g.node ty).EdgeSchema.To = none ∧
      (∀ f, (g.node ty).EdgeSchema.From = some f →
        (((g.setEdge p { e with Through := some ty }).edge? f).getD default).Ref = some p) ∧
      g1 = (g.setEdge p { e with Through := some ty }).modifyNode ty
        (fun t => { t with EdgeSchema := { t.EdgeSchema with To := some p } })) := by
  unfold bindThrough at h
  simp only at h
  split at h
  · next hinv =>
    left
    split at h
    · simp at h
    · next hfrom =>
      split at h
      · next t ht =>
        split at h
        · simp at h
        · next hc =>
          simp only [Except.ok.injEq] at h
          refine ⟨hinv, hfrom, ?_, h.symm⟩
          intro t' ht'
          rw [ht] at ht'
          cases ht'
          simpa using hc
      · next hto =>
        simp only [Except.ok.injEq] at h
        refine ⟨hinv, hfrom, ?_, h.symm⟩
        intro t' ht'
        rw [hto] at ht'
        cases ht'
  · next hinv =>
    right
    have hinv' : e.IsInverse = false := by simpa using hinv
    split at h
    · split at h <;> simp at h
    · next hto =>
      split at h
      · next f hf =>
        split at h
        · simp at h
        · next hc =>
          simp only [Except.ok.injEq] at h
          refine ⟨hinv', hto, ?_, h.symm⟩
          intro f' hf'
          rw [hf] at hf'
          cases hf'
          have hc' := hc
          simp only [ne_eq, bne_iff_ne, not_not, Bool.not_eq_true, Decidable.not_not] at hc'
          rw [Graph.edge?_modifyNode_keep (g.setEdge p { e with Through := some ty }) ty
            (fun t => { t with EdgeSchema := { t.EdgeSchema with To := some p } })
            (fun _ => rfl) f] at hc'
          exact hc'
      · next hfrom =>
        simp only [Except.ok.injEq] at h
        refine ⟨hinv', hto, ?_, h.symm⟩
        intro f' hf'
        rw [hfrom] at hf'
        cases hf'

/-- The end of an iteration of `edgeSchemas` keeps every member of a node other
than its `ID`, the `ID` of its edge-schema record, and its indexes. -/
theorem edgeSchemaKey_proj {β : Type} (π : Node → β)
    (h1 : ∀ (t : Node) (ids : List (Option Field)),
      π { t with ID := none, EdgeSchema := { t.EdgeSchema with ID := ids } } = π t)
    (h2 : ∀ (t : Node) (idx : List Index), π { t with Indexes := idx } = π t)
    {g g' : Graph} {ty : Nat} {cols : List String}
    (h : edgeSchemaKey g ty cols = Except.ok g') (n : Nat) : π (g'.node n) = π (g.node n) := by
  unfold edgeSchemaKey at h
  simp only at h
  split at h
  · simp at h
  · next g1 hg1 =>
    have hs1 : π (g1.node n) = π (g.node n) := by
      split at hg1
      · split at hg1
        · split at hg1
          · simp at hg1
          · simp only [Except.ok.injEq] at hg1
            rw [← hg1]
            exact Graph.node_modifyNode_proj π g ty n _ (fun t => h1 t _)
        · simp at hg1
      · simp only [Except.ok.injEq] at hg1
        rw [← hg1]
    split at h
    · simp only [Except.ok.injEq] at h
      rw [← h]; exact hs1
    · split at h
      · simp at h
      · simp only [Except.ok.injEq] at h
        rw [← h]; exact hs1
      · split at h
        · next t ht =>
          simp only [Except.ok.injEq] at h
          rw [← h, AddIndex_ok ht,
            Graph.modifyNode_const g1 ty (fun t => { t with Indexes := t.Indexes ++
              [{ Unique := true, Columns := cols }] }),
            Graph.node_modifyNode_proj π g1 ty n _ (fun t => h2 t _)]
          exact hs1
        · simp at h

/-- What a binding iteration of `edgeSchemas` does to the edges: the edge at
`⟨i, j⟩` becomes `boundEdge`, the helper edge is appended to node `i`, and every
other edge stays as it is. -/
theorem edgeSchema_edges {env : Env} {i j : Nat} {g g1 g' : Graph} {e : Edge} {th : ThroughDef}
    {ty : Nat} {r : EdgePtr} (he : g.edge? ⟨i, j⟩ = some e)
    (hg1 : bindThrough g ⟨i, j⟩ e ty = Except.ok g1)
    (hkey : edgeSchemaKey ((g1.setEdge ⟨i, j⟩ (boundEdge env g e ty)).appendEdge i
      (helperEdge (g1.setEdge ⟨i, j⟩ (boundEdge env g e ty)) th ty i r)) ty e.Rel.Columns
      = Except.ok g') (x : EdgePtr) :
    g'.edge? x =
      if x = ⟨i, (g.node i).Edges.length⟩ then
        some (helperEdge (g1.setEdge ⟨i, j⟩ (boundEdge env g e ty)) th ty i r)
      else if x = ⟨i, j⟩ then some (boundEdge env g e ty)
      else g.edge? x := by
  have hs2 : (g1.setEdge ⟨i, j⟩ (boundEdge env g e ty)).SameEdges
      (g.setEdge ⟨i, j⟩ (boundEdge env g e ty)) := (bindThrough_ok hg1).setEdge_of _
  have hp2 : (g1.setEdge ⟨i, j⟩ (boundEdge env g e ty)).edge? ⟨i, j⟩
      = some (boundEdge env g e ty) := by
    rw [hs2.edge]; exact Graph.edge?_setEdge_self _ he
  have hlen : ((g1.setEdge ⟨i, j⟩ (boundEdge env g e ty)).node i).Edges.length
      = (g.node i).Edges.length := by
    have h1 : ((g1.setEdge ⟨i, j⟩ (boundEdge env g e ty)).node i).Edges =
        ((g.setEdge ⟨i, j⟩ (boundEdge env g e ty)).node i).Edges := by
      apply List.ext_getElem?
      intro k
      have := hs2.edge ⟨i, k⟩
      rw [Graph.edge?_eq, Graph.edge?_eq] at this
      exact this
    rw [h1]
    unfold Graph.setEdge
    by_cases hi : i < g.Nodes.length
    · rw [Graph.node_modifyNode_self g _ hi]
      simp
    · exact absurd (Graph.edge?_lt he).1 hi
  rw [(edgeSchemaKey_ok hkey).edge, Graph.edge?_appendEdge, hlen]
  have hi2 := (Graph.edge?_lt hp2).1
  by_cases hx : x = ⟨i, (g.node i).Edges.length⟩
  · subst hx
    simp [hi2]
  · have hx' : ¬ (x.node = i ∧ i < (g1.setEdge ⟨i, j⟩ (boundEdge env g e ty)).Nodes.length ∧
        x.idx = (g.node i).Edges.length) := by
      intro hc
      apply hx
      cases x
      simp_all
    rw [if_neg hx', if_neg hx, hs2.edge, Graph.edge?_setEdge, he]
    simp

/-- A binding iteration of `edgeSchemas` keeps every member of a node other than
its edges, its `ID`, its edge-schema record and its indexes. -/
theorem edgeSchema_proj {β : Type} (π : Node → β)
    (h0 : ∀ (t : Node) (es : List Edge), π { t with Edges := es } = π t)
    (h1 : ∀ (t : Node) (id : Option Field) (s : EdgeSchema),
      π { t with ID := id, EdgeSchema := s } = π t)
    (h2 : ∀ (t : Node) (idx : List Index), π { t with Indexes := idx } = π t)
    {env : Env} {i j : Nat} {g g' : Graph} (h : edgeSchema env i g j = Except.ok g') (n : Nat) :
    π (g'.node n) = π (g.node n) := by
  rcases edgeSchema_ok_cases h with ⟨h, -⟩ | ⟨e, th, ty, g1, r, he, -, -, -, -, -, -, hg1, -, hkey⟩
  · rw [h]
  · rw [edgeSchemaKey_proj π (fun t ids => h1 t none _) h2 hkey n,
      Graph.node_appendEdge_proj π h0, Graph.node_setEdge_proj π h0]
    rcases bindThrough_cases hg1 with ⟨-, -, -, k⟩ | ⟨-, -, -, k⟩
    · rw [k, Graph.node_modifyNode_proj π _ ty n _ (fun t => h1 t t.ID _),
        Graph.node_setEdge_proj π h0]
    · rw [k, Graph.node_modifyNode_proj π _ ty n _ (fun t => h1 t t.ID _),
        Graph.node_setEdge_proj π h0]

/-- What a binding iteration of `edgeSchemas` does to the `From` and `To` slots:
the slots of every type but the edge schema `ty` stay as they are; an inverse edge
takes the empty `From` slot of `ty`, an assoc edge the empty `To` slot, and the
edge in the other slot, if any, is the other side of the relation. -/
theorem edgeSchema_slots {env : Env} {i j : Nat} {g g1 g' : Graph} {e : Edge} {th : ThroughDef}
    {ty : Nat} {r : EdgePtr} (hty : ty < g.Nodes.length) (he : g.edge? ⟨i, j⟩ = some e)
    (hg1 : bindThrough g ⟨i, j⟩ e ty = Except.ok g1)
    (hkey : edgeSchemaKey ((g1.setEdge ⟨i, j⟩ (boundEdge env g e ty)).appendEdge i
      (helperEdge (g1.setEdge ⟨i, j⟩ (boundEdge env g e ty)) th ty i r)) ty e.Rel.Columns
      = Except.ok g') :
    (∀ n, n ≠ ty → (g'.node n).EdgeSchema.From = (g.node n).EdgeSchema.From ∧
      (g'.node n).EdgeSchema.To = (g.node n).EdgeSchema.To) ∧
    (e.IsInverse = true → (g.node ty).EdgeSchema.From = none ∧
      (g'.node ty).EdgeSchema.From = some ⟨i, j⟩ ∧
      (g'.node ty).EdgeSchema.To = (g.node ty).EdgeSchema.To ∧
      ∀ t, (g.node ty).EdgeSchema.To = some t → e.Ref = some t) ∧
    (e.IsInverse = false → (g.node ty).EdgeSchema.To = none ∧
      (g'.node ty).EdgeSchema.To = some ⟨i, j⟩ ∧
      (g'.node ty).EdgeSchema.From = (g.node ty).EdgeSchema.From ∧
      ∀ f, (g.node ty).EdgeSchema.From = some f →
        ∃ fe, g.edge? f = some fe ∧ fe.Ref = some ⟨i, j⟩) := by
  have hF : ∀ n, (g'.node n).EdgeSchema.From = (g1.node n).EdgeSchema.From := by
    intro n
    rw [edgeSchemaKey_proj (fun t => t.EdgeSchema.From) (fun _ _ => rfl) (fun _ _ => rfl) hkey n,
      Graph.node_appendEdge_proj (fun t => t.EdgeSchema.From) (fun _ _ => rfl),
      Graph.node_setEdge_proj (fun t => t.EdgeSchema.From) (fun _ _ => rfl)]
  have hT : ∀ n, (g'.node n).EdgeSchema.To = (g1.node n).EdgeSchema.To := by
    intro n
    rw [edgeSchemaKey_proj (fun t => t.EdgeSchema.To) (fun _ _ => rfl) (fun _ _ => rfl) hkey n,
      Graph.node_appendEdge_proj (fun t => t.EdgeSchema.To) (fun _ _ => rfl),
      Graph.node_setEdge_proj (fun t => t.EdgeSchema.To) (fun _ _ => rfl)]
  have hlen : ty < (g.setEdge ⟨i, j⟩ { e with Through := some ty }).Nodes.length := by
    rw [Graph.length_setEdge]; exact hty
  have hS : ∀ n, ((g.setEdge ⟨i, j⟩ { e with Through := some ty }).node n).EdgeSchema
      = (g.node n).EdgeSchema :=
    fun n => Graph.node_setEdge_proj (fun t => t.EdgeSchema) (fun _ _ => rfl) g _ _ n
  rcases bindThrough_cases hg1 with ⟨k1, k2, k3, k4⟩ | ⟨k1, k2, k3, k4⟩
  · refine ⟨?_, ?_, ?_⟩
    · intro n hn
      rw [hF, hT, k4, Graph.node_modifyNode_of_ne _ _ hn, hS]
      exact ⟨rfl, rfl⟩
    · intro _
      refine ⟨k2, ?_, ?_, k3⟩
      · rw [hF, k4, Graph.node_modifyNode_self _ _ hlen]
      · rw [hT, k4, Graph.node_modifyNode_self _ _ hlen]
        have h5 := congrArg EdgeSchema.To (hS ty)
        exact h5
    · intro hc
      rw [k1] at hc
      cases hc
  · refine ⟨?_, ?_, ?_⟩
    · intro n hn
      rw [hF, hT, k4, Graph.node_modifyNode_of_ne _ _ hn, hS]
      exact ⟨rfl, rfl⟩
    · intro hc
      rw [k1] at hc
      cases hc
    · intro _
      refine ⟨k2, ?_, ?_, ?_⟩
      · rw [hT, k4, Graph.node_modifyNode_self _ _ hlen]
      · rw [hF, k4, Graph.node_modifyNode_self _ _ hlen]
        have h5 := congrArg EdgeSchema.From (hS ty)
        exact h5
      · intro f hf
        have h3 := k3 f hf
        rw [Graph.edge?_setEdge] at h3
        by_cases hfp : f = ⟨i, j⟩
        · rw [if_pos hfp, he] at h3
          simp only [Option.map_some', Option.getD_some] at h3
          rw [hfp]
          exact ⟨e, he, h3⟩
        · rw [if_neg hfp] at h3
          cases hgf : g.edge? f with
          | none => rw [hgf] at h3; simp at h3
          | some fe =>
            rw [hgf] at h3
            exact ⟨fe, rfl, h3⟩

/-- An iteration of `edgeSchemas` keeps the invariant on the slots. -/
theorem edgeSchema_keeps_slots {env : Env} {i j : Nat} {g g' : Graph}
    (h : edgeSchema env i g j = Except.ok g') (hs : g.Slots) : g'.Slots := by
  rcases edgeSchema_ok_cases h with ⟨h, -⟩ |
    ⟨e, th, ty, g1, r, he, -, -, hty, -, -, -, hg1, -, hkey⟩
  · rw [h]; exact hs
  · have hE := edgeSchema_edges he hg1 hkey
    obtain ⟨hO, hI, hA⟩ := edgeSchema_slots (Graph.typ_lt hty) he hg1 hkey
    have hnone : g.edge? ⟨i, (g.node i).Edges.length⟩ = none := by
      rw [Graph.edge?_eq]
      exact List.getElem?_eq_none (Nat.le_refl _)
    -- an edge of `g` is still there, with the same direction and `Ref`
    have hold : ∀ x e0, g.edge? x = some e0 → ∃ e', g'.edge? x = some e' ∧
        e'.IsInverse = e0.IsInverse ∧ e'.Ref = e0.Ref := by
      intro x e0 hx
      have hx1 : x ≠ ⟨i, (g.node i).Edges.length⟩ := by
        intro hc; rw [hc, hnone] at hx; cases hx
      rw [hE x, if_neg hx1]
      by_cases hx2 : x = ⟨i, j⟩
      · rw [if_pos hx2]
        rw [hx2, he] at hx
        cases hx
        exact ⟨_, rfl, rfl, rfl⟩
      · rw [if_neg hx2]
        exact ⟨e0, hx, rfl, rfl⟩
    have hbe : g'.edge? ⟨i, j⟩ = some (boundEdge env g e ty) := by
      have hx1 : (⟨i, j⟩ : EdgePtr) ≠ ⟨i, (g.node i).Edges.length⟩ := by
        intro hc; rw [← hc, he] at hnone; cases hnone
      rw [hE, if_neg hx1, if_pos rfl]
    refine ⟨?_, ?_, ?_, ?_⟩
    · intro n f hf
      by_cases hn : n = ty
      · subst hn
        cases hinv : e.IsInverse
        · rw [(hA hinv).2.2.1] at hf
          obtain ⟨e0, h1, h2⟩ := hs.fromEdge n f hf
          obtain ⟨e', k1, k2, -⟩ := hold f e0 h1
          exact ⟨e', k1, k2.trans h2⟩
        · rw [(hI hinv).2.1] at hf
          cases hf
          exact ⟨_, hbe, hinv⟩
      · rw [(hO n hn).1] at hf
        obtain ⟨e0, h1, h2⟩ := hs.fromEdge n f hf
        obtain ⟨e', k1, k2, -⟩ := hold f e0 h1
        exact ⟨e', k1, k2.trans h2⟩
    · intro n t ht
      by_cases hn : n = ty
      · subst hn
        cases hinv : e.IsInverse
        · rw [(hA hinv).2.1] at ht
          cases ht
          exact ⟨_, hbe, hinv⟩
        · rw [(hI hinv).2.2.1] at ht
          obtain ⟨e0, h1, h2⟩ := hs.toEdge n t ht
          obtain ⟨e', k1, k2, -⟩ := hold t e0 h1
          exact ⟨e', k1, k2.trans h2⟩
      · rw [(hO n hn).2] at ht
        obtain ⟨e0, h1, h2⟩ := hs.toEdge n t ht
        obtain ⟨e', k1, k2, -⟩ := hold t e0 h1
        exact ⟨e', k1, k2.trans h2⟩
    · intro n f t hf ht
      by_cases hn : n = ty
      · subst hn
        cases hinv : e.IsInverse
        · rw [(hA hinv).2.1] at ht
          cases ht
          rw [(hA hinv).2.2.1] at hf
          obtain ⟨fe, h1, h2⟩ := (hA hinv).2.2.2 f hf
          obtain ⟨e', k1, -, k3⟩ := hold f fe h1
          exact ⟨e', k1, k3.trans h2⟩
        · rw [(hI hinv).2.1] at hf
          cases hf
          rw [(hI hinv).2.2.1] at ht
          exact ⟨_, hbe, (hI hinv).2.2.2 t ht⟩
      · rw [(hO n hn).1] at hf
        rw [(hO n hn).2] at ht
        obtain ⟨e0, h1, h2⟩ := hs.pair n f t hf ht
        obtain ⟨e', k1, -, k3⟩ := hold f e0 h1
        exact ⟨e', k1, k3.trans h2⟩
    · intro n x e' hx hth
      rw [hE x] at hx
      split at hx
      · cases hx
        simp [helperEdge] at hth
      · split at hx
        · next hxp =>
          cases hx
          have hn : ty = n := by simpa [boundEdge] using hth
          subst hn
          rw [hxp]
          constructor
          · intro hinv
            exact (hI hinv).2.1
          · intro hinv
            exact (hA hinv).2.1
        · have hb := hs.bound n x e' hx hth
          by_cases hn : n = ty
          · subst hn
            cases hinv : e.IsInverse
            · constructor
              · intro h1
                rw [(hA hinv).2.2.1]
                exact hb.1 h1
              · intro h1
                have := hb.2 h1
                rw [(hA hinv).1] at this
                cases this
            · constructor
              · intro h1
                have := hb.1 h1
                rw [(hI hinv).1] at this
                cases this
              · intro h1
                rw [(hI hinv).2.2.1]
                exact hb.2 h1
          · rw [(hO n hn).1, (hO n hn).2]
            exact hb

/-- The stage `edgeSchemas` keeps the invariant on the slots. -/
theorem edgeSchemas_keeps_slots {env : Env} {g g' : Graph}
    (h : edgeSchemas env g = Except.ok g') (hs : g.Slots) : g'.Slots := by
  unfold edgeSchemas at h
  split at h
  · next g1 h1 =>
    simp only [Except.ok.injEq] at h
    rw [← h]
    exact forEach_inv (P := fun s => s.Slots)
      (fun s i s' hs hstep =>
        forEach_inv (P := fun s => s.Slots)
          (fun _ _ _ hs' hstep' => edgeSchema_keeps_slots hstep' hs') _ s s' hs hstep)
      _ g g1 hs h1
  · simp at h
  · simp at h

/-- Before `edgeSchemas` every slot is empty and no edge is bound. -/
theorem Graph.Bare.slots {g : Graph} (hb : g.Bare) (hp : g.Plain) : g.Slots := by
  refine ⟨?_, ?_, ?_, ?_⟩
  · intro ty f hf
    rw [(hb ty).1] at hf
    cases hf
  · intro ty t ht
    rw [(hb ty).1] at ht
    cases ht
  · intro ty f t hf
    rw [(hb ty).1] at hf
    cases hf
  · intro ty p e he hth
    rw [hp p e he] at hth
    cases hth

/-- The graph `edgeSchemas` starts from satisfies the invariant on the slots. -/
theorem fkStage_slots {env : Env} {c : Option TypeInfo} {schemas : List Schema} {g3 : Graph}
    (h : resolveStage env c schemas = Except.ok g3) : (fkStage g3).Slots := by
  apply (fkStage_bare (resolveStage_bare h)).slots
  intro p e he
  rw [(fkStage_sameEdges g3).edge] at he
  exact (resolveStage_resolved h).plain p e he

/-- C15: whenever `edgeSchemas` succeeds on the graph of `NewGraph`, at most one
inverse edge and at most one assoc edge are bound to a type `ty`: an inverse edge
with `Through = ty` is the edge in `EdgeSchema.From` of `ty`, an assoc edge with
`Through = ty` the edge in `EdgeSchema.To`; and when both slots are taken the
`Ref` of the `From` edge is the `To` edge. -/
theorem edge_schema_slots (env : Env) (c : Option TypeInfo) (schemas : List Schema)
    (g3 g5 : Graph) (h : resolveStage env c schemas = Except.ok g3)
    (h5 : edgeSchemas env (fkStage g3) = Except.ok g5) :
    (∀ ty p e, g5.edge? p = some e → e.Through = some ty →
      (e.IsInverse = true → (g5.node ty).EdgeSchema.From = some p) ∧
      (e.IsInverse = false → (g5.node ty).EdgeSchema.To = some p)) ∧
    (∀ ty p q e a, g5.edge? p = some e → g5.edge? q = some a → e.Through = some ty →
      a.Through = some ty → e.IsInverse = a.IsInverse → p = q) ∧
    (∀ ty f t, (g5.node ty).EdgeSchema.From = some f → (g5.node ty).EdgeSchema.To = some t →
      ∃ e a, g5.edge? f = some e ∧ e.IsInverse = true ∧ g5.edge? t = some a ∧
        a.IsInverse = false ∧ e.Ref = some t) := by
  have hs := edgeSchemas_keeps_slots h5 (fkStage_slots h)
  refine ⟨hs.bound, ?_, ?_⟩
  · intro ty p q e a hp hq h1 h2 h3
    cases hinv : e.IsInverse
    · have k1 := (hs.bound ty p e hp h1).2 hinv
      have k2 := (hs.bound ty q a hq h2).2 (by rw [← h3]; exact hinv)
      rw [k1] at k2
      cases k2
      rfl
    · have k1 := (hs.bound ty p e hp h1).1 hinv
      have k2 := (hs.bound ty q a hq h2).1 (by rw [← h3]; exact hinv)
      rw [k1] at k2
      cases k2
      rfl
  · intro ty f t hf ht
    obtain ⟨e, k1, k2⟩ := hs.pair ty f t hf ht
    obtain ⟨e', m1, m2⟩ := hs.fromEdge ty f hf
    obtain ⟨a, n1, n2⟩ := hs.toEdge ty t ht
    rw [k1] at m1
    cases m1
    exact ⟨e, a, k1, m2, n1, n2, k2⟩

/-- Witness of C15 on `pairSchemas`: the edge `roles` of `user` and its inverse
`users` of `role` both go through `membership`; they fill its `To` and `From`
slots, and the `Ref` of `users` is `roles`. -/
theorem edge_schema_slots_witness :
    resolveStage sampleEnv none pairSchemas = Except.ok pairResolved ∧
    edgeSchemas sampleEnv (fkStage pairResolved) = Except.ok pairBound ∧
    (pairBound.node 2).EdgeSchema.From = some ⟨1, 0⟩ ∧
    (pairBound.node 2).EdgeSchema.To = some ⟨0, 0⟩ ∧
    (pairBound.edgeAt ⟨1, 0⟩).Through = some 2 ∧
    (pairBound.edgeAt ⟨0, 0⟩).Through = some 2 ∧
    ∃ e a, pairBound.edge? ⟨1, 0⟩ = some e ∧ e.IsInverse = true ∧
      pairBound.edge? ⟨0, 0⟩ = some a ∧ a.IsInverse = false ∧ e.Ref = some ⟨0, 0⟩ :=
  ⟨rfl, rfl, rfl, rfl, rfl, rfl,
    (edge_schema_slots sampleEnv none pairSchemas pairResolved pairBound rfl rfl).2.2
      2 ⟨1, 0⟩ ⟨0, 0⟩ rfl rfl⟩

/-! ## Members of a node that the early stages leave as `NewType` made them -/

/-- A property of nodes that holds of the default node and of every node `NewType`
builds, and that does not depend on the edges of the node, holds of every node of
the graph the loop over `resolve` leaves. -/
theorem resolveStage_nodes {P : Node → Prop} (hd : P default)
    (hnew : ∀ s t, NewType s = Except.ok t → P t)
    (hedges : ∀ (t : Node) (es : List Edge), P t → P { t with Edges := es })
    {env : Env} {c : Option TypeInfo} {schemas : List Schema} {g : Graph}
    (h : resolveStage env c schemas = Except.ok g) (n : Nat) : P (g.node n) := by
  obtain ⟨g2, h2, hs, -⟩ := resolveStage_ok h
  have happ : ∀ (x : Graph) (i : Nat) (e : Edge), (∀ n, P (x.node n)) →
      ∀ n, P ((x.appendEdge i e).node n) := by
    intro x i e hx n
    unfold Graph.appendEdge
    by_cases hn : n = i
    · by_cases hl : n < x.Nodes.length
      · rw [hn, Graph.node_modifyNode_self x _ (hn ▸ hl)]
        exact hedges _ _ (hx i)
      · have h1 : (x.modifyNode i (fun t => { t with Edges := t.Edges ++ [e] })).Nodes[n]? = none := by
          apply List.getElem?_eq_none
          rw [Graph.length_modifyNode]; omega
        rw [Graph.node_eq, h1]
        exact hd
    · rw [Graph.node_modifyNode_of_ne x _ hn]
      exact hx n
  have hedge : ∀ (name : String) (t : Nat) (st st' : Graph × List String) (e : LoadEdge),
      addEdge name t st e = Except.ok st' → (∀ n, P (st.1.node n)) → ∀ n, P (st'.1.node n) := by
    intro name t st st' e h hb
    unfold addEdge at h
    simp only at h
    split at h
    · simp at h
    · split at h
      · simp at h
      · split at h
        · simp at h
        · split at h
          · simp only [Except.ok.injEq] at h
            rw [← h]
            exact happ _ _ _ hb
          · split at h
            · split at h
              · simp at h
              · simp only [Except.ok.injEq] at h
                rw [← h]
                exact happ _ _ _ hb
            · split at h
              · simp at h
              · split at h
                · simp at h
                · simp only [Except.ok.injEq] at h
                  rw [← h]
                  exact happ _ _ _ (happ _ _ _ hb)
  have hedges' : ∀ (x x' : Graph) (s : Schema), addEdges x s = Except.ok x' →
      (∀ n, P (x.node n)) → ∀ n, P (x'.node n) := by
    intro x x' s h hb
    unfold addEdges at h
    split at h
    · split at h
      · simp only [Except.ok.injEq] at h
        rw [← h]; exact hb
      · split at h <;> simp at h
    · split at h
      · next st hst =>
        simp only [Except.ok.injEq] at h
        rw [← h]
        exact forEach_inv (P := fun y => ∀ n, P (y.1.node n))
          (fun a b c hs hstep => hedge _ _ a c b hstep hs) _ _ st hb hst
      · simp at h
  have hnode : ∀ (x x' : Graph) (s : Schema), addNode x s = Except.ok x' →
      (∀ n, P (x.node n)) → ∀ n, P (x'.node n) := by
    intro x x' s h hb n
    unfold addNode at h
    split at h
    · next t ht =>
      simp only [Except.ok.injEq] at h
      subst h
      rw [Graph.node_eq]
      simp only
      by_cases hn : n < x.Nodes.length
      · rw [List.getElem?_append_left hn, ← Graph.node_eq]
        exact hb n
      · by_cases hn2 : n = x.Nodes.length
        · rw [hn2, List.getElem?_append_right (Nat.le_refl _)]
          simp only [Nat.sub_self, List.getElem?_cons_zero, Option.getD_some]
          exact hnew s t ht
        · rw [List.getElem?_eq_none (by simp; omega)]
          exact hd
    · simp at h
    · simp at h
  have h2' : ∀ n, P (g2.node n) := by
    unfold edgesStage at h2
    split at h2
    · simp at h2
    · next g1 h1 =>
      have hb1 : ∀ n, P (g1.node n) :=
        forEach_inv (P := fun s => ∀ n, P (s.node n)) (fun a b c hs hstep => hnode a c b hstep hs)
          _ _ g1
          (fun n => by
            have : (Graph.node { IDType := c, Nodes := [] } n) = default := by
              simp [Graph.node_eq]
            rw [this]
            exact hd) h1
      exact forEach_inv (P := fun s => ∀ n, P (s.node n))
        (fun a b c hs hstep => hedges' a c b hstep hs) _ g1 g2 hb1 h2
  have hst := Graph.static_node hs n
  have hE : g.node n = { (g2.node n) with Edges := (g.node n).Edges } := by
    obtain ⟨k1, k2, k3, k4, -, k6, k7, k8, k9⟩ := (Node.static_eq_iff_node _ _).mp hst
    cases hgn : g.node n
    cases hg2 : g2.node n
    rw [hgn, hg2] at k1 k2 k3 k4 k6 k7 k8 k9
    simp only at k1 k2 k3 k4 k6 k7 k8 k9
    simp [k1, k2, k3, k4, k6, k7, k8, k9]
  rw [hE]
  exact hedges _ _ (h2' n)

/-- No node has a foreign key when FK propagation starts. -/
theorem resolveStage_noFKs {env : Env} {c : Option TypeInfo} {schemas : List Schema}
    {g : Graph} (h : resolveStage env c schemas = Except.ok g) (n : Nat) :
    (g.node n).ForeignKeys = [] :=
  resolveStage_nodes (P := fun t => t.ForeignKeys = []) rfl
    (fun s t ht => by
      unfold NewType at ht
      split at ht
      · simp at ht
      · simp only [Except.ok.injEq] at ht
        rw [← ht])
    (fun _ _ ht => ht) h n

/-! ## The states of the loops of `edgeSchemas` -/

theorem Graph.mem_modifyNode {β : Type} (π : Node → List β) (g : Graph) (i n : Nat)
    (f : Node → Node) (x : β) (xs : List β) (hf : ∀ t, π (f t) = π t ++ xs)
    (hx : x ∈ π ((g.modifyNode i f).node n)) : x ∈ π (g.node n) ∨ (n = i ∧ x ∈ xs) := by
  by_cases hn : n = i
  · by_cases hl : n < g.Nodes.length
    · rw [hn, Graph.node_modifyNode_self g f (hn ▸ hl), hf, List.mem_append] at hx
      rcases hx with hx | hx
      · exact Or.inl (hn ▸ hx)
      · exact Or.inr ⟨hn, hx⟩
    · have h1 : (g.modifyNode i f).Nodes[n]? = none := by
        apply List.getElem?_eq_none
        rw [Graph.length_modifyNode]; omega
      have h2 : g.Nodes[n]? = none := List.getElem?_eq_none (by omega)
      rw [Graph.node_eq, h1] at hx
      rw [Graph.node_eq, h2]
      exact Or.inl hx
  · rw [Graph.node_modifyNode_of_ne g f hn] at hx
    exact Or.inl hx

theorem setupFK_validFKs (i : Nat) (g : Graph) (j : Nat) (hv : g.ValidFKs) :
    (setupFK i g j).ValidFKs := by
  have hs := setupFK_sameEdges i g j
  intro n fk hfk
  unfold setupFK at hfk
  split at hfk
  · obtain ⟨k1, e, k2, k3⟩ := hv n fk hfk
    exact ⟨k1, e, by rw [hs.edge]; exact k2, k3⟩
  · next e he =>
    split at hfk
    · next hown =>
      rcases Graph.mem_modifyNode (fun t => t.ForeignKeys) g i n _ fk _ (fun _ => rfl) hfk with
        h1 | ⟨h1, h2⟩
      · obtain ⟨k1, e', k2, k3⟩ := hv n fk h1
        exact ⟨k1, e', by rw [hs.edge]; exact k2, k3⟩
      · simp only [List.mem_singleton] at h2
        rw [h2, h1]
        exact ⟨rfl, e, by rw [hs.edge]; exact he, hown⟩
    · obtain ⟨k1, e', k2, k3⟩ := hv n fk hfk
      exact ⟨k1, e', by rw [hs.edge]; exact k2, k3⟩

theorem fkStage_validFKs {env : Env} {c : Option TypeInfo} {schemas : List Schema} {g3 : Graph}
    (h : resolveStage env c schemas = Except.ok g3) : (fkStage g3).ValidFKs :=
  foldl_inv setupFKs Graph.ValidFKs
    (fun s i hs => foldl_inv (setupFK i) Graph.ValidFKs
      (fun s j hs => setupFK_validFKs i s j hs) _ s hs)
    _ g3 (fun n fk hfk => by rw [resolveStage_noFKs h n] at hfk; cases hfk)

/-- An iteration of `edgeSchemas` keeps the foreign keys and their edges. -/
theorem edgeSchema_validFKs {env : Env} {i j : Nat} {g g' : Graph}
    (h : edgeSchema env i g j = Except.ok g') (hv : g.ValidFKs) : g'.ValidFKs := by
  intro n fk hfk
  rw [edgeSchema_proj (fun t => t.ForeignKeys) (fun _ _ => rfl) (fun _ _ _ => rfl)
    (fun _ _ => rfl) h n] at hfk
  obtain ⟨k1, e0, k2, k3⟩ := hv n fk hfk
  refine ⟨k1, ?_⟩
  rcases edgeSchema_ok_cases h with ⟨h, -⟩ |
    ⟨e, th, ty, g1, r, he, -, -, -, -, -, -, hg1, -, hkey⟩
  · rw [h]; exact ⟨e0, k2, k3⟩
  · have hnone : g.edge? ⟨i, (g.node i).Edges.length⟩ = none := by
      rw [Graph.edge?_eq]
      exact List.getElem?_eq_none (Nat.le_refl _)
    have hx1 : fk.Edge ≠ ⟨i, (g.node i).Edges.length⟩ := by
      intro hc; rw [hc, hnone] at k2; cases k2
    rw [edgeSchema_edges he hg1 hkey, if_neg hx1]
    by_cases hx2 : fk.Edge = ⟨i, j⟩
    · rw [if_pos hx2]
      rw [hx2, he] at k2
      cases k2
      exact ⟨_, rfl, k3⟩
    · rw [if_neg hx2]
      exact ⟨e0, k2, k3⟩

/-- The invariants of the loops of `edgeSchemas` in `NewGraph`. -/
theorem Reach.inv {env : Env} {c : Option TypeInfo} {schemas : List Schema} {g3 s : Graph}
    (h : resolveStage env c schemas = Except.ok g3) (hs : Reach env (fkStage g3) s) :
    s.Extends env g3 ∧ s.Slots ∧ s.ValidFKs := by
  induction hs with
  | start =>
    exact ⟨(Graph.Extends.start env (resolveStage_resolved h).plain).of_sameEdges
      (fkStage_sameEdges g3), fkStage_slots h, fkStage_validFKs h⟩
  | step i j _ hstep ih =>
    exact ⟨edgeSchema_extends hstep ih.1, edgeSchema_keeps_slots hstep ih.2.1,
      edgeSchema_validFKs hstep ih.2.2⟩

/-- The graph a successful `edgeSchemas` returns is a state of its loops. -/
theorem edgeSchemas_reach {env : Env} {g g' : Graph} (h : edgeSchemas env g = Except.ok g') :
    Reach env g g' := by
  unfold edgeSchemas at h
  split at h
  · next g1 h1 =>
    simp only [Except.ok.injEq] at h
    rw [← h]
    exact forEach_inv (P := fun s => Reach env g s)
      (fun s i s' hs hstep =>
        forEach_inv (P := fun s => Reach env g s)
          (fun _ j _ hs' hstep' => Reach.step i j hs' hstep') _ s s' hs hstep)
      _ g g1 Reach.start h1
  · simp at h
  · simp at h

/-- The loop of `edgeSchemas` over the columns of the edge, started at position `k`
with the reference edge `st`: every column names a foreign key of the edge schema
whose edge is required, and the reference edge is the edge of the foreign key named
by the column at position 0 for an assoc edge, at position 1 for an inverse edge. -/
theorem edgeField_loop (g : Graph) (nName eName thN : String) (ty : Nat) (inverse : Bool) :
    ∀ (cols : List String) (k : Nat) (st res : Option EdgePtr),
      forEach (edgeField g nName eName thN ty inverse) st (cols.enumFrom k) = Except.ok res →
      (∀ c ∈ cols, ∃ fk, (g.node ty).ForeignKeys.find? (fun fk => fk.Field.Name == c) = some fk ∧
        ((g.edge? fk.Edge).getD default).Optional = false) ∧
      ((res = st ∧ ((if inverse then 1 else 0) < k ∨ k + cols.length ≤ (if inverse then 1 else 0))) ∨
        ∃ c fk, k ≤ (if inverse then 1 else 0) ∧
          cols[(if inverse then 1 else 0) - k]? = some c ∧
          (g.node ty).ForeignKeys.find? (fun fk => fk.Field.Name == c) = some fk ∧
          res = some fk.Edge) := by
  intro cols
  induction cols with
  | nil =>
    intro k st res h
    simp only [List.enumFrom_nil, forEach, Except.ok.injEq] at h
    refine ⟨fun c hc => by simp at hc, Or.inl ⟨h.symm, ?_⟩⟩
    simp only [List.length_nil, Nat.add_zero]
    omega
  | cons c cs ih =>
    intro k st res h
    simp only [List.enumFrom_cons, forEach] at h
    split at h
    · next st1 hst1 =>
      unfold edgeField at hst1
      simp only at hst1
      split at hst1
      · simp at hst1
      · next fk hfk =>
        split at hst1
        · simp at hst1
        · next hopt =>
          obtain ⟨ih1, ih2⟩ := ih (k + 1) st1 res h
          refine ⟨?_, ?_⟩
          · intro c' hc'
            rcases List.mem_cons.mp hc' with rfl | hc'
            · exact ⟨fk, hfk, by simpa using hopt⟩
            · exact ih1 c' hc'
          · split at hst1
            · next hk =>
              simp only [Except.ok.injEq] at hst1
              have hk' : k = (if inverse then 1 else 0) := by
                cases inverse <;> simp at hk ⊢ <;> omega
              rcases ih2 with ⟨h1, h2⟩ | ⟨c', fk', h1, -⟩
              · right
                refine ⟨c, fk, by omega, ?_, hfk, ?_⟩
                · rw [← hk']; simp
                · rw [h1, ← hst1]
              · omega
            · next hk =>
              simp only [Except.ok.injEq] at hst1
              have hk' : k ≠ (if inverse then 1 else 0) := by
                cases inverse <;> simp at hk ⊢ <;> omega
              rcases ih2 with ⟨h1, h2⟩ | ⟨c', fk', h1, h2, h3, h4⟩
              · left
                refine ⟨by rw [h1, ← hst1], ?_⟩
                simp only [List.length_cons]
                omega
              · right
                refine ⟨c', fk', by omega, ?_, h3, h4⟩
                have : (if inverse then 1 else 0) - k = ((if inverse then 1 else 0) - (k + 1)) + 1 := by
                  omega
                rw [this, List.getElem?_cons_succ]
                exact h2
    · simp at h

/-- The graph of an iteration of `edgeSchemas` after the binding: every member of a
node other than its edges and its edge-schema record is as before. -/
theorem bound_proj {β : Type} (π : Node → β)
    (h0 : ∀ (t : Node) (es : List Edge), π { t with Edges := es } = π t)
    (h1 : ∀ (t : Node) (s : EdgeSchema), π { t with EdgeSchema := s } = π t)
    {g g1 : Graph} {p : EdgePtr} {e : Edge} {ty : Nat}
    (hg1 : bindThrough g p e ty = Except.ok g1) (b : Edge) (n : Nat) :
    π ((g1.setEdge p b).node n) = π (g.node n) := by
  rw [Graph.node_setEdge_proj π h0]
  rcases bindThrough_cases hg1 with ⟨-, -, -, k⟩ | ⟨-, -, -, k⟩
  · rw [k, Graph.node_modifyNode_proj π _ ty n _ (fun t => h1 t _),
      Graph.node_setEdge_proj π h0]
  · rw [k, Graph.node_modifyNode_proj π _ ty n _ (fun t => h1 t _),
      Graph.node_setEdge_proj π h0]

/-- The edges of the graph of an iteration of `edgeSchemas` after the binding. -/
theorem bound_edges {g g1 : Graph} {p : EdgePtr} {e : Edge} {ty : Nat}
    (he : g.edge? p = some e) (hg1 : bindThrough g p e ty = Except.ok g1) (b : Edge)
    (x : EdgePtr) : (g1.setEdge p b).edge? x = if x = p then some b else g.edge? x := by
  rw [((bindThrough_ok hg1).setEdge_of b).edge, Graph.edge?_setEdge, he]
  rfl

/-- C16: in `NewGraph`, a successful iteration of `edgeSchemas` on an edge `e` of
node `i` that declares `Through(th.N, th.T)` appends exactly one edge to node `i`:
the new graph has the edges of the old one, with `e` bound to the edge schema, and
one more edge at the end of node `i`.  That edge has `Name = th.N`, `Type` the edge
schema, `Owner = i`, `Optional = true`, `Rel.Type = O2M`, `Ref` the reference edge,
and `Rel.Table` and `Rel.Columns` of the reference edge: the edge of the edge schema
that owns the foreign key whose field is named `e.Rel.Columns[0]` when `e` is an
assoc edge and `e.Rel.Columns[1]` when `e` is an inverse edge. -/
theorem through_helper_edge (env : Env) (c : Option TypeInfo) (schemas : List Schema)
    (g3 s s' : Graph) (h : resolveStage env c schemas = Except.ok g3)
    (hs : Reach env (fkStage g3) s) (i j : Nat) (e : Edge) (th : ThroughDef)
    (he : s.edge? ⟨i, j⟩ = some e) (hth : e.decl.Through = some th)
    (hok : edgeSchema env i s j = Except.ok s') :
    ∃ ty col fk ref hE,
      s.typ th.T = some ty ∧
      e.Rel.Columns[if e.IsInverse then 1 else 0]? = some col ∧
      (s.node ty).ForeignKeys.find? (fun fk => fk.Field.Name == col) = some fk ∧
      fk.Edge.node = ty ∧ s.edge? fk.Edge = some ref ∧ s'.edge? fk.Edge = some ref ∧
      (∀ x, s'.edge? x =
        if x = ⟨i, (s.node i).Edges.length⟩ then some hE
        else if x = ⟨i, j⟩ then some (boundEdge env s e ty)
        else s.edge? x) ∧
      hE.Name = th.N ∧ hE.Typ = ty ∧ hE.Owner = i ∧ hE.Optional = true ∧
      hE.Rel.Typ = Rel.O2M ∧ hE.Ref = some fk.Edge ∧ hE.Inverse = ref.Name ∧
      hE.Rel.Table = ref.Rel.Table ∧ hE.Rel.Columns = ref.Rel.Columns := by
  obtain ⟨-, -, hv⟩ := Reach.inv h hs
  rcases edgeSchema_ok_cases hok with ⟨-, hn⟩ |
    ⟨e', th', ty, g1, r, he', hth', -, hty, hne, -, -, hg1, hr, hkey⟩
  · rw [hn e he] at hth
    cases hth
  · rw [he] at he'
    cases he'
    rw [hth] at hth'
    cases hth'
    have hE := edgeSchema_edges he hg1 hkey
    obtain ⟨-, hloop⟩ := edgeField_loop _ _ _ _ ty e.IsInverse e.Rel.Columns 0 none (some r) hr
    rcases hloop with ⟨hc, -⟩ | ⟨col, fk, -, h2, h3, h4⟩
    · cases hc
    · simp only [Option.some.injEq] at h4
      rw [bound_proj (fun t => t.ForeignKeys) (fun _ _ => rfl) (fun _ _ => rfl) hg1] at h3
      obtain ⟨k1, ref, k2, -⟩ := hv ty fk (List.mem_of_find?_eq_some h3)
      have hrp : fk.Edge ≠ ⟨i, j⟩ := by
        intro hc
        apply hne
        rw [← k1, hc]
      have hr2 : (g1.setEdge ⟨i, j⟩ (boundEdge env s e ty)).edge? fk.Edge = some ref := by
        rw [bound_edges he hg1, if_neg hrp]
        exact k2
      have hnone : s.edge? ⟨i, (s.node i).Edges.length⟩ = none := by
        rw [Graph.edge?_eq]
        exact List.getElem?_eq_none (Nat.le_refl _)
      have hr3 : fk.Edge ≠ ⟨i, (s.node i).Edges.length⟩ := by
        intro hc; rw [hc, hnone] at k2; cases k2
      refine ⟨ty, col, fk, ref, _, hty, by simpa using h2, h3, k1, k2, ?_, hE,
        rfl, rfl, rfl, rfl, rfl, ?_, ?_, ?_, ?_⟩
      · rw [hE, if_neg hr3, if_neg hrp]
        exact k2
      · simp [helperEdge, h4]
      · simp [helperEdge, h4, hr2]
      · simp [helperEdge, h4, hr2]
      · simp [helperEdge, h4, hr2]

/-- Witness of C16 on `roleSchemas`: the iteration on the assoc edge `roles` of
`user` appends the edge `memberships` to `user`, with the table and column of the
edge `user` of `membership`, the owner of the foreign key `user_id`. -/
theorem through_helper_edge_witness :
    resolveStage sampleEnv none roleSchemas = Except.ok roleResolved ∧
    (fkStage roleResolved).edge? ⟨0, 0⟩ = some ((fkStage roleResolved).edgeAt ⟨0, 0⟩) ∧
    ((fkStage roleResolved).edgeAt ⟨0, 0⟩).decl.Through = some ⟨"memberships", "membership"⟩ ∧
    edgeSchema sampleEnv 0 (fkStage roleResolved) 0 = Except.ok roleBound ∧
    ((fkStage roleResolved).node 0).Edges.length = 1 ∧
    (roleBound.node 0).Edges.length = 2 ∧
    (roleBound.edgeAt ⟨0, 1⟩).Name = "memberships" ∧
    (roleBound.edgeAt ⟨0, 1⟩).Typ = 2 ∧
    (roleBound.edgeAt ⟨0, 1⟩).Ref = some ⟨2, 0⟩ ∧
    (roleBound.edgeAt ⟨2, 0⟩).Name = "user" ∧
    (roleBound.edgeAt ⟨0, 1⟩).Rel = ⟨Rel.O2M, "memberships", ["membership_user"]⟩ ∧
    ∃ ty col fk ref hE, (fkStage roleResolved).typ "membership" = some ty ∧
      ((fkStage roleResolved).edgeAt ⟨0, 0⟩).Rel.Columns[0]? = some col ∧
      ((fkStage roleResolved).node ty).ForeignKeys.find? (fun fk => fk.Field.Name == col)
        = some fk ∧
      roleBound.edge? fk.Edge = some ref ∧
      roleBound.edge? ⟨0, 1⟩ = some hE ∧ hE.Name = "memberships" ∧
      hE.Rel.Table = ref.Rel.Table ∧ hE.Rel.Columns = ref.Rel.Columns := by
  refine ⟨rfl, rfl, rfl, rfl, rfl, rfl, rfl, rfl, rfl, rfl, rfl, ?_⟩
  obtain ⟨ty, col, fk, ref, hE, h1, h2, h3, -, -, h6, h7, h8, -, -, -, -, -, -, h15, h16⟩ :=
    through_helper_edge sampleEnv none roleSchemas roleResolved (fkStage roleResolved) roleBound
      rfl Reach.start 0 0 ((fkStage roleResolved).edgeAt ⟨0, 0⟩) ⟨"memberships", "membership"⟩
      rfl rfl rfl
  refine ⟨ty, col, fk, ref, hE, h1, h2, h3, h6, ?_, h8, h15, h16⟩
  rw [h7]
  rfl

/-! ## The key of an edge schema -/

/-- What the end of an iteration of `edgeSchemas` does to the edge schema `ty`, for
an edge with the columns `cols`.  When the annotation declares an id and the
composite id is not set yet, the annotation is the first two columns, `ID` becomes
nil and `EdgeSchema.ID` the two annotated fields; otherwise both stay.  The indexes
stay when the type has a composite id or `hasI` finds an index, and get the unique
index over `cols` otherwise.  The other nodes stay as they are. -/
theorem edgeSchemaKey_cases {g g' : Graph} {ty : Nat} {cols : List String}
    (hty : ty < g.Nodes.length) (h : edgeSchemaKey g ty cols = Except.ok g') :
    (∀ n, n ≠ ty → g'.node n = g.node n) ∧
    (((g.node ty).AnnotationID ≠ [] ∧ (g.node ty).EdgeSchema.ID = []) →
      ∃ r1 r2 rest, cols = r1 :: r2 :: rest ∧ (g.node ty).AnnotationID = [r1, r2] ∧
        (g'.node ty).ID = none ∧
        (g'.node ty).EdgeSchema.ID =
          [(g.node ty).Fields.find? (fun x => x.Name == r1),
           (g.node ty).Fields.find? (fun x => x.Name == r2)]) ∧
    (¬ ((g.node ty).AnnotationID ≠ [] ∧ (g.node ty).EdgeSchema.ID = []) →
      (g'.node ty).ID = (g.node ty).ID ∧
      (g'.node ty).EdgeSchema.ID = (g.node ty).EdgeSchema.ID) ∧
    (((g'.node ty).HasCompositeID = true ∧ (g'.node ty).Indexes = (g.node ty).Indexes) ∨
      (hasI cols (g.node ty).Indexes = Except.ok true ∧
        (g'.node ty).Indexes = (g.node ty).Indexes) ∨
      ((g'.node ty).HasCompositeID = false ∧
        (g'.node ty).Indexes = (g.node ty).Indexes ++ [{ Unique := true, Columns := cols }])) := by
  unfold edgeSchemaKey at h
  simp only at h
  split at h
  · simp at h
  · next g1 hg1 =>
    -- the first part: the composite id
    have hstep : (∀ n, n ≠ ty → g1.node n = g.node n) ∧
        (g1.node ty).Indexes = (g.node ty).Indexes ∧ ty < g1.Nodes.length ∧
        (((g.node ty).AnnotationID ≠ [] ∧ (g.node ty).EdgeSchema.ID = []) →
          ∃ r1 r2 rest, cols = r1 :: r2 :: rest ∧ (g.node ty).AnnotationID = [r1, r2] ∧
            (g1.node ty).ID = none ∧
            (g1.node ty).EdgeSchema.ID =
              [(g.node ty).Fields.find? (fun x => x.Name == r1),
               (g.node ty).Fields.find? (fun x => x.Name == r2)]) ∧
        (¬ ((g.node ty).AnnotationID ≠ [] ∧ (g.node ty).EdgeSchema.ID = []) →
          (g1.node ty).ID = (g.node ty).ID ∧
          (g1.node ty).EdgeSchema.ID = (g.node ty).EdgeSchema.ID) := by
      split at hg1
      · next hcond =>
        have hc : (g.node ty).AnnotationID ≠ [] ∧ (g.node ty).EdgeSchema.ID = [] := by
          simp only [Bool.and_eq_true, decide_eq_true_eq, beq_iff_eq] at hcond
          exact ⟨List.ne_nil_of_length_pos hcond.1, List.length_eq_zero.mp hcond.2⟩
        split at hg1
        · next r1 r2 rest =>
          split at hg1
          · simp at hg1
          · next hann =>
            simp only [Except.ok.injEq] at hg1
            have hann' : (g.node ty).AnnotationID = [r1, r2] := by simpa using hann
            refine ⟨?_, ?_, ?_, ?_, ?_⟩
            · intro n hn
              rw [← hg1, Graph.node_modifyNode_of_ne g _ hn]
            · rw [← hg1, Graph.node_modifyNode_self g _ hty]
            · rw [← hg1, Graph.length_modifyNode]; exact hty
            · intro _
              refine ⟨r1, r2, rest, rfl, hann', ?_, ?_⟩
              · rw [← hg1, Graph.node_modifyNode_self g _ hty]
              · rw [← hg1, Graph.node_modifyNode_self g _ hty]
                simp [hc.2, hann']
            · intro hn
              exact absurd hc hn
        · simp at hg1
      · next hcond =>
        simp only [Except.ok.injEq] at hg1
        subst hg1
        refine ⟨fun _ _ => rfl, rfl, hty, ?_, fun _ => ⟨rfl, rfl⟩⟩
        intro hc
        exfalso
        apply hcond
        simp only [Bool.and_eq_true, decide_eq_true_eq, beq_iff_eq]
        exact ⟨List.length_pos.mpr hc.1, List.length_eq_zero.mpr hc.2⟩
    obtain ⟨s1, s2, s3, s4, s5⟩ := hstep
    split at h
    · next hcomp =>
      simp only [Except.ok.injEq] at h
      subst h
      exact ⟨s1, s4, s5, Or.inl ⟨hcomp, s2⟩⟩
    · next hcomp =>
      split at h
      · simp at h
      · next hhas =>
        simp only [Except.ok.injEq] at h
        subst h
        rw [s2] at hhas
        exact ⟨s1, s4, s5, Or.inr (Or.inl ⟨hhas, s2⟩)⟩
      · split at h
        · next t ht =>
          simp only [Except.ok.injEq] at h
          have ht' := AddIndex_ok ht
          have hnode : g'.node ty = t := by
            rw [← h, Graph.node_modifyNode_self g1 _ s3]
          have hcomp' : (g1.node ty).HasCompositeID = false := by simpa using hcomp
          refine ⟨?_, ?_, ?_, Or.inr (Or.inr ⟨?_, ?_⟩)⟩
          · intro n hn
            rw [← h, Graph.node_modifyNode_of_ne g1 _ hn]
            exact s1 n hn
          · intro hc
            obtain ⟨r1, r2, rest, k1, k2, k3, k4⟩ := s4 hc
            refine ⟨r1, r2, rest, k1, k2, ?_, ?_⟩
            · rw [hnode, ht']; exact k3
            · rw [hnode, ht']; exact k4
          · intro hc
            rw [hnode, ht']
            exact s5 hc
          · rw [hnode, ht']
            exact hcomp'
          · rw [hnode, ht', ← s2]
        · simp at h

/-- In a resolved graph an M2M edge has exactly two columns. -/
theorem Graph.Resolved.m2m_columns {env : Env} {g : Graph} (hr : g.Resolved env) {p : EdgePtr}
    {e : Edge} (he : g.edge? p = some e) (hm : e.Rel.Typ = Rel.M2M) :
    ∃ c1 c2, e.Rel.Columns = [c1, c2] := by
  cases hinv : e.IsInverse
  · rcases hr.linked.assoc p e he hinv (hr.done p e he) with hs | ⟨p', e', -, -, -, -, -, h6⟩
    · rw [hs] at hm ⊢
      obtain ⟨hu, hv⟩ := soloEdge_m2m env g p.node e hm
      rw [(soloEdge_rel env g p.node e).1 hu hv]
      exact ⟨_, _, rfl⟩
    · rw [h6] at hm ⊢
      obtain ⟨hu, hv⟩ := (linkPair_m2m env g p' p e' e).2 hm
      have h7 := (linkPair_rel env g p' p e' e).2.2.2 hu hv
      rw [h7.2, h7.1]
      exact ⟨_, _, rfl⟩
  · obtain ⟨q, a, -, -, -, -, -, -, -, -, h9, -⟩ := hr.inverse_ref he hinv
    rw [h9] at hm ⊢
    obtain ⟨hu, hv⟩ := (linkPair_m2m env g p q e a).1 hm
    rw [((linkPair_rel env g p q e a).2.2.2 hu hv).1]
    exact ⟨_, _, rfl⟩

/-- When `hasEdge` finds no edge of that name, no edge of the node has it. -/
theorem hasEdge_false {g : Graph} {i : Nat} {name : String}
    (h : (g.node i).hasEdge name = false) (k : Nat) (x : Edge)
    (hx : g.edge? ⟨i, k⟩ = some x) : x.Name ≠ name := by
  rw [Graph.edge?_eq] at hx
  have hmem : x ∈ (g.node i).Edges := List.mem_iff_getElem?.mpr ⟨_, hx⟩
  unfold Node.hasEdge at h
  rw [List.any_eq_false] at h
  have := h x hmem
  simpa using this

/-- When `hasI` reports an index, some index of the list starts with the first two
columns of the edge, in either order. -/
theorem hasI_true (cols : List String) : ∀ (idxs : List Index), hasI cols idxs = Except.ok true →
    ∃ idx ∈ idxs, ∃ c1 c2 cr r1 r2 rr, idx.Columns = c1 :: c2 :: cr ∧ cols = r1 :: r2 :: rr ∧
      ((c1 = r1 ∧ c2 = r2) ∨ (c1 = r2 ∧ c2 = r1)) := by
  intro idxs
  induction idxs with
  | nil => intro h; simp [hasI] at h
  | cons idx rest ih =>
    intro h
    unfold hasI at h
    split at h
    · obtain ⟨x, hx, hrest⟩ := ih h
      exact ⟨x, List.mem_cons_of_mem _ hx, hrest⟩
    · split at h
      · next _ _ c1 c2 cr r1 r2 rr hc =>
        split at h
        · next hmatch =>
          refine ⟨idx, List.mem_cons_self _ _, c1, c2, cr, r1, r2, rr, hc, rfl, ?_⟩
          simpa using hmatch
        · obtain ⟨x, hx, hrest⟩ := ih h
          exact ⟨x, List.mem_cons_of_mem _ hx, hrest⟩
      · simp at h

/-- The graph of an iteration of `edgeSchemas` after the binding and the helper
edge: every member of a node other than its edges and the two slots is as before. -/
theorem bound_proj_slots {β : Type} (π : Node → β)
    (h0 : ∀ (t : Node) (es : List Edge), π { t with Edges := es } = π t)
    (hF : ∀ (t : Node) (x : Option EdgePtr),
      π { t with EdgeSchema := { t.EdgeSchema with From := x } } = π t)
    (hT : ∀ (t : Node) (x : Option EdgePtr),
      π { t with EdgeSchema := { t.EdgeSchema with To := x } } = π t)
    {g g1 : Graph} {p : EdgePtr} {e : Edge} {ty : Nat}
    (hg1 : bindThrough g p e ty = Except.ok g1) (b : Edge) (i : Nat) (x : Edge) (n : Nat) :
    π (((g1.setEdge p b).appendEdge i x).node n) = π (g.node n) := by
  rw [Graph.node_appendEdge_proj π h0, Graph.node_setEdge_proj π h0]
  rcases bindThrough_cases hg1 with ⟨-, -, -, k⟩ | ⟨-, -, -, k⟩
  · rw [k, Graph.node_modifyNode_proj π _ ty n _ (fun t => hF t _),
      Graph.node_setEdge_proj π h0]
  · rw [k, Graph.node_modifyNode_proj π _ ty n _ (fun t => hT t _),
      Graph.node_setEdge_proj π h0]

theorem bound_length {g g1 : Graph} {p : EdgePtr} {e : Edge} {ty : Nat}
    (hg1 : bindThrough g p e ty = Except.ok g1) (b : Edge) (i : Nat) (x : Edge) :
    ((g1.setEdge p b).appendEdge i x).Nodes.length = g.Nodes.length := by
  unfold Graph.appendEdge
  rw [Graph.length_modifyNode, Graph.length_setEdge]
  rcases bindThrough_cases hg1 with ⟨-, -, -, k⟩ | ⟨-, -, -, k⟩
  · rw [k, Graph.length_modifyNode, Graph.length_setEdge]
  · rw [k, Graph.length_modifyNode, Graph.length_setEdge]

/-- What a binding iteration of `edgeSchemas` does to the members of the nodes
other than their edges and slots; `ty` is the edge schema and `e` the edge. -/
theorem edgeSchema_node_effect {env : Env} {i j : Nat} {g g1 g' : Graph} {e : Edge}
    {th : ThroughDef} {ty : Nat} {r : EdgePtr} (hty : ty < g.Nodes.length)
    (hg1 : bindThrough g ⟨i, j⟩ e ty = Except.ok g1)
    (hkey : edgeSchemaKey ((g1.setEdge ⟨i, j⟩ (boundEdge env g e ty)).appendEdge i
      (helperEdge (g1.setEdge ⟨i, j⟩ (boundEdge env g e ty)) th ty i r)) ty e.Rel.Columns
      = Except.ok g') :
    (∀ n, (g'.node n).AnnotationID = (g.node n).AnnotationID ∧
      (g'.node n).Fields = (g.node n).Fields ∧
      (g'.node n).ForeignKeys = (g.node n).ForeignKeys) ∧
    (∀ n, n ≠ ty → (g'.node n).ID = (g.node n).ID ∧
      (g'.node n).EdgeSchema.ID = (g.node n).EdgeSchema.ID ∧
      (g'.node n).Indexes = (g.node n).Indexes) ∧
    (((g.node ty).AnnotationID ≠ [] ∧ (g.node ty).EdgeSchema.ID = []) →
      ∃ r1 r2 rest, e.Rel.Columns = r1 :: r2 :: rest ∧ (g.node ty).AnnotationID = [r1, r2] ∧
        (g'.node ty).ID = none ∧
        (g'.node ty).EdgeSchema.ID =
          [(g.node ty).Fields.find? (fun x => x.Name == r1),
           (g.node ty).Fields.find? (fun x => x.Name == r2)]) ∧
    (¬ ((g.node ty).AnnotationID ≠ [] ∧ (g.node ty).EdgeSchema.ID = []) →
      (g'.node ty).ID = (g.node ty).ID ∧
      (g'.node ty).EdgeSchema.ID = (g.node ty).EdgeSchema.ID) ∧
    (((g'.node ty).HasCompositeID = true ∧ (g'.node ty).Indexes = (g.node ty).Indexes) ∨
      (hasI e.Rel.Columns (g.node ty).Indexes = Except.ok true ∧
        (g'.node ty).Indexes = (g.node ty).Indexes) ∨
      ((g'.node ty).HasCompositeID = false ∧
        (g'.node ty).Indexes = (g.node ty).Indexes ++
          [{ Unique := true, Columns := e.Rel.Columns }])) := by
  have hP : ∀ {β : Type} (π : Node → β),
      (∀ (t : Node) (es : List Edge), π { t with Edges := es } = π t) →
      (∀ (t : Node) (x : Option EdgePtr),
        π { t with EdgeSchema := { t.EdgeSchema with From := x } } = π t) →
      (∀ (t : Node) (x : Option EdgePtr),
        π { t with EdgeSchema := { t.EdgeSchema with To := x } } = π t) →
      ∀ n, π (((g1.setEdge ⟨i, j⟩ (boundEdge env g e ty)).appendEdge i
        (helperEdge (g1.setEdge ⟨i, j⟩ (boundEdge env g e ty)) th ty i r)).node n)
        = π (g.node n) :=
    fun π h0 hF hT n => bound_proj_slots π h0 hF hT hg1 _ _ _ n
  have hlen := bound_length hg1 (boundEdge env g e ty) i
    (helperEdge (g1.setEdge ⟨i, j⟩ (boundEdge env g e ty)) th ty i r)
  obtain ⟨c1, c2, c3, c4⟩ := edgeSchemaKey_cases (by rw [hlen]; exact hty) hkey
  rw [hP (fun t => t.AnnotationID) (fun _ _ => rfl) (fun _ _ => rfl) (fun _ _ => rfl),
    hP (fun t => t.EdgeSchema.ID) (fun _ _ => rfl) (fun _ _ => rfl) (fun _ _ => rfl),
    hP (fun t => t.Fields) (fun _ _ => rfl) (fun _ _ => rfl) (fun _ _ => rfl)] at c2
  rw [hP (fun t => t.AnnotationID) (fun _ _ => rfl) (fun _ _ => rfl) (fun _ _ => rfl),
    hP (fun t => t.EdgeSchema.ID) (fun _ _ => rfl) (fun _ _ => rfl) (fun _ _ => rfl),
    hP (fun t => t.ID) (fun _ _ => rfl) (fun _ _ => rfl) (fun _ _ => rfl)] at c3
  rw [hP (fun t => t.Indexes) (fun _ _ => rfl) (fun _ _ => rfl) (fun _ _ => rfl)] at c4
  refine ⟨?_, ?_, c2, c3, c4⟩
  · intro n
    refine ⟨?_, ?_, ?_⟩
    · rw [edgeSchemaKey_proj (fun t => t.AnnotationID) (fun _ _ => rfl) (fun _ _ => rfl) hkey n]
      exact hP (fun t => t.AnnotationID) (fun _ _ => rfl) (fun _ _ => rfl) (fun _ _ => rfl) n
    · rw [edgeSchemaKey_proj (fun t => t.Fields) (fun _ _ => rfl) (fun _ _ => rfl) hkey n]
      exact hP (fun t => t.Fields) (fun _ _ => rfl) (fun _ _ => rfl) (fun _ _ => rfl) n
    · rw [edgeSchemaKey_proj (fun t => t.ForeignKeys) (fun _ _ => rfl) (fun _ _ => rfl) hkey n]
      exact hP (fun t => t.ForeignKeys) (fun _ _ => rfl) (fun _ _ => rfl) (fun _ _ => rfl) n
  · intro n hn
    rw [c1 n hn]
    exact ⟨hP (fun t => t.ID) (fun _ _ => rfl) (fun _ _ => rfl) (fun _ _ => rfl) n,
      hP (fun t => t.EdgeSchema.ID) (fun _ _ => rfl) (fun _ _ => rfl) (fun _ _ => rfl) n,
      hP (fun t => t.Indexes) (fun _ _ => rfl) (fun _ _ => rfl) (fun _ _ => rfl) n⟩

theorem hasCompositeID_congr {t t' : Node} (h : t'.EdgeSchema.ID = t.EdgeSchema.ID) :
    t'.HasCompositeID = t.HasCompositeID := by
  unfold Node.HasCompositeID
  rw [h]

theorem hasCompositeID_ne_nil {t : Node} (h : t.HasCompositeID = true) : t.EdgeSchema.ID ≠ [] := by
  unfold Node.HasCompositeID at h
  intro hc
  rw [hc] at h
  simp at h

/-- An edge that declares `Through` in a state of the loops of `edgeSchemas` is an
edge of the resolved graph; as an M2M edge it has exactly two columns. -/
theorem Graph.Extends.through_columns {g g3 : Graph} {env : Env} (hx : g.Extends env g3)
    (hr : g3.Resolved env) {p : EdgePtr} {e : Edge} {th : ThroughDef}
    (he : g.edge? p = some e) (hth : e.decl.Through = some th) (hm : e.Rel.Typ = Rel.M2M) :
    ∃ c1 c2, e.Rel.Columns = [c1, c2] := by
  rcases hx.edge_cases he with ⟨e0, h0, -, -, h3, h4, -⟩ | ⟨-, h1, -⟩
  · rw [h4]
    exact hr.m2m_columns h0 (by rw [← h3]; exact hm)
  · rw [h1] at hth
    cases hth

/-- An iteration of `edgeSchemas` keeps the invariant on the keys. -/
theorem edgeSchema_keys {env : Env} {i j : Nat} {g g' g3 : Graph}
    (h : edgeSchema env i g j = Except.ok g') (hx : g.Extends env g3) (hr : g3.Resolved env)
    (hv : g.ValidFKs) (hk : g.Keys) : g'.Keys := by
  rcases edgeSchema_ok_cases h with ⟨h, -⟩ |
    ⟨e, th, ty, g1, r, he, hth, hm, hty, hne, -, hfree, hg1, hloop, hkey⟩
  · rw [h]; exact hk
  have hE := edgeSchema_edges he hg1 hkey
  obtain ⟨nA, nB, nC, nD, nE⟩ :=
    edgeSchema_node_effect (Graph.typ_lt hty) hg1 hkey
  obtain ⟨c1, c2, hcols⟩ := hx.through_columns hr he hth hm
  have hnone : g.edge? ⟨i, (g.node i).Edges.length⟩ = none := by
    rw [Graph.edge?_eq]
    exact List.getElem?_eq_none (Nat.le_refl _)
  have hpne : (⟨i, j⟩ : EdgePtr) ≠ ⟨i, (g.node i).Edges.length⟩ := by
    intro hc; rw [← hc, he] at hnone; cases hnone
  have hbe : g'.edge? ⟨i, j⟩ = some (boundEdge env g e ty) := by
    rw [hE, if_neg hpne, if_pos rfl]
  have hhelper : g'.edge? ⟨i, (g.node i).Edges.length⟩ =
      some (helperEdge (g1.setEdge ⟨i, j⟩ (boundEdge env g e ty)) th ty i r) := by
    rw [hE, if_pos rfl]
  -- the edge was not bound before
  have hunb : e.Through = none := by
    cases hthr : e.Through with
    | none => rfl
    | some n =>
      exfalso
      obtain ⟨th', k, x, k1, k2, k3⟩ := hk.helper ⟨i, j⟩ e he (by rw [hthr]; simp)
      rw [hth] at k1
      cases k1
      exact hasEdge_false hfree k x k2 k3
  -- the edges of `g` in `g'`
  have hkeep : ∀ x e0, g.edge? x = some e0 → x ≠ ⟨i, j⟩ → g'.edge? x = some e0 := by
    intro x e0 hx0 hxp
    have hx1 : x ≠ ⟨i, (g.node i).Edges.length⟩ := by
      intro hc; rw [hc, hnone] at hx0; cases hx0
    rw [hE, if_neg hx1, if_neg hxp]
    exact hx0
  have hold : ∀ x e0, g.edge? x = some e0 → ∃ e', g'.edge? x = some e' ∧
      e'.Name = e0.Name ∧ e'.Optional = e0.Optional := by
    intro x e0 hx0
    by_cases hxp : x = ⟨i, j⟩
    · rw [hxp, he] at hx0
      cases hx0
      rw [hxp]
      exact ⟨_, hbe, rfl, rfl⟩
    · exact ⟨e0, hkeep x e0 hx0 hxp, rfl, rfl⟩
  have hboundne : ∀ x e0 n, g.edge? x = some e0 → e0.Through = some n → x ≠ ⟨i, j⟩ := by
    intro x e0 n hx0 hth0 hc
    rw [hc, he] at hx0
    cases hx0
    rw [hunb] at hth0
    cases hth0
  -- the edge schema after the iteration
  have hESID : (g.node ty).EdgeSchema.ID ≠ [] →
      (g'.node ty).ID = (g.node ty).ID ∧
      (g'.node ty).EdgeSchema.ID = (g.node ty).EdgeSchema.ID :=
    fun hne' => nD (fun hc => hne' hc.2)
  have hidx : ∀ idx, idx ∈ (g.node ty).Indexes → idx ∈ (g'.node ty).Indexes := by
    intro idx hmem
    rcases nE with ⟨-, k⟩ | ⟨-, k⟩ | ⟨-, k⟩
    · rw [k]; exact hmem
    · rw [k]; exact hmem
    · rw [k]; exact List.mem_append_left _ hmem
  refine ⟨?_, ?_, ?_, ?_⟩
  · -- helper
    intro x e' hx' hth'
    rw [hE x] at hx'
    split at hx'
    · cases hx'
      simp [helperEdge] at hth'
    · split at hx'
      · next hxp =>
        cases hx'
        rw [hxp]
        exact ⟨th, _, _, hth, hhelper, rfl⟩
      · obtain ⟨th', k, x0, k1, k2, k3⟩ := hk.helper x e' hx' hth'
        obtain ⟨x1, m1, m2, -⟩ := hold _ x0 k2
        exact ⟨th', k, x1, k1, m1, m2.trans k3⟩
  · -- id
    intro n hn
    have hfromK : (g.node n).EdgeSchema.ID ≠ [] →
        (g'.node n).ID = (g.node n).ID →
        (g'.node n).EdgeSchema.ID = (g.node n).EdgeSchema.ID →
        (g'.node n).ID = none ∧
        ∃ r1 r2 p0 e0, (g'.node n).AnnotationID = [r1, r2] ∧
          (g'.node n).EdgeSchema.ID = [(g'.node n).Fields.find? (fun x => x.Name == r1),
            (g'.node n).Fields.find? (fun x => x.Name == r2)] ∧
          g'.edge? p0 = some e0 ∧ e0.Through = some n ∧ e0.Rel.Columns = [r1, r2] := by
      intro k0 k1 k2
      obtain ⟨m1, r1, r2, p0, e0, m2, m3, m4, m5, m6⟩ := hk.id n k0
      refine ⟨by rw [k1]; exact m1, r1, r2, p0, e0, ?_, ?_,
        hkeep p0 e0 m4 (hboundne p0 e0 n m4 m5), m5, m6⟩
      · rw [(nA n).1]; exact m2
      · rw [k2, (nA n).2.1]; exact m3
    by_cases hnt : n = ty
    · subst hnt
      by_cases hc : (g.node n).EdgeSchema.ID = []
      · have hann : (g.node n).AnnotationID ≠ [] := by
          intro hann
          have := nD (fun hcc => hcc.1 hann)
          rw [this.2] at hn
          exact hn hc
        obtain ⟨r1, r2, rest, k1, k2, k3, k4⟩ := nC ⟨hann, hc⟩
        rw [hcols] at k1
        simp only [List.cons.injEq] at k1
        obtain ⟨k11, k12, -⟩ := k1
        refine ⟨k3, r1, r2, ⟨i, j⟩, _, ?_, ?_, hbe, rfl, ?_⟩
        · rw [(nA n).1]; exact k2
        · rw [k4, (nA n).2.1]
        · show e.Rel.Columns = [r1, r2]
          rw [hcols, k11, k12]
      · obtain ⟨k1, k2⟩ := hESID hc
        exact hfromK hc k1 k2
    · obtain ⟨k1, k2, -⟩ := nB n hnt
      exact hfromK (by rw [← k2]; exact hn) k1 k2
  · -- bound
    intro x e' n hx' hth'
    rw [hE x] at hx'
    split at hx'
    · cases hx'
      simp [helperEdge] at hth'
    · split at hx'
      · next hxp =>
        cases hx'
        have hn : ty = n := by simpa [boundEdge] using hth'
        subst hn
        refine ⟨hm, ?_, ?_, ?_⟩
        · intro hann
          rw [(nA ty).1] at hann
          by_cases hc : (g.node ty).EdgeSchema.ID = []
          · obtain ⟨r1, r2, rest, -, -, -, k4⟩ := nC ⟨hann, hc⟩
            rw [k4]; simp
          · rw [(hESID hc).2]; exact hc
        · show _ ∨ ∃ idx ∈ (g'.node ty).Indexes, idx.Unique = true ∧
            (idx.Columns = e.Rel.Columns ∨ idx.Columns = e.Rel.Columns.reverse)
          rcases nE with ⟨k1, -⟩ | ⟨k1, k2⟩ | ⟨-, k2⟩
          · exact Or.inl k1
          · right
            obtain ⟨idx, m1, a1, a2, ar, b1, b2, br, m2, m3, m4⟩ := hasI_true _ _ k1
            obtain ⟨m5, m6⟩ := hk.indexes ty idx m1
            rw [hcols] at m3
            simp only [List.cons.injEq] at m3
            obtain ⟨m31, m32, -⟩ := m3
            have har : ar = [] := by
              rw [m2] at m6
              simp at m6
              exact m6
            refine ⟨idx, by rw [k2]; exact m1, m5, ?_⟩
            rw [m2, har, hcols, m31, m32]
            rcases m4 with ⟨z1, z2⟩ | ⟨z1, z2⟩
            · left; rw [z1, z2]
            · right; rw [z1, z2]; rfl
          · right
            exact ⟨_, by rw [k2]; exact List.mem_append_right _ (List.mem_singleton.mpr rfl),
              rfl, Or.inl rfl⟩
        · intro c hc
          have hc' : c ∈ e.Rel.Columns := hc
          obtain ⟨fk, k1, k2⟩ := (edgeField_loop _ _ _ _ ty e.IsInverse e.Rel.Columns 0 none
            (some r) hloop).1 c hc'
          rw [bound_proj (fun t => t.ForeignKeys) (fun _ _ => rfl) (fun _ _ => rfl) hg1] at k1
          obtain ⟨m1, r0, m2, -⟩ := hv ty fk (List.mem_of_find?_eq_some k1)
          have hrp : fk.Edge ≠ ⟨i, j⟩ := by
            intro hcc
            apply hne
            rw [← m1, hcc]
          rw [bound_edges he hg1, if_neg hrp, m2] at k2
          exact ⟨fk, r0, by rw [(nA ty).2.2]; exact k1, hkeep _ r0 m2 hrp, k2⟩
      · obtain ⟨k1, k2, k3, k4⟩ := hk.bound x e' n hx' hth'
        refine ⟨k1, ?_, ?_, ?_⟩
        · intro hann
          rw [(nA n).1] at hann
          have hc := k2 hann
          by_cases hnt : n = ty
          · subst hnt
            rw [(hESID hc).2]; exact hc
          · rw [(nB n hnt).2.1]; exact hc
        · by_cases hnt : n = ty
          · subst hnt
            rcases k3 with k3 | ⟨idx, m1, m2⟩
            · left
              rw [hasCompositeID_congr (hESID (hasCompositeID_ne_nil k3)).2]
              exact k3
            · exact Or.inr ⟨idx, hidx idx m1, m2⟩
          · rcases k3 with k3 | ⟨idx, m1, m2⟩
            · left
              rw [hasCompositeID_congr (nB n hnt).2.1]
              exact k3
            · exact Or.inr ⟨idx, by rw [(nB n hnt).2.2]; exact m1, m2⟩
        · intro c hc
          obtain ⟨fk, r0, m1, m2, m3⟩ := k4 c hc
          obtain ⟨r1, z1, -, z3⟩ := hold _ r0 m2
          exact ⟨fk, r1, by rw [(nA n).2.2]; exact m1, z1, z3.trans m3⟩
  · -- indexes
    intro n idx hmem
    by_cases hnt : n = ty
    · subst hnt
      rcases nE with ⟨-, k⟩ | ⟨-, k⟩ | ⟨-, k⟩
      · rw [k] at hmem; exact hk.indexes n idx hmem
      · rw [k] at hmem; exact hk.indexes n idx hmem
      · rw [k, List.mem_append] at hmem
        rcases hmem with hmem | hmem
        · exact hk.indexes n idx hmem
        · rw [List.mem_singleton.mp hmem]
          exact ⟨rfl, by simp [hcols]⟩
    · rw [(nB n hnt).2.2] at hmem
      exact hk.indexes n idx hmem

/-- Before `edgeSchemas` no edge is bound, no composite id is set and no node has
an index, so the invariant on the keys holds. -/
theorem fkStage_keys {env : Env} {c : Option TypeInfo} {schemas : List Schema} {g3 : Graph}
    (h : resolveStage env c schemas = Except.ok g3) : (fkStage g3).Keys := by
  have hb := fkStage_bare (resolveStage_bare h)
  have hp : ∀ p e, (fkStage g3).edge? p = some e → e.Through = none := by
    intro p e he
    rw [(fkStage_sameEdges g3).edge] at he
    exact (resolveStage_resolved h).plain p e he
  refine ⟨?_, ?_, ?_, ?_⟩
  · intro p e he hth
    exact absurd (hp p e he) hth
  · intro n hn
    rw [(hb n).1] at hn
    exact absurd rfl hn
  · intro p e n he hth
    rw [hp p e he] at hth
    cases hth
  · intro n idx hmem
    rw [(hb n).2] at hmem
    cases hmem

/-- The invariant on the keys holds in every state of the loops of `edgeSchemas`. -/
theorem Reach.keys {env : Env} {c : Option TypeInfo} {schemas : List Schema} {g3 s : Graph}
    (h : resolveStage env c schemas = Except.ok g3) (hs : Reach env (fkStage g3) s) :
    s.Keys := by
  induction hs with
  | start => exact fkStage_keys h
  | step i j hs' hstep ih =>
    obtain ⟨k1, -, k3⟩ := Reach.inv h hs'
    exact edgeSchema_keys hstep k1 (resolveStage_resolved h) k3 ih

/-- An inverse edge that declares `Through` and the assoc edge it points to have
the same columns when the assoc edge points back to it. -/
theorem Graph.Extends.pair_columns {g g3 : Graph} {env : Env} (hx : g.Extends env g3)
    (hr : g3.Resolved env) {p q : EdgePtr} {e a : Edge} {th : ThroughDef}
    (he : g.edge? p = some e) (hinv : e.IsInverse = true) (hth : e.decl.Through = some th)
    (href : e.Ref = some q) (ha : g.edge? q = some a) (hback : a.Ref = some p) :
    a.IsInverse = false ∧ e.Rel.Columns = a.Rel.Columns := by
  have hd : e.decl.Inverse = true := by
    rcases hx.edge_cases he with ⟨e0, h0, h1, -⟩ | ⟨-, h1, -⟩
    · have hinv0 : e0.IsInverse = true := by rw [← Edge.IsInverse_static h1]; exact hinv
      rw [((Edge.static_eq_iff _ _).mp h1).1]
      exact (hr.wellFormed p e0 h0).2 hinv0
    · rw [h1] at hth
      cases hth
  obtain ⟨e0, q', a0, a', h1, -, h3, -, h5, -, h7, h8, h9, h10, -, h12, -, -, -, -, h17, h18⟩ :=
    hx.inverse_pair hr he hinv hd
  rw [href] at h5
  cases h5
  rw [ha] at h7
  cases h7
  obtain ⟨p', e0', k1, k2, -, -, -, k6⟩ := h18
  rw [hback] at h9
  rw [← h9] at k1
  cases k1
  rw [h1] at k2
  cases k2
  have hcol : e0.Rel.Columns = a0.Rel.Columns := by
    rw [h17, k6]; exact (linkPair_same env g3 p q e0 a0).2
  exact ⟨by rw [Edge.IsInverse_static h8]; exact h12, by rw [h3, h10, hcol]⟩

/-- C17: an iteration of `edgeSchemas` that finds an id annotation on an edge
schema whose composite id is not set fails with the error "edge schema primary key
can only be defined on ..." unless the annotation is the first two columns of the
edge, in that order.  When `edgeSchemas` succeeds in `NewGraph`, every type `ty`
that an edge is bound to and that annotates an id has `ID` nil and an
`EdgeSchema.ID` of exactly the two annotated fields, in the order of the
annotation, which are the two columns of an edge bound to `ty`; and when an inverse
edge and the assoc edge it is paired with are both bound to `ty`, the annotation is
the column list of both, and `EdgeSchema.ID` still has two entries. -/
theorem composite_id_key (env : Env) (c : Option TypeInfo) (schemas : List Schema)
    (g3 g5 : Graph) (h : resolveStage env c schemas = Except.ok g3)
    (h5 : edgeSchemas env (fkStage g3) = Except.ok g5) :
    (∀ (g : Graph) (ty : Nat) (r1 r2 : String) (rest : List String),
      (g.node ty).AnnotationID ≠ [] → (g.node ty).EdgeSchema.ID = [] →
      (g.node ty).AnnotationID ≠ [r1, r2] →
      edgeSchemaKey g ty (r1 :: r2 :: rest) = Except.error (Failure.error
        ("edge schema primary key can only be defined on \"id\" or (" ++ quote r1 ++ ", "
          ++ quote r2 ++ ") in the same order"))) ∧
    (∀ p e ty, g5.edge? p = some e → e.Through = some ty → (g5.node ty).AnnotationID ≠ [] →
      (g5.node ty).ID = none ∧
      ∃ r1 r2 p0 e0, (g5.node ty).AnnotationID = [r1, r2] ∧
        (g5.node ty).EdgeSchema.ID = [(g5.node ty).Fields.find? (fun x => x.Name == r1),
          (g5.node ty).Fields.find? (fun x => x.Name == r2)] ∧
        g5.edge? p0 = some e0 ∧ e0.Through = some ty ∧ e0.Rel.Columns = [r1, r2]) ∧
    (∀ p q e a ty, g5.edge? p = some e → g5.edge? q = some a → e.Through = some ty →
      a.Through = some ty → e.IsInverse = true → e.Ref = some q → a.Ref = some p →
      (g5.node ty).AnnotationID ≠ [] →
      (g5.node ty).AnnotationID = e.Rel.Columns ∧ (g5.node ty).AnnotationID = a.Rel.Columns ∧
      (g5.node ty).EdgeSchema.ID.length = 2) := by
  have hreach := edgeSchemas_reach h5
  have hk := Reach.keys h hreach
  obtain ⟨hx, hs, -⟩ := Reach.inv h hreach
  have hr := resolveStage_resolved h
  refine ⟨?_, ?_, ?_⟩
  · intro g ty r1 r2 rest h1 h2 h3
    unfold edgeSchemaKey
    have hc : (decide ((g.node ty).AnnotationID.length > 0) &&
        (g.node ty).EdgeSchema.ID.length == 0) = true := by
      simp only [Bool.and_eq_true, decide_eq_true_eq, beq_iff_eq]
      exact ⟨List.length_pos.mpr h1, List.length_eq_zero.mpr h2⟩
    have h3' : ((g.node ty).AnnotationID != [r1, r2]) = true := by simpa using h3
    simp only [hc, h3', if_true]
  · intro p e ty he hth hann
    exact hk.id ty ((hk.bound p e ty he hth).2.1 hann)
  · intro p q e a ty he ha hth hta hinv href hback hann
    obtain ⟨-, r1, r2, p0, e0, k2, k3, k4, k5, k6⟩ := hk.id ty ((hk.bound p e ty he hth).2.1 hann)
    obtain ⟨th, -, -, m1, -⟩ := hk.helper p e he (by rw [hth]; simp)
    obtain ⟨n1, n2⟩ := hx.pair_columns hr he hinv m1 href ha hback
    have hlen : (g5.node ty).EdgeSchema.ID.length = 2 := by rw [k3]; rfl
    cases hinv0 : e0.IsInverse
    · have z1 := (hs.bound ty p0 e0 k4 k5).2 hinv0
      have z2 := (hs.bound ty q a ha hta).2 n1
      rw [z1] at z2
      cases z2
      rw [k4] at ha
      cases ha
      exact ⟨by rw [k2, n2, k6], by rw [k2, k6], hlen⟩
    · have z1 := (hs.bound ty p0 e0 k4 k5).1 hinv0
      have z2 := (hs.bound ty p e he hth).1 hinv
      rw [z1] at z2
      cases z2
      rw [k4] at he
      cases he
      exact ⟨by rw [k2, k6], by rw [k2, ← n2, k6], hlen⟩

/-- Witness of C17 on `pairKeySchemas`: `membership` annotates the id
`(user_id, role_id)` and both `roles` and its inverse `users` go through it.  After
`edgeSchemas` the type has no `ID` and the composite id of the two fields, the
columns of both edges.  With the annotation in the other order
(`swappedKeySchemas`) `NewGraph` returns the error. -/
theorem composite_id_key_witness :
    resolveStage sampleEnv none pairKeySchemas = Except.ok pairKeyResolved ∧
    edgeSchemas sampleEnv (fkStage pairKeyResolved) = Except.ok pairKeyBound ∧
    (pairKeyBound.edgeAt ⟨0, 0⟩).Through = some 2 ∧
    (pairKeyBound.edgeAt ⟨1, 0⟩).Through = some 2 ∧
    (pairKeyBound.node 2).ID = none ∧
    (pairKeyBound.node 2).EdgeSchema.ID = [some { Name := "user_id" }, some { Name := "role_id" }] ∧
    (pairKeyBound.node 2).AnnotationID = (pairKeyBound.edgeAt ⟨1, 0⟩).Rel.Columns ∧
    (pairKeyBound.node 2).AnnotationID = (pairKeyBound.edgeAt ⟨0, 0⟩).Rel.Columns ∧
    NewGraph sampleEnv none swappedKeySchemas = Except.error (Failure.error
      ("resolving edges: edge schema primary key can only be defined on \"id\" or "
        ++ "(\"user_id\", \"role_id\") in the same order")) :=
  have h := (composite_id_key sampleEnv none pairKeySchemas pairKeyResolved pairKeyBound rfl
    rfl).2.2 ⟨1, 0⟩ ⟨0, 0⟩ (pairKeyBound.edgeAt ⟨1, 0⟩) (pairKeyBound.edgeAt ⟨0, 0⟩) 2 rfl rfl
    rfl rfl rfl rfl rfl (by decide)
  ⟨rfl, rfl, rfl, rfl, rfl, rfl, h.1, h.2.1, rfl⟩

/-! ## The stages after `edgeSchemas` -/

/-- The stage `addIndexes` keeps every member of a node other than its indexes, and
keeps the indexes the node has. -/
theorem addIndexes_nodes {g g' : Graph} {s : Schema} (h : addIndexes g s = Except.ok g') :
    (∀ {β : Type} (π : Node → β), (∀ (t : Node) (idx : List Index),
      π { t with Indexes := idx } = π t) → ∀ n, π (g'.node n) = π (g.node n)) ∧
    (∀ n idx, idx ∈ (g.node n).Indexes → idx ∈ (g'.node n).Indexes) := by
  unfold addIndexes at h
  split at h
  · split at h
    · simp only [Except.ok.injEq] at h
      rw [← h]
      exact ⟨fun _ _ _ => rfl, fun _ _ hm => hm⟩
    · simp at h
  · next t _ =>
    refine forEach_inv (P := fun x => (∀ {β : Type} (π : Node → β), (∀ (t : Node)
        (idx : List Index), π { t with Indexes := idx } = π t) →
        ∀ n, π (x.node n) = π (g.node n)) ∧
        (∀ n idx, idx ∈ (g.node n).Indexes → idx ∈ (x.node n).Indexes))
      ?_ _ g g' ⟨fun _ _ _ => rfl, fun _ _ hm => hm⟩ h
    intro x idx x' hx hstep
    split at hstep
    · next nd hnd =>
      simp only [Except.ok.injEq] at hstep
      have hnd' := AddIndex_ok hnd
      have hx' : x' = x.modifyNode t (fun t => { t with Indexes := t.Indexes ++
          [{ Unique := idx.Unique, Columns := idx.Fields }] }) := by
        rw [← hstep, hnd']
        exact Graph.modifyNode_const x t (fun t => { t with Indexes := t.Indexes ++
          [{ Unique := idx.Unique, Columns := idx.Fields }] })
      refine ⟨?_, ?_⟩
      · intro β π hπ n
        rw [hx', Graph.node_modifyNode_proj π x t n _ (fun t => hπ t _)]
        exact hx.1 π hπ n
      · intro n i0 hm
        have hm1 := hx.2 n i0 hm
        rw [hx']
        by_cases hn : n = t
        · by_cases hl : n < x.Nodes.length
          · rw [hn, Graph.node_modifyNode_self x _ (hn ▸ hl)]
            exact List.mem_append_left _ (hn ▸ hm1)
          · have h1 : (x.modifyNode t (fun t => { t with Indexes := t.Indexes ++
                [{ Unique := idx.Unique, Columns := idx.Fields }] })).Nodes[n]? = none := by
              apply List.getElem?_eq_none
              rw [Graph.length_modifyNode]; omega
            have h2 : x.Nodes[n]? = none := List.getElem?_eq_none (by omega)
            rw [Graph.node_eq, h1]
            rw [Graph.node_eq, h2] at hm1
            exact hm1
        · rw [Graph.node_modifyNode_of_ne x _ hn]
          exact hm1
    · simp at hstep

/-- The stage `defaults` keeps the nodes. -/
theorem defaults_nodes {g g' : Graph} (h : defaults g = Except.ok g') : g'.Nodes = g.Nodes := by
  unfold defaults at h
  split at h
  · simp only [Except.ok.injEq] at h
    rw [← h]
  · simp only at h
    split at h
    · simp only [Except.ok.injEq] at h
      rw [← h]
    · split at h
      · simp only [Except.ok.injEq] at h
        rw [← h]
      · split at h
        · simp at h
        · simp only [Except.ok.injEq] at h
          rw [← h]

/-- A successful `NewGraph` went through a resolved graph `g3` and the graph `g5`
that `edgeSchemas` returned; its result has the edges of `g5`, and its nodes differ
from those of `g5` by added indexes only. -/
theorem NewGraph_stages {env : Env} {c : Option TypeInfo} {schemas : List Schema} {g : Graph}
    (h : NewGraph env c schemas = Except.ok g) :
    ∃ g3 g5, resolveStage env c schemas = Except.ok g3 ∧
      edgeSchemas env (fkStage g3) = Except.ok g5 ∧ g.SameEdges g5 ∧
      (∀ {β : Type} (π : Node → β), (∀ (t : Node) (idx : List Index),
        π { t with Indexes := idx } = π t) → ∀ n, π (g.node n) = π (g5.node n)) ∧
      (∀ n idx, idx ∈ (g5.node n).Indexes → idx ∈ (g.node n).Indexes) := by
  unfold NewGraph at h
  split at h
  · simp at h
  · next g3 h3 =>
    replace h := finishStage_ok h
    split at h
    · simp at h
    · next g5 h5 =>
      split at h
      · simp at h
      · next g6 h6 =>
        have hs6 : g6.SameEdges g5 :=
          forEach_inv (P := fun x => x.SameEdges g5)
            (fun _ _ _ hs hstep => (addIndexes_sameEdges hstep).trans' hs) _ g5 g6
            (Graph.SameEdges.rfl' g5) h6
        have hn6 := forEach_inv (P := fun x => (∀ {β : Type} (π : Node → β), (∀ (t : Node)
            (idx : List Index), π { t with Indexes := idx } = π t) →
            ∀ n, π (x.node n) = π (g5.node n)) ∧
            (∀ n idx, idx ∈ (g5.node n).Indexes → idx ∈ (x.node n).Indexes))
          (fun x s x' hx hstep =>
            ⟨fun π hπ n => ((addIndexes_nodes hstep).1 π hπ n).trans (hx.1 π hπ n),
              fun n idx hm => (addIndexes_nodes hstep).2 n idx (hx.2 n idx hm)⟩)
          _ g5 g6 ⟨fun _ _ _ => rfl, fun _ _ hm => hm⟩ h6
        have hnodes : ∀ n, g.node n = g6.node n := by
          intro n
          unfold Graph.node
          rw [defaults_nodes h]
        refine ⟨g3, g5, h3, h5, (defaults_sameEdges h).trans' hs6, ?_, ?_⟩
        · intro β π hπ n
          rw [hnodes n]
          exact hn6.1 π hπ n
        · intro n idx hm
          rw [hnodes n]
          exact hn6.2 n idx hm

/-- C18: whenever `NewGraph` succeeds, for every edge `e` bound to an edge schema
`ty` (its `Through` is `ty`): `e` is M2M with two columns; each of the two columns
names a foreign key of `ty`, and the edge of `ty` that owns that foreign key is
required (not `Optional`); and `ty` has a composite id or a unique index over the
two columns of `e`, in one order or the other. -/
theorem edge_schema_required_unique (env : Env) (c : Option TypeInfo) (schemas : List Schema)
    (g : Graph) (h : NewGraph env c schemas = Except.ok g) (p : EdgePtr) (e : Edge) (ty : Nat)
    (he : g.edge? p = some e) (hth : e.Through = some ty) :
    e.Rel.Typ = Rel.M2M ∧
    ∃ c1 c2, e.Rel.Columns = [c1, c2] ∧
      (∀ col ∈ [c1, c2], ∃ fk r,
        (g.node ty).ForeignKeys.find? (fun fk => fk.Field.Name == col) = some fk ∧
        fk.Edge.node = ty ∧ g.edge? fk.Edge = some r ∧ r.Optional = false) ∧
      ((g.node ty).HasCompositeID = true ∨
        ∃ idx ∈ (g.node ty).Indexes, idx.Unique = true ∧
          (idx.Columns = [c1, c2] ∨ idx.Columns = [c2, c1])) := by
  obtain ⟨g3, g5, h3, h5, hs, hn, hi⟩ := NewGraph_stages h
  have hreach := edgeSchemas_reach h5
  have hk := Reach.keys h3 hreach
  obtain ⟨hx, -, hv⟩ := Reach.inv h3 hreach
  have hr := resolveStage_resolved h3
  have he5 : g5.edge? p = some e := by rw [← hs.edge]; exact he
  obtain ⟨k1, -, k3, k4⟩ := hk.bound p e ty he5 hth
  obtain ⟨th, -, -, m1, -⟩ := hk.helper p e he5 (by rw [hth]; simp)
  obtain ⟨c1, c2, hcols⟩ := hx.through_columns hr he5 m1 k1
  have hfk : (g.node ty).ForeignKeys = (g5.node ty).ForeignKeys :=
    hn (fun t => t.ForeignKeys) (fun _ _ => rfl) ty
  have hid : (g.node ty).EdgeSchema.ID = (g5.node ty).EdgeSchema.ID :=
    hn (fun t => t.EdgeSchema.ID) (fun _ _ => rfl) ty
  refine ⟨k1, c1, c2, hcols, ?_, ?_⟩
  · intro col hcol
    obtain ⟨fk, r, z1, z2, z3⟩ := k4 col (by rw [hcols]; exact hcol)
    refine ⟨fk, r, by rw [hfk]; exact z1, (hv ty fk (List.mem_of_find?_eq_some z1)).1, ?_, z3⟩
    rw [hs.edge]; exact z2
  · rcases k3 with k3 | ⟨idx, z1, z2, z3⟩
    · left
      rw [hasCompositeID_congr hid]
      exact k3
    · right
      refine ⟨idx, hi ty idx z1, z2, ?_⟩
      rw [hcols] at z3
      exact z3

/-- Witness of C18 on `roleSchemas`: the edge `roles` of `user` is bound to
`membership`, which has no composite id; its edges `user` and `role`, the owners
of the foreign keys `user_id` and `role_id`, are required, and it has the unique
index over `(user_id, role_id)`. -/
theorem edge_schema_required_unique_witness :
    NewGraph sampleEnv none roleSchemas = Except.ok roleGraph ∧
    (roleGraph.edgeAt ⟨0, 0⟩).Through = some 2 ∧
    (roleGraph.edgeAt ⟨0, 0⟩).Rel.Columns = ["user_id", "role_id"] ∧
    (roleGraph.node 2).HasCompositeID = false ∧
    (roleGraph.node 2).Indexes = [{ Unique := true, Columns := ["user_id", "role_id"] }] ∧
    (roleGraph.edgeAt ⟨2, 0⟩).Optional = false ∧
    (roleGraph.edgeAt ⟨2, 1⟩).Optional = false ∧
    ∃ c1 c2, (roleGraph.edgeAt ⟨0, 0⟩).Rel.Columns = [c1, c2] ∧
      (∀ col ∈ [c1, c2], ∃ fk r,
        (roleGraph.node 2).ForeignKeys.find? (fun fk => fk.Field.Name == col) = some fk ∧
        fk.Edge.node = 2 ∧ roleGraph.edge? fk.Edge = some r ∧ r.Optional = false) ∧
      ((roleGraph.node 2).HasCompositeID = true ∨
        ∃ idx ∈ (roleGraph.node 2).Indexes, idx.Unique = true ∧
          (idx.Columns = [c1, c2] ∨ idx.Columns = [c2, c1])) :=
  ⟨rfl, rfl, rfl, rfl, rfl, rfl, rfl,
    (edge_schema_required_unique sampleEnv none roleSchemas roleGraph rfl ⟨0, 0⟩
      (roleGraph.edgeAt ⟨0, 0⟩) 2 rfl rfl).2⟩

/-! ## The loops of `Tables` -/

/-- A loop whose steps each add their own output to a list the invariant tracks. -/
theorem forEach_collect {σ α β ε : Type} {f : σ → α → Except ε σ} {out : α → List β}
    {Q : List β → σ → Prop}
    (hstep : ∀ s a s' js, Q js s → f s a = Except.ok s' → Q (js ++ out a) s') :
    ∀ (l : List α) (s s' : σ) (js : List β), Q js s → forEach f s l = Except.ok s' →
      Q (js ++ l.flatMap out) s' := by
  intro l
  induction l with
  | nil =>
    intro s s' js hq h
    simp only [forEach, Except.ok.injEq] at h
    simpa [← h] using hq
  | cons a as ih =>
    intro s s' js hq h
    simp only [forEach] at h
    split at h
    · next s1 h1 =>
      have := ih s1 s' (js ++ out a) (hstep s a s1 js hq h1) h
      simpa [List.append_assoc] using this
    · simp at h

/-- The position `tableOf` finds is the position of a node with that table name. -/
theorem tableOf_fold (env : Env) (name : String) :
    ∀ (l : List Node) (k : Nat) (acc : Option Nat) (r : Nat),
      (l.enumFrom k).foldl (fun acc p => if p.2.Table env == name then some p.1 else acc) acc
        = some r →
      acc = some r ∨ (k ≤ r ∧ r < k + l.length ∧ ∃ n, l[r - k]? = some n ∧ n.Table env = name) := by
  intro l
  induction l with
  | nil => intro k acc r h; exact Or.inl h
  | cons a as ih =>
    intro k acc r h
    simp only [List.enumFrom_cons, List.foldl_cons] at h
    rcases ih (k + 1) _ r h with h1 | ⟨h1, h2, n, h3, h4⟩
    · split at h1
      · next hname =>
        simp only [Option.some.injEq] at h1
        right
        refine ⟨by omega, by simp; omega, a, ?_, by simpa using hname⟩
        rw [← h1]
        simp
      · exact Or.inl h1
    · right
      refine ⟨by omega, by simp; omega, n, ?_, h4⟩
      have : r - k = (r - (k + 1)) + 1 := by omega
      rw [this, List.getElem?_cons_succ]
      exact h3

theorem tableOf_lt {env : Env} {g : Graph} {name : String} {r : Nat}
    (h : tableOf env g name = some r) :
    r < g.Nodes.length ∧ (g.node r).Table env = name := by
  unfold tableOf at h
  rcases tableOf_fold env name g.Nodes 0 none r h with h1 | ⟨-, h2, n, h3, h4⟩
  · cases h1
  · refine ⟨by omega, ?_⟩
    rw [Graph.node_eq]
    simp only [Nat.sub_zero] at h3
    rw [h3]
    exact h4

theorem drop_modify_of_lt {α : Type} (f : α → α) (l : List α) {o n : Nat} (h : o < n) :
    (l.modify f o).drop n = l.drop n := by
  apply List.ext_getElem?
  intro k
  rw [List.getElem?_drop, List.getElem?_drop, List.getElem?_modify]
  have : o ≠ n + k := by omega
  simp [this]

/-- Changing the table at a position of the map `tables`, without changing its
name or primary key, keeps the invariant. -/
theorem TablesInv.modify {env : Env} {tenv : TEnv} {g : Graph} {js : List EdgePtr}
    {all : List Table} (h : TablesInv env tenv g js all) {o : Nat} (ho : o < g.Nodes.length)
    (f : Table → Table) (hname : ∀ t, (f t).Name = t.Name)
    (hpk : StablePK env g o → ∀ t, (f t).PrimaryKey = t.PrimaryKey) :
    TablesInv env tenv g js (all.modify f o) := by
  refine ⟨by rw [List.length_modify]; exact h.length, ?_, ?_⟩
  · intro i hi
    obtain ⟨t, h1, h2, h3⟩ := h.node i hi
    rw [List.getElem?_modify, h1]
    refine ⟨if o = i then f t else t, rfl, ?_, ?_⟩
    · split
      · rw [hname]; exact h2
      · exact h2
    · intro hs
      split
      · next hoi => rw [hpk (hoi ▸ hs)]; exact h3 hs
      · exact h3 hs
  · rw [drop_modify_of_lt f all ho]
    exact h.join

theorem modify_const_of_getElem? {α : Type} (f : α → α) (l : List α) {r : Nat} {t : α}
    (h : l[r]? = some t) : l.modify (fun _ => f t) r = l.modify f r := by
  apply List.ext_getElem?
  intro k
  rw [List.getElem?_modify, List.getElem?_modify]
  by_cases hk : r = k
  · subst hk
    rw [h]
    simp
  · simp [hk]

/-- Appending the join table of the edge at `p` keeps the invariant, with `p` added
to the join edges met. -/
theorem TablesInv.append {env : Env} {tenv : TEnv} {g : Graph} {js : List EdgePtr}
    {all : List Table} (h : TablesInv env tenv g js all) {p : EdgePtr} {t : Table}
    (hj : JoinOf env tenv g p t) : TablesInv env tenv g (js ++ [p]) (all ++ [t]) := by
  refine ⟨by rw [List.length_append]; have := h.length; omega, ?_, ?_⟩
  · intro i hi
    obtain ⟨t0, h1, h2, h3⟩ := h.node i hi
    refine ⟨t0, ?_, h2, h3⟩
    rw [List.getElem?_append_left (by have := h.length; omega)]
    exact h1
  · rw [List.drop_append_of_le_length h.length]
    exact List.rel_append h.join (List.Forall₂.cons hj List.Forall₂.nil)

/-- The cases `O2O, O2M` and `M2O` of `Tables` keep the invariant: they change one
table of the map `tables`, and neither its name nor its primary key. -/
theorem addEdgeFK_inv {env : Env} {tenv : TEnv} {g : Graph} {js : List EdgePtr}
    {all all' : List Table} (h : TablesInv env tenv g js all) {p : EdgePtr} {e : Edge}
    {owner ref : Option Nat} {unique required : Bool}
    (hown : ∀ o, owner = some o → o < g.Nodes.length)
    (hok : addEdgeFK tenv p e owner ref unique required all = Except.ok all') :
    TablesInv env tenv g js all' := by
  unfold addEdgeFK at hok
  split at hok
  · simp at hok
  · split at hok
    · simp at hok
    · simp only at hok
      split at hok
      · simp at hok
      · next o ownerT ho =>
        simp only [Except.ok.injEq] at hok
        have ho' : owner = some o := by
          cases owner with
          | none => simp at ho
          | some o' =>
            simp only [Option.some_bind, Option.map_eq_some'] at ho
            obtain ⟨_, _, h2⟩ := ho
            simp only [Prod.mk.injEq] at h2
            rw [h2.1]
        rw [← hok]
        refine (h.modify (hown o ho') _ ?_ ?_).modify (hown o ho') _ ?_ ?_
        · intro t
          unfold mayAddColumn
          split <;> rfl
        · intro _ t
          unfold mayAddColumn
          split <;> rfl
        · intro t; rfl
        · intro _ t; rfl

/-- The case `M2M` of `Tables`: an edge with an edge schema leaves the list as it
is; any other edge adds its join table at the end. -/
theorem addJoinTable_inv {env : Env} {tenv : TEnv} {g : Graph} {js : List EdgePtr}
    {all all' : List Table} (h : TablesInv env tenv g js all) {p : EdgePtr} {e : Edge}
    (he : g.edge? p = some e)
    (hok : addJoinTable env tenv g p e all = Except.ok all') :
    (throughSchema g e = true → TablesInv env tenv g js all') ∧
    (throughSchema g e = false → TablesInv env tenv g (js ++ [p]) all') := by
  unfold addJoinTable at hok
  split at hok
  · next hth =>
    simp only [Except.ok.injEq] at hok
    rw [← hok]
    exact ⟨fun _ => h, fun hc => by rw [hth] at hc; cases hc⟩
  · next hth =>
    refine ⟨fun hc => absurd hc hth, fun _ => ?_⟩
    simp only at hok
    split at hok
    · next n1 n2 rest id1 id2 hcols hid1 hid2 =>
      split at hok
      · next r1 tb1 r2 tb2 ht1 ht2 =>
        split at hok
        · next pk1 pkr1 pk2 pkr2 hpk1 hpk2 =>
          simp only [Except.ok.injEq] at hok
          rw [← hok]
          apply h.append
          -- the two lookups
          have hl : ∀ (name : String) (r : Nat) (tb : Table),
              (tableOf env g name).bind (fun r => (all[r]?).map (fun t => (r, t))) = some (r, tb) →
              tableOf env g name = some r ∧ all[r]? = some tb := by
            intro name r tb hx
            cases hto : tableOf env g name with
            | none => rw [hto] at hx; simp at hx
            | some r' =>
              rw [hto] at hx
              simp only [Option.some_bind, Option.map_eq_some'] at hx
              obtain ⟨t', h1, h2⟩ := hx
              simp only [Prod.mk.injEq] at h2
              rw [← h2.1, ← h2.2]
              exact ⟨rfl, h1⟩
          obtain ⟨a1, a2⟩ := hl _ r1 tb1 ht1
          obtain ⟨b1, b2⟩ := hl _ r2 tb2 ht2
          refine ⟨e, n1, n2, rest, id1, id2, r1, r2, pk1, pk2, he, hcols, hid1, hid2, a1, b1,
            ?_, ?_, rfl⟩
          · intro hs
            obtain ⟨t, k1, -, k3⟩ := h.node r1 (tableOf_lt a1).1
            rw [a2] at k1
            cases k1
            rw [← k3 hs, hpk1]
            rfl
          · intro hs
            obtain ⟨t, k1, -, k3⟩ := h.node r2 (tableOf_lt b1).1
            rw [b2] at k1
            cases k1
            rw [← k3 hs, hpk2]
            rfl
        · simp at hok
      · simp at hok
    · simp at hok

/-- An iteration of the loop of `Tables` over the edges keeps the invariant, and
adds its edge to the join edges met when it is one. -/
theorem tableEdge_inv {env : Env} {tenv : TEnv} {g : Graph} {js : List EdgePtr}
    {all all' : List Table} {i j : Nat} (h : TablesInv env tenv g js all)
    (hok : tableEdge env tenv g i all j = Except.ok all') :
    TablesInv env tenv g (js ++ (if isJoinEdge g ⟨i, j⟩ then [⟨i, j⟩] else [])) all' := by
  unfold tableEdge at hok
  unfold isJoinEdge
  split at hok
  · next hn =>
    simp only [Except.ok.injEq] at hok
    rw [← hok, hn]
    simpa using h
  · next e he =>
    rw [he]
    simp only at hok ⊢
    split at hok
    · next hinv =>
      simp only [Except.ok.injEq] at hok
      rw [← hok]
      simpa [hinv] using h
    · next hinv =>
      split at hok
      · next hty =>
        have := addEdgeFK_inv h (fun o ho => (tableOf_lt ho).1) hok
        simpa [hty] using this
      · next hty =>
        have := addEdgeFK_inv h (fun o ho => (tableOf_lt ho).1) hok
        simpa [hty] using this
      · next hty =>
        have := addEdgeFK_inv h (fun o ho => (tableOf_lt ho).1) hok
        simpa [hty] using this
      · next hty =>
        obtain ⟨k1, k2⟩ := addJoinTable_inv h he hok
        by_cases hth : throughSchema g e = true
        · have := k1 hth
          simpa [hinv, hty, hth] using this
        · have hth' : throughSchema g e = false := by simpa using hth
          have := k2 hth'
          simpa [hinv, hty, hth'] using this
      · next hty =>
        simp only [Except.ok.injEq] at hok
        rw [← hok]
        simpa [hty] using h

/-- The function `addCompositePK` changes the primary key of the table only. -/
theorem addCompositePK_ok {tenv : TEnv} {i : Nat} {t t' : Table} {n : Node}
    (h : addCompositePK tenv i t n = Except.ok t') : ∃ cols, t' = { t with PrimaryKey := cols } := by
  unfold addCompositePK at h
  split at h
  · next cols _ =>
    simp only [Except.ok.injEq] at h
    exact ⟨cols, h.symm⟩
  · simp at h

/-- A loop whose steps each add their own output to a list the invariant tracks,
with the elements known to be in the list. -/
theorem forEach_collect_mem {σ α β ε : Type} {f : σ → α → Except ε σ} {out : α → List β}
    {Q : List β → σ → Prop} :
    ∀ (l : List α) (s s' : σ) (js : List β),
      (∀ s a s' js, a ∈ l → Q js s → f s a = Except.ok s' → Q (js ++ out a) s') →
      Q js s → forEach f s l = Except.ok s' → Q (js ++ l.flatMap out) s' := by
  intro l
  induction l with
  | nil =>
    intro s s' js _ hq h
    simp only [forEach, Except.ok.injEq] at h
    simpa [← h] using hq
  | cons a as ih =>
    intro s s' js hstep hq h
    simp only [forEach] at h
    split at h
    · next s1 h1 =>
      have := ih s1 s' (js ++ out a)
        (fun s a' s' js ha => hstep s a' s' js (List.mem_cons_of_mem _ ha))
        (hstep s a s1 js (List.mem_cons_self _ _) hq h1) h
      simpa [List.append_assoc] using this
    · simp at h

/-- An iteration of the second loop of `Tables` keeps the invariant and adds the
join edges of its node. -/
theorem tablesNode_inv {env : Env} {tenv : TEnv} {g : Graph} {js : List EdgePtr}
    {all all' : List Table} {i : Nat} (hi : i < g.Nodes.length)
    (h : TablesInv env tenv g js all) (hok : tablesNode env tenv g all i = Except.ok all') :
    TablesInv env tenv g (js ++ joinEdgesNode g i) all' := by
  unfold tablesNode at hok
  split at hok
  · simp at hok
  · next all1 h1 =>
    have hinv0 : TablesInv env tenv g (js ++ (List.range (g.node i).Edges.length).flatMap
        (fun j => if isJoinEdge g ⟨i, j⟩ then [(⟨i, j⟩ : EdgePtr)] else [])) all1 :=
      forEach_collect (f := tableEdge env tenv g i)
        (Q := fun js s => TablesInv env tenv g js s)
        (fun s a s' js hq hstep => tableEdge_inv hq hstep) _ all all1 js h h1
    have hinv1 : TablesInv env tenv g (js ++ joinEdgesNode g i) all1 := hinv0
    split at hok
    · next hcomp =>
      split at hok
      · simp at hok
      · next r t hr =>
        split at hok
        · next t' ht' =>
          simp only [Except.ok.injEq] at hok
          obtain ⟨cols, hcols⟩ := addCompositePK_ok ht'
          have hlook : tableOf env g ((g.node i).Table env) = some r ∧ all1[r]? = some t := by
            cases hto : tableOf env g ((g.node i).Table env) with
            | none => rw [hto] at hr; simp at hr
            | some r' =>
              rw [hto] at hr
              simp only [Option.some_bind, Option.map_eq_some'] at hr
              obtain ⟨t0, k1, k2⟩ := hr
              simp only [Prod.mk.injEq] at k2
              rw [← k2.1, ← k2.2]
              exact ⟨rfl, k1⟩
          rw [← hok, hcols,
            modify_const_of_getElem? (fun t => { t with PrimaryKey := cols }) all1 hlook.2]
          refine hinv1.modify (tableOf_lt hlook.1).1 _ (fun _ => rfl) ?_
          intro hs
          have := hs i hi hlook.1
          rw [hcomp] at this
          cases this
        · simp at hok
    · simp only [Except.ok.injEq] at hok
      rw [← hok]
      exact hinv1

/-- An iteration of the last loop of `Tables` keeps the invariant. -/
theorem tableIndexes_inv {env : Env} {tenv : TEnv} {g : Graph} {js : List EdgePtr}
    {all : List Table} (i : Nat) (h : TablesInv env tenv g js all) :
    TablesInv env tenv g js (tableIndexes env g all i) := by
  unfold tableIndexes
  split
  · exact h
  · next r hr =>
    exact foldl_inv
      (fun (all : List Table) (idx : Index) =>
        all.modify (fun t => t.AddIndex idx.Name idx.Unique idx.Columns) r)
      (fun s => TablesInv env tenv g js s)
      (fun s idx hs => hs.modify (tableOf_lt hr).1
        (fun t => t.AddIndex idx.Name idx.Unique idx.Columns) (fun _ => rfl) (fun _ _ => rfl))
      _ all h

theorem foldl_addColumn_name (c : Field → Bool) (col : Field → Column) :
    ∀ (fs : List Field) (t0 : Table),
      (fs.foldl (fun t f => if c f then t.AddColumn (col f) else t) t0).Name = t0.Name := by
  intro fs
  induction fs with
  | nil => intro t0; rfl
  | cons f fs ih =>
    intro t0
    simp only [List.foldl_cons]
    rw [ih]
    split <;> rfl

/-- The table of a node has the table name of the node. -/
theorem nodeTable_name (env : Env) (tenv : TEnv) (i : Nat) (n : Node) :
    (nodeTable env tenv i n).Name = n.Table env := by
  unfold nodeTable
  simp only
  rw [foldl_addColumn_name (fun f => !tenv.IsEdgeField i f) (fun f => tenv.Column i f)]
  split
  · split <;> rfl
  · rfl

/-- The first loop of `Tables` builds the tables of the nodes. -/
theorem nodeTables_getElem? (env : Env) (tenv : TEnv) (g : Graph) (i : Nat)
    (hi : i < g.Nodes.length) :
    (g.Nodes.enum.map (fun p => nodeTable env tenv p.1 p.2))[i]?
      = some (nodeTable env tenv i (g.node i)) := by
  rw [List.getElem?_map, List.enum, List.getElem?_enumFrom, Graph.node_eq,
    List.getElem?_eq_getElem hi]
  simp

/-- The list a successful `Tables` returns satisfies the invariant for all the
join edges of the graph. -/
theorem Tables_inv {env : Env} {tenv : TEnv} {g : Graph} {all : List Table}
    (h : Tables env tenv g = Except.ok all) : TablesInv env tenv g (joinEdges g) all := by
  unfold Tables at h
  simp only at h
  split at h
  · simp at h
  · next all1 h1 =>
    simp only [Except.ok.injEq] at h
    rw [← h]
    have h0 : TablesInv env tenv g [] (g.Nodes.enum.map (fun p => nodeTable env tenv p.1 p.2)) := by
      refine ⟨by simp [List.enum], ?_, ?_⟩
      · intro i hi
        exact ⟨_, nodeTables_getElem? env tenv g i hi, nodeTable_name env tenv i (g.node i),
          fun _ => rfl⟩
      · rw [List.drop_of_length_le (by simp [List.enum])]
        exact List.Forall₂.nil
    have h2 := @forEach_collect_mem _ _ _ _ (tablesNode env tenv g) (joinEdgesNode g)
      (fun js s => TablesInv env tenv g js s) _ _ all1 []
      (fun s a s' js ha hq hstep => tablesNode_inv (List.mem_range.mp ha) hq hstep) h0 h1
    simp only [List.nil_append] at h2
    exact foldl_inv _ (fun s => TablesInv env tenv g (joinEdges g) s)
      (fun s i hs => tableIndexes_inv i hs) _ all1 h2

/-! ## Join tables -/

/-- The test for a join edge, spelled out. -/
theorem isJoinEdge_iff (g : Graph) (p : EdgePtr) :
    isJoinEdge g p = true ↔ ∃ e, g.edge? p = some e ∧ e.IsInverse = false ∧
      e.Rel.Typ = Rel.M2M ∧ e.Through = none ∧
      ∀ r, e.Ref = some r → (g.edgeAt r).Through = none := by
  unfold isJoinEdge
  cases he : g.edge? p with
  | none => simp
  | some e =>
    simp only [Option.some.injEq, exists_eq_left', Bool.and_eq_true, Bool.not_eq_true',
      beq_iff_eq]
    unfold throughSchema Graph.edgeAt
    cases hr : e.Ref with
    | none =>
      cases hth : e.Through <;> simp
    | some r =>
      cases hth : e.Through <;> cases hrt : ((g.edge? r).getD default).Through <;> simp [hrt]

theorem mem_joinEdges (g : Graph) (p : EdgePtr) : p ∈ joinEdges g ↔ isJoinEdge g p = true := by
  unfold joinEdges joinEdgesNode
  simp only [List.mem_flatMap, List.mem_range]
  constructor
  · rintro ⟨i, -, j, -, hp⟩
    split at hp
    · next hj =>
      simp only [List.mem_singleton] at hp
      rw [hp]; exact hj
    · simp at hp
  · intro hj
    obtain ⟨e, he, -⟩ := (isJoinEdge_iff g p).mp hj
    obtain ⟨h1, h2⟩ := Graph.edge?_lt he
    refine ⟨p.node, h1, p.idx, h2, ?_⟩
    have : (⟨p.node, p.idx⟩ : EdgePtr) = p := rfl
    rw [this, if_pos hj]
    exact List.mem_singleton.mpr rfl

/-- The join edges are listed in the order of the nodes and, in a node, of its edges. -/
theorem joinEdges_sorted (g : Graph) :
    (joinEdges g).Pairwise (fun p q => p.node < q.node ∨ (p.node = q.node ∧ p.idx < q.idx)) := by
  unfold joinEdges
  rw [List.pairwise_flatMap]
  have hnode : ∀ i x, x ∈ joinEdgesNode g i → x.node = i := by
    intro i x hx
    unfold joinEdgesNode at hx
    simp only [List.mem_flatMap, List.mem_range] at hx
    obtain ⟨j, -, hx⟩ := hx
    split at hx
    · simp only [List.mem_singleton] at hx
      rw [hx]
    · simp at hx
  constructor
  · intro i _
    unfold joinEdgesNode
    rw [List.pairwise_flatMap]
    constructor
    · intro j _
      split
      · exact List.pairwise_singleton _ _
      · exact List.Pairwise.nil
    · refine List.Pairwise.imp ?_ (List.pairwise_lt_range _)
      intro a b hab x hx y hy
      split at hx
      · split at hy
        · simp only [List.mem_singleton] at hx hy
          rw [hx, hy]
          exact Or.inr ⟨rfl, hab⟩
        · simp at hy
      · simp at hx
  · refine List.Pairwise.imp ?_ (List.pairwise_lt_range _)
    intro a b hab x hx y hy
    rw [hnode a x hx, hnode b y hy]
    exact Or.inl hab

theorem forall₂_map_eq {α β γ : Type} {R : α → β → Prop} {f : α → γ} {k : β → γ}
    (hR : ∀ a b, R a b → f a = k b) :
    ∀ {l1 : List α} {l2 : List β}, List.Forall₂ R l1 l2 → l1.map f = l2.map k := by
  intro l1 l2 h
  induction h with
  | nil => rfl
  | cons hab _ ih =>
    simp only [List.map_cons]
    rw [hR _ _ hab, ih]

/-- The table at position `k` after the node tables is the join table of the `k`-th
join edge. -/
theorem TablesInv.join_at {env : Env} {tenv : TEnv} {g : Graph} {js : List EdgePtr}
    {all : List Table} (h : TablesInv env tenv g js all) {k : Nat} {p : EdgePtr}
    (hk : js[k]? = some p) :
    ∃ t, all[g.Nodes.length + k]? = some t ∧ JoinOf env tenv g p t := by
  have hlen := h.join.length_eq
  obtain ⟨hk1, hk2⟩ := List.getElem?_eq_some_iff.mp hk
  have hk3 : k < (all.drop g.Nodes.length).length := by rw [← hlen]; exact hk1
  have := List.Forall₂.get h.join hk1 hk3
  simp only [List.get_eq_getElem] at this
  rw [hk2] at this
  refine ⟨_, ?_, this⟩
  rw [← List.getElem?_drop, List.getElem?_eq_getElem hk3]

/-- C19, amended: when `Tables` succeeds, every M2M edge `e` that is not an inverse
edge and has no edge schema, on itself or on its `Ref`, has exactly one position `k`
among the join edges, and the table at position `len(Nodes) + k` is its join table:
named `e.Rel.Table`, with the columns and the primary key `[c1, c2]`, named
`e.Rel.Columns[0]` and `e.Rel.Columns[1]`, and with exactly two foreign keys, both
`ON DELETE CASCADE`: `c1` to the table of the node of `e` and `c2` to the table of
the target, each on one column, the first primary-key column of that table (as long
as no composite key replaces the primary key of that table).  The join tables of two
edges may have the same name. -/
theorem join_table_for_m2m (env : Env) (tenv : TEnv) (g : Graph) (all : List Table)
    (h : Tables env tenv g = Except.ok all) (p : EdgePtr) (e : Edge)
    (he : g.edge? p = some e) (hinv : e.IsInverse = false) (hm : e.Rel.Typ = Rel.M2M)
    (hth : e.Through = none) (href : ∀ r, e.Ref = some r → (g.edgeAt r).Through = none) :
    ∃ k jt c1 c2 fk1 fk2 r1 r2 pk1 pk2 t1 t2,
      (joinEdges g)[k]? = some p ∧ (∀ k', (joinEdges g)[k']? = some p → k' = k) ∧
      all[g.Nodes.length + k]? = some jt ∧
      jt.Name = e.Rel.Table ∧ jt.Columns = [c1, c2] ∧ jt.PrimaryKey = [c1, c2] ∧
      e.Rel.Columns[0]? = some c1.Name ∧ e.Rel.Columns[1]? = some c2.Name ∧
      jt.ForeignKeys = [fk1, fk2] ∧ fk1.OnDelete = Cascade ∧ fk2.OnDelete = Cascade ∧
      fk1.Columns = [c1] ∧ fk2.Columns = [c2] ∧
      fk1.RefTable = r1 ∧ fk1.RefColumns = [pk1] ∧ fk2.RefTable = r2 ∧ fk2.RefColumns = [pk2] ∧
      all[r1]? = some t1 ∧ t1.Name = (g.node p.node).Table env ∧
      all[r2]? = some t2 ∧ t2.Name = (g.node e.Typ).Table env ∧
      (StablePK env g r1 → t1.PrimaryKey.head? = some pk1) ∧
      (StablePK env g r2 → t2.PrimaryKey.head? = some pk2) := by
  have hinv' := Tables_inv h
  have hmem : p ∈ joinEdges g :=
    (mem_joinEdges g p).mpr ((isJoinEdge_iff g p).mpr ⟨e, he, hinv, hm, hth, href⟩)
  obtain ⟨k, hk⟩ := List.mem_iff_getElem?.mp hmem
  have hnodup : (joinEdges g).Nodup := by
    refine List.Pairwise.imp ?_ (joinEdges_sorted g)
    intro a b hab hc
    rw [hc] at hab
    omega
  obtain ⟨jt, hjt, e', n1, n2, rest, id1, id2, r1, r2, pk1, pk2, k1, k2, -, -, k5, k6, k7, k8,
    k9⟩ := hinv'.join_at hk
  rw [he] at k1
  cases k1
  obtain ⟨t1, a1, a2, a3⟩ := hinv'.node r1 (tableOf_lt k5).1
  obtain ⟨t2, b1, b2, b3⟩ := hinv'.node r2 (tableOf_lt k6).1
  refine ⟨k, jt, joinColumn tenv n1 p.node id1, joinColumn tenv n2 e.Typ id2,
    { RefTable := r1, OnDelete := Cascade, Columns := [joinColumn tenv n1 p.node id1],
      RefColumns := [pk1]
      Symbol := (fkSymbols tenv p e (joinColumn tenv n1 p.node id1)
        (joinColumn tenv n2 e.Typ id2)).1 },
    { RefTable := r2, OnDelete := Cascade, Columns := [joinColumn tenv n2 e.Typ id2],
      RefColumns := [pk2]
      Symbol := (fkSymbols tenv p e (joinColumn tenv n1 p.node id1)
        (joinColumn tenv n2 e.Typ id2)).2 }, r1, r2,
    pk1, pk2, t1, t2, hk, ?_, hjt, ?_, ?_, ?_, ?_, ?_, ?_, ?_, ?_, ?_, ?_, ?_, ?_, ?_, ?_,
    a1, ?_, b1, ?_, ?_, ?_⟩
  · intro k' hk'
    obtain ⟨h1, h2⟩ := List.getElem?_eq_some_iff.mp hk
    obtain ⟨h3, h4⟩ := List.getElem?_eq_some_iff.mp hk'
    exact (List.Nodup.getElem_inj_iff hnodup).mp (h4.trans h2.symm)
  · rw [k9]; rfl
  · rw [k9]; rfl
  · rw [k9]; rfl
  · rw [k2]
    unfold joinColumn
    simp only
    split <;> simp
  · rw [k2]
    unfold joinColumn
    simp only
    split <;> simp
  · rw [k9]; rfl
  · rfl
  · rfl
  · rfl
  · rfl
  · rfl
  · rfl
  · rfl
  · rfl
  · rw [a2, (tableOf_lt k5).2]
  · rw [b2, (tableOf_lt k6).2]
  · intro hs
    rw [a3 hs]
    exact k7 hs
  · intro hs
    rw [b3 hs]
    exact k8 hs

/-- Witness of the amended C19 on `followGraph`: the edge `friends` of `user`, an M2M edge
without an inverse, is the second join edge, and the third table is its join table
`user_friends` with the columns `user_id` and `friend_id`. -/
theorem join_table_for_m2m_witness :
    Tables sampleEnv sampleTEnv followGraph = Except.ok followTables ∧
    followGraph.edge? ⟨0, 2⟩ = some (followGraph.edgeAt ⟨0, 2⟩) ∧
    (followGraph.edgeAt ⟨0, 2⟩).Name = "friends" ∧
    (followGraph.edgeAt ⟨0, 2⟩).Rel.Typ = Rel.M2M ∧
    joinEdges followGraph = [⟨0, 0⟩, ⟨0, 2⟩] ∧
    followTables.map (fun t => t.Name) = ["users", "user_following", "user_friends"] ∧
    (followTables.getD 2 default).Columns.map (fun c => c.Name) = ["user_id", "friend_id"] ∧
    (followTables.getD 2 default).ForeignKeys.map (fun fk => fk.OnDelete)
      = ["CASCADE", "CASCADE"] ∧
    ∃ k jt, (joinEdges followGraph)[k]? = some ⟨0, 2⟩ ∧
      followTables[followGraph.Nodes.length + k]? = some jt ∧
      jt.Name = (followGraph.edgeAt ⟨0, 2⟩).Rel.Table := by
  refine ⟨rfl, rfl, rfl, rfl, rfl, rfl, rfl, rfl, ?_⟩
  obtain ⟨k, jt, _, _, _, _, _, _, _, _, _, _, h1, -, h3, h4, -⟩ :=
    join_table_for_m2m sampleEnv sampleTEnv followGraph followTables rfl ⟨0, 2⟩
      (followGraph.edgeAt ⟨0, 2⟩) rfl rfl rfl rfl (fun r hr => by cases hr)
  exact ⟨k, jt, h1, h3, h4⟩

/-- C20: when `Tables` succeeds it returns `len(Nodes) + k` tables, where `k` is the
number of join edges: the M2M edges that are not inverse edges and have no edge
schema, on themselves or on their `Ref`.  The first `len(Nodes)` tables are the
tables of the nodes, in the order of the nodes; the tables after them are the join
tables of the join edges, in the order the loops meet these edges (node by node
and, in a node, edge by edge); an M2M edge with an edge schema is not a join edge
and gets no table. -/
theorem tables_count_order (env : Env) (tenv : TEnv) (g : Graph) (all : List Table)
    (h : Tables env tenv g = Except.ok all) :
    all.length = g.Nodes.length + (joinEdges g).length ∧
    (∀ i, i < g.Nodes.length → ∃ t, all[i]? = some t ∧ t.Name = (g.node i).Table env) ∧
    (all.drop g.Nodes.length).map (fun t => t.Name)
      = (joinEdges g).map (fun p => (g.edgeAt p).Rel.Table) ∧
    (∀ p, p ∈ joinEdges g ↔ ∃ e, g.edge? p = some e ∧ e.IsInverse = false ∧
      e.Rel.Typ = Rel.M2M ∧ e.Through = none ∧
      ∀ r, e.Ref = some r → (g.edgeAt r).Through = none) ∧
    (joinEdges g).Pairwise
      (fun p q => p.node < q.node ∨ (p.node = q.node ∧ p.idx < q.idx)) := by
  have hinv := Tables_inv h
  refine ⟨?_, ?_, ?_, ?_, joinEdges_sorted g⟩
  · have h1 := hinv.join.length_eq
    have h2 := hinv.length
    rw [List.length_drop] at h1
    omega
  · intro i hi
    obtain ⟨t, h1, h2, -⟩ := hinv.node i hi
    exact ⟨t, h1, h2⟩
  · symm
    refine forall₂_map_eq ?_ hinv.join
    intro p t hj
    obtain ⟨e, _, _, _, _, _, _, _, _, _, k1, -, -, -, -, -, -, -, k9⟩ := hj
    rw [k9]
    unfold Graph.edgeAt
    rw [k1]
    rfl
  · intro p
    rw [mem_joinEdges, isJoinEdge_iff]

/-- Witness of C20 on `roleGraph` and `followGraph`.  In `roleGraph` the M2M edge
`roles` of `user` goes through `membership`: there is no join edge, and `Tables`
returns the three tables of the nodes.  In `followGraph` there is one node and two
join edges, and `Tables` returns three tables. -/
theorem tables_count_order_witness :
    Tables sampleEnv sampleTEnv roleGraph = Except.ok roleTables ∧
    (roleGraph.edgeAt ⟨0, 0⟩).Rel.Typ = Rel.M2M ∧
    (roleGraph.edgeAt ⟨0, 0⟩).Through = some 2 ∧
    joinEdges roleGraph = [] ∧
    roleTables.map (fun t => t.Name) = ["users", "roles", "memberships"] ∧
    roleTables.length = roleGraph.Nodes.length + (joinEdges roleGraph).length ∧
    Tables sampleEnv sampleTEnv followGraph = Except.ok followTables ∧
    followTables.length = followGraph.Nodes.length + (joinEdges followGraph).length ∧
    followTables.length = 3 :=
  ⟨rfl, rfl, rfl, rfl, rfl,
    (tables_count_order sampleEnv sampleTEnv roleGraph roleTables rfl).1,
    rfl, (tables_count_order sampleEnv sampleTEnv followGraph followTables rfl).1, rfl⟩

/-- C19, as stated, fails on `clashSchemas`.  The edge `group_friends` of `user` is
an M2M edge, not an inverse edge, without an edge schema and without a `Ref`, and
its relation table is `user_group_friends`; so is the relation table of the edge
`friends` of `user_group`.  `Tables` returns two join tables of that name, at the
positions 2 and 3: the table named `e.Rel.Table` is not unique. -/
theorem join_table_for_m2m_counterexample :
    NewGraph sampleEnv none clashSchemas = Except.ok clashGraph ∧
    Tables sampleEnv sampleTEnv clashGraph = Except.ok clashTables ∧
    clashGraph.edge? ⟨0, 0⟩ = some (clashGraph.edgeAt ⟨0, 0⟩) ∧
    (clashGraph.edgeAt ⟨0, 0⟩).Name = "group_friends" ∧
    (clashGraph.edgeAt ⟨0, 0⟩).IsInverse = false ∧
    (clashGraph.edgeAt ⟨0, 0⟩).Rel.Typ = Rel.M2M ∧
    (clashGraph.edgeAt ⟨0, 0⟩).Through = none ∧
    (clashGraph.edgeAt ⟨0, 0⟩).Ref = none ∧
    (clashGraph.edgeAt ⟨0, 0⟩).Rel.Table = "user_group_friends" ∧
    clashTables.map (fun t => t.Name)
      = ["users", "user_groups", "user_group_friends", "user_group_friends"] ∧
    clashTables.map (fun t => t.Columns.map (fun c => c.Name))
      = [["id"], ["id"], ["user_id", "group_friends_id"], ["user_group_id", "friend_id"]] ∧
    ¬ ∃! k : Nat, ∃ t : Table, clashTables[k]? = some t ∧ t.Name = (clashGraph.edgeAt ⟨0, 0⟩).Rel.Table := by
  refine ⟨rfl, rfl, rfl, rfl, rfl, rfl, rfl, rfl, rfl, rfl, rfl, ?_⟩
  rintro ⟨k, -, hu⟩
  have h2 : 2 = k := hu 2 ⟨clashTables.getD 2 default, rfl, rfl⟩
  have h3 : 3 = k := hu 3 ⟨clashTables.getD 3 default, rfl, rfl⟩
  omega

/-! ## Foreign keys of the node tables -/

/-- A successful loop ran each of its steps: for an element of the list there are
the state before its step and the state after it, related to the first and to the
last state by any preorder that the steps respect. -/
theorem forEach_mem_step {σ α ε : Type} {f : σ → α → Except ε σ} {R : σ → σ → Prop}
    (hrefl : ∀ s, R s s) (htrans : ∀ s t u, R s t → R t u → R s u)
    (hstep : ∀ s a s', f s a = Except.ok s' → R s s') :
    ∀ (l : List α) (s s' : σ), forEach f s l = Except.ok s' →
      R s s' ∧ ∀ a ∈ l, ∃ s1 s2, R s s1 ∧ f s1 a = Except.ok s2 ∧ R s2 s' := by
  intro l
  induction l with
  | nil =>
    intro s s' h
    simp only [forEach, Except.ok.injEq] at h
    subst h
    exact ⟨hrefl s, fun a ha => by cases ha⟩
  | cons b bs ih =>
    intro s s' h
    simp only [forEach] at h
    split at h
    · next s1 h1 =>
      obtain ⟨k1, k2⟩ := ih s1 s' h
      refine ⟨htrans _ _ _ (hstep s b s1 h1) k1, ?_⟩
      intro a ha
      rcases List.mem_cons.mp ha with rfl | ha'
      · exact ⟨s, s1, hrefl s, h1, k1⟩
      · obtain ⟨t1, t2, m1, m2, m3⟩ := k2 a ha'
        exact ⟨t1, t2, htrans _ _ _ (hstep s b s1 h1) m1, m2, m3⟩
    · simp at h

theorem TablesLe.refl (all : List Table) : TablesLe all all :=
  fun _ t h => ⟨t, h, rfl, List.prefix_refl _, List.prefix_refl _⟩

theorem TablesLe.trans {a b c : List Table} (h1 : TablesLe a b) (h2 : TablesLe b c) :
    TablesLe a c := by
  intro o t h
  obtain ⟨t1, k1, k2, k3, k4⟩ := h1 o t h
  obtain ⟨t2, m1, m2, m3, m4⟩ := h2 o t1 k1
  exact ⟨t2, m1, m2.trans k2, k3.trans m3, k4.trans m4⟩

/-- Changing one table keeps the earlier state when the change keeps the name and
only adds columns and foreign keys at the end. -/
theorem TablesLe.modify_le (all : List Table) (o : Nat) (f : Table → Table)
    (hf : ∀ t, (f t).Name = t.Name ∧ t.Columns <+: (f t).Columns ∧
      t.ForeignKeys <+: (f t).ForeignKeys) : TablesLe all (all.modify f o) := by
  intro m t h
  rw [List.getElem?_modify, h]
  refine ⟨if o = m then f t else t, rfl, ?_⟩
  split
  · exact hf t
  · exact ⟨rfl, List.prefix_refl _, List.prefix_refl _⟩

theorem TablesLe.append_le (all l : List Table) : TablesLe all (all ++ l) := by
  intro m t h
  refine ⟨t, ?_, rfl, List.prefix_refl _, List.prefix_refl _⟩
  rw [List.getElem?_append_left (List.getElem?_eq_some_iff.mp h).1]
  exact h

theorem mayAddColumn_le (c : Column) (t : Table) :
    (mayAddColumn t c).Name = t.Name ∧ t.Columns <+: (mayAddColumn t c).Columns ∧
      t.ForeignKeys <+: (mayAddColumn t c).ForeignKeys := by
  unfold mayAddColumn
  split
  · exact ⟨rfl, List.prefix_append _ _, List.prefix_refl _⟩
  · exact ⟨rfl, List.prefix_refl _, List.prefix_refl _⟩

/-- What a successful run of the body shared by the cases `O2O, O2M` and `M2O` does:
it looks up the two tables, takes the first primary-key column of the referenced
table, and gives the owner table the column and the foreign key. -/
theorem addEdgeFK_ok {tenv : TEnv} {p : EdgePtr} {e : Edge} {owner ref : Option Nat}
    {unique required : Bool} {all all' : List Table}
    (hok : addEdgeFK tenv p e owner ref unique required all = Except.ok all') :
    ∃ o r ownerT refT pk rest, owner = some o ∧ ref = some r ∧ all[o]? = some ownerT ∧
      all[r]? = some refT ∧ refT.PrimaryKey = pk :: rest ∧
      all' = (all.modify (fun t => mayAddColumn t
          { Name := e.Rel.Column, Size := pk.Size, Typ := pk.Typ, Unique := unique
            SchemaType := pk.SchemaType, Nullable := !required }) o).modify
        (fun t => t.AddForeignKey
          { RefTable := r
            OnDelete := deleteAction tenv p
              { Name := e.Rel.Column, Size := pk.Size, Typ := pk.Typ, Unique := unique
                SchemaType := pk.SchemaType, Nullable := !required }
            Columns := [{ Name := e.Rel.Column, Size := pk.Size, Typ := pk.Typ, Unique := unique
                          SchemaType := pk.SchemaType, Nullable := !required }]
            RefColumns := [pk], Symbol := fkSymbol tenv p e ownerT refT }) o := by
  unfold addEdgeFK at hok
  split at hok
  · simp at hok
  · next r refT hr =>
    split at hok
    · simp at hok
    · next pk rest hpk =>
      simp only at hok
      split at hok
      · simp at hok
      · next o ownerT ho =>
        simp only [Except.ok.injEq] at hok
        have hr' : ref = some r ∧ all[r]? = some refT := by
          cases ref with
          | none => simp at hr
          | some r' =>
            simp only [Option.some_bind, Option.map_eq_some'] at hr
            obtain ⟨t, h1, h2⟩ := hr
            simp only [Prod.mk.injEq] at h2
            rw [h2.1, ← h2.2]
            exact ⟨rfl, by rw [← h2.1]; exact h1⟩
        have ho' : owner = some o ∧ all[o]? = some ownerT := by
          cases owner with
          | none => simp at ho
          | some o' =>
            simp only [Option.some_bind, Option.map_eq_some'] at ho
            obtain ⟨t, h1, h2⟩ := ho
            simp only [Prod.mk.injEq] at h2
            rw [h2.1, ← h2.2]
            exact ⟨rfl, by rw [← h2.1]; exact h1⟩
        exact ⟨o, r, ownerT, refT, pk, rest, ho'.1, hr'.1, ho'.2, hr'.2, hpk, hok.symm⟩

theorem addEdgeFK_le {tenv : TEnv} {p : EdgePtr} {e : Edge} {owner ref : Option Nat}
    {unique required : Bool} {all all' : List Table}
    (hok : addEdgeFK tenv p e owner ref unique required all = Except.ok all') :
    TablesLe all all' := by
  obtain ⟨o, r, ownerT, refT, pk, rest, -, -, -, -, -, h⟩ := addEdgeFK_ok hok
  rw [h]
  refine (TablesLe.modify_le _ _ _ (mayAddColumn_le _)).trans (TablesLe.modify_le _ _ _ ?_)
  intro t
  exact ⟨rfl, List.prefix_refl _, List.prefix_append _ _⟩

theorem addJoinTable_le {env : Env} {tenv : TEnv} {g : Graph} {p : EdgePtr} {e : Edge}
    {all all' : List Table} (hok : addJoinTable env tenv g p e all = Except.ok all') :
    TablesLe all all' := by
  unfold addJoinTable at hok
  split at hok
  · simp only [Except.ok.injEq] at hok
    rw [← hok]
    exact TablesLe.refl _
  · simp only at hok
    split at hok
    · split at hok
      · split at hok
        · simp only [Except.ok.injEq] at hok
          rw [← hok]
          exact TablesLe.append_le _ _
        · simp at hok
      · simp at hok
    · simp at hok

theorem tableEdge_le {env : Env} {tenv : TEnv} {g : Graph} {i j : Nat} {all all' : List Table}
    (hok : tableEdge env tenv g i all j = Except.ok all') : TablesLe all all' := by
  unfold tableEdge at hok
  split at hok
  · simp only [Except.ok.injEq] at hok
    rw [← hok]
    exact TablesLe.refl _
  · simp only at hok
    split at hok
    · simp only [Except.ok.injEq] at hok
      rw [← hok]
      exact TablesLe.refl _
    · split at hok
      · exact addEdgeFK_le hok
      · exact addEdgeFK_le hok
      · exact addEdgeFK_le hok
      · exact addJoinTable_le hok
      · simp only [Except.ok.injEq] at hok
        rw [← hok]
        exact TablesLe.refl _

theorem tableIndexes_le (env : Env) (g : Graph) (all : List Table) (i : Nat) :
    TablesLe all (tableIndexes env g all i) := by
  unfold tableIndexes
  split
  · exact TablesLe.refl _
  · next r _ =>
    exact foldl_inv
      (fun (s : List Table) (idx : Index) =>
        s.modify (fun t => t.AddIndex idx.Name idx.Unique idx.Columns) r)
      (fun s => TablesLe all s)
      (fun s idx hs => hs.trans (TablesLe.modify_le _ _ _
        (fun _ => ⟨rfl, List.prefix_refl _, List.prefix_refl _⟩)))
      _ all (TablesLe.refl _)

/-- An iteration of the second loop of `Tables` ran the step of each edge of the
node, and the list it leaves is a later state of the list after that step. -/
theorem tablesNode_edge_step {env : Env} {tenv : TEnv} {g : Graph} {all all' : List Table}
    {i : Nat} (hok : tablesNode env tenv g all i = Except.ok all') :
    TablesLe all all' ∧ ∀ j, j < (g.node i).Edges.length →
      ∃ s1 s2, TablesLe all s1 ∧ tableEdge env tenv g i s1 j = Except.ok s2 ∧ TablesLe s2 all' := by
  unfold tablesNode at hok
  split at hok
  · simp at hok
  · next all1 h1 =>
    obtain ⟨k1, k2⟩ := forEach_mem_step TablesLe.refl (fun _ _ _ => TablesLe.trans)
      (fun s a s' hs => tableEdge_le hs) _ all all1 h1
    have hlast : TablesLe all1 all' := by
      split at hok
      · split at hok
        · simp at hok
        · next r t hr =>
          split at hok
          · next t' ht' =>
            simp only [Except.ok.injEq] at hok
            obtain ⟨cols, hcols⟩ := addCompositePK_ok ht'
            have hlook : all1[r]? = some t := by
              cases hto : tableOf env g ((g.node i).Table env) with
              | none => rw [hto] at hr; simp at hr
              | some r' =>
                rw [hto] at hr
                simp only [Option.some_bind, Option.map_eq_some'] at hr
                obtain ⟨t0, m1, m2⟩ := hr
                simp only [Prod.mk.injEq] at m2
                rw [← m2.1, ← m2.2]
                exact m1
            rw [← hok, hcols,
              modify_const_of_getElem? (fun t => { t with PrimaryKey := cols }) all1 hlook]
            exact TablesLe.modify_le _ _ _
              (fun _ => ⟨rfl, List.prefix_refl _, List.prefix_refl _⟩)
          · simp at hok
      · simp only [Except.ok.injEq] at hok
        rw [← hok]
        exact TablesLe.refl _
    refine ⟨k1.trans hlast, ?_⟩
    intro j hj
    obtain ⟨s1, s2, m1, m2, m3⟩ := k2 j (List.mem_range.mpr hj)
    exact ⟨s1, s2, m1, m2, m3.trans hlast⟩

/-- A successful `Tables` ran the step of every edge of the graph, and the list it
returns is a later state of the list after that step. -/
theorem Tables_edge_step {env : Env} {tenv : TEnv} {g : Graph} {all : List Table}
    (h : Tables env tenv g = Except.ok all) {i j : Nat} {e : Edge}
    (he : g.edge? ⟨i, j⟩ = some e) :
    ∃ s1 s2, tableEdge env tenv g i s1 j = Except.ok s2 ∧ TablesLe s2 all := by
  obtain ⟨hi, hj⟩ := Graph.edge?_lt he
  unfold Tables at h
  simp only at h
  split at h
  · simp at h
  · next all1 h1 =>
    simp only [Except.ok.injEq] at h
    obtain ⟨-, k2⟩ := forEach_mem_step TablesLe.refl (fun _ _ _ => TablesLe.trans)
      (fun s a s' hs => (tablesNode_edge_step hs).1) _ _ all1 h1
    obtain ⟨t1, t2, -, m2, m3⟩ := k2 i (List.mem_range.mpr hi)
    obtain ⟨s1, s2, -, n2, n3⟩ := (tablesNode_edge_step m2).2 j hj
    have hlast : TablesLe all1 all := by
      rw [← h]
      exact foldl_inv (tableIndexes env g) (fun s => TablesLe all1 s)
        (fun s a hs => hs.trans (tableIndexes_le env g s a)) _ all1 (TablesLe.refl _)
    exact ⟨s1, s2, n2, (n3.trans m3).trans hlast⟩

theorem find?_of_prefix {α : Type} (p : α → Bool) {l1 l2 : List α} (h : l1 <+: l2) {x : α}
    (hx : l1.find? p = some x) : l2.find? p = some x := by
  obtain ⟨t, rfl⟩ := h
  rw [List.find?_append, hx]
  rfl

theorem fkRequired_m2o {g : Graph} {i : Nat} {e : Edge} (h : e.Rel.Typ = Rel.M2O) :
    fkRequired g i e = (i != e.Typ && !e.Optional) := by
  unfold fkRequired
  rw [h]

theorem fkRequired_other {g : Graph} {i : Nat} {e : Edge} (h : e.Rel.Typ ≠ Rel.M2O) :
    fkRequired g i e = (i != e.Typ && (match e.Ref with
      | some r => !((g.edge? r).getD default).Optional
      | none => false)) := by
  unfold fkRequired
  split
  · next h1 => exact absurd h1 h
  · rfl

/-- The foreign key of an edge in the tables `Tables` returns.  For an edge `e` at
`⟨i, j⟩` that is not an inverse edge and is O2O, O2M or M2O, the table stored under
`e.Rel.Table` has the foreign key built for the edge, on the column `fkColumn`.
The list `s1` is the list when the loop meets the edge and `t1` that table in it:
its columns are the first columns of the final table, and the column named
`e.Rel.Column()` is the one `t1` had if it had one, and the column built for the
edge otherwise. -/
theorem Tables_edge_fk {env : Env} {tenv : TEnv} {g : Graph} {all : List Table}
    (h : Tables env tenv g = Except.ok all) {i j : Nat} {e : Edge}
    (he : g.edge? ⟨i, j⟩ = some e) (hinv : e.IsInverse = false)
    (hty : e.Rel.Typ = Rel.O2O ∨ e.Rel.Typ = Rel.O2M ∨ e.Rel.Typ = Rel.M2O) :
    ∃ (s1 s2 : List Table) (o r : Nat) (t1 : Table) (pk : Column) (t : Table) (sym : String),
      tableEdge env tenv g i s1 j = Except.ok s2 ∧ TablesLe s2 all ∧ s1[o]? = some t1 ∧
      tableOf env g e.Rel.Table = some o ∧ all[o]? = some t ∧
      t.Name = e.Rel.Table ∧
      ({ RefTable := r, OnDelete := deleteAction tenv ⟨i, j⟩ (fkColumn g i e pk)
         Columns := [fkColumn g i e pk], RefColumns := [pk], Symbol := sym } : TableFK)
        ∈ t.ForeignKeys ∧
      t1.Columns <+: t.Columns ∧
      t.Column e.Rel.Column =
        (if t1.HasColumn e.Rel.Column then t1.Column e.Rel.Column
         else some (fkColumn g i e pk)) := by
  obtain ⟨s1, s2, hstep, hle⟩ := Tables_edge_step h he
  have hstep0 := hstep
  have key : ∃ owner ref, addEdgeFK tenv ⟨i, j⟩ e owner ref (e.Rel.Typ == Rel.O2O)
      (fkRequired g i e) s1 = Except.ok s2 ∧ owner = tableOf env g e.Rel.Table := by
    unfold tableEdge at hstep
    rw [he] at hstep
    simp only [hinv, Bool.false_eq_true, if_false] at hstep
    rcases hty with h1 | h1 | h1
    · refine ⟨tableOf env g e.Rel.Table, tableOf env g ((g.node i).Table env), ?_, rfl⟩
      rw [fkRequired_other (by rw [h1]; decide)]
      rw [h1] at hstep ⊢
      exact hstep
    · refine ⟨tableOf env g e.Rel.Table, tableOf env g ((g.node i).Table env), ?_, rfl⟩
      rw [fkRequired_other (by rw [h1]; decide)]
      rw [h1] at hstep ⊢
      exact hstep
    · refine ⟨tableOf env g e.Rel.Table, tableOf env g ((g.node e.Typ).Table env), ?_, rfl⟩
      rw [fkRequired_m2o h1]
      rw [h1] at hstep ⊢
      exact hstep
  obtain ⟨owner, ref, hfk, hown⟩ := key
  obtain ⟨o, r, ownerT, refT, pk, rest, k1, k2, k3, k4, k5, k6⟩ := addEdgeFK_ok hfk
  have hcol : ({ Name := e.Rel.Column, Size := pk.Size, Typ := pk.Typ
                 Unique := e.Rel.Typ == Rel.O2O, SchemaType := pk.SchemaType
                 Nullable := !fkRequired g i e } : Column) = fkColumn g i e pk := rfl
  rw [hcol] at k6
  have hs2 : s2[o]? = some ((mayAddColumn ownerT (fkColumn g i e pk)).AddForeignKey
      { RefTable := r, OnDelete := deleteAction tenv ⟨i, j⟩ (fkColumn g i e pk)
        Columns := [fkColumn g i e pk], RefColumns := [pk]
        Symbol := fkSymbol tenv ⟨i, j⟩ e ownerT refT }) := by
    rw [k6, List.getElem?_modify, List.getElem?_modify, k3]
    simp
  obtain ⟨t, m1, m2, m3, m4⟩ := hle o _ hs2
  have hto : tableOf env g e.Rel.Table = some o := by rw [← hown, k1]
  have hname : t.Name = e.Rel.Table := by
    obtain ⟨t0, n1, n2, -⟩ := (Tables_inv h).node o (tableOf_lt hto).1
    rw [m1] at n1
    cases n1
    rw [n2, (tableOf_lt hto).2]
  refine ⟨s1, s2, o, r, ownerT, pk, t, fkSymbol tenv ⟨i, j⟩ e ownerT refT, hstep0, hle, k3, hto, m1,
    hname, ?_, ?_, ?_⟩
  · exact m4.subset (by simp [Table.AddForeignKey])
  · exact (mayAddColumn_le _ _).2.1.trans m3
  · unfold Table.Column
    split
    · next hhas =>
      have h1 : (mayAddColumn ownerT (fkColumn g i e pk)).Columns = ownerT.Columns := by
        unfold mayAddColumn
        have : ownerT.HasColumn (fkColumn g i e pk).Name = true := hhas
        simp [this]
      have hsome : ∃ c, ownerT.Columns.find? (fun c => c.Name == e.Rel.Column) = some c := by
        unfold Table.HasColumn at hhas
        rw [List.any_eq_true] at hhas
        obtain ⟨c, hc1, hc2⟩ := hhas
        cases hf : ownerT.Columns.find? (fun c => c.Name == e.Rel.Column) with
        | none =>
          rw [List.find?_eq_none] at hf
          exact absurd hc2 (hf c hc1)
        | some c' => exact ⟨c', rfl⟩
      obtain ⟨c, hc⟩ := hsome
      rw [hc]
      refine find?_of_prefix _ m3 ?_
      show (mayAddColumn ownerT (fkColumn g i e pk)).Columns.find? _ = some c
      rw [h1]
      exact hc
    · next hhas =>
      refine find?_of_prefix _ m3 ?_
      show (mayAddColumn ownerT (fkColumn g i e pk)).Columns.find? _ = some _
      have h1 : (mayAddColumn ownerT (fkColumn g i e pk)).Columns
          = ownerT.Columns ++ [fkColumn g i e pk] := by
        unfold mayAddColumn
        have : ownerT.HasColumn (fkColumn g i e pk).Name = false := by
          simpa using hhas
        simp [this, Table.AddColumn]
      rw [h1, List.find?_append]
      have hnone : ownerT.Columns.find? (fun c => c.Name == e.Rel.Column) = none := by
        rw [List.find?_eq_none]
        intro c hc hn
        apply hhas
        unfold Table.HasColumn
        rw [List.any_eq_true]
        exact ⟨c, hc, hn⟩
      rw [hnone]
      simp [fkColumn]

/-- C21, as stated, fails on `cardSchemas`.  The edge `a_b` of `user` is an O2O edge
that is not an inverse edge; its relation is stored in the column `user_a_b` of the
table `cards`.  The edge `b` of `user_a`, an O2M edge met earlier, has the same table
and column, so `mayAddColumn` keeps the column that edge added: the column
`user_a_b` of the table `cards` that `Tables` returns has `Unique = false`. -/
theorem o2o_column_unique_counterexample :
    NewGraph sampleEnv none cardSchemas = Except.ok cardGraph ∧
    Tables sampleEnv sampleTEnv cardGraph = Except.ok cardTables ∧
    cardGraph.edge? ⟨1, 0⟩ = some (cardGraph.edgeAt ⟨1, 0⟩) ∧
    (cardGraph.edgeAt ⟨1, 0⟩).Name = "a_b" ∧
    (cardGraph.edgeAt ⟨1, 0⟩).IsInverse = false ∧
    (cardGraph.edgeAt ⟨1, 0⟩).Rel = ⟨Rel.O2O, "cards", ["user_a_b"]⟩ ∧
    (cardGraph.edgeAt ⟨0, 0⟩).Rel = ⟨Rel.O2M, "cards", ["user_a_b"]⟩ ∧
    cardTables.map (fun t => t.Name) = ["user_as", "users", "cards"] ∧
    ((cardTables.getD 2 default).Column "user_a_b").map (fun c => c.Unique) = some false ∧
    (cardTables.getD 2 default).ForeignKeys.map
        (fun fk => (fk.Symbol, fk.Columns.map (fun c => (c.Name, c.Unique))))
      = [("cards_user_as_b", [("user_a_b", false)]), ("cards_users_a_b", [("user_a_b", true)])] :=
  ⟨rfl, rfl, rfl, rfl, rfl, rfl, rfl, rfl, rfl, rfl⟩

/-- C21, amended: when `Tables` succeeds, for every O2O edge `e` that is not an
inverse edge, the table stored under `e.Rel.Table` has a foreign key whose only
column is named `e.Rel.Column()` and has `Unique = true`.  The table has a column
of that name: it is the column of the foreign key when the table had no column of
that name when the loop met the edge (`s1` is the list at that moment, `t1` the
table in it); otherwise `mayAddColumn` keeps the column the table had, whatever its
`Unique`. -/
theorem o2o_column_unique (env : Env) (tenv : TEnv) (g : Graph) (all : List Table)
    (h : Tables env tenv g = Except.ok all) (i j : Nat) (e : Edge)
    (he : g.edge? ⟨i, j⟩ = some e) (hinv : e.IsInverse = false) (ho : e.Rel.Typ = Rel.O2O) :
    ∃ (s1 s2 : List Table) (o : Nat) (t1 t : Table) (fk : TableFK) (c : Column),
      tableEdge env tenv g i s1 j = Except.ok s2 ∧ TablesLe s2 all ∧ s1[o]? = some t1 ∧
      tableOf env g e.Rel.Table = some o ∧ all[o]? = some t ∧ t.Name = e.Rel.Table ∧
      fk ∈ t.ForeignKeys ∧ fk.Columns = [c] ∧ c.Name = e.Rel.Column ∧ c.Unique = true ∧
      t.HasColumn e.Rel.Column = true ∧
      (t1.HasColumn e.Rel.Column = false → t.Column e.Rel.Column = some c) ∧
      (t1.HasColumn e.Rel.Column = true → t.Column e.Rel.Column = t1.Column e.Rel.Column) := by
  obtain ⟨s1, s2, o, r, t1, pk, t, sym, k1, k2, k3, k4, k5, k6, k7, k8, k9⟩ :=
    Tables_edge_fk h he hinv (Or.inl ho)
  refine ⟨s1, s2, o, t1, t, _, fkColumn g i e pk, k1, k2, k3, k4, k5, k6, k7, rfl, rfl, ?_, ?_,
    ?_, ?_⟩
  · simp [fkColumn, ho]
  · have hsome : (t.Column e.Rel.Column).isSome = true := by
      rw [k9]
      split
      · next hhas =>
        unfold Table.HasColumn at hhas
        rw [List.any_eq_true] at hhas
        obtain ⟨c, hc1, hc2⟩ := hhas
        unfold Table.Column
        cases hf : t1.Columns.find? (fun c => c.Name == e.Rel.Column) with
        | none =>
          rw [List.find?_eq_none] at hf
          exact absurd hc2 (hf c hc1)
        | some c' => rfl
      · rfl
    unfold Table.Column at hsome
    unfold Table.HasColumn
    rw [List.any_eq_true]
    cases hf : t.Columns.find? (fun c => c.Name == e.Rel.Column) with
    | none => rw [hf] at hsome; cases hsome
    | some c' =>
      exact ⟨c', List.mem_of_find?_eq_some hf,
        @List.find?_some _ (fun c => c.Name == e.Rel.Column) c' t.Columns hf⟩
  · intro hno
    rw [k9]
    simp [hno]
  · intro hyes
    rw [k9]
    simp [hyes]

/-- Witness of the amended C21 on `spouseSchemas`: the edge `spouse` of `user` is an
O2O edge, and the column `user_spouse` of the table `users` is unique. -/
theorem o2o_column_unique_witness :
    NewGraph sampleEnv none spouseSchemas = Except.ok spouseGraph ∧
    Tables sampleEnv sampleTEnv spouseGraph = Except.ok spouseTables ∧
    (spouseGraph.edgeAt ⟨0, 0⟩).Rel = ⟨Rel.O2O, "users", ["user_spouse"]⟩ ∧
    spouseTables.map (fun t => (t.Name, t.Columns.map (fun c => (c.Name, c.Unique))))
      = [("users", [("id", false), ("user_spouse", true)])] ∧
    ∃ (o : Nat) (t : Table) (fk : TableFK) (c : Column),
      tableOf sampleEnv spouseGraph "users" = some o ∧ spouseTables[o]? = some t ∧
      fk ∈ t.ForeignKeys ∧ fk.Columns = [c] ∧ c.Name = "user_spouse" ∧ c.Unique = true := by
  refine ⟨rfl, rfl, rfl, rfl, ?_⟩
  obtain ⟨_, _, o, _, t, fk, c, -, -, -, h4, h5, -, h7, h8, h9, h10, -⟩ :=
    o2o_column_unique sampleEnv sampleTEnv spouseGraph spouseTables rfl 0 0
      (spouseGraph.edgeAt ⟨0, 0⟩) rfl rfl rfl
  exact ⟨o, t, fk, c, h4, h5, h7, h8, h9, h10⟩

/-- C22: when `Tables` succeeds, the foreign key it builds for an edge `e` of node
`i` that is not an inverse edge is in the table stored under `e.Rel.Table`, on one
column `c` named `e.Rel.Column()`.  For an O2O or O2M edge, `c` is non-nullable
exactly when the edge is not self-referential (`i ≠ e.Typ`) and `e.Ref` is set and
required; for an M2O edge, exactly when the edge is not self-referential and is
itself required.  In every other case `c` is nullable. -/
theorem fk_column_nullable (env : Env) (tenv : TEnv) (g : Graph) (all : List Table)
    (h : Tables env tenv g = Except.ok all) (i j : Nat) (e : Edge)
    (he : g.edge? ⟨i, j⟩ = some e) (hinv : e.IsInverse = false)
    (hty : e.Rel.Typ = Rel.O2O ∨ e.Rel.Typ = Rel.O2M ∨ e.Rel.Typ = Rel.M2O) :
    ∃ (o : Nat) (t : Table) (fk : TableFK) (c : Column),
      tableOf env g e.Rel.Table = some o ∧ all[o]? = some t ∧ t.Name = e.Rel.Table ∧
      fk ∈ t.ForeignKeys ∧ fk.Columns = [c] ∧ c.Name = e.Rel.Column ∧
      (e.Rel.Typ ≠ Rel.M2O →
        (c.Nullable = false ↔
          (i ≠ e.Typ ∧ ∃ r, e.Ref = some r ∧ (g.edgeAt r).Optional = false))) ∧
      (e.Rel.Typ = Rel.M2O → (c.Nullable = false ↔ (i ≠ e.Typ ∧ e.Optional = false))) ∧
      (c.Nullable = false ∨ c.Nullable = true) := by
  obtain ⟨s1, s2, o, r, t1, pk, t, sym, -, -, -, k4, k5, k6, k7, -, -⟩ :=
    Tables_edge_fk h he hinv hty
  refine ⟨o, t, _, fkColumn g i e pk, k4, k5, k6, k7, rfl, rfl, ?_, ?_, ?_⟩
  · intro hne
    show (!fkRequired g i e) = false ↔ _
    rw [fkRequired_other hne]
    unfold Graph.edgeAt
    cases hr : e.Ref with
    | none => simp
    | some r => simp
  · intro hm
    show (!fkRequired g i e) = false ↔ _
    rw [fkRequired_m2o hm]
    simp
  · cases (fkColumn g i e pk).Nullable
    · exact Or.inl rfl
    · exact Or.inr rfl

/-- Witness of C22.  In `ownedSchemas` the M2O edge `owner` of `pet` is required and
is not self-referential: its column `pet_owner` is non-nullable.  In `keptSchemas`
the O2M edge `pets` of `user` has the required inverse edge `owner`: its column
`user_pets` is non-nullable.  In `spouseSchemas` the O2O edge `spouse` is
self-referential: its column is nullable. -/
theorem fk_column_nullable_witness :
    Tables sampleEnv sampleTEnv ownedGraph = Except.ok ownedTables ∧
    (ownedGraph.edgeAt ⟨0, 0⟩).Rel = ⟨Rel.M2O, "pets", ["pet_owner"]⟩ ∧
    (ownedGraph.edgeAt ⟨0, 0⟩).Optional = false ∧
    ownedTables.map (fun t =>
        (t.Name, t.ForeignKeys.map (fun fk => fk.Columns.map (fun c => (c.Name, c.Nullable)))))
      = [("pets", [[("pet_owner", false)]]), ("users", [])] ∧
    (keptGraph.edgeAt ⟨0, 0⟩).Rel = ⟨Rel.O2M, "pets", ["user_pets"]⟩ ∧
    (keptGraph.edgeAt ⟨0, 0⟩).Ref = some ⟨1, 0⟩ ∧
    (keptGraph.edgeAt ⟨1, 0⟩).Optional = false ∧
    keptTables.map (fun t =>
        (t.Name, t.ForeignKeys.map (fun fk => fk.Columns.map (fun c => (c.Name, c.Nullable)))))
      = [("users", []), ("pets", [[("user_pets", false)]])] ∧
    spouseTables.map (fun t =>
        (t.Name, t.ForeignKeys.map (fun fk => fk.Columns.map (fun c => (c.Name, c.Nullable)))))
      = [("users", [[("user_spouse", true)]])] ∧
    ∃ (o : Nat) (t : Table) (fk : TableFK) (c : Column),
      tableOf sampleEnv ownedGraph "pets" = some o ∧ ownedTables[o]? = some t ∧
      fk ∈ t.ForeignKeys ∧ fk.Columns = [c] ∧ c.Name = "pet_owner" ∧ c.Nullable = false := by
  refine ⟨rfl, rfl, rfl, rfl, rfl, rfl, rfl, rfl, rfl, ?_⟩
  obtain ⟨o, t, fk, c, h1, h2, -, h4, h5, h6, -, h8, -⟩ :=
    fk_column_nullable sampleEnv sampleTEnv ownedGraph ownedTables rfl 0 0
      (ownedGraph.edgeAt ⟨0, 0⟩) rfl rfl (Or.inr (Or.inr rfl))
  exact ⟨o, t, fk, c, h1, h2, h4, h5, h6, (h8 rfl).mpr ⟨by decide, rfl⟩⟩

/-- C23: `deleteAction` returns the `OnDelete` of the annotation of the edge when the
annotation exists and its `OnDelete` is not empty; otherwise it returns `SET NULL`
for a nullable column and `NO ACTION` for a non-nullable one.  When `Tables`
succeeds, the foreign key it builds for an O2O, O2M or M2O edge that is not an
inverse edge has the action `deleteAction` gives for the edge and the column of the
foreign key. -/
theorem delete_action_rule (tenv : TEnv) :
    (∀ (p : EdgePtr) (c : Column),
      (tenv.OnDelete p ≠ "" → deleteAction tenv p c = tenv.OnDelete p) ∧
      (tenv.OnDelete p = "" → c.Nullable = true → deleteAction tenv p c = "SET NULL") ∧
      (tenv.OnDelete p = "" → c.Nullable = false → deleteAction tenv p c = "NO ACTION")) ∧
    (∀ (env : Env) (g : Graph) (all : List Table), Tables env tenv g = Except.ok all →
      ∀ (i j : Nat) (e : Edge), g.edge? ⟨i, j⟩ = some e → e.IsInverse = false →
        (e.Rel.Typ = Rel.O2O ∨ e.Rel.Typ = Rel.O2M ∨ e.Rel.Typ = Rel.M2O) →
        ∃ (o : Nat) (t : Table) (fk : TableFK) (c : Column),
          tableOf env g e.Rel.Table = some o ∧ all[o]? = some t ∧ fk ∈ t.ForeignKeys ∧
          fk.Columns = [c] ∧ c.Name = e.Rel.Column ∧
          fk.OnDelete = deleteAction tenv ⟨i, j⟩ c) := by
  refine ⟨?_, ?_⟩
  · intro p c
    unfold deleteAction SetNull NoAction
    refine ⟨?_, ?_, ?_⟩
    · intro h1
      simp [h1]
    · intro h1 h2
      simp [h1, h2]
    · intro h1 h2
      simp [h1, h2]
  · intro env g all h i j e he hinv hty
    obtain ⟨s1, s2, o, r, t1, pk, t, sym, -, -, -, k4, k5, -, k7, -, -⟩ :=
      Tables_edge_fk h he hinv hty
    exact ⟨o, t, _, fkColumn g i e pk, k4, k5, k7, rfl, rfl, rfl⟩

/-- Witness of C23.  Without an annotation the nullable column of `spouse` gives
`SET NULL` and the non-nullable column of `owner` gives `NO ACTION`; with the
annotation `OnDelete: CASCADE` the foreign key of `pets` has `CASCADE`. -/
theorem delete_action_rule_witness :
    sampleTEnv.OnDelete ⟨0, 0⟩ = "" ∧ cascadeTEnv.OnDelete ⟨0, 0⟩ = "CASCADE" ∧
    deleteAction sampleTEnv ⟨0, 0⟩ { Name := "user_spouse", Nullable := true } = "SET NULL" ∧
    deleteAction sampleTEnv ⟨0, 0⟩ { Name := "pet_owner", Nullable := false } = "NO ACTION" ∧
    deleteAction cascadeTEnv ⟨0, 0⟩ { Name := "user_pets", Nullable := false } = "CASCADE" ∧
    spouseTables.map (fun t => t.ForeignKeys.map (fun fk => fk.OnDelete)) = [["SET NULL"]] ∧
    ownedTables.map (fun t => t.ForeignKeys.map (fun fk => fk.OnDelete)) = [["NO ACTION"], []] ∧
    (okTables (Tables sampleEnv cascadeTEnv keptGraph)).map
      (fun t => t.ForeignKeys.map (fun fk => fk.OnDelete)) = [[], ["CASCADE"]] :=
  ⟨rfl, rfl,
    ((delete_action_rule sampleTEnv).1 ⟨0, 0⟩ { Name := "user_spouse", Nullable := true }).2.1
      rfl rfl,
    ((delete_action_rule sampleTEnv).1 ⟨0, 0⟩ { Name := "pet_owner", Nullable := false }).2.2
      rfl rfl,
    ((delete_action_rule cascadeTEnv).1 ⟨0, 0⟩ { Name := "user_pets", Nullable := false }).1
      (by decide),
    rfl, rfl, rfl⟩

/-! ## The results of `NewGraph`: the graph a failing stage leaves -/

theorem forEach_mapError {σ α ε : Type} {fP : σ → α → Except (ε × σ) σ}
    {f : σ → α → Except ε σ} (h : ∀ s a, (fP s a).mapError Prod.fst = f s a) :
    ∀ (l : List α) (s : σ), (forEach fP s l).mapError Prod.fst = forEach f s l := by
  intro l
  induction l with
  | nil => intro s; rfl
  | cons a as ih =>
    intro s
    have h1 := h s a
    simp only [forEach]
    cases hP : fP s a with
    | ok s' =>
      rw [hP] at h1
      simp only [Except.mapError] at h1
      rw [← h1]
      exact ih s'
    | error fs =>
      rw [hP] at h1
      simp only [Except.mapError] at h1
      rw [← h1]
      rfl

theorem keepState_fst {σ α ε : Type} (f : σ → α → Except ε σ) (s : σ) (a : α) :
    (keepState f s a).mapError Prod.fst = f s a := by
  unfold keepState
  cases f s a <;> rfl

theorem addEdgesP_fst (g : Graph) (s : Schema) :
    (addEdgesP g s).mapError Prod.fst = addEdges g s := by
  unfold addEdgesP addEdges
  split
  · split
    · rfl
    · split <;> rfl
  · next t _ =>
    have h1 := forEach_mapError (keepState_fst (addEdge s.Name t)) s.Edges (g, [])
    cases hP : forEach (keepState (addEdge s.Name t)) (g, []) s.Edges with
    | ok st =>
      rw [hP] at h1
      simp only [Except.mapError] at h1
      rw [← h1]
      rfl
    | error fs =>
      rw [hP] at h1
      simp only [Except.mapError] at h1
      rw [← h1]
      rfl

theorem resolveNodeP_fst (env : Env) (g : Graph) (i : Nat) :
    (resolveNodeP env g i).mapError Prod.fst = resolveNode env g i := by
  unfold resolveNodeP resolveNode resolve
  have h1 := forEach_mapError (keepState_fst (resolveEdge env i))
    (List.range (g.node i).Edges.length) g
  cases hP : forEach (keepState (resolveEdge env i)) g (List.range (g.node i).Edges.length) with
  | ok st =>
    rw [hP] at h1
    simp only [Except.mapError] at h1
    rw [← h1]
    rfl
  | error fs =>
    rw [hP] at h1
    simp only [Except.mapError] at h1
    rw [← h1]
    rfl

theorem bindThroughP_fst (g : Graph) (p : EdgePtr) (e : Edge) (ty : Nat) :
    (bindThroughP g p e ty).mapError Prod.fst = bindThrough g p e ty := by
  unfold bindThroughP bindThrough
  simp only
  split
  · split
    · rfl
    · split
      · split <;> rfl
      · rfl
  · split
    · split <;> rfl
    · split
      · split <;> rfl
      · rfl

theorem edgeSchemaKeyP_fst (g : Graph) (ty : Nat) (cols : List String) :
    (edgeSchemaKeyP g ty cols).mapError Prod.fst = edgeSchemaKey g ty cols := by
  have tail : ∀ g1 : Graph,
      (if (g1.node ty).HasCompositeID then (Except.ok g1 : Except (Failure × Graph) Graph)
        else
          match hasI cols (g1.node ty).Indexes with
          | Except.error f => Except.error (f, g1)
          | Except.ok true => Except.ok g1
          | Except.ok false =>
            match (g1.node ty).AddIndex { Unique := true, Fields := cols } with
            | Except.ok t => Except.ok (g1.modifyNode ty (fun _ => t))
            | Except.error err => Except.error (Failure.error err, g1)).mapError Prod.fst
      = (if (g1.node ty).HasCompositeID then (Except.ok g1 : Except Failure Graph)
        else
          match hasI cols (g1.node ty).Indexes with
          | Except.error f => Except.error f
          | Except.ok true => Except.ok g1
          | Except.ok false =>
            match (g1.node ty).AddIndex { Unique := true, Fields := cols } with
            | Except.ok t => Except.ok (g1.modifyNode ty (fun _ => t))
            | Except.error err => Except.error (Failure.error err)) := by
    intro g1
    split
    · rfl
    · split
      · rfl
      · rfl
      · split <;> rfl
  unfold edgeSchemaKeyP edgeSchemaKey
  simp only
  by_cases hc : (decide ((g.node ty).AnnotationID.length > 0) &&
      (g.node ty).EdgeSchema.ID.length == 0) = true
  · simp only [if_pos hc]
    match cols with
    | [] => rfl
    | [_] => rfl
    | r1 :: r2 :: rest =>
      simp only
      by_cases hne : ((g.node ty).AnnotationID != [r1, r2]) = true
      · simp only [if_pos hne]
        rfl
      · simp only [if_neg hne]
        exact tail _
  · simp only [if_neg hc]
    exact tail _

theorem edgeSchemaP_fst (env : Env) (i : Nat) (g : Graph) (j : Nat) :
    (edgeSchemaP env i g j).mapError Prod.fst = edgeSchema env i g j := by
  have tail : ∀ (x : Except Failure (Option EdgePtr)) (g2 : Graph) (K : EdgePtr → Graph)
      (ty : Nat) (cols : List String),
      (match x with
        | Except.error f => (Except.error (f, g2) : Except (Failure × Graph) Graph)
        | Except.ok none => Except.error (Failure.crash "nil pointer dereference: ref", g2)
        | Except.ok (some r) => edgeSchemaKeyP (K r) ty cols).mapError Prod.fst
      = (match x with
        | Except.error f => (Except.error f : Except Failure Graph)
        | Except.ok none => Except.error (Failure.crash "nil pointer dereference: ref")
        | Except.ok (some r) => edgeSchemaKey (K r) ty cols) := by
    intro x g2 K ty cols
    cases x with
    | error f => rfl
    | ok o =>
      cases o with
      | none => rfl
      | some r => exact edgeSchemaKeyP_fst _ _ _
  unfold edgeSchemaP edgeSchema
  cases g.edge? ⟨i, j⟩ with
  | none => rfl
  | some e =>
    simp only
    cases e.decl.Through with
    | none => rfl
    | some th =>
      simp only
      by_cases h1 : (!e.M2M) = true
      · simp only [if_pos h1]
        rfl
      · simp only [if_neg h1]
        cases g.typ th.T with
        | none => rfl
        | some ty =>
          simp only
          by_cases h2 : (ty == i) = true
          · simp only [if_pos h2]
            rfl
          · simp only [if_neg h2]
            by_cases h3 : (th.N == "" || (g.node i).hasEdge th.N) = true
            · simp only [if_pos h3]
              rfl
            · simp only [if_neg h3]
              rw [← bindThroughP_fst]
              cases bindThroughP g ⟨i, j⟩ e ty with
              | error fs => rfl
              | ok g1 => exact tail _ _ _ _ _

theorem edgeSchemasP_fst (env : Env) (g : Graph) :
    (edgeSchemasP env g).mapError Prod.fst = edgeSchemas env g := by
  unfold edgeSchemasP edgeSchemas
  have h1 := @forEach_mapError Graph Nat Failure
    (fun g i => forEach (edgeSchemaP env i) g (List.range (g.node i).Edges.length))
    (edgeSchemasNode env)
    (fun s a => forEach_mapError (edgeSchemaP_fst env a) _ s) (List.range g.Nodes.length) g
  rw [← h1]
  split
  · next g1 h2 => rw [h2]; rfl
  · next err s h2 => rw [h2]; rfl
  · next fs hne h2 =>
    rw [h2]
    obtain ⟨f, s⟩ := fs
    cases f with
    | error msg => exact absurd rfl (hne msg s)
    | crash msg => rfl

theorem addIndexesP_fst (g : Graph) (s : Schema) :
    (addIndexesP g s).mapError Prod.fst = addIndexes g s := by
  unfold addIndexesP addIndexes
  split
  · split <;> rfl
  · exact forEach_mapError (fun s a => keepState_fst _ s a) _ _

theorem setupFKsNodeP_fst (env : Env) (g : Graph) (i : Nat) :
    (setupFKsNodeP env g i).mapError Prod.fst = setupFKsNode env g i := by
  unfold setupFKsNodeP setupFKsNode
  cases env.fkFailure g i with
  | none => rfl
  | some x => rfl

theorem defaultsP_fst (g : Graph) : (defaultsP g).mapError Prod.fst = defaults g := by
  unfold defaultsP
  cases defaults g <;> rfl

/-- The model of `NewGraph` that keeps the graph of a failing stage and the model
that drops it agree on success and on the failure. -/
theorem NewGraphP_fst (env : Env) (c : Option TypeInfo) (schemas : List Schema) :
    (NewGraphP env c schemas).mapError Prod.fst = NewGraph env c schemas := by
  unfold NewGraphP NewGraph resolveStage edgesStage finishStage
  rw [← forEach_mapError (fun s a => keepState_fst addNode s a)]
  cases forEach (keepState addNode) { IDType := c, Nodes := [] } schemas with
  | error fs => rfl
  | ok g1 =>
    simp only [Except.mapError]
    rw [← forEach_mapError addEdgesP_fst]
    cases forEach addEdgesP g1 schemas with
    | error fs => rfl
    | ok g2 =>
      simp only [Except.mapError]
      rw [← forEach_mapError (resolveNodeP_fst env)]
      cases forEach (resolveNodeP env) g2 (List.range g2.Nodes.length) with
      | error fs => rfl
      | ok g3 =>
        simp only [Except.mapError]
        rw [← forEach_mapError (setupFKsNodeP_fst env)]
        cases forEach (setupFKsNodeP env) g3 (List.range g3.Nodes.length) with
        | error fs => rfl
        | ok g4 =>
          simp only [Except.mapError]
          rw [← edgeSchemasP_fst]
          cases edgeSchemasP env g4 with
          | error fs => rfl
          | ok g5 =>
            simp only [Except.mapError]
            rw [← forEach_mapError addIndexesP_fst]
            cases forEach addIndexesP g5 schemas with
            | error fs => rfl
            | ok g6 => exact defaultsP_fst g6

/-- C24, as stated, fails.  For `requiredSchemas` the loop over `resolve` stops at
the inverse edge of `b`: `NewGraph` returns the error and, in `g`, the graph with
both nodes, in which the edge of `a` is resolved and the edge of `b` is not.  For
`swappedKeySchemas` the stage `edgeSchemas` stops after it bound the edge `roles`
to the edge schema and appended the edge `memberships`: the graph returned with
the error has these writes. -/
theorem newgraph_error_graph_counterexample :
    NewGraphResults sampleEnv none requiredSchemas
      = some { g := some requiredPartial
               err := some ("entc/gen: resolve \"b\" relations: edges cannot be required in "
                 ++ "both directions: b.a <-> a.b") } ∧
    requiredPartial.Nodes.map (fun n => (n.Name, n.Edges.map (fun e => (e.Name, e.Rel.Typ))))
      = [("a", [("b", Rel.M2O)]), ("b", [("a", Rel.Unk)])] ∧
    NewGraphResults sampleEnv none swappedKeySchemas
      = some { g := some swappedKeyPartial
               err := some ("entc/gen: resolving edges: edge schema primary key can only be "
                 ++ "defined on \"id\" or (\"user_id\", \"role_id\") in the same order") } ∧
    swappedKeyPartial.Nodes.map
        (fun n => (n.Name, n.EdgeSchema.To, n.Edges.map (fun e => (e.Name, e.Through))))
      = [("user", none, [("roles", some 2), ("memberships", none)]),
         ("role", none, [("users", none)]),
         ("membership", some ⟨0, 0⟩, [("user", none), ("role", none)])] :=
  ⟨rfl, rfl, rfl, rfl⟩

/-! ## The names of the nodes -/

theorem Graph.names_modifyNode (g : Graph) (i : Nat) (f : Node → Node)
    (hf : ∀ t, (f t).Name = t.Name) :
    (g.modifyNode i f).Nodes.map (fun n => n.Name) = g.Nodes.map (fun n => n.Name) :=
  map_modify_eq _ _ _ _ (fun a _ => hf a)

theorem Graph.names_setEdge (g : Graph) (p : EdgePtr) (e : Edge) :
    (g.setEdge p e).Nodes.map (fun n => n.Name) = g.Nodes.map (fun n => n.Name) :=
  Graph.names_modifyNode g _ _ (fun _ => rfl)

theorem Graph.names_appendEdge (g : Graph) (i : Nat) (e : Edge) :
    (g.appendEdge i e).Nodes.map (fun n => n.Name) = g.Nodes.map (fun n => n.Name) :=
  Graph.names_modifyNode g _ _ (fun _ => rfl)

theorem NewType_name {s : Schema} {t : Node} (h : NewType s = Except.ok t) : t.Name = s.Name := by
  unfold NewType at h
  split at h
  · simp at h
  · simp only [Except.ok.injEq] at h
    rw [← h]

theorem addNode_names {g g' : Graph} {s : Schema} (h : addNode g s = Except.ok g') :
    g'.Nodes.map (fun n => n.Name) = g.Nodes.map (fun n => n.Name) ++ [s.Name] := by
  unfold addNode at h
  split at h
  · next t ht =>
    simp only [Except.ok.injEq] at h
    rw [← h]
    simp [NewType_name ht]
  · simp at h
  · simp at h

theorem addNodes_names : ∀ (schemas : List Schema) (g g' : Graph),
    forEach addNode g schemas = Except.ok g' →
    g'.Nodes.map (fun n => n.Name) = g.Nodes.map (fun n => n.Name) ++ schemas.map (fun s => s.Name) := by
  intro schemas
  induction schemas with
  | nil =>
    intro g g' h
    simp only [forEach, Except.ok.injEq] at h
    simp [h]
  | cons s ss ih =>
    intro g g' h
    simp only [forEach] at h
    split at h
    · next g1 h1 =>
      rw [ih g1 g' h, addNode_names h1]
      simp
    · simp at h

theorem addEdge_names {name : String} {t : Nat} {st st' : Graph × List String} {e : LoadEdge}
    (h : addEdge name t st e = Except.ok st') :
    st'.1.Nodes.map (fun n => n.Name) = st.1.Nodes.map (fun n => n.Name) := by
  unfold addEdge at h
  simp only at h
  split at h
  · simp at h
  · split at h
    · simp at h
    · split at h
      · simp at h
      · split at h
        · simp only [Except.ok.injEq] at h
          rw [← h]
          exact Graph.names_appendEdge _ _ _
        · split at h
          · split at h
            · simp at h
            · simp only [Except.ok.injEq] at h
              rw [← h]
              exact Graph.names_appendEdge _ _ _
          · split at h
            · simp at h
            · split at h
              · simp at h
              · simp only [Except.ok.injEq] at h
                rw [← h]
                simp only
                rw [Graph.names_appendEdge, Graph.names_appendEdge]

theorem addEdges_names {g g' : Graph} {s : Schema} (h : addEdges g s = Except.ok g') :
    g'.Nodes.map (fun n => n.Name) = g.Nodes.map (fun n => n.Name) := by
  unfold addEdges at h
  split at h
  · split at h
    · simp only [Except.ok.injEq] at h
      rw [← h]
    · split at h <;> simp at h
  · next t _ =>
    split at h
    · next st hst =>
      simp only [Except.ok.injEq] at h
      rw [← h]
      exact forEach_inv
        (P := fun (x : Graph × List String) =>
          x.1.Nodes.map (fun n => n.Name) = g.Nodes.map (fun n => n.Name))
        (fun x e x' hx hstep => (addEdge_names hstep).trans hx) _ (g, []) st rfl hst
    · simp at h

theorem resolveNode_names {env : Env} {g g' : Graph} {i : Nat}
    (h : resolveNode env g i = Except.ok g') :
    g'.Nodes.map (fun n => n.Name) = g.Nodes.map (fun n => n.Name) := by
  have hs := resolve_static (resolveNode_ok h)
  have h1 : g'.static.Nodes.map (fun n => n.Name) = g.static.Nodes.map (fun n => n.Name) := by
    rw [hs]
  simpa [Graph.static, Node.static, List.map_map, Function.comp] using h1

theorem setupFKs_names (g : Graph) (i : Nat) :
    (setupFKs g i).Nodes.map (fun n => n.Name) = g.Nodes.map (fun n => n.Name) := by
  unfold setupFKs
  exact foldl_inv (setupFK i)
    (fun x => x.Nodes.map (fun n => n.Name) = g.Nodes.map (fun n => n.Name))
    (fun x j hx => by
      refine Eq.trans ?_ hx
      unfold setupFK
      split
      · rfl
      · split
        · exact Graph.names_modifyNode _ _ _ (fun _ => rfl)
        · rfl) _ g rfl

theorem edgeSchemaKey_names {g g' : Graph} {ty : Nat} {cols : List String}
    (h : edgeSchemaKey g ty cols = Except.ok g') :
    g'.Nodes.map (fun n => n.Name) = g.Nodes.map (fun n => n.Name) := by
  unfold edgeSchemaKey at h
  simp only at h
  split at h
  · simp at h
  · next g1 h1 =>
    have hs1 : g1.Nodes.map (fun n => n.Name) = g.Nodes.map (fun n => n.Name) := by
      split at h1
      · split at h1
        · split at h1
          · simp at h1
          · simp only [Except.ok.injEq] at h1
            rw [← h1]
            exact Graph.names_modifyNode _ _ _ (fun _ => rfl)
        · simp at h1
      · simp only [Except.ok.injEq] at h1
        rw [← h1]
    split at h
    · simp only [Except.ok.injEq] at h
      rw [← h]; exact hs1
    · split at h
      · simp at h
      · simp only [Except.ok.injEq] at h
        rw [← h]; exact hs1
      · split at h
        · next t ht =>
          simp only [Except.ok.injEq] at h
          rw [← h, ← hs1, AddIndex_ok ht]
          rw [Graph.modifyNode_const g1 ty (fun t => { t with Indexes := t.Indexes ++
            [{ Unique := true, Columns := cols }] })]
          exact Graph.names_modifyNode _ _ _ (fun _ => rfl)
        · simp at h

theorem edgeSchema_names {env : Env} {i j : Nat} {g g' : Graph}
    (h : edgeSchema env i g j = Except.ok g') :
    g'.Nodes.map (fun n => n.Name) = g.Nodes.map (fun n => n.Name) := by
  rcases edgeSchema_ok_cases h with ⟨h1, -⟩ | ⟨e, th, ty, g1, r, -, -, -, -, -, -, -, hb, -, hk⟩
  · rw [h1]
  · rw [edgeSchemaKey_names hk, Graph.names_appendEdge, Graph.names_setEdge]
    rcases bindThrough_cases hb with ⟨-, -, -, k⟩ | ⟨-, -, -, k⟩
    · rw [k]
      refine Eq.trans (Graph.names_modifyNode _ _ _ ?_) (Graph.names_setEdge _ _ _)
      intro t
      rfl
    · rw [k]
      refine Eq.trans (Graph.names_modifyNode _ _ _ ?_) (Graph.names_setEdge _ _ _)
      intro t
      rfl

theorem edgeSchemas_names {env : Env} {g g' : Graph} (h : edgeSchemas env g = Except.ok g') :
    g'.Nodes.map (fun n => n.Name) = g.Nodes.map (fun n => n.Name) := by
  unfold edgeSchemas at h
  split at h
  · next g1 h1 =>
    simp only [Except.ok.injEq] at h
    rw [← h]
    exact forEach_inv
      (P := fun s => s.Nodes.map (fun n => n.Name) = g.Nodes.map (fun n => n.Name))
      (fun s i s' hs hstep =>
        forEach_inv
          (P := fun s => s.Nodes.map (fun n => n.Name) = g.Nodes.map (fun n => n.Name))
          (fun _ _ _ hs' hstep' => (edgeSchema_names hstep').trans hs') _ s s' hs hstep)
      _ g g1 rfl h1
  · simp at h
  · simp at h

theorem addIndexes_names {g g' : Graph} {s : Schema} (h : addIndexes g s = Except.ok g') :
    g'.Nodes.map (fun n => n.Name) = g.Nodes.map (fun n => n.Name) := by
  unfold addIndexes at h
  split at h
  · split at h
    · simp only [Except.ok.injEq] at h
      rw [← h]
    · simp at h
  · next t _ =>
    exact forEach_inv
      (P := fun x => x.Nodes.map (fun n => n.Name) = g.Nodes.map (fun n => n.Name))
      (fun x idx x' hs hstep => by
        split at hstep
        · next n hn =>
          simp only [Except.ok.injEq] at hstep
          rw [← hstep, ← hs, AddIndex_ok hn]
          rw [Graph.modifyNode_const x t (fun t => { t with Indexes := t.Indexes ++
            [{ Unique := idx.Unique, Columns := idx.Fields }] })]
          exact Graph.names_modifyNode _ _ _ (fun _ => rfl)
        · simp at hstep) _ g g' rfl h

/-- The nodes of a successful `NewGraph` have the names of the schemas, in the
order of the schemas. -/
theorem NewGraph_names {env : Env} {c : Option TypeInfo} {schemas : List Schema} {g : Graph}
    (h : NewGraph env c schemas = Except.ok g) :
    g.Nodes.map (fun n => n.Name) = schemas.map (fun s => s.Name) := by
  unfold NewGraph resolveStage edgesStage at h
  split at h
  · simp at h
  · next g3 h3 =>
    split at h3
    · simp at h3
    · next g2 h2 =>
      split at h2
      · simp at h2
      · next g1 h1 =>
        have n1 : g1.Nodes.map (fun n => n.Name) = schemas.map (fun s => s.Name) := by
          rw [addNodes_names schemas _ g1 h1]
          rfl
        have n2 : g2.Nodes.map (fun n => n.Name) = schemas.map (fun s => s.Name) :=
          forEach_inv (P := fun x => x.Nodes.map (fun n => n.Name) = schemas.map (fun s => s.Name))
            (fun x s x' hx hstep => (addEdges_names hstep).trans hx) _ g1 g2 n1 h2
        have n3 : g3.Nodes.map (fun n => n.Name) = schemas.map (fun s => s.Name) :=
          forEach_inv (P := fun x => x.Nodes.map (fun n => n.Name) = schemas.map (fun s => s.Name))
            (fun x s x' hx hstep => (resolveNode_names hstep).trans hx) _ g2 g3 n2 h3
        replace h := finishStage_ok h
        have n4 : ((List.range g3.Nodes.length).foldl setupFKs g3).Nodes.map (fun n => n.Name)
            = schemas.map (fun s => s.Name) :=
          foldl_inv setupFKs
            (fun x => x.Nodes.map (fun n => n.Name) = schemas.map (fun s => s.Name))
            (fun x i hx => (setupFKs_names x i).trans hx) _ g3 n3
        split at h
        · simp at h
        · next g5 h5 =>
          have n5 := (edgeSchemas_names h5).trans n4
          split at h
          · simp at h
          · next g6 h6 =>
            have n6 : g6.Nodes.map (fun n => n.Name) = schemas.map (fun s => s.Name) :=
              forEach_inv
                (P := fun x => x.Nodes.map (fun n => n.Name) = schemas.map (fun s => s.Name))
                (fun x s x' hx hstep => (addIndexes_names hstep).trans hx) _ g5 g6 n5 h6
            rw [defaults_nodes h]
            exact n6

/-- The lookup `typ` finds the last node with the name. -/
theorem typ_fold (name : String) :
    ∀ (l : List Node) (k : Nat) (acc : Option Nat) (r : Nat),
      (l.enumFrom k).foldl (fun acc p => if p.2.Name == name then some p.1 else acc) acc
        = some r →
      (acc = some r ∧ ∀ n ∈ l, n.Name ≠ name) ∨
      (k ≤ r ∧ r < k + l.length ∧ (∃ n, l[r - k]? = some n ∧ n.Name = name) ∧
        ∀ m n, r - k < m → l[m]? = some n → n.Name ≠ name) := by
  intro l
  induction l with
  | nil =>
    intro k acc r h
    exact Or.inl ⟨h, fun n hn => by cases hn⟩
  | cons a as ih =>
    intro k acc r h
    simp only [List.enumFrom_cons, List.foldl_cons] at h
    rcases ih (k + 1) _ r h with ⟨h1, h2⟩ | ⟨h1, h2, ⟨n, h3, h4⟩, h5⟩
    · split at h1
      · next hname =>
        simp only [Option.some.injEq] at h1
        right
        refine ⟨by omega, by simp; omega, ⟨a, ?_, by simpa using hname⟩, ?_⟩
        · rw [← h1]; simp
        · intro m n hm hn
          rw [← h1] at hm
          cases m with
          | zero => omega
          | succ m' =>
            rw [List.getElem?_cons_succ] at hn
            exact h2 n (List.mem_iff_getElem?.mpr ⟨_, hn⟩)
      · next hname =>
        left
        refine ⟨h1, ?_⟩
        intro n hn
        rcases List.mem_cons.mp hn with rfl | hn'
        · simpa using hname
        · exact h2 n hn'
    · right
      have e1 : r - k = (r - (k + 1)) + 1 := by omega
      refine ⟨by omega, by simp; omega, ⟨n, ?_, h4⟩, ?_⟩
      · rw [e1, List.getElem?_cons_succ]
        exact h3
      · intro m n' hm hn
        cases m with
        | zero => omega
        | succ m' =>
          rw [List.getElem?_cons_succ] at hn
          exact h5 m' n' (by omega) hn

theorem Graph.typ_last {g : Graph} {name : String} {i : Nat} (h : g.typ name = some i) :
    i < g.Nodes.length ∧ (g.node i).Name = name ∧
      ∀ k, i < k → k < g.Nodes.length → (g.node k).Name ≠ name := by
  unfold Graph.typ at h
  rcases typ_fold name g.Nodes 0 none i h with ⟨h1, -⟩ | ⟨-, h2, ⟨n, h3, h4⟩, h5⟩
  · cases h1
  · simp only [Nat.sub_zero] at h3 h5
    refine ⟨by omega, ?_, ?_⟩
    · rw [Graph.node_eq, h3]
      exact h4
    · intro k hk hlen
      have hk' : g.Nodes[k]? = some (g.Nodes[k]) := List.getElem?_eq_getElem hlen
      rw [Graph.node_eq, hk']
      exact h5 k _ hk hk'

/-- C25, as stated, fails on `twinSchemas`: both schemas are named `user`, and
`NewGraph` succeeds with two nodes named `user`.  The lookup by name gives the
second node, so the edge `friends` that the first schema declares is an edge of the
second node, to the second node. -/
theorem node_names_from_schemas_counterexample :
    twinSchemas.map (fun s => s.Name) = ["user", "user"] ∧
    NewGraph sampleEnv none twinSchemas = Except.ok twinGraph ∧
    twinGraph.Nodes.map (fun n => n.Name) = ["user", "user"] ∧
    twinGraph.typ "user" = some 1 ∧
    twinGraph.Nodes.map (fun n => n.Edges.map (fun e => (e.Name, e.Typ, e.Owner)))
      = [[], [("friends", 1, 1)]] :=
  ⟨rfl, rfl, rfl, rfl, rfl⟩

/-- C25, amended: `NewGraph` does not compare the names of the schemas.  When it
succeeds, the graph has one node for each schema, in the order of the schemas and
with the name of the schema: the node names are pairwise distinct exactly when the
schema names are.  A lookup by name gives the last node with that name. -/
theorem node_names_from_schemas (env : Env) (c : Option TypeInfo) (schemas : List Schema)
    (g : Graph) (h : NewGraph env c schemas = Except.ok g) :
    g.Nodes.map (fun n => n.Name) = schemas.map (fun s => s.Name) ∧
    ((g.Nodes.map (fun n => n.Name)).Nodup ↔ (schemas.map (fun s => s.Name)).Nodup) ∧
    ∀ name i, g.typ name = some i →
      i < g.Nodes.length ∧ (g.node i).Name = name ∧
        ∀ k, i < k → k < g.Nodes.length → (g.node k).Name ≠ name := by
  have hn := NewGraph_names h
  refine ⟨hn, by rw [hn], ?_⟩
  intro name i hi
  exact Graph.typ_last hi

/-- Witness of the amended C25 on `petsSchemas`: the schemas `pet` and `user` give
the nodes `pet` and `user`. -/
theorem node_names_from_schemas_witness :
    NewGraph sampleEnv none petsSchemas = Except.ok petsGraph ∧
    petsSchemas.map (fun s => s.Name) = ["pet", "user"] ∧
    petsGraph.Nodes.map (fun n => n.Name) = petsSchemas.map (fun s => s.Name) ∧
    (petsGraph.Nodes.map (fun n => n.Name)).Nodup :=
  ⟨rfl, rfl, (node_names_from_schemas sampleEnv none petsSchemas petsGraph rfl).1,
    (node_names_from_schemas sampleEnv none petsSchemas petsGraph rfl).2.1.mpr (by decide)⟩

/-! ## The checks of `addEdges` -/

/-- A successful iteration of `addEdges` met a name that was not in `seen`, and
put it there. -/
theorem addEdge_seen {name : String} {t : Nat} {st st' : Graph × List String} {e : LoadEdge}
    (h : addEdge name t st e = Except.ok st') : st'.2 = e.Name :: st.2 ∧ e.Name ∉ st.2 := by
  unfold addEdge at h
  simp only at h
  split at h
  · simp at h
  · split at h
    · simp at h
    · split at h
      · simp at h
      · next hseen =>
        have hnot : e.Name ∉ st.2 := by simpa using hseen
        split at h
        · simp only [Except.ok.injEq] at h
          rw [← h]
          exact ⟨rfl, hnot⟩
        · split at h
          · split at h
            · simp at h
            · simp only [Except.ok.injEq] at h
              rw [← h]
              exact ⟨rfl, hnot⟩
          · split at h
            · simp at h
            · split at h
              · simp at h
              · simp only [Except.ok.injEq] at h
                rw [← h]
                exact ⟨rfl, hnot⟩

theorem addEdge_loop_seen {name : String} {t : Nat} :
    ∀ (l : List LoadEdge) (st st' : Graph × List String),
      forEach (addEdge name t) st l = Except.ok st' → st.2.Nodup →
      st'.2 = (l.map (fun e => e.Name)).reverse ++ st.2 ∧ st'.2.Nodup := by
  intro l
  induction l with
  | nil =>
    intro st st' h hn
    simp only [forEach, Except.ok.injEq] at h
    rw [← h]
    exact ⟨by simp, hn⟩
  | cons e es ih =>
    intro st st' h hn
    simp only [forEach] at h
    split at h
    · next st1 h1 =>
      obtain ⟨k1, k2⟩ := addEdge_seen h1
      obtain ⟨m1, m2⟩ := ih st1 st' h (by rw [k1]; exact List.nodup_cons.mpr ⟨k2, hn⟩)
      refine ⟨?_, m2⟩
      rw [m1, k1]
      simp
    · simp at h

/-- A successful `addEdges` was given descriptors with pairwise distinct names. -/
theorem addEdges_distinct {g g' : Graph} {s : Schema} (h : addEdges g s = Except.ok g') :
    (s.Edges.map (fun e => e.Name)).Nodup := by
  unfold addEdges at h
  split at h
  · split at h
    · next he => rw [he]; exact List.nodup_nil
    · split at h <;> simp at h
  · next t _ =>
    split at h
    · next st hst =>
      obtain ⟨m1, m2⟩ := addEdge_loop_seen s.Edges (g, []) st hst List.nodup_nil
      rw [m1, List.append_nil] at m2
      exact List.nodup_reverse.mp m2
    · simp at h

/-- C26: the check of `addEdges` on `seen` covers the names of the descriptors of a
schema, so after a successful `NewGraph` these are pairwise distinct in every
schema.  It does not cover the assoc edge made from the `Ref` of a self-paired
inverse descriptor: for `ringSchemas`, where `next` is declared and is also the
`Ref` of `prev`, `NewGraph` succeeds and the node has two edges named `next`. -/
theorem edge_names_checked :
    (∀ (env : Env) (c : Option TypeInfo) (schemas : List Schema) (g : Graph),
      NewGraph env c schemas = Except.ok g →
      ∀ s ∈ schemas, (s.Edges.map (fun e => e.Name)).Nodup) ∧
    NewGraph sampleEnv none ringSchemas = Except.ok ringGraph ∧
    ringGraph.Nodes.map
        (fun n => n.Edges.map (fun e => (e.Name, e.Inverse, e.Ref, e.Rel.Typ)))
      = [[("next", "", some ⟨0, 1⟩, Rel.O2O), ("prev", "next", some ⟨0, 0⟩, Rel.O2O),
          ("next", "", some ⟨0, 1⟩, Rel.O2O)]] ∧
    ¬ ((ringGraph.node 0).Edges.map (fun e => e.Name)).Nodup := by
  refine ⟨?_, rfl, rfl, ?_⟩
  · intro env c schemas g h s hs
    unfold NewGraph resolveStage edgesStage at h
    split at h
    · simp at h
    · next g3 h3 =>
      split at h3
      · simp at h3
      · next g2 h2 =>
        split at h2
        · simp at h2
        · next g1 h1 =>
          obtain ⟨s1, s2, -, hstep⟩ :=
            forEach_ok_step (P := fun _ => True) (fun _ _ _ _ _ => trivial) _ g1 g2 trivial h2 s hs
          exact addEdges_distinct hstep
  · have : (ringGraph.node 0).Edges.map (fun e => e.Name) = ["next", "prev", "next"] := rfl
    rw [this]
    simp

/-- Witness of C26 on `petsSchemas`: the descriptors of each schema have distinct
names. -/
theorem edge_names_checked_witness :
    NewGraph sampleEnv none petsSchemas = Except.ok petsGraph ∧
    petsSchemas.map (fun s => s.Edges.map (fun e => e.Name)) = [["owner"], ["pets"]] ∧
    ∀ s ∈ petsSchemas, (s.Edges.map (fun e => e.Name)).Nodup :=
  ⟨rfl, rfl, edge_names_checked.1 sampleEnv none petsSchemas petsGraph rfl⟩

/-- C27, as stated, fails on `treeSchemas`: the self-paired definition has the
unique inverse edge `parent` and the assoc edge `children`, which is not unique.
`addEdges` accepts it and `NewGraph` succeeds: `parent` is M2O and `children` is
O2M. -/
theorem self_paired_accepted_counterexample :
    (treeSchemas.map (fun s => s.Edges.map
        (fun e => (e.Name, e.Inverse, e.Unique, e.Ref.map (fun r => (r.Name, r.Unique))))))
      = [[("parent", true, true, some ("children", false))]] ∧
    NewGraph sampleEnv none treeSchemas = Except.ok treeGraph ∧
    treeGraph.Nodes.map
        (fun n => n.Edges.map (fun e => (e.Name, e.Inverse, e.Unique, e.Ref, e.Rel.Typ)))
      = [[("parent", "children", true, some ⟨0, 1⟩, Rel.M2O),
          ("children", "", false, some ⟨0, 0⟩, Rel.O2M)]] :=
  ⟨rfl, rfl, rfl⟩

/-- C27, amended: an iteration of `addEdges` on a self-paired descriptor (an inverse
descriptor `e` with the embedded assoc descriptor `ref`) of the node `t` succeeds
exactly when the target type of `e` exists, the node has no field named `e.Name`,
the name was not seen, `e.RefName` is empty and `ref.Type` is the name of the
declaring type.  `Unique` is not checked, on either side, and neither is the
target type of `e`: the two edges are appended with the `Unique` of their
descriptors and with the type `e.Type` names. -/
theorem self_paired_accepted (name : String) (t : Nat) (st : Graph × List String)
    (e : LoadEdge) (ref : LoadRef) (hinv : e.Inverse = true) (href : e.Ref = some ref) :
    ((∃ st', addEdge name t st e = Except.ok st') ↔
      ((st.1.typ e.Typ).isSome = true ∧
        (st.1.node t).Fields.any (fun f => f.Name == e.Name) = false ∧
        st.2.contains e.Name = false ∧ e.RefName = "" ∧ ref.Typ = (st.1.node t).Name)) ∧
    (∀ st', addEdge name t st e = Except.ok st' →
      ∃ typ, st.1.typ e.Typ = some typ ∧
        st' = ((st.1.appendEdge t
            { decl := e, Typ := typ, Name := e.Name, Owner := t, Inverse := ref.Name
              Unique := e.Unique, Optional := !e.Required
              Ref := some ⟨t, (st.1.node t).Edges.length + 1⟩ }).appendEdge t
            { decl := ref.toEdge, Ref := some ⟨t, (st.1.node t).Edges.length⟩, Typ := typ
              Owner := t, Name := ref.Name, Unique := ref.Unique, Optional := !ref.Required },
          e.Name :: st.2)) := by
  unfold addEdge
  simp only [hinv, href]
  cases htyp : st.1.typ e.Typ with
  | none => simp
  | some typ =>
    simp only [Option.isSome_some, true_and]
    cases hf : (st.1.node t).Fields.any (fun f => f.Name == e.Name) with
    | true => simp
    | false =>
      cases hs : st.2.contains e.Name with
      | true => simp
      | false =>
        by_cases hr : e.RefName = ""
        · by_cases hty : ref.Typ = (st.1.node t).Name
          · simp [hr, hty]
          · simp [hr, hty]
        · simp [hr]

/-- Witness of the amended C27 on the descriptor of `treeSchemas`: the iteration on
the self-paired descriptor `parent`, whose embedded assoc `children` is not unique,
succeeds on the graph with the node `node` and no edges. -/
theorem self_paired_accepted_witness :
    ∃ st', addEdge "node" 0 ({ Nodes := [{ Name := "node" }] }, [])
      { Name := "parent", Typ := "node", Unique := true, Inverse := true
        Ref := some { Name := "children", Typ := "node" } } = Except.ok st' :=
  (self_paired_accepted "node" 0 ({ Nodes := [{ Name := "node" }] }, [])
    { Name := "parent", Typ := "node", Unique := true, Inverse := true
      Ref := some { Name := "children", Typ := "node" } }
    { Name := "children", Typ := "node" } rfl rfl).1.mpr ⟨rfl, rfl, rfl, rfl, rfl⟩

/-! ## The default `IDType` -/

/-- The check of `defaults` on neighbours succeeds exactly when every id type of
the list has the `Type` of the first. -/
theorem sameIDTypes_iff : ∀ (l : List TypeInfo) (a : TypeInfo),
    sameIDTypes (a :: l) = true ↔ ∀ b ∈ l, b.Typ = a.Typ := by
  intro l
  induction l with
  | nil => intro a; simp [sameIDTypes]
  | cons b rest ih =>
    intro a
    simp only [sameIDTypes, Bool.and_eq_true, beq_iff_eq, ih b, List.mem_cons, forall_eq_or_imp]
    constructor
    · rintro ⟨h1, h2⟩
      exact ⟨h1.symm, fun c hc => (h2 c hc).trans h1.symm⟩
    · rintro ⟨h1, h2⟩
      exact ⟨h1.symm, fun c hc => (h2 c hc).trans h1.symm⟩

/-- C28: `defaults` leaves a provided `IDType` as it is.  When `IDType` is nil and
the graph has no nodes, it sets it to int.  When `IDType` is nil and some node has a
single-field id, it sets it to the id type of the first such node if all of them
have the same `Type`, and to int otherwise.  When `IDType` is nil and the graph has
nodes but none with a single-field id, `defaults` does not return: it reads the
first entry of the empty list of id types and panics. -/
theorem defaults_idtype (g : Graph) :
    (∀ t, g.IDType = some t → defaults g = Except.ok g) ∧
    (g.IDType = none → g.Nodes = [] →
      defaults g = Except.ok { g with IDType := some defaultIDType }) ∧
    (∀ t ts, g.IDType = none → g.Nodes ≠ [] →
      g.Nodes.filterMap (fun n => if n.HasOneFieldID then n.ID.map (fun f => f.Info) else none)
        = t :: ts →
      ((∀ b ∈ ts, b.Typ = t.Typ) → defaults g = Except.ok { g with IDType := some t }) ∧
      ((∃ b ∈ ts, b.Typ ≠ t.Typ) →
        defaults g = Except.ok { g with IDType := some defaultIDType })) ∧
    (g.IDType = none → g.Nodes ≠ [] →
      g.Nodes.filterMap (fun n => if n.HasOneFieldID then n.ID.map (fun f => f.Info) else none)
        = [] →
      defaults g = Except.error (Failure.crash "index out of range: idTypes")) := by
  refine ⟨?_, ?_, ?_, ?_⟩
  · intro t ht
    unfold defaults
    simp [ht]
  · intro h1 h2
    unfold defaults
    simp [h1, h2]
  · intro t ts h1 h2 h3
    have hlen : (g.Nodes.length == 0) = false := by
      cases hn : g.Nodes with
      | nil => exact absurd hn h2
      | cons a as => rfl
    refine ⟨?_, ?_⟩
    · intro hall
      have hs : sameIDTypes (t :: ts) = true := (sameIDTypes_iff ts t).mpr hall
      unfold defaults
      simp only [h1, Option.isSome_none, Bool.false_eq_true, if_false, hlen, h3, hs,
        Bool.not_true]
    · intro hex
      have hs : sameIDTypes (t :: ts) = false := by
        cases hc : sameIDTypes (t :: ts) with
        | false => rfl
        | true =>
          obtain ⟨b, hb1, hb2⟩ := hex
          exact absurd ((sameIDTypes_iff ts t).mp hc b hb1) hb2
      unfold defaults
      simp only [h1, Option.isSome_none, Bool.false_eq_true, if_false, hlen, h3, hs,
        Bool.not_false, if_true]
  · intro h1 h2 h3
    have hlen : (g.Nodes.length == 0) = false := by
      cases hn : g.Nodes with
      | nil => exact absurd hn h2
      | cons a as => rfl
    unfold defaults
    simp only [h1, Option.isSome_none, Bool.false_eq_true, if_false, hlen, h3, sameIDTypes,
      Bool.not_true]

/-- Witness of C28.  The node of `noIDGraph` has no id: `defaults` panics.  The ids
of `stringIDGraph` are strings: the `IDType` becomes the string type.  The ids of
`mixedIDGraph` differ: the `IDType` becomes int. -/
theorem defaults_idtype_witness :
    noIDGraph.IDType = none ∧ noIDGraph.Nodes.length = 1 ∧
    (noIDGraph.Nodes.map (fun n => n.HasOneFieldID)) = [false] ∧
    defaults noIDGraph = Except.error (Failure.crash "index out of range: idTypes") ∧
    (okGraph (defaults stringIDGraph)).IDType = some { Typ := FieldType.TypeString } ∧
    (okGraph (defaults mixedIDGraph)).IDType = some { Typ := FieldType.TypeInt } ∧
    (okGraph (defaults {})).IDType = some { Typ := FieldType.TypeInt } ∧
    defaults { IDType := some { Typ := FieldType.TypeUUID }, Nodes := mixedIDGraph.Nodes }
      = Except.ok { IDType := some { Typ := FieldType.TypeUUID }, Nodes := mixedIDGraph.Nodes } :=
  ⟨rfl, rfl, rfl, (defaults_idtype noIDGraph).2.2.2 rfl (by decide) rfl, rfl, rfl, rfl,
    (defaults_idtype { IDType := some { Typ := FieldType.TypeUUID }, Nodes := mixedIDGraph.Nodes }).1
      _ rfl⟩

/-! ## The errors of `resolve` -/

/-- A loop whose steps fail exactly on the bad elements fails exactly when the list
has a bad element. -/
theorem forEach_error_iff {σ α ε : Type} {f : σ → α → Except ε σ} {P : σ → Prop}
    {bad : α → Prop} (hP : ∀ s a s', P s → f s a = Except.ok s' → P s')
    (hbad : ∀ s a, P s → ((∃ err, f s a = Except.error err) ↔ bad a)) :
    ∀ (l : List α) (s : σ), P s →
      ((∃ err, forEach f s l = Except.error err) ↔ ∃ a ∈ l, bad a) := by
  intro l
  induction l with
  | nil =>
    intro s _
    simp [forEach]
  | cons a as ih =>
    intro s hs
    simp only [forEach]
    cases hf : f s a with
    | ok s' =>
      simp only
      rw [ih s' (hP s a s' hs hf)]
      have hna : ¬ bad a := by
        intro hb
        obtain ⟨err, he⟩ := (hbad s a hs).mpr hb
        rw [hf] at he
        cases he
      constructor
      · rintro ⟨b, hb1, hb2⟩
        exact ⟨b, List.mem_cons_of_mem _ hb1, hb2⟩
      · rintro ⟨b, hb1, hb2⟩
        rcases List.mem_cons.mp hb1 with rfl | hb1'
        · exact absurd hb2 hna
        · exact ⟨b, hb1', hb2⟩
    | error err =>
      simp only
      constructor
      · intro _
        exact ⟨a, List.mem_cons_self _ _, (hbad s a hs).mp ⟨err, hf⟩⟩
      · intro _
        exact ⟨err, rfl⟩

/-- An iteration of `resolve` fails exactly on an inverse edge that does not pass
the three checks. -/
theorem resolveEdge_error_iff (env : Env) (i : Nat) (g : Graph) (j : Nat) :
    (∃ err, resolveEdge env i g j = Except.error err) ↔ InverseFails g i j := by
  unfold resolveEdge InverseFails
  cases he : g.edge? ⟨i, j⟩ with
  | none => simp
  | some e =>
    simp only [Option.some.injEq, exists_eq_left']
    cases hinv : e.IsInverse with
    | false =>
      simp only [Bool.false_eq_true, if_false, false_and, iff_false, not_exists]
      intro err
      split <;> simp
    | true =>
      simp only [if_true, true_and]
      cases hh : (g.node e.Typ).HasAssoc e.Inverse with
      | none => simp
      | some kr =>
        obtain ⟨k, ref⟩ := kr
        simp only [Option.some.injEq, Prod.mk.injEq, false_or, reduceCtorEq]
        by_cases h1 : (!e.Optional && !ref.Optional) = true
        · simp only [if_pos h1]
          simp only [Bool.and_eq_true, Bool.not_eq_true'] at h1
          constructor
          · intro _
            exact ⟨k, ref, ⟨rfl, rfl⟩, Or.inl h1⟩
          · intro _
            exact ⟨_, rfl⟩
        · simp only [if_neg h1]
          simp only [Bool.and_eq_true, Bool.not_eq_true'] at h1
          by_cases h2 : (ref.Typ != i) = true
          · simp only [if_pos h2]
            constructor
            · intro _
              exact ⟨k, ref, ⟨rfl, rfl⟩, Or.inr (by simpa using h2)⟩
            · intro _
              exact ⟨_, rfl⟩
          · simp only [if_neg h2]
            constructor
            · rintro ⟨err, herr⟩
              cases herr
            · rintro ⟨k', ref', ⟨rfl, rfl⟩, h3 | h3⟩
              · exact absurd h3 h1
              · exact absurd (by simpa using h3) h2

/-- The three checks read members of the edges that `resolve` does not write. -/
theorem InverseFails.of_same_static {g' g : Graph} (hs : g'.static = g.static) {i j : Nat}
    (h : InverseFails g i j) : InverseFails g' i j := by
  obtain ⟨e, he, hinv, hc⟩ := h
  obtain ⟨e', he', hst⟩ := Graph.static_edge hs he
  obtain ⟨-, -, hty, -, hiv, -, hopt⟩ := (Edge.static_eq_iff _ _).mp hst
  refine ⟨e', he', by rw [Edge.IsInverse_static hst]; exact hinv, ?_⟩
  rw [hty, hiv, hopt]
  rcases hc with hc | ⟨k, ref, hc1, hc2⟩
  · exact Or.inl (Node.HasAssoc_static_none hs hc)
  · obtain ⟨ref', k1, k2⟩ := Node.HasAssoc_static hs hc1
    obtain ⟨-, -, rty, -, -, -, ropt⟩ := (Edge.static_eq_iff _ _).mp k2
    exact Or.inr ⟨k, ref', k1, by rw [rty, ropt]; exact hc2⟩

/-- C29: `resolve` on node `i` returns an error if and only if some inverse edge of
the node does not pass the checks: its target type has no assoc edge named
`e.Inverse`, or the edge and that assoc edge are both required, or the target type
of that assoc edge is not node `i`.  When no inverse edge of the node is such an
edge, `resolve` returns nil, with the graph it resolved. -/
theorem resolve_error_iff (env : Env) (g : Graph) (i : Nat) :
    ((∃ err, resolve env g i = Except.error err) ↔ ∃ j, InverseFails g i j) ∧
    ((∃ g', resolve env g i = Except.ok g') ↔ ¬ ∃ j, InverseFails g i j) := by
  have key : (∃ err, resolve env g i = Except.error err) ↔ ∃ j, InverseFails g i j := by
    unfold resolve
    rw [@forEach_error_iff Graph Nat String (resolveEdge env i) (fun s => s.static = g.static)
      (fun j => InverseFails g i j)
      (fun s a s' hs hstep => ((resolveEdge_step hstep).static).trans hs)
      (fun s a hs => (resolveEdge_error_iff env i s a).trans
        ⟨fun h => h.of_same_static hs.symm, fun h => h.of_same_static hs⟩)
      _ g rfl]
    constructor
    · rintro ⟨j, -, hj⟩
      exact ⟨j, hj⟩
    · rintro ⟨j, hj⟩
      obtain ⟨e, he, hrest⟩ := hj
      exact ⟨j, List.mem_range.mpr (Graph.edge?_lt he).2, e, he, hrest⟩
  refine ⟨key, ?_⟩
  rw [← key]
  cases resolve env g i with
  | ok g' => simp
  | error err => simp

/-- Witness of C29 on the graph `addEdges` leaves for `requiredSchemas`: the inverse
edge of `b` and its assoc edge are both required, so `resolve` fails on `b`; `a`
has no inverse edge, and `resolve` succeeds on it. -/
theorem resolve_error_iff_witness :
    resolve sampleEnv requiredEdges 1
      = Except.error "edges cannot be required in both directions: b.a <-> a.b" ∧
    (∃ j, InverseFails requiredEdges 1 j) ∧
    (∃ g', resolve sampleEnv requiredEdges 0 = Except.ok g') ∧
    ¬ ∃ j, InverseFails requiredEdges 0 j :=
  ⟨rfl, (resolve_error_iff sampleEnv requiredEdges 1).1.mp ⟨_, rfl⟩, ⟨_, rfl⟩,
    (resolve_error_iff sampleEnv requiredEdges 0).2.mp ⟨_, rfl⟩⟩

/-! ## The order in which `resolve` visits the edges -/

/-- What any sequence of successful iterations of `resolve` keeps, from a graph
whose edges have no relation yet: the static members, the invariant of the
resolver, and a relation kind on every edge it visited. -/
theorem visit_inv {env : Env} {g2 g : Graph} {ps : List EdgePtr} (hf : g2.Fresh)
    (h : forEach (fun s p => resolveEdge env p.node s p.idx) g2 ps = Except.ok g) :
    g.static = g2.static ∧ g.Linked env ∧
      ∀ p ∈ ps, (∃ e, g2.edge? p = some e) → g.Done p := by
  have hI := forEach_inv (f := fun s (p : EdgePtr) => resolveEdge env p.node s p.idx)
    (P := fun s => s.static = g2.static ∧ s.Linked env)
    (fun s a s' hs hstep =>
      ⟨((resolveEdge_step hstep).static).trans hs.1, (resolveEdge_step hstep).linked hs.2⟩)
    ps g2 g ⟨rfl, hf.toLinked⟩ h
  refine ⟨hI.1, hI.2, ?_⟩
  exact forEach_establish (f := fun s (p : EdgePtr) => resolveEdge env p.node s p.idx)
    (P := fun s => s.static = g2.static)
    (Q := fun b s => (∃ e, g2.edge? b = some e) → s.Done b)
    (fun s a s' hs hstep => ((resolveEdge_step hstep).static).trans hs)
    (fun s a s' hs hstep hex => by
      obtain ⟨e, he⟩ := hex
      have hlen := (Graph.edge?_lt he).2
      rw [← Graph.static_edges_length hs] at hlen
      exact (resolveEdge_step hstep).done_self hlen)
    (fun s a b s' hs hq hstep hex => (resolveEdge_step hstep).done_keep (hq hex))
    ps g2 g rfl h

/-- The relations a sequence of successful iterations of `resolve` leaves on an
inverse edge it visited and on the assoc edge of that edge, in terms of the graph
before any iteration. -/
theorem visit_inverse {env : Env} {g2 g : Graph} {ps : List EdgePtr} (hf : g2.Fresh)
    (h : forEach (fun s p => resolveEdge env p.node s p.idx) g2 ps = Except.ok g)
    {p : EdgePtr} {e2 : Edge} (he : g2.edge? p = some e2) (hinv : e2.IsInverse = true)
    (hp : p ∈ ps) :
    ∃ (k : Nat) (a2 e a : Edge), (g2.node e2.Typ).HasAssoc e2.Inverse = some (k, a2) ∧
      g.edge? p = some e ∧ e.static = e2.static ∧
      g.edge? ⟨e2.Typ, k⟩ = some a ∧ a.static = a2.static ∧
      e.Ref = some ⟨e2.Typ, k⟩ ∧
      e.Rel = (linkPair env g2 p ⟨e2.Typ, k⟩ e2 a2).1.Rel ∧
      ∃ (p1 : EdgePtr) (e1 : Edge), a.Ref = some p1 ∧ g2.edge? p1 = some e1 ∧
        e1.IsInverse = true ∧ e1.Typ = e2.Typ ∧ e1.Inverse = e2.Inverse ∧
        a.Rel = (linkPair env g2 p1 ⟨e2.Typ, k⟩ e1 a2).2.Rel := by
  obtain ⟨hs, hl, hd⟩ := visit_inv hf h
  obtain ⟨e, hge, hdone⟩ := hd p hp ⟨e2, he⟩
  obtain ⟨e0, hge0, hst⟩ := Graph.static_edge hs he
  rw [hge] at hge0
  cases hge0
  obtain ⟨-, -, hty, -, hiv, -, -⟩ := (Edge.static_eq_iff _ _).mp hst
  have hinv' : e.IsInverse = true := by rw [Edge.IsInverse_static hst]; exact hinv
  obtain ⟨k, a, k1, k2, -, -, k5, k6⟩ := hl.inverse p e hge hinv' hdone
  rw [hty, hiv] at k1
  rw [hty] at k2 k5 k6
  obtain ⟨a2, m1, m2⟩ := Node.HasAssoc_static hs.symm k1
  obtain ⟨ha, haname, -⟩ := Node.HasAssoc_edge k1
  obtain ⟨p1, e1, n1, n2, n3, n4, n5, n6⟩ := k6
  obtain ⟨e12, hg12, hst12⟩ := Graph.static_edge hs.symm n2
  obtain ⟨-, -, hty1, -, hiv1, -, -⟩ := (Edge.static_eq_iff _ _).mp hst12
  have hinv12 : e12.IsInverse = true := by rw [Edge.IsInverse_static hst12]; exact n3
  obtain ⟨k', a', q1, q2, -, -, -, -⟩ := hl.inverse p1 e1 n2 n3 n4
  rw [n5] at q2
  simp only [Option.some.injEq, EdgePtr.mk.injEq] at q2
  obtain ⟨hq2a, hq2b⟩ := q2
  obtain ⟨ha', ha'name, -⟩ := Node.HasAssoc_edge q1
  rw [← hq2a, ← hq2b, ha] at ha'
  simp only [Option.some.injEq] at ha'
  refine ⟨k, a2, e, a, m1, hge, hst, ha, m2.symm, k2, ?_, p1, e12, n1, hg12, hinv12, ?_, ?_, ?_⟩
  · rw [k5]
    exact (linkPair_congr env hs rfl _ _ hst m2.symm).1
  · rw [hty1, ← hq2a]
  · rw [hiv1, ← ha'name, ← ha', haname]
  · rw [n6]
    exact (linkPair_congr env hs rfl _ _ hst12.symm m2.symm).2

theorem forEach_append {σ α ε : Type} (f : σ → α → Except ε σ) :
    ∀ (l1 l2 : List α) (s s1 s2 : σ), forEach f s l1 = Except.ok s1 →
      forEach f s1 l2 = Except.ok s2 → forEach f s (l1 ++ l2) = Except.ok s2 := by
  intro l1
  induction l1 with
  | nil =>
    intro l2 s s1 s2 h1 h2
    simp only [forEach, Except.ok.injEq] at h1
    rw [h1]
    exact h2
  | cons a as ih =>
    intro l2 s s1 s2 h1 h2
    simp only [forEach, List.cons_append] at h1 ⊢
    split at h1
    · next s' hs' =>
      exact ih l2 s' s1 s2 h1 h2
    · simp at h1

theorem forEach_map {σ α β ε : Type} (f : σ → β → Except ε σ) (m : α → β) :
    ∀ (l : List α) (s : σ), forEach f s (l.map m) = forEach (fun s a => f s (m a)) s l := by
  intro l
  induction l with
  | nil => intro s; rfl
  | cons a as ih =>
    intro s
    simp only [List.map_cons, forEach]
    cases f s (m a) with
    | ok s' => exact ih s'
    | error err => rfl

/-- The loop of `NewGraph` over `resolve` is the sequence of the iterations of
`resolve` on the edges in the order `visitOrder`. -/
theorem resolveLoop_visits {env : Env} {g g' : Graph}
    (h : forEach (resolveNode env) g (List.range g.Nodes.length) = Except.ok g') :
    forEach (fun s p => resolveEdge env p.node s p.idx) g (visitOrder g) = Except.ok g' := by
  have key : ∀ (l : List Nat) (s s' : Graph), s.static = g.static →
      forEach (resolveNode env) s l = Except.ok s' →
      forEach (fun s (p : EdgePtr) => resolveEdge env p.node s p.idx) s
        (l.flatMap (fun i => (List.range (g.node i).Edges.length).map
          (fun j => (⟨i, j⟩ : EdgePtr)))) = Except.ok s' := by
    intro l
    induction l with
    | nil =>
      intro s s' _ h
      simp only [forEach, Except.ok.injEq] at h
      rw [h]
      rfl
    | cons i rest ih =>
      intro s s' hs h
      simp only [forEach] at h
      split at h
      · next s1 h1 =>
        have hr := resolveNode_ok h1
        have hs1 : s1.static = g.static := (resolve_static hr).trans hs
        simp only [List.flatMap_cons]
        refine forEach_append _ _ _ s s1 s' ?_ (ih s1 s' hs1 h)
        rw [forEach_map]
        unfold resolve at hr
        rw [Graph.static_edges_length hs] at hr
        exact hr
      · simp at h
  exact key _ g g' rfl h

/-- C30: the relation (`Rel.Type`, `Rel.Table`, `Rel.Columns`) that the iterations
of `resolve` leave on an inverse edge and on its assoc edge does not depend on the
order of the iterations.  From a graph `g2` whose edges have no relation yet, take
two sequences of iterations that succeed and both visit the inverse edge at `p`,
the assoc edge being visited before it (and resolved as an unpaired edge first),
after it, or not at all.  Both leave the same relation on the inverse edge, and on
the assoc edge whenever they leave the same `Ref` on it; this is the case when the
edge at `p` is the only inverse edge of that assoc edge, and the relations are then
those of the linking branch on the two edges of `g2`. -/
theorem rel_visit_order (env : Env) (g2 : Graph) (hf : g2.Fresh) (ps1 ps2 : List EdgePtr)
    (g g' : Graph)
    (h1 : forEach (fun s p => resolveEdge env p.node s p.idx) g2 ps1 = Except.ok g)
    (h2 : forEach (fun s p => resolveEdge env p.node s p.idx) g2 ps2 = Except.ok g')
    (p : EdgePtr) (e2 : Edge) (he : g2.edge? p = some e2) (hinv : e2.IsInverse = true)
    (hp1 : p ∈ ps1) (hp2 : p ∈ ps2) :
    ∃ (k : Nat) (a2 e e' a a' : Edge),
      (g2.node e2.Typ).HasAssoc e2.Inverse = some (k, a2) ∧
      g.edge? p = some e ∧ g'.edge? p = some e' ∧
      g.edge? ⟨e2.Typ, k⟩ = some a ∧ g'.edge? ⟨e2.Typ, k⟩ = some a' ∧
      e.Ref = some ⟨e2.Typ, k⟩ ∧ e'.Ref = some ⟨e2.Typ, k⟩ ∧
      e.Rel = (linkPair env g2 p ⟨e2.Typ, k⟩ e2 a2).1.Rel ∧ e'.Rel = e.Rel ∧
      (a.Ref = a'.Ref → a'.Rel = a.Rel) ∧
      ((∀ q x, g2.edge? q = some x → x.IsInverse = true → x.Typ = e2.Typ →
          x.Inverse = e2.Inverse → q = p) →
        a.Ref = some p ∧ a'.Ref = some p ∧
        a.Rel = (linkPair env g2 p ⟨e2.Typ, k⟩ e2 a2).2.Rel ∧ a'.Rel = a.Rel) := by
  obtain ⟨k, a2, e, a, m1, m2, -, m4, -, m6, m7, p1, e1, n1, n2, n3, n4, n5, n6⟩ :=
    visit_inverse hf h1 he hinv hp1
  obtain ⟨k', a2', e', a', m1', m2', -, m4', -, m6', m7', p1', e1', n1', n2', n3', n4', n5',
    n6'⟩ := visit_inverse hf h2 he hinv hp2
  rw [m1] at m1'
  simp only [Option.some.injEq, Prod.mk.injEq] at m1'
  obtain ⟨hk, ha2⟩ := m1'
  subst hk
  subst ha2
  refine ⟨k, a2, e, e', a, a', m1, m2, m2', m4, m4', m6, m6', m7, by rw [m7', m7], ?_, ?_⟩
  · intro href
    rw [n1, n1'] at href
    simp only [Option.some.injEq] at href
    subst href
    rw [n2] at n2'
    simp only [Option.some.injEq] at n2'
    subst n2'
    rw [n6', n6]
  · intro hu
    have q1 := hu p1 e1 n2 n3 n4 n5
    have q1' := hu p1' e1' n2' n3' n4' n5'
    subst q1
    subst q1'
    rw [he] at n2 n2'
    simp only [Option.some.injEq] at n2 n2'
    subst n2
    subst n2'
    exact ⟨n1, n1', n6, by rw [n6', n6]⟩

/-- In `followEdges` the edge `followers` is the only inverse edge. -/
theorem followEdges_inverse (q : EdgePtr) (x : Edge) (h1 : followEdges.edge? q = some x)
    (h2 : x.IsInverse = true) : q = ⟨0, 1⟩ := by
  obtain ⟨n, i⟩ := q
  match n, i, h1 with
  | 0, 0, h1 =>
    have h3 : followEdges.edge? ⟨0, 0⟩ = some (followEdges.edgeAt ⟨0, 0⟩) := rfl
    rw [h3] at h1
    have h4 : x = followEdges.edgeAt ⟨0, 0⟩ := (Option.some.inj h1).symm
    subst h4
    exact absurd h2 (by decide)
  | 0, 1, _ => rfl
  | 0, 2, h1 =>
    have h3 : followEdges.edge? ⟨0, 2⟩ = some (followEdges.edgeAt ⟨0, 2⟩) := rfl
    rw [h3] at h1
    have h4 : x = followEdges.edgeAt ⟨0, 2⟩ := (Option.some.inj h1).symm
    subst h4
    exact absurd h2 (by decide)
  | 0, i + 3, h1 =>
    have h3 : followEdges.edge? ⟨0, i + 3⟩ = none := rfl
    rw [h3] at h1
    cases h1
  | n + 1, i, h1 =>
    have h3 : followEdges.edge? ⟨n + 1, i⟩ = none := rfl
    rw [h3] at h1
    cases h1

/-- Witness of C30 on `followSchemas`.  The loop of `NewGraph` visits the assoc edge
`following` before its inverse edge `followers`; the other sequence visits
`followers` first.  The two graphs differ (in the `Bidi` of `following`), and the
relations of the two edges are the same in both: M2M, table `user_following`,
columns `user_id` and `follower_id`. -/
theorem rel_visit_order_witness :
    edgesStage none followSchemas = Except.ok followEdges ∧
    visitOrder followEdges = [⟨0, 0⟩, ⟨0, 1⟩, ⟨0, 2⟩] ∧
    resolveStage sampleEnv none followSchemas = Except.ok followVisited ∧
    (followVisited.edgeAt ⟨0, 0⟩).Bidi = true ∧ (followSwapped.edgeAt ⟨0, 0⟩).Bidi = false ∧
    (followVisited.edgeAt ⟨0, 1⟩).Rel
      = ⟨Rel.M2M, "user_following", ["user_id", "follower_id"]⟩ ∧
    ∃ (e e' a a' : Edge),
      followVisited.edge? ⟨0, 1⟩ = some e ∧ followSwapped.edge? ⟨0, 1⟩ = some e' ∧
      followVisited.edge? ⟨0, 0⟩ = some a ∧ followSwapped.edge? ⟨0, 0⟩ = some a' ∧
      e'.Rel = e.Rel ∧ a'.Rel = a.Rel := by
  refine ⟨rfl, rfl, rfl, rfl, rfl, rfl, ?_⟩
  obtain ⟨k, a2, e, e', a, a', m1, m2, m3, m4, m5, -, -, -, m9, -, m11⟩ :=
    rel_visit_order sampleEnv followEdges
      (edgesStage_initial (show edgesStage none followSchemas = Except.ok followEdges from rfl)).fresh
      [⟨0, 0⟩, ⟨0, 1⟩, ⟨0, 2⟩] [⟨0, 1⟩, ⟨0, 0⟩, ⟨0, 2⟩] followVisited followSwapped rfl rfl
      ⟨0, 1⟩ (followEdges.edgeAt ⟨0, 1⟩) rfl rfl (by decide) (by decide)
  have hk : (followEdges.node (followEdges.edgeAt ⟨0, 1⟩).Typ).HasAssoc
      (followEdges.edgeAt ⟨0, 1⟩).Inverse = some (0, followEdges.edgeAt ⟨0, 0⟩) := rfl
  rw [hk] at m1
  simp only [Option.some.injEq, Prod.mk.injEq] at m1
  obtain ⟨hk0, -⟩ := m1
  subst hk0
  exact ⟨e, e', a, a', m2, m3, m4, m5, m9,
    (m11 (fun q x hq hx _ _ => followEdges_inverse q x hq hx)).2.2.2⟩
/-! ## The first failure of a loop -/

/-- A loop that fails stopped at a position of its list: the iterations before it
succeeded, and the iteration at it returned the failure. -/
theorem forEach_error_split {σ α ε : Type} {f : σ → α → Except ε σ} :
    ∀ (l : List α) (s : σ) (e : ε), forEach f s l = Except.error e →
      ∃ (k : Nat) (a : α) (t : σ), l[k]? = some a ∧
        forEach f s (l.take k) = Except.ok t ∧ f t a = Except.error e := by
  intro l
  induction l with
  | nil => intro s e h; simp [forEach] at h
  | cons a as ih =>
    intro s e h
    simp only [forEach] at h
    cases hf : f s a with
    | error e' =>
      rw [hf] at h
      simp only [Except.error.injEq] at h
      exact ⟨0, a, s, by simp, rfl, by rw [hf, h]⟩
    | ok s' =>
      rw [hf] at h
      obtain ⟨k, b, t, hk, hp, hb⟩ := ih s' e h
      refine ⟨k + 1, b, t, by simpa using hk, ?_, hb⟩
      simp only [List.take_succ_cons, forEach, hf]
      exact hp

/-- A loop whose iterations before a position succeed and whose iteration at that
position fails returns that failure. -/
theorem forEach_error_at {σ α ε : Type} {f : σ → α → Except ε σ} :
    ∀ (l : List α) (s : σ) (k : Nat) (a : α) (t : σ) (e : ε), l[k]? = some a →
      forEach f s (l.take k) = Except.ok t → f t a = Except.error e →
      forEach f s l = Except.error e := by
  intro l
  induction l with
  | nil => intro s k a t e hk; simp at hk
  | cons b bs ih =>
    intro s k a t e hk hp hf
    cases k with
    | zero =>
      simp only [List.take_zero, forEach, Except.ok.injEq] at hp
      simp only [List.getElem?_cons_zero, Option.some.injEq] at hk
      rw [hk, hp]
      simp only [forEach, hf]
    | succ k =>
      simp only [List.getElem?_cons_succ] at hk
      simp only [List.take_succ_cons, forEach] at hp
      simp only [forEach]
      cases hb : f s b with
      | error e' => rw [hb] at hp; simp at hp
      | ok s' => rw [hb] at hp; exact ih s' k a t e hk hp hf

/-- The entry of a range at a position. -/
theorem range_getElem? {n k a : Nat} (h : (List.range n)[k]? = some a) : a = k ∧ k < n := by
  have hk : k < n := by
    by_contra hc
    rw [List.getElem?_eq_none (by simpa using hc)] at h
    cases h
  rw [List.getElem?_range hk] at h
  exact ⟨by simpa using h.symm, hk⟩

/-- A loop over a range that fails stopped at an index `k`: the iterations before
`k` succeeded, and iteration `k` returned the failure. -/
theorem forEach_range_error_split {σ ε : Type} {f : σ → Nat → Except ε σ} {s : σ} {n : Nat}
    {e : ε} (h : forEach f s (List.range n) = Except.error e) :
    ∃ (k : Nat) (t : σ), k < n ∧ forEach f s (List.range k) = Except.ok t ∧
      f t k = Except.error e := by
  obtain ⟨k, a, t, hk, hp, hf⟩ := forEach_error_split _ s e h
  obtain ⟨rfl, hlt⟩ := range_getElem? hk
  rw [List.take_range, Nat.min_eq_left (Nat.le_of_lt hlt)] at hp
  exact ⟨a, t, hlt, hp, hf⟩

/-- A loop over a range whose iterations before `k` succeed and whose iteration `k`
fails returns that failure. -/
theorem forEach_range_error_at {σ ε : Type} {f : σ → Nat → Except ε σ} {s t : σ} {n k : Nat}
    {e : ε} (hk : k < n) (hp : forEach f s (List.range k) = Except.ok t)
    (hf : f t k = Except.error e) : forEach f s (List.range n) = Except.error e := by
  refine forEach_error_at _ s k k t e (List.getElem?_range hk) ?_ hf
  rw [List.take_range, Nat.min_eq_left (Nat.le_of_lt hk)]
  exact hp

/-! ## The first failing iteration of `edgeSchemas` -/

/-- The loop of `edgeSchemas` over the edges of a node keeps the relation to the
resolved graph. -/
theorem edgeSchemaLoop_extends {env : Env} {g3 : Graph} {i : Nat} (l : List Nat) {s s' : Graph}
    (hs : s.Extends env g3) (h : forEach (edgeSchema env i) s l = Except.ok s') :
    s'.Extends env g3 :=
  forEach_inv (P := fun x => x.Extends env g3)
    (fun _ _ _ hx hstep => edgeSchema_extends hstep hx) _ s s' hs h

/-- The loop of `edgeSchemas` over the nodes keeps the relation to the resolved
graph. -/
theorem edgeSchemasLoop_extends {env : Env} {g3 : Graph} (l : List Nat) {s s' : Graph}
    (hs : s.Extends env g3) (h : forEach (edgeSchemasNode env) s l = Except.ok s') :
    s'.Extends env g3 :=
  forEach_inv (P := fun x => x.Extends env g3)
    (fun _ _ _ hx hstep => edgeSchemaLoop_extends _ hx hstep) _ s s' hs h

/-- The loops of `edgeSchemas` return the failure of the iteration they reach
first: the nodes before `i` and the edges of node `i` before `j` succeeded, and the
iteration on the edge at `j` of node `i` fails. -/
theorem edgeSchemasLoop_error_at {env : Env} {g s1 t : Graph} {i j : Nat} {f : Failure}
    (hi : i < g.Nodes.length)
    (h1 : forEach (edgeSchemasNode env) g (List.range i) = Except.ok s1)
    (hj : j < (s1.node i).Edges.length)
    (h2 : forEach (edgeSchema env i) s1 (List.range j) = Except.ok t)
    (hf : edgeSchema env i t j = Except.error f) :
    forEach (edgeSchemasNode env) g (List.range g.Nodes.length) = Except.error f :=
  forEach_range_error_at hi h1 (forEach_range_error_at hj h2 hf)

/-- When the loops of `edgeSchemas` fail, they stopped at an edge: the nodes before
`i` and the edges of node `i` before `j` succeeded, and the iteration on the edge
at `j` of node `i` returned the failure. -/
theorem edgeSchemasLoop_error_split {env : Env} {g : Graph} {f : Failure}
    (h : forEach (edgeSchemasNode env) g (List.range g.Nodes.length) = Except.error f) :
    ∃ (i j : Nat) (s1 t : Graph), i < g.Nodes.length ∧
      forEach (edgeSchemasNode env) g (List.range i) = Except.ok s1 ∧
      j < (s1.node i).Edges.length ∧
      forEach (edgeSchema env i) s1 (List.range j) = Except.ok t ∧
      edgeSchema env i t j = Except.error f := by
  obtain ⟨i, s1, hi, h1, hn⟩ := forEach_range_error_split h
  obtain ⟨j, t, hj, h2, hf⟩ := forEach_range_error_split hn
  exact ⟨i, j, s1, t, hi, h1, hj, h2, hf⟩

/-- The failure of `edgeSchemas` is the failure of its loops, wrapped by "resolving
edges" when it is an error and raised as it is when it is a panic. -/
theorem edgeSchemas_error_wrap {env : Env} {g : Graph} {f f1 : Failure}
    (hl : forEach (edgeSchemasNode env) g (List.range g.Nodes.length) = Except.error f1)
    (hf : edgeSchemas env g = Except.error f) :
    (∀ err, f1 = Failure.error err → f = Failure.error ("resolving edges: " ++ err)) ∧
    (∀ m, f1 = Failure.crash m → f = Failure.crash m) := by
  unfold edgeSchemas at hf
  rw [hl] at hf
  constructor
  · intro err h1
    subst h1
    simp only [Except.error.injEq] at hf
    exact hf.symm
  · intro m h1
    subst h1
    simp only [Except.error.injEq] at hf
    exact hf.symm

/-- C13, as stated, fails: `edgeSchemas` returns the failure of the first iteration
that fails.  In `ghostSchemas` the unique assoc edge `owner` declares `Through` and
is M2O, but the loops of `edgeSchemas` visit the M2M edge `friends` before it, whose
`Through` names a type that does not exist: `edgeSchemas`, and `NewGraph`, return
the error of that edge, not the error that `Through` is allowed only on M2M edges. -/
theorem through_only_m2m_counterexample :
    resolveStage sampleEnv none ghostSchemas = Except.ok ghostResolved ∧
    (ghostResolved.edgeAt ⟨0, 1⟩).Name = "owner" ∧
    (ghostResolved.edgeAt ⟨0, 1⟩).decl.Through = some ⟨"ownerships", "ownership"⟩ ∧
    (ghostResolved.edgeAt ⟨0, 1⟩).Rel.Typ = Rel.M2O ∧
    edgeSchemas sampleEnv (fkStage ghostResolved) = Except.error (Failure.error
      ("resolving edges: edge pet.friends defined with Through(\"friendships\", ghost.Type)"
        ++ ", but type ghost was not found")) ∧
    NewGraph sampleEnv none ghostSchemas = Except.error (Failure.error
      ("resolving edges: edge pet.friends defined with Through(\"friendships\", ghost.Type)"
        ++ ", but type ghost was not found")) :=
  ⟨rfl, rfl, rfl, rfl, rfl, rfl⟩

/-- C13, amended.  Let an edge of the graph the loop over `resolve` leaves declare
`Through` and have a relation other than M2M.  The iteration of `edgeSchemas` on
that edge returns the error "... is allowed only on M2M edges, but got: ..." in
every graph that holds the edge; `edgeSchemas` does not succeed on the graph FK
propagation leaves, and `NewGraph` fails.  When the loops of `edgeSchemas` reach
the edge, that is when the iterations on the nodes before `i` and on the edges of
node `i` before `j` succeed, `edgeSchemas` returns that error, wrapped by
"resolving edges", and so does `NewGraph` when no call of `setupFKs` returned an
error.  Whenever `edgeSchemas` fails, its failure is that error or the failure of
an iteration on an earlier edge, wrapped in the same way when it is an error and
raised as it is when it is a panic. -/
theorem through_only_m2m (env : Env) (c : Option TypeInfo) (schemas : List Schema) (g3 : Graph)
    (h : resolveStage env c schemas = Except.ok g3) (i j : Nat) (e : Edge) (th : ThroughDef)
    (he : g3.edge? ⟨i, j⟩ = some e) (hth : e.decl.Through = some th)
    (hm : e.Rel.Typ ≠ Rel.M2M) :
    (∀ g : Graph, g.edge? ⟨i, j⟩ = some e →
      edgeSchema env i g j = Except.error (Failure.error ("edge " ++ (g.node i).Name ++ "."
        ++ e.Name ++ " " ++ throughText th ++ " is allowed only on M2M edges, but got: "
        ++ quote e.Rel.Typ.name))) ∧
    (∀ g5, edgeSchemas env (fkStage g3) ≠ Except.ok g5) ∧
    (∃ f, NewGraph env c schemas = Except.error f) ∧
    (∀ s1 t, forEach (edgeSchemasNode env) (fkStage g3) (List.range i) = Except.ok s1 →
      forEach (edgeSchema env i) s1 (List.range j) = Except.ok t →
      edgeSchemas env (fkStage g3) = Except.error (Failure.error ("resolving edges: " ++ ("edge "
        ++ (g3.node i).Name ++ "." ++ e.Name ++ " " ++ throughText th
        ++ " is allowed only on M2M edges, but got: " ++ quote e.Rel.Typ.name))) ∧
      ∀ g4, forEach (setupFKsNode env) g3 (List.range g3.Nodes.length) = Except.ok g4 →
        NewGraph env c schemas = Except.error (Failure.error ("resolving edges: " ++ ("edge "
          ++ (g3.node i).Name ++ "." ++ e.Name ++ " " ++ throughText th
          ++ " is allowed only on M2M edges, but got: " ++ quote e.Rel.Typ.name)))) ∧
    (∀ f, edgeSchemas env (fkStage g3) = Except.error f →
      f = Failure.error ("resolving edges: " ++ ("edge " ++ (g3.node i).Name ++ "." ++ e.Name
        ++ " " ++ throughText th ++ " is allowed only on M2M edges, but got: "
        ++ quote e.Rel.Typ.name)) ∨
      ∃ (i' j' : Nat) (s1 t : Graph) (f0 : Failure), (i' < i ∨ (i' = i ∧ j' < j)) ∧
        forEach (edgeSchemasNode env) (fkStage g3) (List.range i') = Except.ok s1 ∧
        forEach (edgeSchema env i') s1 (List.range j') = Except.ok t ∧
        edgeSchema env i' t j' = Except.error f0 ∧
        (∀ err, f0 = Failure.error err → f = Failure.error ("resolving edges: " ++ err)) ∧
        (∀ m, f0 = Failure.crash m → f = Failure.crash m)) := by
  have hr := resolveStage_resolved h
  have hx4 : (fkStage g3).Extends env g3 :=
    (Graph.Extends.start env hr.plain).of_sameEdges (fkStage_sameEdges g3)
  -- the iteration on the edge fails in every graph the loops can reach
  have hK : ∀ s : Graph, s.Extends env g3 →
      edgeSchema env i s j = Except.error (Failure.error ("edge " ++ (g3.node i).Name ++ "."
        ++ e.Name ++ " " ++ throughText th ++ " is allowed only on M2M edges, but got: "
        ++ quote e.Rel.Typ.name)) := by
    intro s hs
    obtain ⟨e1, he1, h1, -, -, h4, -⟩ := hs.old _ e he
    have hd := (Edge.static_eq_iff _ _).mp h1
    rw [edgeSchema_not_m2m env s i j e1 th he1 (by rw [hd.1]; exact hth)
      (by rw [h4]; exact hm), hs.name i, hd.2.1, h4]
  have hlt : ∀ s : Graph, s.Extends env g3 → i < s.Nodes.length ∧ j < (s.node i).Edges.length := by
    intro s hs
    obtain ⟨e1, he1, -⟩ := hs.old _ e he
    exact Graph.edge?_lt he1
  have hstuck : ∀ g5, edgeSchemas env (fkStage g3) ≠ Except.ok g5 := by
    intro g5
    refine edgeSchemas_stuck hx4 he ?_ g5
    intro s s' hs hstep
    rw [hK s hs] at hstep
    cases hstep
  have hreach : ∀ s1 t, forEach (edgeSchemasNode env) (fkStage g3) (List.range i) = Except.ok s1 →
      forEach (edgeSchema env i) s1 (List.range j) = Except.ok t →
      edgeSchemas env (fkStage g3) = Except.error (Failure.error ("resolving edges: " ++ ("edge "
        ++ (g3.node i).Name ++ "." ++ e.Name ++ " " ++ throughText th
        ++ " is allowed only on M2M edges, but got: " ++ quote e.Rel.Typ.name))) := by
    intro s1 t h1 h2
    have hs1 := edgeSchemasLoop_extends _ hx4 h1
    have ht := edgeSchemaLoop_extends _ hs1 h2
    have hloop := edgeSchemasLoop_error_at (hlt _ hx4).1 h1 (hlt _ hs1).2 h2 (hK t ht)
    unfold edgeSchemas
    rw [hloop]
  refine ⟨fun g hg => edgeSchema_not_m2m env g i j e th hg hth hm, hstuck, ?_, ?_, ?_⟩
  · cases hres : NewGraph env c schemas with
    | error f => exact ⟨f, rfl⟩
    | ok g =>
      exfalso
      unfold NewGraph at hres
      rw [h] at hres
      replace hres := finishStage_ok hres
      split at hres
      · simp at hres
      · next g5 h5 => exact hstuck g5 h5
  · intro s1 t h1 h2
    refine ⟨hreach s1 t h1 h2, ?_⟩
    intro g4 h4
    have hg4 : g4 = fkStage g3 := setupFKsLoop_ok _ _ _ h4
    subst hg4
    unfold NewGraph
    rw [h]
    unfold finishStage
    simp only [h4, hreach s1 t h1 h2]
  · intro f hf
    cases hl : forEach (edgeSchemasNode env) (fkStage g3) (List.range (fkStage g3).Nodes.length) with
    | ok g5 =>
      unfold edgeSchemas at hf
      rw [hl] at hf
      cases hf
    | error f1 =>
      obtain ⟨i0, j0, s1, t, hi0, h1, hj0, h2, hf0⟩ := edgeSchemasLoop_error_split hl
      have hs1 := edgeSchemasLoop_extends _ hx4 h1
      have ht := edgeSchemaLoop_extends _ hs1 h2
      have hwrap := edgeSchemas_error_wrap hl hf
      rcases Nat.lt_trichotomy i0 i with hlt0 | heq | hgt
      · exact Or.inr ⟨i0, j0, s1, t, f1, Or.inl hlt0, h1, h2, hf0, hwrap⟩
      · subst heq
        rcases Nat.lt_trichotomy j0 j with hlt1 | heq1 | hgt1
        · exact Or.inr ⟨i0, j0, s1, t, f1, Or.inr ⟨rfl, hlt1⟩, h1, h2, hf0, hwrap⟩
        · subst heq1
          left
          rw [hK t ht] at hf0
          simp only [Except.error.injEq] at hf0
          exact hwrap.1 _ hf0.symm
        · exfalso
          obtain ⟨t1, t2, ht1, hstep⟩ := forEach_ok_step (f := edgeSchema env i0)
            (P := fun s => s.Extends env g3)
            (fun _ _ _ hs' hstep' => edgeSchema_extends hstep' hs') _ s1 t hs1 h2 j
            (List.mem_range.mpr hgt1)
          rw [hK t1 ht1] at hstep
          cases hstep
      · exfalso
        obtain ⟨u1, u2, hu1, hnode⟩ := forEach_ok_step (f := edgeSchemasNode env)
          (P := fun s => s.Extends env g3)
          (fun _ _ _ hs' hstep' => edgeSchemaLoop_extends _ hs' hstep') _ (fkStage g3) s1 hx4 h1 i
          (List.mem_range.mpr hgt)
        obtain ⟨t1, t2, ht1, hstep⟩ := forEach_ok_step (f := edgeSchema env i)
          (P := fun s => s.Extends env g3)
          (fun _ _ _ hs' hstep' => edgeSchema_extends hstep' hs') _ u1 u2 hu1 hnode j
          (List.mem_range.mpr (hlt _ hu1).2)
        rw [hK t1 ht1] at hstep
        cases hstep

/-- Witness of the amended C13 on `bossSchemas`: the loops of `edgeSchemas` bind the
edge `roles` of `user` to `membership` and then reach the M2O edge `boss` of
`role`, which declares `Through`; `NewGraph` returns the error of that edge. -/
theorem through_only_m2m_witness :
    resolveStage sampleEnv none bossSchemas = Except.ok bossResolved ∧
    (bossResolved.edgeAt ⟨0, 0⟩).decl.Through = some ⟨"memberships", "membership"⟩ ∧
    (bossResolved.edgeAt ⟨1, 1⟩).decl.Through = some ⟨"bosses", "membership"⟩ ∧
    (bossResolved.edgeAt ⟨1, 1⟩).Rel.Typ = Rel.M2O ∧
    NewGraph sampleEnv none bossSchemas = Except.error (Failure.error
      ("resolving edges: edge role.boss Through(\"bosses\", membership.Type)"
        ++ " is allowed only on M2M edges, but got: \"M2O\"")) :=
  ⟨rfl, rfl, rfl, rfl,
    ((through_only_m2m sampleEnv none bossSchemas bossResolved rfl 1 1
      (bossResolved.edgeAt ⟨1, 1⟩) ⟨"bosses", "membership"⟩ rfl rfl (by decide)).2.2.2.1
      (okGraph (forEach (edgeSchemasNode sampleEnv) (fkStage bossResolved) (List.range 1)))
      (okGraph (forEach (edgeSchemasNode sampleEnv) (fkStage bossResolved) (List.range 1)))
      rfl rfl).2 (fkStage bossResolved) rfl⟩
/-! ## The graph `NewGraph` returns with an error -/

/-- A loop that keeps the graph of a failing iteration succeeds as the loop itself
does. -/
theorem forEachP_ok {σ α ε : Type} {fP : σ → α → Except (ε × σ) σ}
    {f : σ → α → Except ε σ} (hfst : ∀ s a, (fP s a).mapError Prod.fst = f s a)
    {l : List α} {s s' : σ} (h : forEach fP s l = Except.ok s') :
    forEach f s l = Except.ok s' := by
  have h1 := forEach_mapError hfst l s
  rw [h] at h1
  exact h1.symm

/-- A loop that keeps the graph of a failing iteration stopped at a position of its
list: the loop itself succeeded on the entries before it. -/
theorem forEachP_split {σ α ε : Type} {fP : σ → α → Except (ε × σ) σ}
    {f : σ → α → Except ε σ} (hfst : ∀ s a, (fP s a).mapError Prod.fst = f s a)
    {l : List α} {s : σ} {x : ε × σ} (h : forEach fP s l = Except.error x) :
    ∃ (k : Nat) (a : α) (t : σ), l[k]? = some a ∧
      forEach f s (l.take k) = Except.ok t ∧ fP t a = Except.error x := by
  obtain ⟨k, a, t, hk, hp, hf⟩ := forEach_error_split l s x h
  exact ⟨k, a, t, hk, forEachP_ok hfst hp, hf⟩

/-- The same for a loop over a range. -/
theorem forEachP_range_split {σ ε : Type} {fP : σ → Nat → Except (ε × σ) σ}
    {f : σ → Nat → Except ε σ} (hfst : ∀ s a, (fP s a).mapError Prod.fst = f s a)
    {n : Nat} {s : σ} {x : ε × σ} (h : forEach fP s (List.range n) = Except.error x) :
    ∃ (k : Nat) (t : σ), k < n ∧ forEach f s (List.range k) = Except.ok t ∧
      fP t k = Except.error x := by
  obtain ⟨k, a, t, hk, hp, hf⟩ := forEachP_split hfst h
  obtain ⟨rfl, hlt⟩ := range_getElem? hk
  rw [List.take_range, Nat.min_eq_left (Nat.le_of_lt hlt)] at hp
  exact ⟨a, t, hlt, hp, hf⟩

/-- A failing iteration whose checks come before its writes leaves the state it was
called with. -/
theorem keepState_error {σ α ε : Type} {f : σ → α → Except ε σ} {s s' : σ} {a : α} {e : ε}
    (h : keepState f s a = Except.error (e, s')) : s' = s ∧ f s a = Except.error e := by
  unfold keepState at h
  cases hf : f s a with
  | ok t => rw [hf] at h; cases h
  | error e' =>
    rw [hf] at h
    simp only [Except.error.injEq, Prod.mk.injEq] at h
    exact ⟨h.2.symm, by rw [h.1]⟩

/-- The stage `addIndexes` returns no error: `AddIndex` has no failure. -/
theorem addIndexesP_no_error (g : Graph) (sch : Schema) (msg : String) (s : Graph) :
    addIndexesP g sch ≠ Except.error (Failure.error msg, s) := by
  intro h
  unfold addIndexesP at h
  split at h
  · split at h
    · cases h
    · simp at h
  · obtain ⟨k, a, t, -, -, hf⟩ := forEach_error_split _ _ _ h
    unfold keepState Node.AddIndex at hf
    simp at hf

/-- The stage `defaults` returns no error: it can only panic. -/
theorem defaultsP_no_error (g : Graph) (msg : String) (s : Graph) :
    defaultsP g ≠ Except.error (Failure.error msg, s) := by
  intro h
  unfold defaultsP at h
  cases hd : defaults g with
  | ok g' => rw [hd] at h; cases h
  | error f =>
    rw [hd] at h
    simp only [Except.error.injEq, Prod.mk.injEq] at h
    rw [h.1] at hd
    unfold defaults at hd
    split at hd
    · cases hd
    · simp only at hd
      split at hd
      · cases hd
      · split at hd
        · cases hd
        · split at hd
          · simp at hd
          · cases hd

/-- When `NewGraph` stops with a `graphError`, the graph it holds is the one the
stages and iterations before the failing iteration produced. -/
theorem NewGraphP_stopped {env : Env} {c : Option TypeInfo} {schemas : List Schema}
    {msg : String} {s : Graph}
    (h : NewGraphP env c schemas = Except.error (Failure.error msg, s)) :
    Stopped env c schemas msg s := by
  unfold NewGraphP at h
  cases hA : forEach (keepState addNode) { IDType := c, Nodes := [] } schemas with
  | error fs =>
    rw [hA] at h
    simp only [Except.error.injEq] at h
    rw [h] at hA
    obtain ⟨k, sch, t, hk, hp, hf⟩ := forEachP_split (keepState_fst addNode) hA
    obtain ⟨rfl, hf⟩ := keepState_error hf
    exact Stopped.addNode k sch hk hp hf
  | ok g1 =>
    rw [hA] at h
    simp only at h
    have h1 := forEachP_ok (keepState_fst addNode) hA
    cases hB : forEach addEdgesP g1 schemas with
    | error fs =>
      rw [hB] at h
      simp only [Except.error.injEq] at h
      rw [h] at hB
      obtain ⟨k, sch, g, hk, hp, hf⟩ := forEachP_split addEdgesP_fst hB
      have hfail : addEdges g sch = Except.error (Failure.error msg) := by
        rw [← addEdgesP_fst, hf]
        rfl
      unfold addEdgesP at hf
      cases hty : g.typ sch.Name with
      | none =>
        rw [hty] at hf
        simp only at hf
        have hs : s = g := by
          split at hf
          · cases hf
          · split at hf
            · simp only [Except.error.injEq, Prod.mk.injEq] at hf
              exact hf.2.symm
            · simp at hf
        subst hs
        exact Stopped.addEdgesType g1 k sch h1 hk hp hty hfail
      | some t =>
        rw [hty] at hf
        simp only at hf
        cases hI : forEach (keepState (addEdge sch.Name t)) (g, []) sch.Edges with
        | ok st => rw [hI] at hf; cases hf
        | error fs =>
          obtain ⟨f, st⟩ := fs
          rw [hI] at hf
          simp only [Except.error.injEq, Prod.mk.injEq] at hf
          obtain ⟨j, e, st0, hj, hpe, hfe⟩ := forEachP_split (keepState_fst (addEdge sch.Name t)) hI
          obtain ⟨hst, hfe⟩ := keepState_error hfe
          subst hst
          obtain ⟨g', seen⟩ := st
          simp only at hf
          obtain ⟨rfl, rfl⟩ := hf
          exact Stopped.addEdges g1 g k sch t j e seen h1 hk hp hty hj hpe hfe
    | ok g2 =>
      rw [hB] at h
      simp only at h
      have h2 : edgesStage c schemas = Except.ok g2 := by
        unfold edgesStage
        rw [h1]
        exact forEachP_ok addEdgesP_fst hB
      cases hC : forEach (resolveNodeP env) g2 (List.range g2.Nodes.length) with
      | error fs =>
        rw [hC] at h
        simp only [Except.error.injEq] at h
        rw [h] at hC
        obtain ⟨i, g, hi, hp, hf⟩ := forEachP_range_split (resolveNodeP_fst env) hC
        unfold resolveNodeP at hf
        cases hI : forEach (keepState (resolveEdge env i)) g (List.range (g.node i).Edges.length) with
        | ok g' => rw [hI] at hf; cases hf
        | error fs =>
          obtain ⟨err, s'⟩ := fs
          rw [hI] at hf
          simp only [Except.error.injEq, Prod.mk.injEq, Failure.error.injEq] at hf
          obtain ⟨hmsg, rfl⟩ := hf
          obtain ⟨j, t, hj, hpe, hfe⟩ := forEachP_range_split (keepState_fst (resolveEdge env i)) hI
          obtain ⟨rfl, hfe⟩ := keepState_error hfe
          exact Stopped.resolve g2 g i j err h2 hi hp hj hpe hfe hmsg.symm
      | ok g3 =>
        rw [hC] at h
        simp only at h
        have h3 : resolveStage env c schemas = Except.ok g3 := by
          unfold resolveStage
          rw [h2]
          exact forEachP_ok (resolveNodeP_fst env) hC
        cases hD : forEach (setupFKsNodeP env) g3 (List.range g3.Nodes.length) with
        | error fs =>
          rw [hD] at h
          simp only [Except.error.injEq] at h
          rw [h] at hD
          obtain ⟨i, g, hi, hp, hf⟩ := forEachP_range_split (setupFKsNodeP_fst env) hD
          unfold setupFKsNodeP at hf
          cases hk : env.fkFailure g i with
          | none => rw [hk] at hf; cases hf
          | some x =>
            obtain ⟨err, s'⟩ := x
            rw [hk] at hf
            simp only [Except.error.injEq, Prod.mk.injEq, Failure.error.injEq] at hf
            obtain ⟨hmsg, rfl⟩ := hf
            exact Stopped.setupFKs g3 g i err h3 hi hp hk hmsg.symm
        | ok g4 =>
          rw [hD] at h
          simp only at h
          have h4 := forEachP_ok (setupFKsNodeP_fst env) hD
          cases hE : edgeSchemasP env g4 with
          | error fs =>
            rw [hE] at h
            simp only [Except.error.injEq] at h
            rw [h] at hE
            unfold edgeSchemasP at hE
            cases hL : forEach
                (fun g i => forEach (edgeSchemaP env i) g (List.range (g.node i).Edges.length))
                g4 (List.range g4.Nodes.length) with
            | ok g' => rw [hL] at hE; cases hE
            | error fs =>
              obtain ⟨f, s'⟩ := fs
              rw [hL] at hE
              cases f with
              | crash m => simp at hE
              | error err =>
                simp only [Except.error.injEq, Prod.mk.injEq, Failure.error.injEq] at hE
                obtain ⟨hmsg, rfl⟩ := hE
                obtain ⟨i, g, hi, hp, hf⟩ := @forEachP_range_split Graph Failure
                  (fun g i => forEach (edgeSchemaP env i) g (List.range (g.node i).Edges.length))
                  (edgeSchemasNode env)
                  (fun s a => forEach_mapError (edgeSchemaP_fst env a) _ s) _ _ _ hL
                obtain ⟨j, t, hj, hpe, hfe⟩ := forEachP_range_split (edgeSchemaP_fst env i) hf
                exact Stopped.edgeSchemas g3 g4 g t i j err h3 h4 hi hp hj hpe hfe hmsg.symm
          | ok g5 =>
            rw [hE] at h
            simp only at h
            cases hF : forEach addIndexesP g5 schemas with
            | error fs =>
              rw [hF] at h
              simp only [Except.error.injEq] at h
              rw [h] at hF
              obtain ⟨k, sch, t, -, -, hf⟩ := forEach_error_split _ _ _ hF
              exact absurd hf (addIndexesP_no_error _ _ _ _)
            | ok g6 =>
              rw [hF] at h
              exact absurd h (defaultsP_no_error _ _ _)

/-! ## The writes a failing iteration of `edgeSchemas` leaves -/

/-- When `bindThrough` stops, the graph is as it was called, or the edge is bound to
the edge schema in it. -/
theorem bindThroughP_error_graph {g s : Graph} {p : EdgePtr} {e : Edge} {ty : Nat} {f : Failure}
    (he : g.edge? p = some e) (h : bindThroughP g p e ty = Except.error (f, s)) :
    s = g ∨ s.edge? p = some { e with Through := some ty } := by
  have hb : ∀ F : Node → Node, (∀ t, (F t).Edges = t.Edges) →
      ((g.setEdge p { e with Through := some ty }).modifyNode ty F).edge? p
        = some { e with Through := some ty } := by
    intro F hF
    rw [Graph.edge?_modifyNode_keep _ _ _ hF, Graph.edge?_setEdge_self _ he]
  unfold bindThroughP at h
  simp only at h
  split at h
  · split at h
    · simp only [Except.error.injEq, Prod.mk.injEq] at h
      exact Or.inl h.2.symm
    · split at h
      · split at h
        · simp only [Except.error.injEq, Prod.mk.injEq] at h
          rw [← h.2]
          exact Or.inr (hb _ (fun _ => rfl))
        · cases h
      · cases h
  · split at h
    · split at h
      · simp only [Except.error.injEq, Prod.mk.injEq] at h
        exact Or.inl h.2.symm
      · simp only [Except.error.injEq, Prod.mk.injEq] at h
        exact Or.inl h.2.symm
    · split at h
      · split at h
        · simp only [Except.error.injEq, Prod.mk.injEq] at h
          rw [← h.2]
          exact Or.inr (hb _ (fun _ => rfl))
        · cases h
      · cases h

/-- When `bindThrough` succeeds, the edge is bound to the edge schema. -/
theorem bindThroughP_ok_edge {g g1 : Graph} {p : EdgePtr} {e : Edge} {ty : Nat}
    (he : g.edge? p = some e) (h : bindThroughP g p e ty = Except.ok g1) :
    g1.edge? p = some { e with Through := some ty } := by
  have hb : ∀ F : Node → Node, (∀ t, (F t).Edges = t.Edges) →
      ((g.setEdge p { e with Through := some ty }).modifyNode ty F).edge? p
        = some { e with Through := some ty } := by
    intro F hF
    rw [Graph.edge?_modifyNode_keep _ _ _ hF, Graph.edge?_setEdge_self _ he]
  unfold bindThroughP at h
  simp only at h
  split at h
  · split at h
    · cases h
    · split at h
      · split at h
        · cases h
        · simp only [Except.ok.injEq] at h
          rw [← h]
          exact hb _ (fun _ => rfl)
      · simp only [Except.ok.injEq] at h
        rw [← h]
        exact hb _ (fun _ => rfl)
  · split at h
    · split at h
      · cases h
      · cases h
    · split at h
      · split at h
        · cases h
        · simp only [Except.ok.injEq] at h
          rw [← h]
          exact hb _ (fun _ => rfl)
      · simp only [Except.ok.injEq] at h
        rw [← h]
        exact hb _ (fun _ => rfl)

/-- When `edgeSchemaKey` stops, the graph has the edges it was called with. -/
theorem edgeSchemaKeyP_error_edges {g s : Graph} {ty : Nat} {cols : List String} {f : Failure}
    (h : edgeSchemaKeyP g ty cols = Except.error (f, s)) (q : EdgePtr) :
    s.edge? q = g.edge? q := by
  unfold edgeSchemaKeyP at h
  simp only at h
  split at h
  · next fs hstep =>
    simp only [Except.error.injEq] at h
    rw [h] at hstep
    split at hstep
    · split at hstep
      · split at hstep
        · simp only [Except.error.injEq, Prod.mk.injEq] at hstep
          rw [← hstep.2]
        · cases hstep
      · simp only [Except.error.injEq, Prod.mk.injEq] at hstep
        rw [← hstep.2]
    · cases hstep
  · next g1 hstep =>
    have h1 : g1.edge? q = g.edge? q := by
      split at hstep
      · split at hstep
        · split at hstep
          · cases hstep
          · simp only [Except.ok.injEq] at hstep
            rw [← hstep]
            refine Graph.edge?_modifyNode_keep _ _ _ ?_ q
            intro t
            rfl
        · cases hstep
      · simp only [Except.ok.injEq] at hstep
        rw [← hstep]
    split at h
    · cases h
    · split at h
      · simp only [Except.error.injEq, Prod.mk.injEq] at h
        rw [← h.2]
        exact h1
      · cases h
      · split at h
        · cases h
        · simp only [Except.error.injEq, Prod.mk.injEq] at h
          rw [← h.2]
          exact h1

/-- The graph a failing iteration of `edgeSchemas` leaves: the graph the iteration
was called with when a check before the binding fails; otherwise the graph in which
the edge is bound to its edge schema. -/
theorem edgeSchemaP_error_graph {env : Env} {i j : Nat} {t s : Graph} {f : Failure}
    (h : edgeSchemaP env i t j = Except.error (f, s)) :
    s = t ∨ ∃ (e : Edge) (th : ThroughDef) (ty : Nat) (e' : Edge),
      t.edge? ⟨i, j⟩ = some e ∧ e.decl.Through = some th ∧ t.typ th.T = some ty ∧
      s.edge? ⟨i, j⟩ = some e' ∧ e'.Through = some ty := by
  unfold edgeSchemaP at h
  split at h
  · cases h
  · next e he =>
    split at h
    · cases h
    · next th hth =>
      simp only at h
      split at h
      · simp only [Except.error.injEq, Prod.mk.injEq] at h
        exact Or.inl h.2.symm
      · split at h
        · simp only [Except.error.injEq, Prod.mk.injEq] at h
          exact Or.inl h.2.symm
        · next ty hty =>
          split at h
          · simp only [Except.error.injEq, Prod.mk.injEq] at h
            exact Or.inl h.2.symm
          · split at h
            · simp only [Except.error.injEq, Prod.mk.injEq] at h
              exact Or.inl h.2.symm
            · split at h
              · next fs hb =>
                simp only [Except.error.injEq] at h
                rw [h] at hb
                rcases bindThroughP_error_graph he hb with hs | hs
                · exact Or.inl hs
                · exact Or.inr ⟨e, th, ty, _, he, hth, hty, hs, rfl⟩
              · next g1 hb =>
                have h1 := bindThroughP_ok_edge he hb
                have h2 := Graph.edge?_setEdge_self
                  ({ e with Through := some ty
                            Rel := { e.Rel with Table := (t.node ty).Table env } } : Edge) h1
                split at h
                · simp only [Except.error.injEq, Prod.mk.injEq] at h
                  rw [← h.2]
                  exact Or.inr ⟨e, th, ty, _, he, hth, hty, h2, rfl⟩
                · simp only [Except.error.injEq, Prod.mk.injEq] at h
                  rw [← h.2]
                  exact Or.inr ⟨e, th, ty, _, he, hth, hty, h2, rfl⟩
                · next r _ =>
                  refine Or.inr ⟨e, th, ty,
                    { e with Through := some ty
                             Rel := { e.Rel with Table := (t.node ty).Table env } },
                    he, hth, hty, ?_, rfl⟩
                  rw [edgeSchemaKeyP_error_edges h, Graph.edge?_appendEdge]
                  have hlt := (Graph.edge?_lt h2).2
                  rw [if_neg]
                  · exact h2
                  · intro hc
                    have hc3 := hc.2.2
                    simp only at hc3 hlt
                    omega

/-- C24, amended: whenever `NewGraph` returns, the graph it returns is not nil.
After a success it is the finished graph.  With an error it is the partially built
graph: the graph that the stages and the loop iterations before the failing
iteration produced, with the writes the failing iteration made before its failing
check (`Stopped` names the failing iteration stage by stage), and the error is the
`graphError` of that iteration.  When a stage panics with anything else, `NewGraph`
does not return.  The graph a failing iteration of `edgeSchemas` leaves is the
graph it was called with, or a graph in which the edge is bound to its edge
schema. -/
theorem newgraph_error_graph (env : Env) (c : Option TypeInfo) (schemas : List Schema) :
    (∀ r, NewGraphResults env c schemas = some r → r.g ≠ none) ∧
    (∀ g, NewGraph env c schemas = Except.ok g →
      NewGraphResults env c schemas = some { g := some g, err := none }) ∧
    (∀ msg, NewGraph env c schemas = Except.error (Failure.error msg) →
      ∃ s, NewGraphP env c schemas = Except.error (Failure.error msg, s) ∧
        NewGraphResults env c schemas = some { g := some s, err := some ("entc/gen: " ++ msg) } ∧
        Stopped env c schemas msg s) ∧
    (∀ msg, NewGraph env c schemas = Except.error (Failure.crash msg) →
      NewGraphResults env c schemas = none) ∧
    (∀ (i j : Nat) (t s : Graph) (f : Failure),
      edgeSchemaP env i t j = Except.error (f, s) →
      s = t ∨ ∃ (e : Edge) (th : ThroughDef) (ty : Nat) (e' : Edge),
        t.edge? ⟨i, j⟩ = some e ∧ e.decl.Through = some th ∧ t.typ th.T = some ty ∧
        s.edge? ⟨i, j⟩ = some e' ∧ e'.Through = some ty) := by
  have h := NewGraphP_fst env c schemas
  have hw : ∀ (i j : Nat) (t s : Graph) (f : Failure),
      edgeSchemaP env i t j = Except.error (f, s) →
      s = t ∨ ∃ (e : Edge) (th : ThroughDef) (ty : Nat) (e' : Edge),
        t.edge? ⟨i, j⟩ = some e ∧ e.decl.Through = some th ∧ t.typ th.T = some ty ∧
        s.edge? ⟨i, j⟩ = some e' ∧ e'.Through = some ty :=
    fun i j t s f hf => edgeSchemaP_error_graph hf
  unfold NewGraphResults
  cases hP : NewGraphP env c schemas with
  | ok g =>
    rw [hP] at h
    simp only [Except.mapError] at h
    rw [← h]
    refine ⟨?_, ?_, ?_, ?_, hw⟩
    · intro r hr
      simp only [Option.some.injEq] at hr
      rw [← hr]
      simp
    · intro g' hg
      simp only [Except.ok.injEq] at hg
      rw [hg]
    · intro msg hm
      cases hm
    · intro msg hm
      cases hm
  | error fs =>
    obtain ⟨f, s⟩ := fs
    rw [hP] at h
    simp only [Except.mapError] at h
    rw [← h]
    cases f with
    | error m =>
      refine ⟨?_, ?_, ?_, ?_, hw⟩
      · intro r hr
        simp only [Option.some.injEq] at hr
        rw [← hr]
        simp
      · intro g' hg
        cases hg
      · intro msg hm
        simp only [Except.error.injEq, Failure.error.injEq] at hm
        rw [← hm]
        exact ⟨s, rfl, rfl, NewGraphP_stopped hP⟩
      · intro msg hm
        cases hm
    | crash m =>
      refine ⟨?_, ?_, ?_, ?_, hw⟩
      · intro r hr
        cases hr
      · intro g' hg
        cases hg
      · intro msg hm
        cases hm
      · intro msg hm
        rfl

/-- Witness of the amended C24.  `NewGraph` fails for `ownerThroughSchemas` in the
stage `edgeSchemas` and returns the graph with both nodes and the resolved edge;
it succeeds for `followSchemas` and returns the finished graph. -/
theorem newgraph_error_graph_witness :
    NewGraph sampleEnv none ownerThroughSchemas
      = Except.error (Failure.error ("resolving edges: edge pet.owner Through(\"ownerships\", "
          ++ "ownership.Type) is allowed only on M2M edges, but got: \"M2O\"")) ∧
    NewGraphResults sampleEnv none ownerThroughSchemas
      = some { g := some ownerThroughPartial
               err := some ("entc/gen: resolving edges: edge pet.owner Through(\"ownerships\", "
                 ++ "ownership.Type) is allowed only on M2M edges, but got: \"M2O\"") } ∧
    ownerThroughPartial.Nodes.map (fun n => (n.Name, n.Edges.map (fun e => (e.Name, e.Rel.Typ))))
      = [("pet", [("owner", Rel.M2O)]), ("user", [])] ∧
    (∃ s, NewGraphResults sampleEnv none ownerThroughSchemas
        = some { g := some s
                 err := some ("entc/gen: " ++ ("resolving edges: edge pet.owner "
                   ++ "Through(\"ownerships\", ownership.Type) is allowed only on M2M edges, "
                   ++ "but got: \"M2O\"")) } ∧
      Stopped sampleEnv none ownerThroughSchemas ("resolving edges: edge pet.owner "
        ++ "Through(\"ownerships\", ownership.Type) is allowed only on M2M edges, "
        ++ "but got: \"M2O\"") s) ∧
    NewGraphResults sampleEnv none followSchemas = some { g := some followGraph, err := none } := by
  refine ⟨rfl, rfl, rfl, ?_, ?_⟩
  · obtain ⟨s, -, hs, hst⟩ := (newgraph_error_graph sampleEnv none ownerThroughSchemas).2.2.1 _ rfl
    exact ⟨s, hs, hst⟩
  · exact (newgraph_error_graph sampleEnv none followSchemas).2.1 followGraph rfl

end gen
